import Mathlib

/-! # SWI-LS: sorting by weighted inversions (slice-based weights)

A verification development over a shallow embedding of the SWI-LS sources:

* `database/headers/linear/unsigned.hpp`: the 4-bit codec and the vector reversal;
* `database/sources/problem/problem.cpp`: the edge list of the exact solver;
* `database/sources/exec/unsigned_database.cpp`: the exact solver loop of `process`;
* `heuristics/sources/permutation/permutation.cpp`: the class `Permutation`;
* `heuristics/sources/problems/problems.cpp`: the class `Problem`;
* `heuristics/sources/heuristics/heuristics.cpp`: the seven strategies and the two sort drivers.

Conventions of the embedding.  Vectors are lists, a read outside the vector yields `0`
(`List.getD`) and a write outside is dropped (`List.set`); machine integers are `Int`/`Nat`,
the 64-bit shift is reduced modulo `2 ^ 64` and 16-bit values are wrapped where the source
can leave the 16-bit range.  A `for`/`while` loop becomes a structural recursion on a counter
that is large enough for the loop to run to its end.
-/

namespace SWILS

/-! ## Machine integers -/

/-- Two-complement wrap of an integer into the 16-bit range of `__int16_t`. -/
def wrap16 (x : Int) : Int := (x + 32768) % 65536 - 32768

/-- Conversion of a 16-bit signed value to `__uint64_t` (sign extension, modulo `2 ^ 64`). -/
def toU64 (e : Int) : Nat := (e % (2 ^ 64 : Int)).toNat

/-! ## `database/headers/linear/unsigned.hpp` -/

namespace Database

/-- Constant `N_MAX`. -/
def N_MAX : Nat := 16

/-- Constant `N_BITS`. -/
def N_BITS : Nat := 4

/-- Constant `NUMBERS`. -/
def NUMBERS : Nat := 15

/-- Loop of `int_to_vector`: the first argument is `i + 1` for the loop variable `i`, which
runs from `n - 1` down to `0`. -/
def int_to_vector_loop : Nat → Nat → List Int → List Int
  | 0, _, vectorPi => vectorPi
  | i + 1, aux, vectorPi =>
      int_to_vector_loop i (aux >>> N_BITS) (vectorPi.set i (((aux &&& NUMBERS : Nat) : Int) + 1))

/-- Function `int_to_vector(n, intPi, vectorPi)`: the result is the new content of `vectorPi`. -/
def int_to_vector (n : Nat) (intPi : Nat) (vectorPi : List Int) : List Int :=
  int_to_vector_loop n intPi vectorPi

/-- Body of the loop of `vector_to_int`: shift by four bits in 64 bits, then or with
`pi[i] - 1` converted to 64 bits. -/
def vector_to_int_step (pi : List Int) (aux : Nat) (i : Nat) : Nat :=
  ((aux <<< N_BITS) % 2 ^ 64) ||| toU64 (wrap16 (pi.getD i 0 - 1))

/-- Function `vector_to_int(n, pi)`. -/
def vector_to_int (n : Nat) (pi : List Int) : Nat :=
  (List.range n).foldl (vector_to_int_step pi) 0

/-- Function `identityPermutation(n, pi)`: the result is the new content of `pi`. -/
def identityPermutation (n : Nat) (pi : List Int) : List Int :=
  (List.range n).foldl (fun v i => v.set i ((i : Int) + 1)) pi

/-- Loop of the database `applyInversion`: swaps `sigma[i]` and `sigma[j]` while `i <= j`. -/
def applyInversion_loop : Nat → Int → Int → List Int → List Int
  | 0, _, _, sigma => sigma
  | fuel + 1, i, j, sigma =>
      if i ≤ j then
        let aux := sigma.getD i.toNat 0
        let sigma1 := sigma.set i.toNat (sigma.getD j.toNat 0)
        let sigma2 := sigma1.set j.toNat aux
        applyInversion_loop fuel (i + 1) (j - 1) sigma2
      else sigma

/-- Function `applyInversion(i, j, pi, sigma)` of the database: `sigma` receives a copy of
`pi` and the closed range `[i, j]` of it is reversed; the result is the new `sigma`. -/
def applyInversion (i j : Int) (pi : List Int) : List Int :=
  applyInversion_loop (j + 1 - i).toNat i j pi

/-- A vector holding each of `1, ..., n` exactly once. -/
def IsPermutationVector (n : Nat) (P : List Int) : Prop :=
  List.Perm P (List.map (fun (k : Nat) => (k : Int) + 1) (List.range n))

instance (n : Nat) (P : List Int) : Decidable (IsPermutationVector n P) := by
  unfold IsPermutationVector; infer_instance

end Database

/-! ## `heuristics/headers/permutation/permutation.hpp` and `permutation.cpp` -/

/-- Constant `U_N_MAX`. -/
def U_N_MAX : Int := 16

/-- Constant `U_N_BITS`. -/
def U_N_BITS : Nat := 4

/-- Constant `U_NUMBERS`. -/
def U_NUMBERS : Nat := 15

/-- Constant `S_N_MAX`. -/
def S_N_MAX : Int := 12

/-- Constant `S_N_BITS`. -/
def S_N_BITS : Nat := 5

/-- Constant `S_SIGN`. -/
def S_SIGN : Nat := 16

/-- Constant `S_NUMBERS`. -/
def S_NUMBERS : Nat := 15

/-- Function `abs` of the C library on 16-bit values. -/
def iabs (x : Int) : Int := (x.natAbs : Int)

/-- Function `slice(pos, n)`: `std::min((int)pos, (n - pos) + 1)`. -/
def slice (pos n : Int) : Int := min pos ((n - pos) + 1)

/-- Function `symmetric(pos, n)`. -/
def symmetric (pos n : Int) : Int := n - pos + 1

/-- Class `Permutation`: the size, the vector `permutation` (indices `0..n+1`), the vector
`inverse` and the flag `sign`. -/
structure Permutation where
  /-- Permutation size. -/
  n : Int
  /-- Elements, with the sentinels `0` at index `0` and `n + 1` at index `n + 1`. -/
  permutation : List Int
  /-- Position of each absolute value. -/
  inverse : List Int
  /-- Flag signed/unsigned. -/
  sign : Bool
deriving DecidableEq

namespace Permutation

/-- Method `size()`. -/
def size (p : Permutation) : Int := p.n

/-- Method `isSigned()`. -/
def isSigned (p : Permutation) : Bool := p.sign

/-- Method `position(e)`: `inverse[abs(e)]`. -/
def position (p : Permutation) (e : Int) : Int := p.inverse.getD e.natAbs 0

/-- Method `element_at(pos)`: `permutation[pos]`. -/
def element_at (p : Permutation) (pos : Int) : Int := p.permutation.getD pos.toNat 0

/-- The vector every constructor creates: `permutation_vector(n + 2)` with `v[0] = 0` and
`v[n + 1] = n + 1`. -/
def newVector (n : Int) : List Int :=
  ((List.replicate (n + 2).toNat (0 : Int)).set 0 0).set (n + 1).toNat (n + 1)

/-- Empty constructor `Permutation()`. -/
def empty : Permutation := { n := 0, permutation := [], inverse := [], sign := false }

/-- Copy constructor `Permutation(Permutation const &other)`. -/
def copy (other : Permutation) : Permutation :=
  let n := other.size
  let r := (List.range n.toNat).foldl
    (fun (st : List Int × List Int) (k : Nat) =>
      let i : Int := (k : Int) + 1
      let element := other.element_at i
      (st.1.set i.toNat element, st.2.set element.natAbs i))
    (newVector n, newVector n)
  { n := n, permutation := r.1, inverse := r.2, sign := other.isSigned }

/-- Decoding loop of the signed branch of `Permutation(intPi, N, S)`; the first argument is
`i + 1` for the loop variable `i`, which runs from `n - 1` down to `0`. -/
def decodeSigned_loop : Nat → Nat → List Int × List Int → List Int × List Int
  | 0, _, st => st
  | i + 1, aux, st =>
      let last : Int := ((aux &&& S_NUMBERS : Nat) : Int) + 1
      let sgn : Nat := aux &&& S_SIGN
      let permutation := st.1.set (i + 1) (if sgn ≠ 0 then -last else last)
      let inverse := st.2.set last.toNat ((i : Int) + 1)
      decodeSigned_loop i (aux >>> S_N_BITS) (permutation, inverse)

/-- Decoding loop of the unsigned branch of `Permutation(intPi, N, S)`. -/
def decodeUnsigned_loop : Nat → Nat → List Int × List Int → List Int × List Int
  | 0, _, st => st
  | i + 1, aux, st =>
      let last : Int := ((aux &&& U_NUMBERS : Nat) : Int) + 1
      let permutation := st.1.set (i + 1) last
      let inverse := st.2.set last.toNat ((i : Int) + 1)
      decodeUnsigned_loop i (aux >>> U_N_BITS) (permutation, inverse)

/-- Validation at the end of the constructors: every `i` in `1..n` is found in the set
`elements`. -/
def validate (n : Int) (elements : List Int) : Bool :=
  (List.range n.toNat).all (fun (k : Nat) => elements.contains ((k : Int) + 1))

/-- Constructor `Permutation(intPi, N, S)`; `none` stands for the fatal exit with
"Invalid permutation!". -/
def ofInt (intPi : Nat) (N : Int) (S : Bool) : Option Permutation :=
  let n := N
  let r := if S then decodeSigned_loop n.toNat intPi (newVector n, newVector n)
           else decodeUnsigned_loop n.toNat intPi (newVector n, newVector n)
  let elements := List.map (fun (k : Nat) => iabs (r.1.getD (k + 1) 0)) (List.range n.toNat)
  if validate n elements then
    some { n := n, permutation := r.1, inverse := r.2, sign := S }
  else none

/-- Loop of the constructor `Permutation(vector, S)` over the given vector; the state is
`permutation`, `inverse` and the set `elements`; `none` is the fatal exit. -/
def ofVector_loop (sign : Bool) (n : Int) :
    List Int → Int → List Int × List Int × List Int → Option (List Int × List Int × List Int)
  | [], _, st => some st
  | element :: rest, index, st =>
      if (!sign && decide (element < 0)) || decide (iabs element > n) || decide (element = 0) then
        none
      else
        ofVector_loop sign n rest (index + 1)
          (st.1.set index.toNat element, st.2.1.set element.natAbs index, iabs element :: st.2.2)

/-- Constructor `Permutation(vector, S)`; `none` stands for the fatal exit. -/
def ofVector (vector : List Int) (S : Bool) : Option Permutation :=
  let n : Int := (vector.length : Int)
  match ofVector_loop S n vector 1 (newVector n, newVector n, []) with
  | none => none
  | some r =>
      if validate n r.2.2 then
        some { n := n, permutation := r.1, inverse := r.2.1, sign := S }
      else none

/-- Loop of `applyInversion` for a signed permutation. -/
def applyInversion_signed_loop : Nat → Int → Int → List Int × List Int → List Int × List Int
  | 0, _, _, st => st
  | fuel + 1, b, e, st =>
      if b ≤ e then
        let aux := st.1.getD b.toNat 0
        let permutation1 := st.1.set b.toNat (- st.1.getD e.toNat 0)
        let permutation2 := permutation1.set e.toNat (- aux)
        let inverse1 := st.2.set (permutation2.getD b.toNat 0).natAbs b
        let inverse2 := inverse1.set (permutation2.getD e.toNat 0).natAbs e
        applyInversion_signed_loop fuel (b + 1) (e - 1) (permutation2, inverse2)
      else st

/-- Loop of `applyInversion` for an unsigned permutation. -/
def applyInversion_unsigned_loop : Nat → Int → Int → List Int × List Int → List Int × List Int
  | 0, _, _, st => st
  | fuel + 1, b, e, st =>
      if b ≤ e then
        let aux := st.1.getD b.toNat 0
        let permutation1 := st.1.set b.toNat (st.1.getD e.toNat 0)
        let permutation2 := permutation1.set e.toNat aux
        let inverse1 := st.2.set (permutation2.getD b.toNat 0).toNat b
        let inverse2 := inverse1.set (permutation2.getD e.toNat 0).toNat e
        applyInversion_unsigned_loop fuel (b + 1) (e - 1) (permutation2, inverse2)
      else st

/-- Method `applyInversion(i, j)`. -/
def applyInversion (p : Permutation) (i j : Int) : Permutation :=
  let r := if p.sign then
      applyInversion_signed_loop (j + 1 - i).toNat i j (p.permutation, p.inverse)
    else
      applyInversion_unsigned_loop (j + 1 - i).toNat i j (p.permutation, p.inverse)
  { p with permutation := r.1, inverse := r.2 }

/-- Method `isIdentity()`. -/
def isIdentity (p : Permutation) : Bool :=
  (List.range p.n.toNat).all (fun (k : Nat) => decide (p.permutation.getD (k + 1) 0 = (k : Int) + 1))

/-- Loop shared by the breakpoint counters: `i` runs from `n` down to `0` (the first argument
is `i + 1`), `read` gives `current` from `permutation[i]` and `isBreak last current` is the
test that increments the counter. -/
def breakpoints_loop (read : Int → Int) (isBreak : Int → Int → Bool) (permutation : List Int) :
    Nat → Int → Int → Int
  | 0, _, breakpoints => breakpoints
  | i + 1, last, breakpoints =>
      let current := read (permutation.getD i 0)
      breakpoints_loop read isBreak permutation i current
        (if isBreak last current then breakpoints + 1 else breakpoints)

/-- Method `numberOfBreakpoints()`. -/
def numberOfBreakpoints (p : Permutation) : Int :=
  if p.sign then
    breakpoints_loop (fun x => x) (fun last current => decide (last - current ≠ 1))
      p.permutation (p.n + 1).toNat (p.n + 1) 0
  else
    breakpoints_loop (fun x => x) (fun last current => decide (iabs (last - current) ≠ 1))
      p.permutation (p.n + 1).toNat (p.n + 1) 0

/-- Method `numberOfBreakpointsUnsignedPermutation()`. -/
def numberOfBreakpointsUnsignedPermutation (p : Permutation) : Int :=
  breakpoints_loop iabs (fun last current => decide (iabs (last - current) ≠ 1))
    p.permutation (p.n + 1).toNat (p.n + 1) 0

/-- Inner `while (left < local_slice)` loop of `sliceMisplacedPairs`.  The counter
`slice_misplaced_pairs` is a 16-bit `integer`: each `slice_misplaced_pairs++` is reduced to
the 16-bit range. -/
def sliceMisplacedPairs_inner (p : Permutation) (final_slice local_slice : Int) :
    Nat → Int → Int → Int → Int
  | 0, _, _, count => count
  | fuel + 1, left, right, count =>
      if left < local_slice then
        let left_element := iabs (p.permutation.getD left.toNat 0)
        let final_left_slice := slice left_element p.n
        let count1 := if final_left_slice > final_slice then wrap16 (count + 1) else count
        let right_element := iabs (p.permutation.getD right.toNat 0)
        let final_right_slice := slice right_element p.n
        let count2 := if final_right_slice > final_slice then wrap16 (count1 + 1) else count1
        sliceMisplacedPairs_inner p final_slice local_slice fuel (left + 1) (right - 1) count2
      else count

/-- Method `sliceMisplacedPairs()`: the final value of the 16-bit counter. -/
def sliceMisplacedPairs (p : Permutation) : Int :=
  (List.range p.n.toNat).foldl
    (fun (count : Int) (k : Nat) =>
      let i : Int := (k : Int) + 1
      let element := iabs (p.permutation.getD i.toNat 0)
      let final_slice := slice element p.n
      let local_slice := slice i p.n
      sliceMisplacedPairs_inner p final_slice local_slice local_slice.toNat 1 p.n count)
    0

/-- Method `finalElementSlice(element)`. -/
def finalElementSlice (p : Permutation) (element : Int) : Int := slice (iabs element) p.n

/-- Method `currentElementSlice(element)`. -/
def currentElementSlice (p : Permutation) (element : Int) : Int := slice (p.position element) p.n

end Permutation

/-! ## `heuristics/headers/problems/problems.hpp` and `problems.cpp` -/

/-- Constant `SWI_LS`. -/
def SWI_LS : Int := 1

/-- Class `Inversion`: the positions `i`, `j` and the weight `w`. -/
structure Inversion where
  /-- Position `i`. -/
  i : Int
  /-- Position `j`. -/
  j : Int
  /-- Inversion weight. -/
  w : Int
deriving DecidableEq

/-- Default constructor `Inversion()`: `i = 0`, `j = 0`, `w = 0`. -/
def Inversion.zero : Inversion := { i := 0, j := 0, w := 0 }

instance : Inhabited Inversion := ⟨Inversion.zero⟩

/-- Class `Problem`.  The constructor exits unless the identifier is `SWI_LS` and the fields
are private, so every `Problem` has `id = SWI_LS`: the field is not stored, `getId()` is the
constant, and of each `switch (id)` only the case `SWI_LS` is kept. -/
structure Problem where
  /-- Permutation size. -/
  n : Int
  /-- Signed/unsigned flag. -/
  sign : Bool
  /-- List of inversions. -/
  inversions : List Inversion
deriving DecidableEq

namespace Problem

/-- Body of `getInversionWeight(i, j)` for the problem `SWI_LS` and the size `n`. -/
def weight (n i j : Int) : Int := iabs (slice i n - slice j n) + 1

/-- Method `swi_ls()`: the list of inversions, `i` from `0` to `n - 1` and `j` from
`i + delta` to `n - 1`, stored with both positions shifted by one. -/
def swi_ls (n : Int) (sign : Bool) : List Inversion :=
  let delta : Nat := if sign then 0 else 1
  List.flatMap (List.range n.toNat) (fun (i : Nat) =>
    List.map
      (fun (j : Nat) => Inversion.mk ((i : Int) + 1) ((j : Int) + 1)
        (weight n ((i : Int) + 1) ((j : Int) + 1)))
      (List.range' (i + delta) (n.toNat - (i + delta))))

/-- Constructor `Problem(ID, N, S)`; `none` stands for the fatal exit with
"Unknown problem identifier.". -/
def create (ID N : Int) (S : Bool) : Option Problem :=
  if ID = SWI_LS then some { n := N, sign := S, inversions := swi_ls N S } else none

/-- Method `getId()`. -/
def getId (_p : Problem) : Int := SWI_LS

/-- Method `getInversions()`. -/
def getInversions (p : Problem) : List Inversion := p.inversions

/-- Method `getInversionWeight(i, j)`. -/
def getInversionWeight (p : Problem) (i j : Int) : Int := weight p.n i j

/-- Method `inversionsToCorrectPosition(pos, pi, totalCost)`: the returned list and the final
value of `totalCost`. -/
def inversionsToCorrectPosition (p : Problem) (pos : Int) (pi : Permutation) :
    List Inversion × Int :=
  let current_pos := pi.position pos
  let element := pi.element_at current_pos
  if current_pos = pos then
    if pi.isSigned && decide (element < 0) then
      let weight := p.getInversionWeight pos pos
      ([Inversion.mk pos pos weight], weight)
    else ([], 0)
  else
    let i := if current_pos < pos then current_pos else pos
    let j := if current_pos < pos then pos else current_pos
    let weight := p.getInversionWeight i j
    if pi.isSigned && decide (element > 0) then
      let weight2 := p.getInversionWeight pos pos
      ([Inversion.mk i j weight, Inversion.mk pos pos weight2], weight + weight2)
    else ([Inversion.mk i j weight], weight)

end Problem

/-! ## `heuristics/sources/heuristics/heuristics.cpp` -/

/-- Constant `LIMIT_MULTIPLIER`. -/
def LIMIT_MULTIPLIER : Int := 15

/-- Heuristic identifier `LR`. -/
def LR : Int := 1

/-- Heuristic identifier `SMP`. -/
def SMP : Int := 2

/-- Heuristic identifier `NB_PLUS_LR`. -/
def NB_PLUS_LR : Int := 3

/-- Heuristic identifier `NB_PLUS_STRIP`. -/
def NB_PLUS_STRIP : Int := 4

/-- Heuristic identifier `NB_PLUS_BESTSTRIP`. -/
def NB_PLUS_BESTSTRIP : Int := 5

/-- Heuristic identifier `NB_PLUS_LRSTRIP`. -/
def NB_PLUS_LRSTRIP : Int := 6

/-- Heuristic identifier `NB_PLUS_SMP`. -/
def NB_PLUS_SMP : Int := 7

/-- Constant `SHRT_MAX`. -/
def SHRT_MAX : Int := 32767

/-- The type `float` of the strategies, taken as a parameter: a carrier with the conversion
from integers, the three arithmetic operations the strategies use and the comparisons `>` and
`==`.  Nothing is assumed of the operations, so what is proved for every `FloatModel` holds
for the machine arithmetic. -/
structure FloatModel where
  /-- Values of type `float`. -/
  F : Type
  /-- Conversion of an integer to `float`. -/
  ofInt : Int → F
  /-- Addition. -/
  add : F → F → F
  /-- Subtraction. -/
  sub : F → F → F
  /-- Division. -/
  div : F → F → F
  /-- Comparison `a > b`. -/
  gt : F → F → Bool
  /-- Comparison `a == b`. -/
  eq : F → F → Bool

/-- Exact fractions `num / den` compared by cross multiplication: the `FloatModel` in which no
operation rounds.  A division by zero or by a negative value does not occur in the strategies
(the divisors are weights `>= 1` and `n * n >= 1`). -/
def exactFloat : FloatModel where
  F := Int × Int
  ofInt := fun x => (x, 1)
  add := fun a b => (a.1 * b.2 + b.1 * a.2, a.2 * b.2)
  sub := fun a b => (a.1 * b.2 - b.1 * a.2, a.2 * b.2)
  div := fun a b => (a.1 * b.2, a.2 * b.1)
  gt := fun a b => decide (a.1 * b.2 > b.1 * a.2)
  eq := fun a b => decide (a.1 * b.2 = b.1 * a.2)

/-- Loop of `defineRightAndLeft` that updates `right`. -/
def defineRight_loop (pi : Permutation) : Nat → Int → Int
  | 0, right => right
  | fuel + 1, right =>
      if right ≤ pi.size then
        if pi.element_at right ≠ right then right
        else defineRight_loop pi fuel (right + 1)
      else right

/-- Loop of `defineRightAndLeft` that updates `left`. -/
def defineLeft_loop (pi : Permutation) : Nat → Int → Int
  | 0, left => left
  | fuel + 1, left =>
      if left > 1 then
        if pi.element_at left ≠ left then left
        else defineLeft_loop pi fuel (left - 1)
      else left

/-- Function `defineRightAndLeft(pi, right, left)`: the final `(right, left)`. -/
def defineRightAndLeft (pi : Permutation) : Int × Int :=
  let n := pi.size
  (defineRight_loop pi n.toNat 1, defineLeft_loop pi n.toNat n)

/-- Loop `while (index < left)` of `defineStrips`. -/
def defineStrips_loop (pi : Permutation) (left : Int) : Nat → Int → List Int → List Int
  | 0, _, strips => strips
  | fuel + 1, index, strips =>
      if index < left then
        let strips1 :=
          if pi.element_at (index + 1) - pi.element_at index ≠ 1 then strips ++ [index + 1]
          else strips
        defineStrips_loop pi left fuel (index + 1) strips1
      else strips

/-- Function `defineStrips(pi, right, left, strips)` called with an empty `strips`: the final
`(right, left, strips)`. -/
def defineStrips (pi : Permutation) : Int × Int × List Int :=
  let rl := defineRightAndLeft pi
  let right := rl.1
  let left := rl.2
  let strips := defineStrips_loop pi left (left - right).toNat right [right]
  (right, left, strips ++ [left + 1])

/-- First loop of `adjustSlices` (symmetric inversions): `some` is the returned inversion,
`none` means that the loop ended. -/
def adjustSlices_loop (pi : Permutation) (problem : Problem) : Nat → Int → Int → Option Inversion
  | 0, _, _ => none
  | fuel + 1, i, j =>
      if i ≤ j then
        let position := pi.position i
        if i ≠ position then some (Inversion.mk i j (problem.getInversionWeight i j))
        else adjustSlices_loop pi problem fuel (i + 1) (j - 1)
      else none

/-- Second loop of `adjustSlices` (unitary inversions), `i` from `1` to `n`. -/
def adjustSlices_unitary (pi : Permutation) (problem : Problem) : List Nat → Option Inversion
  | [] => none
  | k :: rest =>
      let i : Int := (k : Int) + 1
      if pi.element_at i < 0 then some (Inversion.mk i i (problem.getInversionWeight i i))
      else adjustSlices_unitary pi problem rest

/-- Function `adjustSlices(pi, problem)`. -/
def adjustSlices (pi : Permutation) (problem : Problem) : Inversion :=
  let n := pi.size
  match adjustSlices_loop pi problem n.toNat 1 n with
  | some r => r
  | none =>
      if pi.isSigned then
        match adjustSlices_unitary pi problem (List.range n.toNat) with
        | some r => r
        | none => Inversion.zero
      else Inversion.zero

/-- Loop of `lr` that identifies the first misplaced slice: the final `(right, left)`. -/
def lr_loop (pi : Permutation) : Nat → Int → Int → Int × Int
  | 0, right, left => (right, left)
  | fuel + 1, right, left =>
      if right < left then
        if pi.element_at right ≠ right ∨ pi.element_at left ≠ left then (right, left)
        else lr_loop pi fuel (right + 1) (left - 1)
      else (right, left)

/-- Heuristic `lr(pi, problem)`.  `inversions[0]` of an empty vector is read as
`Inversion()`. -/
def lr (pi : Permutation) (problem : Problem) : Inversion :=
  let n := pi.size
  let rl := lr_loop pi n.toNat 1 n
  let right := rl.1
  let left := rl.2
  let resRight := problem.inversionsToCorrectPosition right pi
  let resLeft := problem.inversionsToCorrectPosition left pi
  let inversionsRight := resRight.1
  let costRight := resRight.2
  let inversionsLeft := resLeft.1
  let costLeft := resLeft.2
  if costRight ≠ 0 ∧ costLeft = 0 then inversionsRight.getD 0 Inversion.zero
  else if costRight = 0 ∧ costLeft ≠ 0 then inversionsLeft.getD 0 Inversion.zero
  else if costRight < costLeft then inversionsRight.getD 0 Inversion.zero
  else if costRight > costLeft then inversionsLeft.getD 0 Inversion.zero
  else if inversionsRight.length ≤ inversionsLeft.length then inversionsRight.getD 0 Inversion.zero
  else inversionsLeft.getD 0 Inversion.zero

/-- The selection loop shared by `smp`, `nb_plus_smp` (both sections): over the inversions
`r`, with `sigma` the copy of `pi` after `r`, `benefit = (piScore - score(sigma)) / r.w` and
the pair `(best, bestInversion)` replaced when `benefit > best`. -/
def bestBenefit (fm : FloatModel) (score : Permutation → fm.F) (pi : Permutation)
    (piScore : fm.F) (inversions : List Inversion) (init : fm.F × Inversion) :
    fm.F × Inversion :=
  inversions.foldl
    (fun (st : fm.F × Inversion) (r : Inversion) =>
      let sigma := (Permutation.copy pi).applyInversion r.i r.j
      let sigmaScore := score sigma
      let benefit := fm.div (fm.sub piScore sigmaScore) (fm.ofInt r.w)
      if fm.gt benefit st.1 then (benefit, r) else st)
    init

/-- Loop of `smp` that looks for the first element outside of its final slice: the final
`(sliceMistake, currentSlice, finalSlice)`. -/
def smp_mistake_loop (pi : Permutation) : Nat → Int → Int → Int → Int × Int × Int
  | 0, sliceMistake, currentSlice, finalSlice => (sliceMistake, currentSlice, finalSlice)
  | fuel + 1, sliceMistake, currentSlice, finalSlice =>
      if sliceMistake < pi.size + 1 then
        let currentSlice1 := pi.currentElementSlice sliceMistake
        let finalSlice1 := pi.finalElementSlice sliceMistake
        if currentSlice1 ≠ finalSlice1 then (sliceMistake, currentSlice1, finalSlice1)
        else smp_mistake_loop pi fuel (sliceMistake + 1) currentSlice1 finalSlice1
      else (sliceMistake, currentSlice, finalSlice)

/-- Heuristic `smp(pi, problem)`. -/
def smp (fm : FloatModel) (pi : Permutation) (problem : Problem) : Inversion :=
  let n := pi.size
  let inversions := problem.getInversions
  let piScore := fm.ofInt pi.sliceMisplacedPairs
  let res := bestBenefit fm (fun sigma => fm.ofInt sigma.sliceMisplacedPairs) pi piScore
    inversions (fm.ofInt 0, Inversion.zero)
  let best := res.1
  let bestInversion := res.2
  if fm.eq best (fm.ofInt 0) then
    let m := smp_mistake_loop pi (n + 1).toNat 0 0 0
    let sliceMistake := m.1
    let currentSlice := m.2.1
    let finalSlice := m.2.2
    if sliceMistake = n + 1 then adjustSlices pi problem
    else
      let i := if finalSlice > currentSlice then finalSlice else currentSlice
      let j := symmetric i n
      if i > j then Inversion.mk j i (problem.getInversionWeight j i)
      else Inversion.mk i j (problem.getInversionWeight i j)
  else bestInversion

/-- Heuristic `nb(pi, problem)`. -/
def nb (fm : FloatModel) (pi : Permutation) (problem : Problem) : Inversion :=
  let inversions := problem.getInversions
  let piScore := fm.ofInt pi.numberOfBreakpoints
  let res := inversions.foldl
    (fun (st : fm.F × Inversion × Inversion) (r : Inversion) =>
      let sigma := (Permutation.copy pi).applyInversion r.i r.j
      let sigmaScore := fm.ofInt sigma.numberOfBreakpoints
      let benefit := fm.div (fm.sub piScore sigmaScore) (fm.ofInt r.w)
      if fm.gt benefit st.1 then (benefit, r, st.2.2)
      else if fm.eq benefit (fm.ofInt 0) && decide (r.i = r.j) && decide (st.2.2.i = 0) then
        (st.1, st.2.1, r)
      else st)
    (fm.ofInt 0, Inversion.zero, Inversion.zero)
  let best := res.1
  let bestInversion := res.2.1
  let zeroUnitary := res.2.2
  if fm.gt best (fm.ofInt 0) then bestInversion
  else if pi.isSigned && decide (zeroUnitary.i ≠ 0) then zeroUnitary
  else Inversion.zero

/-- Heuristic `nb_plus_lr(pi, problem)`. -/
def nb_plus_lr (fm : FloatModel) (pi : Permutation) (problem : Problem) : Inversion :=
  let nbInversion := nb fm pi problem
  if nbInversion.i = 0 then lr pi problem else nbInversion

/-- Heuristic `nb_plus_strip(pi, problem)`. -/
def nb_plus_strip (fm : FloatModel) (pi : Permutation) (problem : Problem) : Inversion :=
  let nbInversion := nb fm pi problem
  if nbInversion.i = 0 ∧ problem.getId = SWI_LS then
    let rl := defineRightAndLeft pi
    let right := rl.1
    let left := rl.2
    Inversion.mk right left (problem.getInversionWeight right left)
  else nbInversion

/-- The two nested loops of `nb_plus_beststrip` over the pairs `i < j` of strip indices: the
state is `(lowestWeight, bestInversion)`. -/
def beststrip_loops (problem : Problem) (strips : List Int) : Int × Inversion :=
  let size : Nat := strips.length
  (List.range (size - 1)).foldl
    (fun (st : Int × Inversion) (i : Nat) =>
      (List.range' (i + 1) (size - (i + 1))).foldl
        (fun (st2 : Int × Inversion) (j : Nat) =>
          let w := problem.getInversionWeight (strips.getD i 0) (strips.getD j 0 - 1)
          if st2.1 > w then (w, Inversion.mk (strips.getD i 0) (strips.getD j 0 - 1) w) else st2)
        st)
    (SHRT_MAX, Inversion.zero)

/-- Heuristic `nb_plus_beststrip(pi, problem)`. -/
def nb_plus_beststrip (fm : FloatModel) (pi : Permutation) (problem : Problem) : Inversion :=
  let nbInversion := nb fm pi problem
  if nbInversion.i = 0 ∧ problem.getId = SWI_LS then
    let ds := defineStrips pi
    let strips := ds.2.2
    (beststrip_loops problem strips).2
  else nbInversion

/-- First search loop of `nb_plus_lrstrip`: over `i = 1 .. size - 1`, the first `strips[i]`
greater than `pos_right` gives `j_right = strips[i] - 1`. -/
def lrstrip_right (strips : List Int) (pos_right : Int) (j_right : Int) : List Nat → Int
  | [] => j_right
  | i :: rest =>
      if strips.getD i 0 > pos_right then strips.getD i 0 - 1
      else lrstrip_right strips pos_right j_right rest

/-- Second search loop of `nb_plus_lrstrip`: over `i = 1 .. size - 2`, the first `strips[i]`
greater than `pos_left` gives `i_left = strips[i - 1]`. -/
def lrstrip_left (strips : List Int) (pos_left : Int) (i_left : Int) : List Nat → Int
  | [] => i_left
  | i :: rest =>
      if strips.getD i 0 > pos_left then strips.getD (i - 1) 0
      else lrstrip_left strips pos_left i_left rest

/-- Heuristic `nb_plus_lrstrip(pi, problem)`. -/
def nb_plus_lrstrip (fm : FloatModel) (pi : Permutation) (problem : Problem) : Inversion :=
  let nbInversion := nb fm pi problem
  if nbInversion.i = 0 ∧ problem.getId = SWI_LS then
    let ds := defineStrips pi
    let right := ds.1
    let left := ds.2.1
    let strips := ds.2.2
    let pos_right := pi.position right
    let pos_left := pi.position left
    let size : Nat := strips.length
    let i_right := right
    let j_right := lrstrip_right strips pos_right right (List.range' 1 (size - 1))
    let i_left := lrstrip_left strips pos_left left (List.range' 1 (size - 1 - 1))
    let j_left := left
    let w_right := problem.getInversionWeight i_right j_right
    let w_left := problem.getInversionWeight i_left j_left
    if w_right ≤ w_left then Inversion.mk i_right j_right w_right
    else Inversion.mk i_left j_left w_left
  else nbInversion

/-- Heuristic `nb_plus_smp(pi, problem)`. -/
def nb_plus_smp (fm : FloatModel) (pi : Permutation) (problem : Problem) : Inversion :=
  let n := pi.size
  let n_sq := fm.ofInt (n * n)
  let signedScore := fun (sigma : Permutation) =>
    fm.add (fm.ofInt sigma.numberOfBreakpoints) (fm.div (fm.ofInt sigma.sliceMisplacedPairs) n_sq)
  let unsignedScore := fun (sigma : Permutation) =>
    fm.add (fm.ofInt sigma.numberOfBreakpointsUnsignedPermutation)
      (fm.div (fm.ofInt sigma.sliceMisplacedPairs) n_sq)
  let first : fm.F × Inversion :=
    if pi.isSigned then
      bestBenefit fm signedScore pi (signedScore pi) problem.getInversions
        (fm.ofInt 0, Inversion.zero)
    else (fm.ofInt 0, Inversion.zero)
  if pi.isSigned && fm.gt first.1 (fm.ofInt 0) then first.2
  else
    let second := bestBenefit fm unsignedScore pi (unsignedScore pi) problem.getInversions first
    if fm.gt second.1 (fm.ofInt 0) then second.2
    else nb_plus_beststrip fm pi problem

/-- The `switch (heuristic)` of the two sort drivers. -/
def selectInversion (fm : FloatModel) (heuristic : Int) (pi : Permutation) (problem : Problem) :
    Inversion :=
  if heuristic = LR then lr pi problem
  else if heuristic = SMP then smp fm pi problem
  else if heuristic = NB_PLUS_LR then nb_plus_lr fm pi problem
  else if heuristic = NB_PLUS_STRIP then nb_plus_strip fm pi problem
  else if heuristic = NB_PLUS_BESTSTRIP then nb_plus_beststrip fm pi problem
  else if heuristic = NB_PLUS_LRSTRIP then nb_plus_lrstrip fm pi problem
  else if heuristic = NB_PLUS_SMP then nb_plus_smp fm pi problem
  else Inversion.zero

namespace Heuristics

/-- Loop `while (!pi.isIdentity())` of the driver
`Heuristics::sort(intPi, n, sign, problem, heuristic)`: the final `(pi, weight)`.  This driver
keeps no list of inversions.  `weight` and `tries` are 16-bit. -/
def sort_int_loop (fm : FloatModel) (problem : Problem) (heuristic limit : Int) :
    Nat → Permutation → Int → Int → Permutation × Int
  | 0, pi, weight, _ => (pi, weight)
  | fuel + 1, pi, weight, tries =>
      if !pi.isIdentity then
        let inversion := selectInversion fm heuristic pi problem
        if inversion.i ≠ 0 then
          let pi1 := pi.applyInversion inversion.i inversion.j
          let weight1 := wrap16 (weight + inversion.w)
          let tries1 := wrap16 (tries + 1)
          if tries1 > limit then (pi1, weight1)
          else sort_int_loop fm problem heuristic limit fuel pi1 weight1 tries1
        else (pi, weight)
      else (pi, weight)

/-- Loop `while (!pi.isIdentity())` of the driver
`Heuristics::sort(permutation, problem, heuristic, weight)`: the final
`(pi, weight, inversions)`.  The proposed inversion is pushed to the list before the test
`inversion.i != 0`.  `weight` and `tries` are 16-bit. -/
def sort_loop (fm : FloatModel) (problem : Problem) (heuristic limit : Int) :
    Nat → Permutation → Int → Int → List Inversion → Permutation × Int × List Inversion
  | 0, pi, weight, _, inversions => (pi, weight, inversions)
  | fuel + 1, pi, weight, tries, inversions =>
      if !pi.isIdentity then
        let inversion := selectInversion fm heuristic pi problem
        let inversions1 := inversions ++ [inversion]
        if inversion.i ≠ 0 then
          let pi1 := pi.applyInversion inversion.i inversion.j
          let weight1 := wrap16 (weight + inversion.w)
          let tries1 := wrap16 (tries + 1)
          if tries1 > limit then (pi1, weight1, inversions1)
          else sort_loop fm problem heuristic limit fuel pi1 weight1 tries1 inversions1
        else (pi, weight, inversions1)
      else (pi, weight, inversions)

/-- Number of iterations after which the loop of the drivers has stopped: `tries` exceeds
`limit` after `limit + 1` iterations at the latest. -/
def sort_fuel (limit : Int) : Nat := (limit + 1).toNat + 1

/-- Driver `Heuristics::sort(intPi, n, sign, problem, heuristic)`: the returned weight, or
`none` when the constructor of the permutation exits. -/
def sort (fm : FloatModel) (intPi : Nat) (n : Int) (sign : Bool) (problem : Problem)
    (heuristic : Int) : Option Int :=
  let limit := wrap16 (n * LIMIT_MULTIPLIER)
  match Permutation.ofInt intPi n sign with
  | none => none
  | some pi =>
      let r := sort_int_loop fm problem heuristic limit (sort_fuel limit) pi 0 0
      if r.1.isIdentity then some r.2 else some (-1)

/-- Driver `Heuristics::sort(permutation, problem, heuristic, weight)`: the returned list of
inversions and the final value of `weight`.  The argument is passed by value (a first copy)
and `pi` is a copy of it. -/
def sort_permutation (fm : FloatModel) (permutation : Permutation) (problem : Problem)
    (heuristic : Int) : List Inversion × Int :=
  let permutation1 := Permutation.copy permutation
  let limit := wrap16 (permutation1.size * LIMIT_MULTIPLIER)
  let pi := Permutation.copy permutation1
  let r := sort_loop fm problem heuristic limit (sort_fuel limit) pi 0 0 []
  if !r.1.isIdentity then (r.2.2, -1) else (r.2.2, r.2.1)

end Heuristics

/-! ## `database/sources/problem/problem.cpp` and `unsigned_database.cpp` -/

namespace Database

/-- Class `inversion_info`: the 0-indexed positions `i`, `j` and the weight `w`. -/
structure inversion_info where
  /-- Left extremity. -/
  i : Int
  /-- Right extremity. -/
  j : Int
  /-- Weight. -/
  w : Int
deriving DecidableEq

/-- Function `swi_ls(n, signedPermutation)` of the database. -/
def swi_ls (n : Int) (signedPermutation : Bool) : List inversion_info :=
  let delta : Nat := if signedPermutation then 0 else 1
  List.flatMap (List.range n.toNat) (fun (i : Nat) =>
    List.map
      (fun (j : Nat) =>
        let si : Int := min ((i : Int) + 1) (n - (i : Int))
        let sj : Int := min ((j : Int) + 1) (n - (j : Int))
        inversion_info.mk (i : Int) (j : Int) (iabs (si - sj) + 1))
      (List.range' (i + delta) (n.toNat - (i + delta))))

/-- Function `getPossibleInversions(problem, n, signedPermutation)`; `none` stands for the
exit with "Unknown problem.". -/
def getPossibleInversions (problem : Int) (n : Int) (signedPermutation : Bool) :
    Option (List inversion_info) :=
  if problem = SWI_LS then some (swi_ls n signedPermutation) else none

/-- Constant `INT_MAX`. -/
def INT_MAX : Int := 2147483647

/-- Two-complement wrap of an integer into the 32-bit range of `int`. -/
def wrap32 (x : Int) : Int := (x + 2147483648) % 4294967296 - 2147483648

/-- `distances.find(k)` on the map kept as a list of pairs in key order: the mapped value, or
`none` for `distances.end()`. -/
def mapFind (m : List (Nat × Int)) (k : Nat) : Option Int :=
  match m with
  | [] => none
  | e :: rest => if e.1 = k then some e.2 else mapFind rest k

/-- `distances.erase(it)` for the entry of key `k`. -/
def mapErase (m : List (Nat × Int)) (k : Nat) : List (Nat × Int) :=
  m.filter (fun e => decide (e.1 ≠ k))

/-- `distances[k] = v`: replaces the value of `k` or inserts the pair at its place in key
order. -/
def mapSet (m : List (Nat × Int)) (k : Nat) (v : Int) : List (Nat × Int) :=
  match m with
  | [] => [(k, v)]
  | e :: rest =>
      if k < e.1 then (k, v) :: e :: rest
      else if k = e.1 then (k, v) :: rest
      else e :: mapSet rest k v

/-- State of the solver loop of `process`: the queue, the map `distances`, the set `visited`
(as the list of its insertions), the two vectors and the records written so far. -/
structure SolverState where
  /-- Queue of the permutations of the current group. -/
  queue : List Nat
  /-- Map from permutations to tentative distances. -/
  distances : List (Nat × Int)
  /-- Set of visited permutations. -/
  visited : List Nat
  /-- Vector `vectorPi`. -/
  vectorPi : List Int
  /-- Vector `vectorSigma`. -/
  vectorSigma : List Int
  /-- Records `(permutation, distance)` written, oldest first. -/
  output : List (Nat × Int)
deriving DecidableEq

/-- Loop "try all inversions over the permutation": the final `(distances, vectorSigma)`. -/
def relax (n : Nat) (list : List inversion_info) (vectorPi : List Int) (currentDistance : Int)
    (visited : List Nat) (init : List (Nat × Int) × List Int) : List (Nat × Int) × List Int :=
  list.foldl
    (fun (st : List (Nat × Int) × List Int) (info : inversion_info) =>
      let vectorSigma := applyInversion info.i info.j vectorPi
      let intSigma := vector_to_int n vectorSigma
      if ¬ intSigma ∈ visited then
        let newDistance := wrap32 (currentDistance + info.w)
        match mapFind st.1 intSigma with
        | none => (mapSet st.1 intSigma newDistance, vectorSigma)
        | some oldDistance =>
            if oldDistance > newDistance then (mapSet st.1 intSigma newDistance, vectorSigma)
            else (st.1, vectorSigma)
      else (st.1, vectorSigma))
    init

/-- Loop "look for the next group of permutations" over the map in key order: the final
`(queue, minDistance)`, started from the empty queue and `INT_MAX`. -/
def nextGroup (distances : List (Nat × Int)) : List Nat × Int :=
  distances.foldl
    (fun (st : List Nat × Int) (e : Nat × Int) =>
      if st.2 > e.2 then ([e.1], e.2)
      else if st.2 = e.2 then (st.1 ++ [e.1], st.2)
      else st)
    ([], INT_MAX)

/-- One iteration of `while (queue.size() > 0)` for the front `intPi` of the queue and the
rest `queue` of it.  A key that `distances.find` does not find reads as distance `0`. -/
def process_step (n : Nat) (list : List inversion_info) (intPi : Nat) (queue : List Nat)
    (st : SolverState) : SolverState :=
  let currentDistance := (mapFind st.distances intPi).getD 0
  let distances1 := mapErase st.distances intPi
  let vectorPi := int_to_vector n intPi st.vectorPi
  let output := st.output ++ [(intPi, currentDistance)]
  let visited := intPi :: st.visited
  let r := relax n list vectorPi currentDistance visited (distances1, st.vectorSigma)
  let queue1 := if queue.length = 0 then (nextGroup r.1).1 else queue
  { queue := queue1, distances := r.1, visited := visited, vectorPi := vectorPi,
    vectorSigma := r.2, output := output }

/-- Loop `while (queue.size() > 0)` of `process`, cut after `fuel` iterations. -/
def process_loop (n : Nat) (list : List inversion_info) : Nat → SolverState → SolverState
  | 0, st => st
  | fuel + 1, st =>
      match st.queue with
      | [] => st
      | intPi :: queue => process_loop n list fuel (process_step n list intPi queue st)

/-- State of `process` when it enters the solver loop. -/
def process_init (n : Nat) : SolverState :=
  let vectorPi := identityPermutation n (List.replicate n 0)
  let intPi := vector_to_int n vectorPi
  { queue := [intPi], distances := [(intPi, 0)], visited := [], vectorPi := vectorPi,
    vectorSigma := List.replicate n 0, output := [] }

/-- Function `process(parameters)` for `parameters.n = n`, its loop cut after `fuel`
iterations: the state reached; `none` stands for the exit of `getPossibleInversions`. -/
def process (n : Nat) (fuel : Nat) : Option SolverState :=
  match getPossibleInversions SWI_LS (n : Int) true with
  | none => none
  | some list => some (process_loop n list fuel (process_init n))

end Database

/-! ## Notions used to state the properties -/

/-- Reversal of the closed range `[i, j]` (0-indexed) of a list, `f` applied to each moved
element. -/
def reverseRange (f : Int → Int) (i j : Nat) (l : List Int) : List Int :=
  l.take i ++ (((l.drop i).take (j + 1 - i)).reverse.map f) ++ l.drop (j + 1)

/-- The loop of `Permutation::applyInversion` with the sign change `f` and the index
function `g` as parameters: `f` is the negation and `g` the absolute value in the signed
loop, both are the identity in the unsigned loop. -/
def applyInversion_generic_loop (f : Int → Int) (g : Int → Nat) :
    Nat → Int → Int → List Int × List Int → List Int × List Int
  | 0, _, _, st => st
  | fuel + 1, b, e, st =>
      if b ≤ e then
        let aux := st.1.getD b.toNat 0
        let permutation1 := st.1.set b.toNat (f (st.1.getD e.toNat 0))
        let permutation2 := permutation1.set e.toNat (f aux)
        let inverse1 := st.2.set (g (permutation2.getD b.toNat 0)) b
        let inverse2 := inverse1.set (g (permutation2.getD e.toNat 0)) e
        applyInversion_generic_loop f g fuel (b + 1) (e - 1) (permutation2, inverse2)
      else st

namespace Permutation

/-- Entries `1..n` of the vector `permutation`. -/
def entries (p : Permutation) : List Int := (p.permutation.drop 1).take p.n.toNat

/-- Class invariant of a `Permutation` object: both vectors have `n + 2` entries and carry
the sentinels, every entry `1..n` has its absolute value in `1..n` and `inverse` gives its
position back, every value `1..n` has its position in `1..n` where its absolute value stands,
and the entries of an unsigned permutation are positive. -/
def Valid (p : Permutation) : Prop :=
  0 ≤ p.n ∧ p.permutation.length = p.n.toNat + 2 ∧ p.inverse.length = p.n.toNat + 2 ∧
  p.permutation.getD 0 0 = 0 ∧ p.permutation.getD (p.n.toNat + 1) 0 = p.n + 1 ∧
  p.inverse.getD 0 0 = 0 ∧ p.inverse.getD (p.n.toNat + 1) 0 = p.n + 1 ∧
  (∀ k : Nat, k < p.n.toNat →
    1 ≤ (p.permutation.getD (k + 1) 0).natAbs ∧ (p.permutation.getD (k + 1) 0).natAbs ≤ p.n.toNat ∧
    p.inverse.getD (p.permutation.getD (k + 1) 0).natAbs 0 = (k : Int) + 1) ∧
  (∀ m : Nat, m < p.n.toNat →
    1 ≤ p.inverse.getD (m + 1) 0 ∧ p.inverse.getD (m + 1) 0 ≤ p.n ∧
    (p.permutation.getD (p.inverse.getD (m + 1) 0).toNat 0).natAbs = m + 1) ∧
  (p.sign = false → ∀ k : Nat, k < p.n.toNat → 0 < p.permutation.getD (k + 1) 0)

instance (p : Permutation) : Decidable (Valid p) := by
  unfold Valid; infer_instance

/-- The vectors `permutation` and `inverse` at the end of the decoding loop of
`Permutation(intPi, N, S)`, before the validation. -/
def decoded (intPi : Nat) (N : Int) (S : Bool) : List Int × List Int :=
  if S then decodeSigned_loop N.toNat intPi (newVector N, newVector N)
  else decodeUnsigned_loop N.toNat intPi (newVector N, newVector N)

/-- The `n` decoded entries `permutation[1..n]` at the end of the decoding loop. -/
def decodedEntries (intPi : Nat) (N : Int) (S : Bool) : List Int :=
  List.map (fun (k : Nat) => (decoded intPi N S).1.getD (k + 1) 0) (List.range N.toNat)

/-- The objects of the class a program can hold: the result of a constructor that returned,
changed by calls of `applyInversion(i, j)` with `1 ≤ i ≤ j ≤ n` (the only method that
changes an object). -/
inductive Built : Permutation → Prop
  | empty : Built Permutation.empty
  | ofInt (intPi : Nat) (N : Int) (S : Bool) (pi : Permutation) :
      Permutation.ofInt intPi N S = some pi → Built pi
  | ofVector (vector : List Int) (S : Bool) (pi : Permutation) :
      Permutation.ofVector vector S = some pi → Built pi
  | copy (p : Permutation) : Built p → Built (Permutation.copy p)
  | applyInversion (p : Permutation) (i j : Int) :
      Built p → 1 ≤ i → i ≤ j → j ≤ p.n → Built (p.applyInversion i j)

/-- Invariant of the data model on the vector `permutation` alone: the multiset of the
absolute values of the entries `1..n` is `{1..n}`, the sentinels are `permutation[0] = 0` and
`permutation[n + 1] = n + 1`, and without sign all entries are positive. -/
def Invariant (p : Permutation) : Prop :=
  0 ≤ p.n ∧ p.permutation.length = p.n.toNat + 2 ∧
  List.Perm (p.entries.map iabs) (List.map (fun (k : Nat) => (k : Int) + 1) (List.range p.n.toNat)) ∧
  p.permutation.getD 0 0 = 0 ∧ p.permutation.getD (p.n.toNat + 1) 0 = p.n + 1 ∧
  (p.sign = false → ∀ x ∈ p.entries, 0 < x)

instance (p : Permutation) : Decidable (Invariant p) := by
  unfold Invariant; infer_instance

end Permutation

namespace Database

/-- Value of the first `k` entries of `P` read as base-16 digits `P[i] - 1`, the first entry
being the most significant digit. -/
def digitsValue (P : List Int) : Nat → Nat
  | 0 => 0
  | k + 1 => digitsValue P k * 16 + (P.getD k 0 - 1).toNat

end Database

/-- An inversion a strategy may return to the drivers: positions `1 ≤ i ≤ j ≤ n` and the
weight of the problem for these positions. -/
def Inversion.InRange (n : Int) (r : Inversion) : Prop :=
  1 ≤ r.i ∧ r.i ≤ r.j ∧ r.j ≤ n ∧ r.w = Problem.weight n r.i r.j

/-- The sentinel (`i = 0`) or an inversion in range. -/
def Inversion.Ok (n : Int) (r : Inversion) : Prop := r.i = 0 ∨ r.InRange n

/-- The 0-indexed inversion of the exact solver for an inversion of the heuristics. -/
def Inversion.toMove (r : Inversion) : Nat × Nat := ((r.i - 1).toNat, (r.j - 1).toNat)

/-- The permutation obtained by applying the inversions of a list in order. -/
def applyAll (p : Permutation) (l : List Inversion) : Permutation :=
  l.foldl (fun q r => q.applyInversion r.i r.j) p

/-- Sum of the `w` fields of a list of inversions. -/
def weightSum (l : List Inversion) : Int := (l.map (fun r => r.w)).sum

/-- The decoding loops of `Permutation(intPi, N, S)` with the decoded element `val aux` and
the width `bits` of a group as parameters. -/
def decode_generic_loop (val : Nat → Int) (bits : Nat) :
    Nat → Nat → List Int × List Int → List Int × List Int
  | 0, _, st => st
  | i + 1, aux, st =>
      decode_generic_loop val bits i (aux >>> bits)
        (st.1.set (i + 1) (val aux), st.2.set (val aux).natAbs ((i : Int) + 1))

/-- The benefit `(a - b) / w` of an inversion as the strategies compute it in `float`, for
the integer scores `a` (before) and `b` (after) and the weight `w`. -/
def FloatModel.quot (fm : FloatModel) (a b w : Int) : fm.F :=
  fm.div (fm.sub (fm.ofInt a) (fm.ofInt b)) (fm.ofInt w)

/-- An arithmetic in which the benefits over integer scores of magnitude at most `B` and
weights in `1..B` compare as the exact fractions do: this is what the comparisons of `nb`
need, and what a binary floating-point arithmetic with a correctly rounded division gives for
small integers. -/
structure FloatModel.ExactOn (fm : FloatModel) (B : Int) : Prop where
  /-- Comparison of a benefit with the initial `best = 0`. -/
  gt_zero : ∀ a b w : Int, |a| ≤ B → |b| ≤ B → 1 ≤ w → w ≤ B →
    fm.gt (fm.quot a b w) (fm.ofInt 0) = decide (0 < a - b)
  /-- Comparison of two benefits. -/
  gt_quot : ∀ a b w a2 b2 w2 : Int, |a| ≤ B → |b| ≤ B → 1 ≤ w → w ≤ B →
    |a2| ≤ B → |b2| ≤ B → 1 ≤ w2 → w2 ≤ B →
    fm.gt (fm.quot a b w) (fm.quot a2 b2 w2) = decide ((a2 - b2) * w < (a - b) * w2)
  /-- Test `benefit == 0`. -/
  eq_zero : ∀ a b w : Int, |a| ≤ B → |b| ≤ B → 1 ≤ w → w ≤ B →
    fm.eq (fm.quot a b w) (fm.ofInt 0) = decide (a = b)
  /-- The initial `best = 0` is not greater than `0`. -/
  gt_zero_zero : fm.gt (fm.ofInt 0) (fm.ofInt 0) = false

/-- Body of the loop of `nb` over the inversions, for the score `A` of `pi` and the score
`sc r` of `pi` after the inversion `r`: the state is `(best, bestInversion, zeroUnitary)`. -/
def nbStep (fm : FloatModel) (A : Int) (sc : Inversion → Int)
    (st : fm.F × Inversion × Inversion) (r : Inversion) : fm.F × Inversion × Inversion :=
  let benefit := fm.quot A (sc r) r.w
  if fm.gt benefit st.1 then (benefit, r, st.2.2)
  else if fm.eq benefit (fm.ofInt 0) && decide (r.i = r.j) && decide (st.2.2.i = 0) then
    (st.1, st.2.1, r)
  else st

/-- Number of breakpoints of `pi` after the inversion `r`, as `nb` computes it on a copy. -/
def Permutation.breakpointsAfter (pi : Permutation) (r : Inversion) : Int :=
  ((Permutation.copy pi).applyInversion r.i r.j).numberOfBreakpoints

/-- The inversion `x` is the first of the list `l` that maximises the benefit
`(A - sc r) / r.w`, and its benefit is positive; the fractions are compared by cross
multiplication, the weights being positive. -/
def FirstBest (A : Int) (sc : Inversion → Int) (l : List Inversion) (x : Inversion) : Prop :=
  ∃ l1 l2 : List Inversion, l = l1 ++ x :: l2 ∧ 0 < A - sc x ∧
    (∀ r ∈ l1, (A - sc r) * x.w < (A - sc x) * r.w) ∧
    (∀ r ∈ l2, (A - sc r) * x.w ≤ (A - sc x) * r.w)

/-- The inversion `x` is the first unitary inversion (`i = j`) of the list `l` that leaves
the score unchanged. -/
def FirstZeroUnitary (A : Int) (sc : Inversion → Int) (l : List Inversion) (x : Inversion) :
    Prop :=
  ∃ l1 l2 : List Inversion, l = l1 ++ x :: l2 ∧ sc x = A ∧ x.i = x.j ∧
    ∀ r ∈ l1, ¬ (sc r = A ∧ r.i = r.j)

/-- Invariant of the loop of `nb` once the inversions `pre` have been seen: either none has
a positive benefit, `best` is still `0`, `bestInversion` is still the sentinel and
`zeroUnitary` is the first unitary inversion of zero benefit (the sentinel when there is
none); or `bestInversion` is the first inversion of maximal benefit and `best` its benefit. -/
def NbInv (fm : FloatModel) (A : Int) (sc : Inversion → Int) (pre : List Inversion)
    (st : fm.F × Inversion × Inversion) : Prop :=
  ((∀ x ∈ pre, A - sc x ≤ 0) ∧ st.1 = fm.ofInt 0 ∧ st.2.1 = Inversion.zero ∧
      ((st.2.2 = Inversion.zero ∧ ∀ x ∈ pre, ¬ (sc x = A ∧ x.i = x.j)) ∨
        (st.2.2.i ≠ 0 ∧ FirstZeroUnitary A sc pre st.2.2))) ∨
    (FirstBest A sc pre st.2.1 ∧ st.1 = fm.quot A (sc st.2.1) st.2.1.w)

/-- The sequence `LR` takes its move from, in the words of the rule: of the correction
sequences `R` (for the position `r`) and `L` (for the position `l`), each with its cost, the
cheaper non-empty one; on equal cost the one with fewer inversions; on a further tie `R`. -/
def lrChoice (R L : List Inversion × Int) : List Inversion :=
  if L.1 = [] then R.1
  else if R.1 = [] then L.1
  else if R.2 < L.2 then R.1
  else if L.2 < R.2 then L.1
  else if L.1.length < R.1.length then L.1
  else R.1

/-- State of the drivers when their loop stops, for a permutation of size `n`: the working
permutation, the accumulated weight and the list of the inversions selected, taken from the
loop of the driver that keeps the list (the loop of the integer driver goes through the same
permutations and weights). -/
def Heuristics.sort_final (fm : FloatModel) (problem : Problem) (heuristic n : Int)
    (pi : Permutation) : Permutation × Int × List Inversion :=
  Heuristics.sort_loop fm problem heuristic (wrap16 (n * LIMIT_MULTIPLIER))
    (Heuristics.sort_fuel (wrap16 (n * LIMIT_MULTIPLIER))) pi 0 0 []

namespace Database

/-- The identity vector `1, 2, ..., n`. -/
def identityVector (n : Nat) : List Int := List.map (fun (k : Nat) => (k : Int) + 1) (List.range n)

/-- An inversion of the exact solver: the 0-indexed positions `(i, j)` with `i ≤ j < n`. -/
def ValidMove (n : Nat) (m : Nat × Nat) : Prop := m.1 ≤ m.2 ∧ m.2 < n

/-- Weight `|slice(i) - slice(j)| + 1` of the inversion `(i, j)`, with the slice
`min(p + 1, n - p)` of the 0-indexed position `p`. -/
def moveWeight (n : Nat) (m : Nat × Nat) : Int :=
  iabs (min ((m.1 : Int) + 1) ((n : Int) - m.1) - min ((m.2 : Int) + 1) ((n : Int) - m.2)) + 1

/-- The vector obtained from `P` by the inversions of a list, in order. -/
def applyMoves (moves : List (Nat × Nat)) (P : List Int) : List Int :=
  moves.foldl (fun v m => reverseRange (fun x => x) m.1 m.2 v) P

/-- Sum of the weights of a list of inversions. -/
def movesWeight (n : Nat) (moves : List (Nat × Nat)) : Int :=
  (moves.map (moveWeight n)).sum

/-- Some sequence of inversions of total weight `d` transforms the identity into `P`. -/
def Reach (n : Nat) (P : List Int) (d : Int) : Prop :=
  ∃ moves : List (Nat × Nat), (∀ m ∈ moves, ValidMove n m) ∧
    applyMoves moves (identityVector n) = P ∧ movesWeight n moves = d

/-- The value `d` is the minimum, over the sequences of inversions that transform the
identity into `P`, of the sum of the weights. -/
def MinDist (n : Nat) (P : List Int) (d : Int) : Prop :=
  Reach n P d ∧ ∀ d2 : Int, Reach n P d2 → d ≤ d2

/-- Body of the loop of `nextGroup`. -/
def nextGroupStep (st : List Nat × Int) (e : Nat × Int) : List Nat × Int :=
  if st.2 > e.2 then ([e.1], e.2)
  else if st.2 = e.2 then (st.1 ++ [e.1], st.2)
  else st

/-- Body of the loop of `relax`. -/
def relaxStep (n : Nat) (vectorPi : List Int) (currentDistance : Int) (visited : List Nat)
    (st : List (Nat × Int) × List Int) (info : inversion_info) : List (Nat × Int) × List Int :=
  let vectorSigma := applyInversion info.i info.j vectorPi
  let intSigma := vector_to_int n vectorSigma
  if ¬ intSigma ∈ visited then
    let newDistance := wrap32 (currentDistance + info.w)
    match mapFind st.1 intSigma with
    | none => (mapSet st.1 intSigma newDistance, vectorSigma)
    | some oldDistance =>
        if oldDistance > newDistance then (mapSet st.1 intSigma newDistance, vectorSigma)
        else (st.1, vectorSigma)
  else (st.1, vectorSigma)

/-- Invariant of the solver loop at the head of an iteration, `D` being the distance of the
current group. -/
structure SolverInv (n : Nat) (st : SolverState) (D : Int) : Prop where
  /-- Every record carries the minimum distance of a permutation vector. -/
  out_min : ∀ r ∈ st.output, ∃ P, IsPermutationVector n P ∧ vector_to_int n P = r.1 ∧
    MinDist n P r.2 ∧ r.2 ≤ D
  /-- The visited set holds the permutations of the records. -/
  visited_eq : st.visited = (st.output.map Prod.fst).reverse
  /-- No permutation has two records. -/
  out_nodup : (st.output.map Prod.fst).Nodup
  /-- The distances of the records do not decrease. -/
  out_sorted : (st.output.map Prod.snd).Pairwise (fun a b => a ≤ b)
  /-- The map is kept in key order. -/
  keys_sorted : (st.distances.map Prod.fst).Pairwise (fun a b => a < b)
  /-- Every entry of the map is a tentative distance of a permutation not yet visited. -/
  dist_ok : ∀ k v, mapFind st.distances k = some v →
    k ∉ st.visited ∧ D ≤ v ∧ v ≤ (n : Int) * n + n ∧
    ∃ P, IsPermutationVector n P ∧ vector_to_int n P = k ∧ Reach n P v
  /-- Every neighbour of a visited permutation is visited or has an entry that the edge does
  not improve. -/
  closed : ∀ r ∈ st.output, ∀ P, IsPermutationVector n P → vector_to_int n P = r.1 →
    ∀ m, ValidMove n m →
      vector_to_int n (reverseRange (fun x => x) m.1 m.2 P) ∈ st.visited ∨
      ∃ v, mapFind st.distances (vector_to_int n (reverseRange (fun x => x) m.1 m.2 P)) = some v ∧
        v ≤ r.2 + moveWeight n m
  /-- The queue has no repetition. -/
  queue_nodup : st.queue.Nodup
  /-- The permutations of the queue have the distance of the group. -/
  queue_ok : ∀ q ∈ st.queue, mapFind st.distances q = some D
  /-- When the queue is empty the map is empty. -/
  queue_empty : st.queue = [] → st.distances = []
  /-- The first record is the identity with distance `0`; before it the queue holds the
  identity alone. -/
  start : st.output.head? = some (vector_to_int n (identityVector n), 0) ∨
    (st.output = [] ∧ st.queue = [vector_to_int n (identityVector n)] ∧ D = 0)
  /-- The decoding buffer has `n` entries. -/
  buf : st.vectorPi.length = n
  /-- The distance of the group is not negative. -/
  nonneg : 0 ≤ D

/-- The permutation of a record as `process` prints it: the decoding of the emitted
integer. -/
def emittedVector (n : Nat) (x : Nat) : List Int := int_to_vector n x (List.replicate n 0)

end Database

namespace Database

/-- Exactness of the emitted distances for the size `n`: at every point of the solver loop,
every record written so far carries the minimum weight of the sequences of inversions that
transform the identity into the permutation of the record, and once the loop has run an
iteration the identity has been written with distance `0`. -/
def SolverExact (n : Nat) : Prop :=
  ∀ (fuel : Nat) (st : SolverState), process n fuel = some st →
    (∀ r ∈ st.output, MinDist n (emittedVector n r.1) r.2) ∧
    (1 ≤ fuel → ∃ r ∈ st.output, emittedVector n r.1 = identityVector n ∧ r.2 = 0)

/-- Coverage of the solver for the size `n`: the loop terminates (from some number of
iterations on the queue is empty and the state no longer changes), and the records of the
final state hold every permutation of `1..n` exactly once and nothing that is not a
permutation of `1..n`. -/
def SolverCoverage (n : Nat) : Prop :=
  ∃ F : Nat, ∀ fuel : Nat, F ≤ fuel → ∃ st : SolverState,
    process n fuel = some st ∧ process n F = some st ∧ st.queue = [] ∧
    (∀ P : List Int, IsPermutationVector n P →
      (st.output.filter (fun r => decide (emittedVector n r.1 = P))).length = 1) ∧
    (∀ r ∈ st.output, IsPermutationVector n (emittedVector n r.1))

/-- Emission order for the size `n`: at every point of the solver loop the distances written
so far do not decrease, the first record is the identity with distance `0`, the visited set
holds the permutations written, no visited permutation has an entry in the map of tentative
distances, and the relaxation of an iteration leaves the entries of visited permutations as
they are (absent). -/
def SolverOrder (n : Nat) : Prop :=
  ∀ (fuel : Nat) (st : SolverState), process n fuel = some st →
    (st.output.map Prod.snd).Pairwise (fun a b => a ≤ b) ∧
    (1 ≤ fuel → st.output.head? = some (vector_to_int n (identityVector n), 0)) ∧
    (∀ x : Nat, x ∈ st.visited ↔ x ∈ st.output.map Prod.fst) ∧
    (∀ x ∈ st.visited, mapFind st.distances x = none) ∧
    (∀ (list : List inversion_info) (vectorPi : List Int) (currentDistance : Int)
      (init : List (Nat × Int) × List Int) (x : Nat), x ∈ st.visited →
      mapFind (relax n list vectorPi currentDistance st.visited init).1 x = mapFind init.1 x)

end Database

/-- The pairs `(a, b)` of indices `a < b < size` in lexicographic order, the order in which
the nested loops of `nb_plus_beststrip` visit the pairs of strip boundaries. -/
def stripPairs (size : Nat) : List (Nat × Nat) :=
  List.flatMap (List.range (size - 1)) (fun (a : Nat) =>
    List.map (fun (b : Nat) => (a, b)) (List.range' (a + 1) (size - (a + 1))))

/-- State of the position `k` for `LR`: `0` when the position holds `k`, `1` when it holds
`-k` (only the sign is wrong), `2` otherwise. -/
def lrState (pi : Permutation) (k : Int) : Int :=
  if pi.element_at k = k then 0 else if pi.element_at k = -k then 1 else 2

/-- Potential of `LR`, `0` at the identity: with `(r, l)` the window found by the scan of
`lr`, the states of the positions `r` and `l` plus `2` for each position strictly between
them. -/
def lrPotential (pi : Permutation) : Int :=
  if pi.isIdentity then 0
  else if (lr_loop pi pi.size.toNat 1 pi.size).1 < (lr_loop pi pi.size.toNat 1 pi.size).2 then
    lrState pi (lr_loop pi pi.size.toNat 1 pi.size).1
      + lrState pi (lr_loop pi pi.size.toNat 1 pi.size).2
      + 2 * ((lr_loop pi pi.size.toNat 1 pi.size).2 - (lr_loop pi pi.size.toNat 1 pi.size).1 - 1)
  else lrState pi (lr_loop pi pi.size.toNat 1 pi.size).1

/-- The inversion `x` is applied inside the window of `pi`: with `r` the first position such
that `r` or `l = n + 1 - r` does not hold its element, every position before `r` and after
`l` holds its element, `r ≤ x.i ≤ x.j ≤ l`, and the inversion changes no position outside of
`[r, l]`. -/
def LRWindowStep (pi : Permutation) (x : Inversion) : Prop :=
  ∃ r l : Int, 1 ≤ r ∧ r ≤ l ∧ l ≤ pi.n ∧ l = pi.n + 1 - r ∧
    (∀ k : Int, 1 ≤ k → k < r →
      pi.element_at k = k ∧ pi.element_at (pi.n + 1 - k) = pi.n + 1 - k) ∧
    (pi.element_at r ≠ r ∨ pi.element_at l ≠ l) ∧
    r ≤ x.i ∧ x.i ≤ x.j ∧ x.j ≤ l ∧
    ∀ k : Int, 0 ≤ k → (k < r ∨ l < k) →
      (pi.applyInversion x.i x.j).element_at k = pi.element_at k

/-- Inner loop of the count of slice-misplaced pairs taken as a mathematical integer: the
loop of `sliceMisplacedPairs()` with a counter that has no 16-bit range. -/
def Permutation.sliceMisplacedCount_inner (p : Permutation) (final_slice local_slice : Int) :
    Nat → Int → Int → Int → Int
  | 0, _, _, count => count
  | fuel + 1, left, right, count =>
      if left < local_slice then
        let left_element := iabs (p.permutation.getD left.toNat 0)
        let final_left_slice := slice left_element p.n
        let count1 := if final_left_slice > final_slice then count + 1 else count
        let right_element := iabs (p.permutation.getD right.toNat 0)
        let final_right_slice := slice right_element p.n
        let count2 := if final_right_slice > final_slice then count1 + 1 else count1
        Permutation.sliceMisplacedCount_inner p final_slice local_slice fuel (left + 1)
          (right - 1) count2
      else count

/-- Number of slice-misplaced pairs as a mathematical integer: the pairs of a position `i` and
a position of a lower slice that holds an element of a greater final slice than the element
at `i`.  The method `sliceMisplacedPairs()` counts the same pairs in a 16-bit counter. -/
def Permutation.sliceMisplacedCount (p : Permutation) : Int :=
  (List.range p.n.toNat).foldl
    (fun (count : Int) (k : Nat) =>
      let i : Int := (k : Int) + 1
      let element := iabs (p.permutation.getD i.toNat 0)
      let final_slice := slice element p.n
      let local_slice := slice i p.n
      Permutation.sliceMisplacedCount_inner p final_slice local_slice local_slice.toNat 1 p.n
        count)
    0
end SWILS

namespace SWILS
namespace Database

theorem digitsValue_lt (P : List Int) (hP : ∀ i, i < P.length → 1 ≤ P.getD i 0 ∧ P.getD i 0 ≤ 16) :
    ∀ k, k ≤ P.length → digitsValue P k < 16 ^ k := by
  intro k
  induction k with
  | zero => intro _; simp [digitsValue]
  | succ k ih =>
    intro hk
    have h1 := ih (by omega)
    have h2 := hP k (by omega)
    simp only [digitsValue]
    have : (P.getD k 0 - 1).toNat < 16 := by omega
    rw [pow_succ]; omega

theorem vector_to_int_step_eq (P : List Int) (k : Nat) (a : Nat) (ha : a < 16 ^ k) (hk : k < 16)
    (h : 1 ≤ P.getD k 0 ∧ P.getD k 0 ≤ 16) :
    vector_to_int_step P a k = a * 16 + (P.getD k 0 - 1).toNat := by
  unfold vector_to_int_step N_BITS toU64 wrap16
  have h16 : (16:Nat) ^ (k+1) ≤ 16 ^ 16 := Nat.pow_le_pow_right (by norm_num) (by omega)
  have hlt : a * 16 < 2 ^ 64 := by
    have : a * 16 < 16 ^ (k+1) := by rw [pow_succ]; omega
    have e : (16:Nat)^16 = 2^64 := by norm_num
    omega
  rw [Nat.shiftLeft_eq, Nat.mod_eq_of_lt (by simpa using hlt)]
  have he : (((P.getD k 0 - 1 + 32768) % 65536 - 32768) % (2:Int)^64).toNat = (P.getD k 0 - 1).toNat := by
    have : (P.getD k 0 - 1 + 32768) % 65536 - 32768 = P.getD k 0 - 1 := by omega
    rw [this]
    have : (P.getD k 0 - 1) % (2:Int)^64 = P.getD k 0 - 1 := by
      apply Int.emod_eq_of_lt <;> omega
    rw [this]
  rw [he]
  have hd : (P.getD k 0 - 1).toNat < 2 ^ 4 := by omega
  have := Nat.mul_add_lt_is_or hd a
  rw [Nat.mul_comm a, ← this]

theorem vector_to_int_eq_digitsValue (P : List Int)
    (hP : ∀ i, i < P.length → 1 ≤ P.getD i 0 ∧ P.getD i 0 ≤ 16) :
    ∀ k, k ≤ P.length → k ≤ 16 → vector_to_int k P = digitsValue P k := by
  intro k
  induction k with
  | zero => intro _ _; rfl
  | succ k ih =>
    intro hk hk16
    unfold vector_to_int at ih ⊢
    rw [List.range_succ, List.foldl_append, ih (by omega) (by omega)]
    simp only [List.foldl_cons, List.foldl_nil, digitsValue]
    exact vector_to_int_step_eq P k _ (digitsValue_lt P hP k (by omega)) (by omega) (hP k (by omega))

theorem int_to_vector_loop_length : ∀ (k aux : Nat) (V : List Int),
    (int_to_vector_loop k aux V).length = V.length := by
  intro k
  induction k with
  | zero => intro aux V; rfl
  | succ k ih => intro aux V; simp [int_to_vector_loop, ih]

theorem int_to_vector_loop_getD (P : List Int)
    (hP : ∀ i, i < P.length → 1 ≤ P.getD i 0 ∧ P.getD i 0 ≤ 16) :
    ∀ (k : Nat) (V : List Int), k ≤ P.length → k ≤ V.length → ∀ i,
      (int_to_vector_loop k (digitsValue P k) V).getD i 0
        = if i < k then P.getD i 0 else V.getD i 0 := by
  intro k
  induction k with
  | zero => intro V _ _ i; simp [int_to_vector_loop]
  | succ k ih =>
    intro V hk hV i
    have hb := hP k (by omega)
    have hd : (P.getD k 0 - 1).toNat < 16 := by omega
    simp only [int_to_vector_loop, digitsValue, N_BITS, NUMBERS]
    have e1 : (digitsValue P k * 16 + (P.getD k 0 - 1).toNat) >>> 4 = digitsValue P k := by
      rw [Nat.shiftRight_eq_div_pow]; omega
    have e2 : (digitsValue P k * 16 + (P.getD k 0 - 1).toNat) &&& 15 = (P.getD k 0 - 1).toNat := by
      have := Nat.and_pow_two_sub_one_eq_mod (digitsValue P k * 16 + (P.getD k 0 - 1).toNat) 4
      rw [show (2:Nat) ^ 4 - 1 = 15 from rfl, show (2:Nat) ^ 4 = 16 from rfl] at this
      rw [this]; omega
    rw [e1, e2, ih _ (by omega) (by simpa using (by omega : k ≤ V.length))]
    have e3 : (((P.getD k 0 - 1).toNat : Nat) : Int) + 1 = P.getD k 0 := by omega
    rw [e3]
    by_cases h1 : i < k
    · simp [h1, (by omega : i < k + 1)]
    · simp only [h1, if_false]
      by_cases h2 : i = k
      · subst h2
        simp [List.getD_eq_getElem?_getD, List.getElem?_set, (by omega : i < V.length)]
      · have h3 : ¬ i < k + 1 := by omega
        have h4 : ¬ k = i := fun h => h2 h.symm
        simp [List.getD_eq_getElem?_getD, List.getElem?_set, h3, h4]

theorem getD_bounds_of_perm (n : Nat) (P : List Int) (h : IsPermutationVector n P) :
    P.length = n ∧ ∀ i, i < P.length → 1 ≤ P.getD i 0 ∧ P.getD i 0 ≤ n := by
  unfold IsPermutationVector at h
  have hlen : P.length = n := by simpa using h.length_eq
  refine ⟨hlen, ?_⟩
  intro i hi
  have hm : P.getD i 0 ∈ P := by
    rw [List.getD_eq_getElem _ _ hi]; exact List.getElem_mem _
  have := h.subset hm
  simp only [List.mem_map, List.mem_range] at this
  obtain ⟨k, hk, e⟩ := this
  omega

theorem int_to_vector_vector_to_int (n : Nat) (P V : List Int) (hn : n ≤ 16)
    (hlen : P.length = n) (hP : ∀ i, i < P.length → 1 ≤ P.getD i 0 ∧ P.getD i 0 ≤ 16)
    (hV : V.length = n) :
    int_to_vector n (vector_to_int n P) V = P := by
  unfold int_to_vector
  rw [vector_to_int_eq_digitsValue P hP n (by omega) hn]
  apply List.ext_getElem
  · rw [int_to_vector_loop_length]; omega
  · intro i h1 h2
    have := int_to_vector_loop_getD P hP n V (by omega) (by omega) i
    rw [List.getD_eq_getElem _ _ h1] at this
    rw [this]
    rw [int_to_vector_loop_length] at h1
    rw [if_pos (by omega : i < n), List.getD_eq_getElem _ _ h2]

/-- C1. Round trip of the unsigned codec: for `1 ≤ n ≤ 16` and a vector `P` holding each of
`1..n` once, decoding the code of `P` into any vector of size `n` gives `P` back; hence
`vector_to_int` is injective on the permutation vectors of size `n`. -/
theorem codec_round_trip (n : Nat) (h1 : 1 ≤ n) (h16 : n ≤ 16) :
    (∀ P V : List Int, IsPermutationVector n P → V.length = n →
        int_to_vector n (vector_to_int n P) V = P) ∧
    (∀ P Q : List Int, IsPermutationVector n P → IsPermutationVector n Q →
        vector_to_int n P = vector_to_int n Q → P = Q) := by
  have rt : ∀ P V : List Int, IsPermutationVector n P → V.length = n →
        int_to_vector n (vector_to_int n P) V = P := by
    intro P V hP hV
    obtain ⟨hl, hb⟩ := getD_bounds_of_perm n P hP
    exact int_to_vector_vector_to_int n P V h16 hl
      (fun i hi => ⟨(hb i hi).1, by have := (hb i hi).2; omega⟩) hV
  refine ⟨rt, ?_⟩
  intro P Q hP hQ e
  have hl := (getD_bounds_of_perm n P hP).1
  have a := rt P P hP hl
  have b := rt Q P hQ hl
  rw [← a, e, b]

/-- Witness of C1 at `n = 16`, where the code uses all 64 bits. -/
theorem codec_round_trip_witness :
    int_to_vector 16 (vector_to_int 16 [16, 15, 14, 13, 12, 11, 10, 9, 8, 7, 6, 5, 4, 3, 2, 1])
      (List.replicate 16 0) = [16, 15, 14, 13, 12, 11, 10, 9, 8, 7, 6, 5, 4, 3, 2, 1] :=
  (codec_round_trip 16 (by decide) (by decide)).1 _ _ (by decide) (by decide)

end Database
end SWILS

namespace SWILS

theorem getD_set_eq (l : List Int) (i j : Nat) (a : Int) :
    (l.set i a).getD j 0 = if i = j ∧ i < l.length then a else l.getD j 0 := by
  simp only [List.getD_eq_getElem?_getD, List.getElem?_set]
  by_cases h : i = j
  · subst h
    by_cases h2 : i < l.length
    · simp [h2]
    · simp [h2, List.getElem?_eq_none (not_lt.mp h2)]
  · simp [h]

theorem ext_getD (l1 l2 : List Int) (hl : l1.length = l2.length)
    (h : ∀ x, x < l1.length → l1.getD x 0 = l2.getD x 0) : l1 = l2 := by
  apply List.ext_getElem hl
  intro n h1 h2
  have := h n h1
  rwa [List.getD_eq_getElem _ _ h1, List.getD_eq_getElem _ _ h2] at this

theorem getD_reverseRange (f : Int → Int) (i j : Nat) (l : List Int) (hij : i ≤ j)
    (hj : j < l.length) (x : Nat) :
    (reverseRange f i j l).getD x 0
      = if i ≤ x ∧ x ≤ j then f (l.getD (i + j - x) 0) else l.getD x 0 := by
  unfold reverseRange
  simp only [List.getD_eq_getElem?_getD]
  by_cases h1 : x < i
  · rw [List.append_assoc, List.getElem?_append_left (by simp; omega)]
    rw [if_neg (by omega : ¬ (i ≤ x ∧ x ≤ j))]
    simp [List.getElem?_take, h1]
  · by_cases h2 : x ≤ j
    · rw [List.append_assoc, List.getElem?_append_right (by simp; omega)]
      rw [List.getElem?_append_left (by simp; omega)]
      simp only [List.length_take, List.getElem?_map]
      rw [List.getElem?_reverse (by simp; omega)]
      simp only [List.length_take, List.length_drop, List.getElem?_take, List.getElem?_drop]
      have e1 : min i l.length = i := by omega
      have e2 : min (j + 1 - i) (l.length - i) = j + 1 - i := by omega
      rw [e1, e2]
      have e3 : j + 1 - i - 1 - (x - i) < j + 1 - i := by omega
      have e4 : i + (j + 1 - i - 1 - (x - i)) = i + j - x := by omega
      rw [if_pos (by omega : i ≤ x ∧ x ≤ j)]
      have e5 : i + j - x < l.length := by omega
      simp [e3, e4, List.getElem?_eq_getElem e5]
    · rw [List.getElem?_append_right (by simp; omega)]
      simp only [List.length_append, List.length_take, List.length_map, List.length_reverse,
        List.length_drop, List.getElem?_drop]
      have e1 : min i l.length = i := by omega
      have e2 : min (j + 1 - i) (l.length - i) = j + 1 - i := by omega
      rw [e1, e2]
      have e4 : j + 1 + (x - (i + (j + 1 - i))) = x := by omega
      rw [if_neg (by omega : ¬ (i ≤ x ∧ x ≤ j))]
      simp [e4]

theorem length_reverseRange (f : Int → Int) (i j : Nat) (l : List Int) (hij : i ≤ j)
    (hj : j < l.length) : (reverseRange f i j l).length = l.length := by
  unfold reverseRange
  simp only [List.length_append, List.length_take, List.length_map, List.length_reverse,
    List.length_drop]
  omega

end SWILS

namespace SWILS

theorem generic_loop_perm (f : Int → Int) (g : Int → Nat) :
    ∀ (fuel : Nat) (b e : Int) (st : List Int × List Int),
      (e + 1 - b).toNat ≤ fuel → 0 ≤ b → e < st.1.length →
      (applyInversion_generic_loop f g fuel b e st).1.length = st.1.length ∧
      ∀ x : Nat, (applyInversion_generic_loop f g fuel b e st).1.getD x 0
        = if b ≤ (x : Int) ∧ (x : Int) ≤ e then f (st.1.getD (b + e - x).toNat 0)
          else st.1.getD x 0 := by
  intro fuel
  induction fuel with
  | zero =>
    intro b e st hf hb he
    simp only [applyInversion_generic_loop, true_and]
    intro x
    rw [if_neg (by omega)]
  | succ fuel ih =>
    intro b e st hf hb he
    obtain ⟨p, q⟩ := st
    simp only at he ⊢
    by_cases hbe : b ≤ e
    · simp only [applyInversion_generic_loop, if_pos hbe]
      have hp2 : ∀ y : Nat, ((p.set b.toNat (f (p.getD e.toNat 0))).set e.toNat
          (f (p.getD b.toNat 0))).getD y 0
          = if y = e.toNat then f (p.getD b.toNat 0)
            else if y = b.toNat then f (p.getD e.toNat 0) else p.getD y 0 := by
        intro y
        simp only [getD_set_eq, List.length_set]
        split_ifs <;> first | rfl | omega
      have hlen : ((p.set b.toNat (f (p.getD e.toNat 0))).set e.toNat
          (f (p.getD b.toNat 0))).length = p.length := by simp
      generalize (p.set b.toNat (f (p.getD e.toNat 0))).set e.toNat (f (p.getD b.toNat 0)) = p2
        at hp2 hlen ⊢
      generalize (q.set (g (p2.getD b.toNat 0)) b).set (g (p2.getD e.toNat 0)) e = q2
      obtain ⟨h1, h2⟩ := ih (b + 1) (e - 1) (p2, q2) (by omega) (by omega)
        (by simp only [hlen]; omega)
      refine ⟨by rw [h1, hlen], ?_⟩
      intro x
      rw [h2 x]
      simp only [hp2]
      by_cases hx1 : (x : Int) = b
      · have e2 : (b + e - (x : Int)).toNat = e.toNat := by omega
        rw [e2]
        split_ifs <;> first | rfl | omega | (congr 2; omega)
      · by_cases hx2 : (x : Int) = e
        · have e2 : (b + e - (x : Int)).toNat = b.toNat := by omega
          rw [e2]
          split_ifs <;> first | rfl | omega | (congr 2; omega)
        · have e3 : (b + 1 + (e - 1) - (x : Int)).toNat = (b + e - (x : Int)).toNat := by omega
          rw [e3]
          split_ifs <;> first | rfl | omega | (congr 2; omega)
    · simp only [applyInversion_generic_loop, if_neg hbe, true_and]
      intro x
      rw [if_neg (by omega)]

end SWILS

namespace SWILS

theorem generic_loop_inv (f : Int → Int) (g : Int → Nat) (hg : ∀ x, g (f x) = g x) :
    ∀ (fuel : Nat) (b e : Int) (st : List Int × List Int),
      (e + 1 - b).toNat ≤ fuel → 0 ≤ b → e < st.1.length →
      (∀ k k2 : Nat, b ≤ (k : Int) → (k : Int) ≤ e → b ≤ (k2 : Int) → (k2 : Int) ≤ e →
        g (st.1.getD k 0) = g (st.1.getD k2 0) → k = k2) →
      (∀ k : Nat, b ≤ (k : Int) → (k : Int) ≤ e → g (st.1.getD k 0) < st.2.length) →
      (applyInversion_generic_loop f g fuel b e st).2.length = st.2.length ∧
      (∀ k : Nat, b ≤ (k : Int) → (k : Int) ≤ e →
        (applyInversion_generic_loop f g fuel b e st).2.getD (g (st.1.getD k 0)) 0
          = b + e - k) ∧
      (∀ m : Nat, (∀ k : Nat, b ≤ (k : Int) → (k : Int) ≤ e → g (st.1.getD k 0) ≠ m) →
        (applyInversion_generic_loop f g fuel b e st).2.getD m 0 = st.2.getD m 0) := by
  intro fuel
  induction fuel with
  | zero =>
    intro b e st hf hb he _ _
    simp only [applyInversion_generic_loop, true_and]
    exact ⟨fun k h1 h2 => by omega, fun m _ => trivial⟩
  | succ fuel ih =>
    intro b e st hf hb he hinj hbound
    obtain ⟨p, q⟩ := st
    simp only at he hinj hbound ⊢
    by_cases hbe : b ≤ e
    · simp only [applyInversion_generic_loop, if_pos hbe]
      have hp2 : ∀ y : Nat, ((p.set b.toNat (f (p.getD e.toNat 0))).set e.toNat
          (f (p.getD b.toNat 0))).getD y 0
          = if y = e.toNat then f (p.getD b.toNat 0)
            else if y = b.toNat then f (p.getD e.toNat 0) else p.getD y 0 := by
        intro y
        simp only [getD_set_eq, List.length_set]
        split_ifs <;> first | rfl | omega
      have hlen : ((p.set b.toNat (f (p.getD e.toNat 0))).set e.toNat
          (f (p.getD b.toNat 0))).length = p.length := by simp
      generalize (p.set b.toNat (f (p.getD e.toNat 0))).set e.toNat (f (p.getD b.toNat 0)) = p2
        at hp2 hlen ⊢
      have hb1 : g (p2.getD b.toNat 0) = g (p.getD e.toNat 0) := by
        rw [hp2]
        by_cases h : b.toNat = e.toNat
        · rw [if_pos h, hg, h]
        · rw [if_neg h, if_pos rfl, hg]
      have he1 : g (p2.getD e.toNat 0) = g (p.getD b.toNat 0) := by
        rw [hp2, if_pos rfl, hg]
      rw [hb1, he1]
      have hbb := hbound b.toNat (by omega) (by omega)
      have hbe2 := hbound e.toNat (by omega) (by omega)
      have hq2 : ∀ m : Nat, ((q.set (g (p.getD e.toNat 0)) b).set (g (p.getD b.toNat 0)) e).getD m 0
          = if m = g (p.getD b.toNat 0) then e
            else if m = g (p.getD e.toNat 0) then b else q.getD m 0 := by
        intro m
        simp only [getD_set_eq, List.length_set]
        split_ifs <;> first | rfl | omega
      have hlen2 : ((q.set (g (p.getD e.toNat 0)) b).set (g (p.getD b.toNat 0)) e).length
          = q.length := by simp
      generalize (q.set (g (p.getD e.toNat 0)) b).set (g (p.getD b.toNat 0)) e = q2
        at hq2 hlen2 ⊢
      have hin : ∀ k : Nat, b + 1 ≤ (k : Int) → (k : Int) ≤ e - 1 →
          p2.getD k 0 = p.getD k 0 := by
        intro k h1 h2
        rw [hp2, if_neg (by omega), if_neg (by omega)]
      obtain ⟨h1, h2, h3⟩ := ih (b + 1) (e - 1) (p2, q2) (by omega) (by omega)
        (by simp only [hlen]; omega)
        (by
          intro k k2 a1 a2 a3 a4
          simp only [hin k a1 a2, hin k2 a3 a4]
          exact hinj k k2 (by omega) (by omega) (by omega) (by omega))
        (by
          intro k a1 a2
          simp only [hin k a1 a2, hlen2]
          exact hbound k (by omega) (by omega))
      simp only at h1 h2 h3
      refine ⟨by rw [h1, hlen2], ?_, ?_⟩
      · intro k a1 a2
        by_cases hk1 : (k : Int) = b
        · have ek : k = b.toNat := by omega
          rw [ek, h3, hq2, if_pos rfl]
          · omega
          · intro k2 c1 c2 c3
            rw [hin k2 c1 c2] at c3
            have := hinj k2 b.toNat (by omega) (by omega) (by omega) (by omega) c3
            omega
        · by_cases hk2 : (k : Int) = e
          · have ek : k = e.toNat := by omega
            rw [ek, h3, hq2]
            · by_cases hh : g (p.getD e.toNat 0) = g (p.getD b.toNat 0)
              · have := hinj e.toNat b.toNat (by omega) (by omega) (by omega) (by omega) hh
                rw [if_pos hh]; omega
              · rw [if_neg hh, if_pos rfl]; omega
            · intro k2 c1 c2 c3
              rw [hin k2 c1 c2] at c3
              have := hinj k2 e.toNat (by omega) (by omega) (by omega) (by omega) c3
              omega
          · have := h2 k (by omega) (by omega)
            rw [hin k (by omega) (by omega)] at this
            rw [this]; omega
      · intro m hm
        rw [h3, hq2, if_neg, if_neg]
        · exact fun h => hm e.toNat (by omega) (by omega) h.symm
        · exact fun h => hm b.toNat (by omega) (by omega) h.symm
        · intro k c1 c2
          rw [hin k c1 c2]
          exact hm k (by omega) (by omega)
    · simp only [applyInversion_generic_loop, if_neg hbe, true_and]
      exact ⟨fun k h1 h2 => by omega, fun m _ => trivial⟩

theorem signed_loop_eq_generic : ∀ (fuel : Nat) (b e : Int) (st : List Int × List Int),
    Permutation.applyInversion_signed_loop fuel b e st
      = applyInversion_generic_loop (fun x => -x) Int.natAbs fuel b e st := by
  intro fuel
  induction fuel with
  | zero => intro b e st; rfl
  | succ fuel ih =>
    intro b e st
    simp only [Permutation.applyInversion_signed_loop, applyInversion_generic_loop, ih]

theorem unsigned_loop_eq_generic : ∀ (fuel : Nat) (b e : Int) (st : List Int × List Int),
    Permutation.applyInversion_unsigned_loop fuel b e st
      = applyInversion_generic_loop (fun x => x) Int.toNat fuel b e st := by
  intro fuel
  induction fuel with
  | zero => intro b e st; rfl
  | succ fuel ih =>
    intro b e st
    simp only [Permutation.applyInversion_unsigned_loop, applyInversion_generic_loop, ih]

end SWILS

namespace SWILS
namespace Permutation

/-- Sign change applied by `applyInversion` to a moved element. -/
theorem applyInversion_n (p : Permutation) (i j : Int) : (p.applyInversion i j).n = p.n := rfl

theorem applyInversion_sign (p : Permutation) (i j : Int) :
    (p.applyInversion i j).sign = p.sign := rfl

theorem applyInversion_permutation (p : Permutation) (i j : Int)
    (hlen : p.permutation.length = p.n.toNat + 2) (hi : 1 ≤ i) (hj : j ≤ p.n) :
    (p.applyInversion i j).permutation.length = p.permutation.length ∧
    ∀ x : Nat, (p.applyInversion i j).permutation.getD x 0
      = if i ≤ (x : Int) ∧ (x : Int) ≤ j then
          (if p.sign then - p.permutation.getD (i + j - x).toNat 0
           else p.permutation.getD (i + j - x).toNat 0)
        else p.permutation.getD x 0 := by
  unfold applyInversion
  by_cases hs : p.sign = true
  · simp only [hs, if_true, signed_loop_eq_generic]
    exact generic_loop_perm (fun x => -x) Int.natAbs _ i j (p.permutation, p.inverse)
      (le_refl _) (by omega) (by simp only [hlen]; omega)
  · simp only [hs, if_false, unsigned_loop_eq_generic]
    exact generic_loop_perm (fun x => x) Int.toNat _ i j (p.permutation, p.inverse)
      (le_refl _) (by omega) (by simp only [hlen]; omega)

theorem applyInversion_inverse (p : Permutation) (i j : Int) (hv : p.Valid)
    (hi : 1 ≤ i) (hj : j ≤ p.n) :
    (p.applyInversion i j).inverse.length = p.inverse.length ∧
    (∀ k : Nat, i ≤ (k : Int) → (k : Int) ≤ j →
      (p.applyInversion i j).inverse.getD (p.permutation.getD k 0).natAbs 0 = i + j - k) ∧
    (∀ m : Nat, (∀ k : Nat, i ≤ (k : Int) → (k : Int) ≤ j →
        (p.permutation.getD k 0).natAbs ≠ m) →
      (p.applyInversion i j).inverse.getD m 0 = p.inverse.getD m 0) := by
  obtain ⟨hn, hlen, hlen2, _, _, _, _, hfw, _, hpos⟩ := hv
  have hfw2 : ∀ k : Nat, 1 ≤ k → k ≤ p.n.toNat →
      1 ≤ (p.permutation.getD k 0).natAbs ∧ (p.permutation.getD k 0).natAbs ≤ p.n.toNat ∧
      p.inverse.getD (p.permutation.getD k 0).natAbs 0 = (k : Int) := by
    intro k h1 h2
    have := hfw (k - 1) (by omega)
    rw [show k - 1 + 1 = k by omega] at this
    refine ⟨this.1, this.2.1, ?_⟩
    rw [this.2.2]; omega
  have hinj : ∀ k k2 : Nat, i ≤ (k : Int) → (k : Int) ≤ j → i ≤ (k2 : Int) → (k2 : Int) ≤ j →
      (p.permutation.getD k 0).natAbs = (p.permutation.getD k2 0).natAbs → k = k2 := by
    intro k k2 a1 a2 a3 a4 h
    have e1 := (hfw2 k (by omega) (by omega)).2.2
    have e2 := (hfw2 k2 (by omega) (by omega)).2.2
    rw [h] at e1
    omega
  unfold applyInversion
  by_cases hs : p.sign = true
  · simp only [hs, if_true, signed_loop_eq_generic]
    exact generic_loop_inv (fun x => -x) Int.natAbs (fun x => Int.natAbs_neg x) _ i j
      (p.permutation, p.inverse) (le_refl _) (by omega) (by simp only [hlen]; omega) hinj
      (fun k a1 a2 => by
        have := (hfw2 k (by omega) (by omega)).2.1
        simp only [hlen2]; omega)
  · simp only [hs, if_false, unsigned_loop_eq_generic]
    have hpos2 : ∀ k : Nat, i ≤ (k : Int) → (k : Int) ≤ j →
        (p.permutation.getD k 0).toNat = (p.permutation.getD k 0).natAbs := by
      intro k a1 a2
      have := hpos (by simpa using hs) (k - 1) (by omega)
      rw [show k - 1 + 1 = k by omega] at this
      omega
    have := generic_loop_inv (fun x => x) Int.toNat (fun x => rfl) _ i j
      (p.permutation, p.inverse) (le_refl _) (by omega) (by simp only [hlen]; omega)
      (fun k k2 a1 a2 a3 a4 h => by
        simp only [hpos2 k a1 a2, hpos2 k2 a3 a4] at h
        exact hinj k k2 a1 a2 a3 a4 h)
      (fun k a1 a2 => by
        have := (hfw2 k (by omega) (by omega)).2.1
        simp only [hpos2 k a1 a2, hlen2]; omega)
    simp only at this
    refine ⟨this.1, ?_, ?_⟩
    · intro k a1 a2
      rw [← hpos2 k a1 a2]
      exact this.2.1 k a1 a2
    · intro m hm
      apply this.2.2 m
      intro k a1 a2
      rw [hpos2 k a1 a2]
      exact hm k a1 a2

end Permutation
end SWILS

namespace SWILS
namespace Permutation

theorem Valid.fw {p : Permutation} (hv : p.Valid) (k : Nat) (h1 : 1 ≤ k) (h2 : k ≤ p.n.toNat) :
    1 ≤ (p.permutation.getD k 0).natAbs ∧ (p.permutation.getD k 0).natAbs ≤ p.n.toNat ∧
    p.inverse.getD (p.permutation.getD k 0).natAbs 0 = (k : Int) := by
  obtain ⟨_, _, _, _, _, _, _, hfw, _, _⟩ := hv
  have := hfw (k - 1) (by omega)
  rw [show k - 1 + 1 = k by omega] at this
  refine ⟨this.1, this.2.1, ?_⟩
  rw [this.2.2]; omega

theorem Valid.bw {p : Permutation} (hv : p.Valid) (m : Nat) (h1 : 1 ≤ m) (h2 : m ≤ p.n.toNat) :
    1 ≤ p.inverse.getD m 0 ∧ p.inverse.getD m 0 ≤ p.n ∧
    (p.permutation.getD (p.inverse.getD m 0).toNat 0).natAbs = m := by
  obtain ⟨_, _, _, _, _, _, _, _, hbw, _⟩ := hv
  have := hbw (m - 1) (by omega)
  rw [show m - 1 + 1 = m by omega] at this
  exact this

theorem Valid.pos {p : Permutation} (hv : p.Valid) (hs : p.sign = false) (k : Nat) (h1 : 1 ≤ k)
    (h2 : k ≤ p.n.toNat) : 0 < p.permutation.getD k 0 := by
  obtain ⟨_, _, _, _, _, _, _, _, _, hpos⟩ := hv
  have := hpos hs (k - 1) (by omega)
  rwa [show k - 1 + 1 = k by omega] at this

theorem Valid.inj {p : Permutation} (hv : p.Valid) (k k2 : Nat) (h1 : 1 ≤ k)
    (h2 : k ≤ p.n.toNat) (h3 : 1 ≤ k2) (h4 : k2 ≤ p.n.toNat)
    (h : (p.permutation.getD k 0).natAbs = (p.permutation.getD k2 0).natAbs) : k = k2 := by
  have e1 := (hv.fw k h1 h2).2.2
  have e2 := (hv.fw k2 h3 h4).2.2
  rw [h] at e1
  omega

theorem natAbs_ite_neg (c : Bool) (x : Int) : (if c then -x else x).natAbs = x.natAbs := by
  cases c <;> simp

/-- The class invariant is kept by `applyInversion(i, j)` for `1 ≤ i ≤ j ≤ n`. -/
theorem applyInversion_valid (p : Permutation) (i j : Int) (hv : p.Valid)
    (hi : 1 ≤ i) (hij : i ≤ j) (hj : j ≤ p.n) : (p.applyInversion i j).Valid := by
  have hv0 := hv
  obtain ⟨hn, hlen, hlen2, hs0, hs1, hi0, hi1, _, _, _⟩ := hv0
  obtain ⟨pl, pp⟩ := applyInversion_permutation p i j hlen hi hj
  obtain ⟨il, ifw, ibw⟩ := applyInversion_inverse p i j hv hi hj
  have hq : ∀ k : Nat, 1 ≤ k → k ≤ p.n.toNat →
      ((p.applyInversion i j).permutation.getD k 0).natAbs
        = if i ≤ (k : Int) ∧ (k : Int) ≤ j then (p.permutation.getD (i + j - k).toNat 0).natAbs
          else (p.permutation.getD k 0).natAbs := by
    intro k _ _
    rw [pp k]
    by_cases h : i ≤ (k : Int) ∧ (k : Int) ≤ j
    · simp only [if_pos h]
      exact natAbs_ite_neg p.sign _
    · simp only [if_neg h]
  have nothit : ∀ k : Nat, 1 ≤ k → k ≤ p.n.toNat → ¬ (i ≤ (k : Int) ∧ (k : Int) ≤ j) →
      ∀ k2 : Nat, i ≤ (k2 : Int) → (k2 : Int) ≤ j →
        (p.permutation.getD k2 0).natAbs ≠ (p.permutation.getD k 0).natAbs := by
    intro k a1 a2 a3 k2 b1 b2 h
    have := hv.inj k2 k (by omega) (by omega) a1 a2 h
    omega
  refine ⟨hn, by rw [applyInversion_n, pl, hlen], by rw [applyInversion_n, il, hlen2], ?_, ?_,
    ?_, ?_, ?_, ?_, ?_⟩
  · rw [pp 0, if_neg (by omega)]; exact hs0
  · rw [applyInversion_n, pp, if_neg (by omega)]; exact hs1
  · rw [ibw 0]
    · exact hi0
    · intro k a1 a2
      have := (hv.fw k (by omega) (by omega)).1
      omega
  · rw [applyInversion_n, ibw]
    · exact hi1
    · intro k a1 a2
      have := (hv.fw k (by omega) (by omega)).2.1
      omega
  · intro k hk
    rw [applyInversion_n] at hk ⊢
    rw [hq (k + 1) (by omega) (by omega)]
    by_cases h : i ≤ ((k + 1 : Nat) : Int) ∧ ((k + 1 : Nat) : Int) ≤ j
    · rw [if_pos h]
      have a := hv.fw (i + j - ((k + 1 : Nat) : Int)).toNat (by omega) (by omega)
      refine ⟨a.1, a.2.1, ?_⟩
      rw [ifw _ (by omega) (by omega)]
      omega
    · rw [if_neg h]
      have a := hv.fw (k + 1) (by omega) (by omega)
      refine ⟨a.1, a.2.1, ?_⟩
      rw [ibw _ (nothit (k + 1) (by omega) (by omega) h), a.2.2]
      omega
  · intro m hm
    rw [applyInversion_n] at hm ⊢
    have b := hv.bw (m + 1) (by omega) (by omega)
    by_cases h : i ≤ p.inverse.getD (m + 1) 0 ∧ p.inverse.getD (m + 1) 0 ≤ j
    · have e := ifw (p.inverse.getD (m + 1) 0).toNat (by omega) (by omega)
      rw [b.2.2] at e
      rw [e]
      refine ⟨by omega, by omega, ?_⟩
      rw [hq _ (by omega) (by omega), if_pos (by omega)]
      have : (i + j - ((i + j - ((p.inverse.getD (m + 1) 0).toNat : Int)).toNat : Int)).toNat
          = (p.inverse.getD (m + 1) 0).toNat := by omega
      rw [this, b.2.2]
    · have e : (p.applyInversion i j).inverse.getD (m + 1) 0 = p.inverse.getD (m + 1) 0 := by
        apply ibw
        intro k2 b1 b2 hh
        rw [← b.2.2] at hh
        have := hv.inj k2 (p.inverse.getD (m + 1) 0).toNat (by omega) (by omega) (by omega)
          (by omega) hh
        omega
      rw [e]
      refine ⟨b.1, b.2.1, ?_⟩
      rw [hq _ (by omega) (by omega), if_neg (by omega), b.2.2]
  · intro hs k hk
    rw [applyInversion_n] at hk
    rw [applyInversion_sign] at hs
    rw [pp]
    by_cases h : i ≤ ((k + 1 : Nat) : Int) ∧ ((k + 1 : Nat) : Int) ≤ j
    · rw [if_pos h]
      simp only [hs]
      exact hv.pos hs _ (by omega) (by omega)
    · rw [if_neg h]
      exact hv.pos hs _ (by omega) (by omega)

end Permutation
end SWILS

namespace SWILS

theorem reverseRange_map_perm {β : Type} (f : Int → Int) (h : Int → β) (hf : ∀ x, h (f x) = h x)
    (a b : Nat) (hab : a ≤ b) (E : List Int) :
    List.Perm ((reverseRange f a b E).map h) (E.map h) := by
  have e1 : E = E.take a ++ ((E.drop a).take (b + 1 - a) ++ E.drop (b + 1)) := by
    have : E.drop (b + 1) = (E.drop a).drop (b + 1 - a) := by
      rw [List.drop_drop]; congr 1; omega
    rw [this, List.take_append_drop, List.take_append_drop]
  have e2 : (reverseRange f a b E).map h
      = (E.take a).map h ++ ((((E.drop a).take (b + 1 - a)).map h).reverse
          ++ (E.drop (b + 1)).map h) := by
    unfold reverseRange
    simp only [List.map_append, List.map_map, List.append_assoc, List.map_reverse]
    congr 2
    congr 1
    apply List.map_congr_left
    intro x _
    exact hf x
  rw [e2]
  conv_rhs => rw [e1]
  simp only [List.map_append]
  exact List.Perm.append_left _ (List.Perm.append_right _ (List.reverse_perm _))

namespace Permutation

theorem ext_fields (a b : Permutation) (h1 : a.n = b.n) (h2 : a.permutation = b.permutation)
    (h3 : a.inverse = b.inverse) (h4 : a.sign = b.sign) : a = b := by
  cases a; cases b; simp_all

theorem entries_length (p : Permutation) (hlen : p.permutation.length = p.n.toNat + 2) :
    p.entries.length = p.n.toNat := by
  unfold entries
  simp only [List.length_take, List.length_drop, hlen]
  omega

theorem entries_getD (p : Permutation) (x : Nat)
    (hx : x < p.n.toNat) : p.entries.getD x 0 = p.permutation.getD (x + 1) 0 := by
  unfold entries
  simp only [List.getD_eq_getElem?_getD, List.getElem?_take, hx, if_true, List.getElem?_drop]
  rw [Nat.add_comm]

theorem applyInversion_entries (p : Permutation) (i j : Int)
    (hn : 0 ≤ p.n) (hlen : p.permutation.length = p.n.toNat + 2)
    (hi : 1 ≤ i) (hij : i ≤ j) (hj : j ≤ p.n) :
    (p.applyInversion i j).entries
      = reverseRange (fun x => if p.sign then -x else x) (i - 1).toNat (j - 1).toNat p.entries := by
  obtain ⟨pl, pp⟩ := applyInversion_permutation p i j hlen hi hj
  have hl := entries_length p hlen
  have hlen2 : (p.applyInversion i j).permutation.length = (p.applyInversion i j).n.toNat + 2 := by
    rw [pl, hlen]; rfl
  have hl2 : (p.applyInversion i j).entries.length = p.n.toNat :=
    entries_length (p.applyInversion i j) hlen2
  apply ext_getD
  · rw [hl2, length_reverseRange _ _ _ _ (by omega) (by omega), hl]
  · intro x hx
    rw [hl2] at hx
    have hx2 : x < (p.applyInversion i j).n.toNat := hx
    rw [entries_getD (p.applyInversion i j) x hx2, pp,
      getD_reverseRange _ _ _ _ (by omega) (by omega)]
    by_cases h : i ≤ ((x + 1 : Nat) : Int) ∧ ((x + 1 : Nat) : Int) ≤ j
    · have h2 : (i - 1).toNat ≤ x ∧ x ≤ (j - 1).toNat := by omega
      simp only [if_pos h, if_pos h2]
      rw [entries_getD p _ (by omega)]
      have : (i + j - ((x + 1 : Nat) : Int)).toNat = (i - 1).toNat + (j - 1).toNat - x + 1 := by
        omega
      rw [this]
    · have h2 : ¬ ((i - 1).toNat ≤ x ∧ x ≤ (j - 1).toNat) := by omega
      simp only [if_neg h, if_neg h2]
      rw [entries_getD p x hx]

/-- C9. Result of `applyInversion(i, j)` on a valid permutation, `1 ≤ i ≤ j ≤ n`: the new
entry at every position `k` of `[i, j]` is `p[i + j - k]`, negated when the permutation is
signed; every position outside of `[i, j]`, the sentinels `0` and `n + 1` included, is
unchanged. -/
theorem applyInversion_result (p : Permutation) (i j : Int) (hv : p.Valid)
    (hi : 1 ≤ i) (hij : i ≤ j) (hj : j ≤ p.n) :
    (∀ k : Int, i ≤ k → k ≤ j →
      (p.applyInversion i j).element_at k
        = if p.sign then - p.element_at (i + j - k) else p.element_at (i + j - k)) ∧
    (∀ k : Int, 0 ≤ k → k ≤ p.n + 1 → (k < i ∨ j < k) →
      (p.applyInversion i j).element_at k = p.element_at k) := by
  obtain ⟨_, pp⟩ := applyInversion_permutation p i j hv.2.1 hi hj
  constructor
  · intro k h1 h2
    unfold element_at
    rw [pp, if_pos (by omega)]
    have : (i + j - ((k.toNat : Nat) : Int)).toNat = (i + j - k).toNat := by omega
    rw [this]
  · intro k h1 h2 h3
    unfold element_at
    rw [pp, if_neg (by omega)]

/-- C8. Involution: on a valid permutation, `applyInversion(i, j)` called twice with
`1 ≤ i ≤ j ≤ n` restores the object, that is the vector `permutation` and the vector
`inverse`, to its original content. -/
theorem applyInversion_involution (p : Permutation) (i j : Int) (hv : p.Valid)
    (hi : 1 ≤ i) (hij : i ≤ j) (hj : j ≤ p.n) :
    (p.applyInversion i j).applyInversion i j = p := by
  have hv2 := applyInversion_valid p i j hv hi hij hj
  obtain ⟨pl, pp⟩ := applyInversion_permutation p i j hv.2.1 hi hj
  obtain ⟨il, ifw, ibw⟩ := applyInversion_inverse p i j hv hi hj
  obtain ⟨pl2, pp2⟩ := applyInversion_permutation (p.applyInversion i j) i j hv2.2.1 hi hj
  obtain ⟨il2, ifw2, ibw2⟩ := applyInversion_inverse (p.applyInversion i j) i j hv2 hi hj
  have hq : ∀ k : Nat, i ≤ (k : Int) → (k : Int) ≤ j →
      ((p.applyInversion i j).permutation.getD k 0).natAbs
        = (p.permutation.getD (i + j - k).toNat 0).natAbs := by
    intro k a1 a2
    rw [pp k, if_pos ⟨a1, a2⟩]
    exact natAbs_ite_neg p.sign _
  apply ext_fields
  · rfl
  · apply ext_getD
    · rw [pl2, pl]
    · intro x _
      rw [pp2]
      by_cases h : i ≤ (x : Int) ∧ (x : Int) ≤ j
      · have h2 : i ≤ (((i + j - (x : Int)).toNat : Nat) : Int) ∧
            (((i + j - (x : Int)).toNat : Nat) : Int) ≤ j := by omega
        have : (i + j - (((i + j - (x : Int)).toNat : Nat) : Int)).toNat = x := by omega
        rw [pp]
        simp only [applyInversion_sign, if_pos h, if_pos h2, this]
        cases p.sign <;> simp
      · rw [if_neg h, pp, if_neg h]
  · apply ext_getD
    · rw [il2, il]
    · intro m _
      by_cases h : ∃ k : Nat, i ≤ (k : Int) ∧ (k : Int) ≤ j ∧
          ((p.applyInversion i j).permutation.getD k 0).natAbs = m
      · obtain ⟨k, a1, a2, a3⟩ := h
        rw [← a3, ifw2 k a1 a2, hq k a1 a2]
        have := (hv.fw (i + j - (k : Int)).toNat (by omega) (by have := hv.1; omega)).2.2
        rw [this]; omega
      · have n1 : ∀ k : Nat, i ≤ (k : Int) → (k : Int) ≤ j →
            ((p.applyInversion i j).permutation.getD k 0).natAbs ≠ m :=
          fun k a1 a2 a3 => h ⟨k, a1, a2, a3⟩
        rw [ibw2 m n1, ibw m]
        intro k a1 a2 a3
        apply n1 (i + j - (k : Int)).toNat (by omega) (by omega)
        rw [hq _ (by omega) (by omega), ← a3]
        congr 2
        omega
  · rfl

/-- C10. The invariant of the data model is kept by `applyInversion(i, j)` for
`1 ≤ i ≤ j ≤ n`: if the absolute values of the entries `1..n` are exactly `{1..n}`, the
sentinels are `permutation[0] = 0` and `permutation[n + 1] = n + 1`, and the entries of an
unsigned permutation are positive, then the same holds afterwards. -/
theorem applyInversion_invariant (p : Permutation) (i j : Int) (hv : p.Invariant)
    (hi : 1 ≤ i) (hij : i ≤ j) (hj : j ≤ p.n) : (p.applyInversion i j).Invariant := by
  obtain ⟨hn, hlen, hperm, h0, h1, hpos⟩ := hv
  obtain ⟨pl, pp⟩ := applyInversion_permutation p i j hlen hi hj
  have he := applyInversion_entries p i j hn hlen hi hij hj
  refine ⟨hn, by rw [pl, hlen]; rfl, ?_, ?_, ?_, ?_⟩
  · rw [he, applyInversion_n]
    refine List.Perm.trans (reverseRange_map_perm _ iabs ?_ _ _ (by omega) _) hperm
    intro x
    unfold iabs
    rw [natAbs_ite_neg]
  · rw [pp 0, if_neg (by omega)]; exact h0
  · rw [applyInversion_n, pp, if_neg (by omega)]; exact h1
  · intro hs x hx
    rw [applyInversion_sign] at hs
    rw [he, hs] at hx
    have := reverseRange_map_perm (fun x => if false = true then -x else x) (fun x => x)
      (fun x => by simp) (i - 1).toNat (j - 1).toNat (by omega) p.entries
    simp only [List.map_id'] at this
    exact hpos hs x (this.subset hx)

end Permutation
end SWILS

namespace SWILS
namespace Permutation

/-- Witness of C9 on the signed permutation `-2, 1, 3` and the inversion `(1, 2)`. -/
theorem applyInversion_result_witness :
    (Permutation.mk 3 [0, -2, 1, 3, 4] [0, 2, 1, 3, 4] true).Valid ∧
    ((∀ k : Int, 1 ≤ k → k ≤ 2 →
      ((Permutation.mk 3 [0, -2, 1, 3, 4] [0, 2, 1, 3, 4] true).applyInversion 1 2).element_at k
        = if (Permutation.mk 3 [0, -2, 1, 3, 4] [0, 2, 1, 3, 4] true).sign then
            - (Permutation.mk 3 [0, -2, 1, 3, 4] [0, 2, 1, 3, 4] true).element_at (1 + 2 - k)
          else (Permutation.mk 3 [0, -2, 1, 3, 4] [0, 2, 1, 3, 4] true).element_at (1 + 2 - k)) ∧
    (∀ k : Int, 0 ≤ k → k ≤ (Permutation.mk 3 [0, -2, 1, 3, 4] [0, 2, 1, 3, 4] true).n + 1 →
      (k < 1 ∨ 2 < k) →
      ((Permutation.mk 3 [0, -2, 1, 3, 4] [0, 2, 1, 3, 4] true).applyInversion 1 2).element_at k
        = (Permutation.mk 3 [0, -2, 1, 3, 4] [0, 2, 1, 3, 4] true).element_at k)) :=
  ⟨by decide, applyInversion_result (Permutation.mk 3 [0, -2, 1, 3, 4] [0, 2, 1, 3, 4] true) 1 2
    (by decide) (by decide) (by decide) (by decide)⟩

/-- Witness of C8 on the signed permutation `-2, 1, 3` and the inversion `(1, 3)`. -/
theorem applyInversion_involution_witness :
    (Permutation.mk 3 [0, -2, 1, 3, 4] [0, 2, 1, 3, 4] true).Valid ∧
    ((Permutation.mk 3 [0, -2, 1, 3, 4] [0, 2, 1, 3, 4] true).applyInversion 1 3).applyInversion 1 3
      = Permutation.mk 3 [0, -2, 1, 3, 4] [0, 2, 1, 3, 4] true :=
  ⟨by decide, applyInversion_involution (Permutation.mk 3 [0, -2, 1, 3, 4] [0, 2, 1, 3, 4] true)
    1 3 (by decide) (by decide) (by decide) (by decide)⟩

/-- Witness of C10 on the unsigned permutation `2, 1, 4, 3` and the inversion `(2, 4)`. -/
theorem applyInversion_invariant_witness :
    (Permutation.mk 4 [0, 2, 1, 4, 3, 5] [0, 2, 1, 4, 3, 5] false).Invariant ∧
    ((Permutation.mk 4 [0, 2, 1, 4, 3, 5] [0, 2, 1, 4, 3, 5] false).applyInversion 2 4).Invariant :=
  ⟨by decide, applyInversion_invariant
    (Permutation.mk 4 [0, 2, 1, 4, 3, 5] [0, 2, 1, 4, 3, 5] false) 2 4
    (by decide) (by decide) (by decide) (by decide)⟩

end Permutation
end SWILS

namespace SWILS

theorem Inversion.ok_zero (n : Int) : Inversion.zero.Ok n := Or.inl rfl

theorem Problem.mem_swi_ls (n : Int) (sign : Bool) (r : Inversion)
    (h : r ∈ Problem.swi_ls n sign) : r.InRange n := by
  unfold Problem.swi_ls at h
  simp only [List.mem_flatMap, List.mem_map, List.mem_range, List.mem_range'_1] at h
  obtain ⟨i, hi, j, hj, e⟩ := h
  subst e
  refine ⟨by simp only; omega, by simp only; omega, by simp only; omega, rfl⟩

theorem Problem.create_eq (ID N : Int) (S : Bool) (problem : Problem)
    (h : Problem.create ID N S = some problem) :
    problem.n = N ∧ problem.sign = S ∧ problem.inversions = Problem.swi_ls N S := by
  unfold Problem.create at h
  split at h
  · simp only [Option.some.injEq] at h
    subst h
    exact ⟨rfl, rfl, rfl⟩
  · exact absurd h (by simp)

theorem bestBenefit_mem (fm : FloatModel) (score : Permutation → fm.F) (pi : Permutation)
    (piScore : fm.F) (inversions : List Inversion) (init : fm.F × Inversion) :
    (bestBenefit fm score pi piScore inversions init).2 = init.2 ∨
    (bestBenefit fm score pi piScore inversions init).2 ∈ inversions := by
  unfold bestBenefit
  induction inversions generalizing init with
  | nil => left; rfl
  | cons r rest ih =>
    simp only [List.foldl_cons]
    rcases ih (if fm.gt (fm.div (fm.sub piScore (score ((Permutation.copy pi).applyInversion r.i r.j)))
        (fm.ofInt r.w)) init.1 = true then
        (fm.div (fm.sub piScore (score ((Permutation.copy pi).applyInversion r.i r.j)))
          (fm.ofInt r.w), r) else init) with h | h
    · rw [h]
      split
      · right; simp
      · left; rfl
    · right; exact List.mem_cons_of_mem _ h

theorem nb_ok (fm : FloatModel) (pi : Permutation) (problem : Problem)
    (hp : ∀ r ∈ problem.inversions, r.InRange pi.n) : (nb fm pi problem).Ok pi.n := by
  unfold nb
  simp only [Problem.getInversions]
  have key : ∀ (l : List Inversion) (init : fm.F × Inversion × Inversion),
      (∀ r ∈ l, r.InRange pi.n) → init.2.1.Ok pi.n → init.2.2.Ok pi.n →
      ((l.foldl
        (fun (st : fm.F × Inversion × Inversion) (r : Inversion) =>
          if fm.gt (fm.div (fm.sub (fm.ofInt pi.numberOfBreakpoints)
              (fm.ofInt ((Permutation.copy pi).applyInversion r.i r.j).numberOfBreakpoints))
              (fm.ofInt r.w)) st.1 = true then
            (fm.div (fm.sub (fm.ofInt pi.numberOfBreakpoints)
              (fm.ofInt ((Permutation.copy pi).applyInversion r.i r.j).numberOfBreakpoints))
              (fm.ofInt r.w), r, st.2.2)
          else if (fm.eq (fm.div (fm.sub (fm.ofInt pi.numberOfBreakpoints)
              (fm.ofInt ((Permutation.copy pi).applyInversion r.i r.j).numberOfBreakpoints))
              (fm.ofInt r.w)) (fm.ofInt 0) && decide (r.i = r.j) && decide (st.2.2.i = 0)) = true
            then (st.1, st.2.1, r)
          else st) init).2.1.Ok pi.n) ∧
      ((l.foldl
        (fun (st : fm.F × Inversion × Inversion) (r : Inversion) =>
          if fm.gt (fm.div (fm.sub (fm.ofInt pi.numberOfBreakpoints)
              (fm.ofInt ((Permutation.copy pi).applyInversion r.i r.j).numberOfBreakpoints))
              (fm.ofInt r.w)) st.1 = true then
            (fm.div (fm.sub (fm.ofInt pi.numberOfBreakpoints)
              (fm.ofInt ((Permutation.copy pi).applyInversion r.i r.j).numberOfBreakpoints))
              (fm.ofInt r.w), r, st.2.2)
          else if (fm.eq (fm.div (fm.sub (fm.ofInt pi.numberOfBreakpoints)
              (fm.ofInt ((Permutation.copy pi).applyInversion r.i r.j).numberOfBreakpoints))
              (fm.ofInt r.w)) (fm.ofInt 0) && decide (r.i = r.j) && decide (st.2.2.i = 0)) = true
            then (st.1, st.2.1, r)
          else st) init).2.2.Ok pi.n) := by
    intro l
    induction l with
    | nil => intro init _ h1 h2; exact ⟨h1, h2⟩
    | cons r rest ih =>
      intro init hl h1 h2
      simp only [List.foldl_cons]
      apply ih
      · exact fun x hx => hl x (List.mem_cons_of_mem _ hx)
      · split
        · exact Or.inr (hl r (List.mem_cons_self _ _))
        · split
          · exact h1
          · exact h1
      · split
        · exact h2
        · split
          · exact Or.inr (hl r (List.mem_cons_self _ _))
          · exact h2
  obtain ⟨k1, k2⟩ := key problem.inversions (fm.ofInt 0, Inversion.zero, Inversion.zero) hp
    (Inversion.ok_zero _) (Inversion.ok_zero _)
  split
  · exact k1
  · split
    · exact k2
    · exact Inversion.ok_zero _

end SWILS

namespace SWILS

theorem getD_zero_ok (n : Int) (l : List Inversion) (h : ∀ r ∈ l, r.InRange n) :
    (l.getD 0 Inversion.zero).Ok n := by
  cases l with
  | nil => exact Or.inl rfl
  | cons a t => exact Or.inr (h a (List.mem_cons_self _ _))

theorem lr_loop_spec (pi : Permutation) : ∀ (fuel : Nat) (right left : Int),
    1 ≤ right → right ≤ left + 1 →
    1 ≤ (lr_loop pi fuel right left).1 ∧
    (lr_loop pi fuel right left).1 ≤ (lr_loop pi fuel right left).2 + 1 ∧
    (lr_loop pi fuel right left).1 + (lr_loop pi fuel right left).2 = right + left := by
  intro fuel
  induction fuel with
  | zero => intro right left h1 h2; exact ⟨h1, h2, rfl⟩
  | succ fuel ih =>
    intro right left h1 h2
    simp only [lr_loop]
    split
    · split
      · exact ⟨h1, h2, rfl⟩
      · have := ih (right + 1) (left - 1) (by omega) (by omega)
        refine ⟨this.1, this.2.1, ?_⟩
        rw [this.2.2]; omega
    · exact ⟨h1, h2, rfl⟩

theorem Problem.inversionsToCorrectPosition_inRange (problem : Problem) (pi : Permutation)
    (hv : pi.Valid) (hn : problem.n = pi.n) (pos : Int) (h1 : 1 ≤ pos) (h2 : pos ≤ pi.n) :
    ∀ r ∈ (problem.inversionsToCorrectPosition pos pi).1, r.InRange pi.n := by
  have hb := hv.bw pos.natAbs (by omega) (by omega)
  have hc : 1 ≤ pi.position pos ∧ pi.position pos ≤ pi.n := ⟨hb.1, hb.2.1⟩
  intro r hr
  unfold Problem.inversionsToCorrectPosition at hr
  simp only [Problem.getInversionWeight, hn] at hr
  split at hr
  · split at hr
    · simp only [List.mem_singleton] at hr
      subst hr
      exact ⟨h1, le_refl _, h2, rfl⟩
    · simp at hr
  · split at hr
    · simp only [List.mem_cons, List.mem_singleton, List.not_mem_nil, or_false] at hr
      rcases hr with hr | hr
      · subst hr
        refine ⟨?_, ?_, ?_, rfl⟩ <;> simp only <;> split_ifs <;> omega
      · subst hr
        exact ⟨h1, le_refl _, h2, rfl⟩
    · simp only [List.mem_singleton] at hr
      subst hr
      refine ⟨?_, ?_, ?_, rfl⟩ <;> simp only <;> split_ifs <;> omega

theorem lr_ok (pi : Permutation) (problem : Problem) (hv : pi.Valid) (hn : problem.n = pi.n)
    (h1 : 1 ≤ pi.n) : (lr pi problem).Ok pi.n := by
  have hl := lr_loop_spec pi pi.n.toNat 1 pi.n (le_refl _) (by omega)
  have hR := Problem.inversionsToCorrectPosition_inRange problem pi hv hn
    (lr_loop pi pi.n.toNat 1 pi.n).1 (by omega) (by omega)
  have hL := Problem.inversionsToCorrectPosition_inRange problem pi hv hn
    (lr_loop pi pi.n.toNat 1 pi.n).2 (by omega) (by omega)
  have oR := getD_zero_ok pi.n _ hR
  have oL := getD_zero_ok pi.n _ hL
  unfold lr
  simp only [Permutation.size]
  split_ifs <;> assumption

theorem adjustSlices_loop_ok (pi : Permutation) (problem : Problem) (hn : problem.n = pi.n) :
    ∀ (fuel : Nat) (i j : Int) (r : Inversion), 1 ≤ i → i + j = pi.n + 1 →
      adjustSlices_loop pi problem fuel i j = some r → r.InRange pi.n := by
  intro fuel
  induction fuel with
  | zero => intro i j r _ _ h; simp [adjustSlices_loop] at h
  | succ fuel ih =>
    intro i j r h1 h2 h
    simp only [adjustSlices_loop] at h
    split at h
    · split at h
      · simp only [Option.some.injEq] at h
        subst h
        exact ⟨h1, by assumption, by simp only; omega, by simp [Problem.getInversionWeight, hn]⟩
      · exact ih (i + 1) (j - 1) r (by omega) (by omega) h
    · simp at h

theorem adjustSlices_unitary_ok (pi : Permutation) (problem : Problem) (hn : problem.n = pi.n) :
    ∀ (l : List Nat) (r : Inversion), (∀ k ∈ l, k < pi.n.toNat) →
      adjustSlices_unitary pi problem l = some r → r.InRange pi.n := by
  intro l
  induction l with
  | nil => intro r _ h; simp [adjustSlices_unitary] at h
  | cons k rest ih =>
    intro r hl h
    simp only [adjustSlices_unitary] at h
    have hk := hl k (List.mem_cons_self _ _)
    split at h
    · simp only [Option.some.injEq] at h
      subst h
      exact ⟨by simp only; omega, le_refl _, by simp only; omega,
        by simp [Problem.getInversionWeight, hn]⟩
    · exact ih r (fun x hx => hl x (List.mem_cons_of_mem _ hx)) h

theorem adjustSlices_ok (pi : Permutation) (problem : Problem) (hn : problem.n = pi.n) :
    (adjustSlices pi problem).Ok pi.n := by
  unfold adjustSlices
  simp only [Permutation.size]
  split
  · rename_i r h
    exact Or.inr (adjustSlices_loop_ok pi problem hn _ 1 pi.n r (le_refl _) (by omega) h)
  · split
    · split
      · rename_i r h
        exact Or.inr (adjustSlices_unitary_ok pi problem hn _ r
          (fun k hk => List.mem_range.mp hk) h)
      · exact Inversion.ok_zero _
    · exact Inversion.ok_zero _

end SWILS

namespace SWILS

theorem smp_mistake_loop_spec (pi : Permutation) : ∀ (fuel : Nat) (sm cs fs : Int),
    sm ≤ pi.size + 1 → pi.size + 1 ≤ sm + fuel →
    (smp_mistake_loop pi fuel sm cs fs).1 = pi.size + 1 ∨
    (sm ≤ (smp_mistake_loop pi fuel sm cs fs).1 ∧
      (smp_mistake_loop pi fuel sm cs fs).1 < pi.size + 1 ∧
      (smp_mistake_loop pi fuel sm cs fs).2.1
        = pi.currentElementSlice (smp_mistake_loop pi fuel sm cs fs).1 ∧
      (smp_mistake_loop pi fuel sm cs fs).2.2
        = pi.finalElementSlice (smp_mistake_loop pi fuel sm cs fs).1 ∧
      (smp_mistake_loop pi fuel sm cs fs).2.1 ≠ (smp_mistake_loop pi fuel sm cs fs).2.2) := by
  intro fuel
  induction fuel with
  | zero =>
    intro sm cs fs h1 h2
    left
    simp only [smp_mistake_loop]
    omega
  | succ fuel ih =>
    intro sm cs fs h1 h2
    simp only [smp_mistake_loop]
    split
    · split
      · right
        rename_i h3 h4
        exact ⟨le_refl _, h3, rfl, rfl, h4⟩
      · rcases ih (sm + 1) (pi.currentElementSlice sm) (pi.finalElementSlice sm) (by omega)
          (by push_cast at h2 ⊢; omega) with h | h
        · left; exact h
        · right; exact ⟨by omega, h.2⟩
    · left
      simp only
      omega

theorem bestBenefit_ok (fm : FloatModel) (score : Permutation → fm.F) (pi : Permutation)
    (piScore : fm.F) (inversions : List Inversion) (init : fm.F × Inversion) (n : Int)
    (hl : ∀ r ∈ inversions, r.InRange n) (hi : init.2.Ok n) :
    (bestBenefit fm score pi piScore inversions init).2.Ok n := by
  rcases bestBenefit_mem fm score pi piScore inversions init with h | h
  · rw [h]; exact hi
  · exact Or.inr (hl _ h)

theorem smp_ok (fm : FloatModel) (pi : Permutation) (problem : Problem) (hv : pi.Valid)
    (hn : problem.n = pi.n) (hp : ∀ r ∈ problem.inversions, r.InRange pi.n) :
    (smp fm pi problem).Ok pi.n := by
  unfold smp
  simp only
  split
  · split
    · exact adjustSlices_ok pi problem hn
    · rename_i _ hne
      have hspec := smp_mistake_loop_spec pi (pi.size + 1).toNat 0 0 0
        (by have := hv.1; simp only [Permutation.size]; omega)
        (by have := hv.1; simp only [Permutation.size]; omega)
      rcases hspec with h | ⟨h1, h2, h3, h4, h5⟩
      · exact absurd h hne
      · generalize smp_mistake_loop pi (pi.size + 1).toNat 0 0 0 = m at *
        obtain ⟨sm, cs, fs⟩ := m
        simp only at h1 h2 h3 h4 h5 hne ⊢
        simp only [Permutation.size] at h2
        have hsm : 1 ≤ sm := by
          by_contra hc
          have e : sm = 0 := by omega
          subst e
          apply h5
          rw [h3, h4]
          unfold Permutation.currentElementSlice Permutation.finalElementSlice
            Permutation.position iabs
          simp only [Int.natAbs_zero, Nat.cast_zero]
          rw [hv.2.2.2.2.2.1]
        have hb := hv.bw sm.natAbs (by omega) (by omega)
        have hcs : 1 ≤ cs ∧ cs ≤ pi.n := by
          rw [h3]
          unfold Permutation.currentElementSlice Permutation.position slice
          omega
        have hfs : 1 ≤ fs ∧ fs ≤ pi.n := by
          rw [h4]
          unfold Permutation.finalElementSlice slice iabs
          omega
        unfold symmetric Permutation.size
        right
        split_ifs
        all_goals refine ⟨?_, ?_, ?_, ?_⟩
        all_goals first
          | omega
          | (simp only; omega)
          | (simp only [Problem.getInversionWeight, hn])
  · exact bestBenefit_ok fm _ pi _ _ _ pi.n hp (Inversion.ok_zero _)

end SWILS

namespace SWILS

theorem Permutation.exists_mismatch (pi : Permutation) (h : pi.isIdentity = false) :
    ∃ k : Int, 1 ≤ k ∧ k ≤ pi.n ∧ pi.element_at k ≠ k := by
  unfold Permutation.isIdentity at h
  rw [List.all_eq_false] at h
  obtain ⟨k, hk, hne⟩ := h
  rw [List.mem_range] at hk
  refine ⟨(k : Int) + 1, by omega, by omega, ?_⟩
  unfold Permutation.element_at
  have : ((k : Int) + 1).toNat = k + 1 := by omega
  rw [this]
  simpa using hne

theorem defineRight_loop_spec (pi : Permutation) : ∀ (fuel : Nat) (right : Int),
    right ≤ defineRight_loop pi fuel right ∧
    ∀ x : Int, right ≤ x → x < defineRight_loop pi fuel right → pi.element_at x = x := by
  intro fuel
  induction fuel with
  | zero => intro right; exact ⟨le_refl _, fun x h1 h2 => by simp only [defineRight_loop] at h2; omega⟩
  | succ fuel ih =>
    intro right
    simp only [defineRight_loop]
    split
    · split
      · exact ⟨le_refl _, fun x h1 h2 => by omega⟩
      · rename_i h3 h4
        have := ih (right + 1)
        refine ⟨by omega, ?_⟩
        intro x h1 h2
        by_cases hx : x = right
        · subst hx; simpa using h4
        · exact this.2 x (by omega) h2
    · exact ⟨le_refl _, fun x h1 h2 => by omega⟩

theorem defineLeft_loop_spec (pi : Permutation) : ∀ (fuel : Nat) (left : Int),
    defineLeft_loop pi fuel left ≤ left ∧ (1 ≤ left → 1 ≤ defineLeft_loop pi fuel left) ∧
    ∀ x : Int, defineLeft_loop pi fuel left < x → x ≤ left → pi.element_at x = x := by
  intro fuel
  induction fuel with
  | zero =>
    intro left
    exact ⟨le_refl _, fun h => h, fun x h1 h2 => by simp only [defineLeft_loop] at h1; omega⟩
  | succ fuel ih =>
    intro left
    simp only [defineLeft_loop]
    split
    · split
      · exact ⟨le_refl _, fun h => h, fun x h1 h2 => by omega⟩
      · rename_i h3 h4
        have := ih (left - 1)
        refine ⟨by omega, fun _ => this.2.1 (by omega), ?_⟩
        intro x h1 h2
        by_cases hx : x = left
        · subst hx; simpa using h4
        · exact this.2.2 x h1 (by omega)
    · exact ⟨le_refl _, fun h => h, fun x h1 h2 => by omega⟩

theorem defineRightAndLeft_spec (pi : Permutation) (h : pi.isIdentity = false) :
    1 ≤ (defineRightAndLeft pi).1 ∧ (defineRightAndLeft pi).1 ≤ (defineRightAndLeft pi).2 ∧
    (defineRightAndLeft pi).2 ≤ pi.n := by
  obtain ⟨k, k1, k2, k3⟩ := Permutation.exists_mismatch pi h
  unfold defineRightAndLeft
  simp only [Permutation.size]
  have hr := defineRight_loop_spec pi pi.n.toNat 1
  have hl := defineLeft_loop_spec pi pi.n.toNat pi.n
  have a : defineRight_loop pi pi.n.toNat 1 ≤ k := by
    by_contra hc
    exact k3 (hr.2 k k1 (by omega))
  have b : k ≤ defineLeft_loop pi pi.n.toNat pi.n := by
    by_contra hc
    exact k3 (hl.2.2 k (by omega) k2)
  exact ⟨hr.1, by omega, hl.1⟩

/-- Strips: strictly increasing positions between `lo` and `hi`. -/
theorem defineStrips_loop_spec (pi : Permutation) (left lo : Int) :
    ∀ (fuel : Nat) (index : Int) (strips : List Int), lo ≤ index → index ≤ left →
      List.Pairwise (fun a b => a < b) strips → (∀ s ∈ strips, lo ≤ s ∧ s ≤ index) →
      List.Pairwise (fun a b => a < b) (defineStrips_loop pi left fuel index strips) ∧
      (∀ s ∈ defineStrips_loop pi left fuel index strips, lo ≤ s ∧ s ≤ left) ∧
      strips.length ≤ (defineStrips_loop pi left fuel index strips).length := by
  intro fuel
  induction fuel with
  | zero =>
    intro index strips h0 h1 h2 h3
    exact ⟨h2, fun s hs => ⟨(h3 s hs).1, by have := (h3 s hs).2; omega⟩, le_refl _⟩
  | succ fuel ih =>
    intro index strips h0 h1 h2 h3
    simp only [defineStrips_loop]
    split
    · rename_i hlt
      split
      · have := ih (index + 1) (strips ++ [index + 1]) (by omega) (by omega)
          (by
            rw [List.pairwise_append]
            refine ⟨h2, List.pairwise_singleton _ _, ?_⟩
            intro a ha b hb
            simp only [List.mem_singleton] at hb
            have := (h3 a ha).2
            omega)
          (by
            intro s hs
            simp only [List.mem_append, List.mem_singleton] at hs
            rcases hs with hs | hs
            · have := h3 s hs; omega
            · omega)
        refine ⟨this.1, this.2.1, ?_⟩
        have l := this.2.2
        simp only [List.length_append, List.length_singleton] at l
        omega
      · have := ih (index + 1) strips (by omega) (by omega) h2
          (fun s hs => by have := h3 s hs; omega)
        exact this
    · exact ⟨h2, fun s hs => ⟨(h3 s hs).1, by have := (h3 s hs).2; omega⟩, le_refl _⟩

theorem defineStrips_spec (pi : Permutation) (h : pi.isIdentity = false) :
    1 ≤ (defineStrips pi).1 ∧ (defineStrips pi).1 ≤ (defineStrips pi).2.1 ∧
    (defineStrips pi).2.1 ≤ pi.n ∧
    List.Pairwise (fun a b => a < b) (defineStrips pi).2.2 ∧
    (∀ s ∈ (defineStrips pi).2.2, (defineStrips pi).1 ≤ s ∧ s ≤ (defineStrips pi).2.1 + 1) ∧
    (defineStrips pi).2.2.getD ((defineStrips pi).2.2.length - 1) 0 = (defineStrips pi).2.1 + 1 ∧
    2 ≤ (defineStrips pi).2.2.length := by
  obtain ⟨r1, r2, r3⟩ := defineRightAndLeft_spec pi h
  unfold defineStrips
  simp only
  generalize (defineRightAndLeft pi).1 = right at *
  generalize (defineRightAndLeft pi).2 = left at *
  obtain ⟨s1, s2, s3⟩ := defineStrips_loop_spec pi left right (left - right).toNat right [right]
    (le_refl _) r2 (List.pairwise_singleton _ _)
    (fun s hs => by simp only [List.mem_singleton] at hs; omega)
  generalize defineStrips_loop pi left (left - right).toNat right [right] = strips at *
  refine ⟨r1, r2, r3, ?_, ?_, ?_, ?_⟩
  · rw [List.pairwise_append]
    refine ⟨s1, List.pairwise_singleton _ _, ?_⟩
    intro a ha b hb
    simp only [List.mem_singleton] at hb
    have := (s2 a ha).2
    omega
  · intro s hs
    simp only [List.mem_append, List.mem_singleton] at hs
    rcases hs with hs | hs
    · have := s2 s hs; omega
    · omega
  · simp [List.getD_eq_getElem?_getD]
  · simp only [List.length_append, List.length_singleton, List.length_cons, List.length_nil] at s3 ⊢
    omega

theorem pairwise_getD_lt (l : List Int) (hp : List.Pairwise (fun a b => a < b) l) (a b : Nat)
    (hab : a < b) (hb : b < l.length) : l.getD a 0 < l.getD b 0 := by
  rw [List.pairwise_iff_getElem] at hp
  rw [List.getD_eq_getElem _ _ (by omega), List.getD_eq_getElem _ _ hb]
  exact hp a b (by omega) hb hab

theorem getD_mem_of_lt (l : List Int) (a : Nat) (ha : a < l.length) : l.getD a 0 ∈ l := by
  rw [List.getD_eq_getElem _ _ ha]
  exact List.getElem_mem _

end SWILS

namespace SWILS

theorem foldl_inv {α β : Type} (P : β → Prop) (f : β → α → β) :
    ∀ (l : List α) (init : β), P init → (∀ st x, x ∈ l → P st → P (f st x)) →
      P (l.foldl f init) := by
  intro l
  induction l with
  | nil => intro init h _; exact h
  | cons a t ih =>
    intro init h hf
    simp only [List.foldl_cons]
    exact ih _ (hf init a (List.mem_cons_self _ _) h)
      (fun st x hx hs => hf st x (List.mem_cons_of_mem _ hx) hs)

theorem beststrip_loops_ok (problem : Problem) (n lo hi : Int) (strips : List Int)
    (hn : problem.n = n) (h1 : 1 ≤ lo) (h2 : hi ≤ n)
    (hp : List.Pairwise (fun a b => a < b) strips)
    (hb : ∀ s ∈ strips, lo ≤ s ∧ s ≤ hi + 1) :
    (beststrip_loops problem strips).2.Ok n := by
  unfold beststrip_loops
  apply foldl_inv (fun st : Int × Inversion => st.2.Ok n)
  · exact Inversion.ok_zero _
  · intro st i hi0 hst
    rw [List.mem_range] at hi0
    apply foldl_inv (fun st : Int × Inversion => st.2.Ok n)
    · exact hst
    · intro st2 j hj hst2
      rw [List.mem_range'_1] at hj
      simp only
      split
      · right
        have lt := pairwise_getD_lt strips hp i j (by omega) (by omega)
        have bi := hb _ (getD_mem_of_lt strips i (by omega))
        have bj := hb _ (getD_mem_of_lt strips j (by omega))
        exact ⟨by simp only; omega, by simp only; omega, by simp only; omega,
          by simp only [Problem.getInversionWeight, hn]⟩
      · exact hst2

theorem nb_plus_lr_ok (fm : FloatModel) (pi : Permutation) (problem : Problem) (hv : pi.Valid)
    (hn : problem.n = pi.n) (hp : ∀ r ∈ problem.inversions, r.InRange pi.n) (h1 : 1 ≤ pi.n) :
    (nb_plus_lr fm pi problem).Ok pi.n := by
  unfold nb_plus_lr
  simp only
  split
  · exact lr_ok pi problem hv hn h1
  · exact nb_ok fm pi problem hp

theorem nb_plus_strip_ok (fm : FloatModel) (pi : Permutation) (problem : Problem)
    (hn : problem.n = pi.n) (hp : ∀ r ∈ problem.inversions, r.InRange pi.n)
    (hid : pi.isIdentity = false) : (nb_plus_strip fm pi problem).Ok pi.n := by
  unfold nb_plus_strip
  simp only
  split
  · obtain ⟨r1, r2, r3⟩ := defineRightAndLeft_spec pi hid
    exact Or.inr ⟨r1, r2, r3, by simp only [Problem.getInversionWeight, hn]⟩
  · exact nb_ok fm pi problem hp

theorem nb_plus_beststrip_ok (fm : FloatModel) (pi : Permutation) (problem : Problem)
    (hn : problem.n = pi.n) (hp : ∀ r ∈ problem.inversions, r.InRange pi.n)
    (hid : pi.isIdentity = false) : (nb_plus_beststrip fm pi problem).Ok pi.n := by
  unfold nb_plus_beststrip
  simp only
  split
  · obtain ⟨r1, r2, r3, r4, r5, _, _⟩ := defineStrips_spec pi hid
    exact beststrip_loops_ok problem pi.n _ _ _ hn r1 r3 r4 r5
  · exact nb_ok fm pi problem hp

theorem lrstrip_right_spec (strips : List Int) (pos j0 : Int) : ∀ (l : List Nat),
    lrstrip_right strips pos j0 l = j0 ∨
    ∃ i ∈ l, lrstrip_right strips pos j0 l = strips.getD i 0 - 1 := by
  intro l
  induction l with
  | nil => left; rfl
  | cons i rest ih =>
    simp only [lrstrip_right]
    split
    · right; exact ⟨i, List.mem_cons_self _ _, rfl⟩
    · rcases ih with h | ⟨k, hk, e⟩
      · left; exact h
      · right; exact ⟨k, List.mem_cons_of_mem _ hk, e⟩

theorem lrstrip_left_spec (strips : List Int) (pos i0 : Int) : ∀ (l : List Nat),
    lrstrip_left strips pos i0 l = i0 ∨
    ∃ i ∈ l, lrstrip_left strips pos i0 l = strips.getD (i - 1) 0 := by
  intro l
  induction l with
  | nil => left; rfl
  | cons i rest ih =>
    simp only [lrstrip_left]
    split
    · right; exact ⟨i, List.mem_cons_self _ _, rfl⟩
    · rcases ih with h | ⟨k, hk, e⟩
      · left; exact h
      · right; exact ⟨k, List.mem_cons_of_mem _ hk, e⟩

theorem nb_plus_lrstrip_ok (fm : FloatModel) (pi : Permutation) (problem : Problem)
    (hn : problem.n = pi.n) (hp : ∀ r ∈ problem.inversions, r.InRange pi.n)
    (hid : pi.isIdentity = false) : (nb_plus_lrstrip fm pi problem).Ok pi.n := by
  unfold nb_plus_lrstrip
  simp only
  split
  · obtain ⟨r1, r2, r3, r4, r5, r6, r7⟩ := defineStrips_spec pi hid
    generalize defineStrips pi = ds at *
    obtain ⟨right, left, strips⟩ := ds
    simp only at r1 r2 r3 r4 r5 r6 r7 ⊢
    have hjr : right ≤ lrstrip_right strips (pi.position right) right
          (List.range' 1 (strips.length - 1)) ∧
        lrstrip_right strips (pi.position right) right
          (List.range' 1 (strips.length - 1)) ≤ left := by
      rcases lrstrip_right_spec strips (pi.position right) right
        (List.range' 1 (strips.length - 1)) with h | ⟨i, hi, e⟩
      · rw [h]; omega
      · rw [e]
        rw [List.mem_range'_1] at hi
        have lt := pairwise_getD_lt strips r4 0 i (by omega) (by omega)
        have b0 := r5 _ (getD_mem_of_lt strips 0 (by omega))
        have bi := r5 _ (getD_mem_of_lt strips i (by omega))
        omega
    have hil : right ≤ lrstrip_left strips (pi.position left) left
          (List.range' 1 (strips.length - 1 - 1)) ∧
        lrstrip_left strips (pi.position left) left
          (List.range' 1 (strips.length - 1 - 1)) ≤ left := by
      rcases lrstrip_left_spec strips (pi.position left) left
        (List.range' 1 (strips.length - 1 - 1)) with h | ⟨i, hi, e⟩
      · rw [h]; omega
      · rw [e]
        rw [List.mem_range'_1] at hi
        have lt := pairwise_getD_lt strips r4 (i - 1) (strips.length - 1) (by omega) (by omega)
        have bi := r5 _ (getD_mem_of_lt strips (i - 1) (by omega))
        omega
    right
    split
    · exact ⟨r1, hjr.1, by simp only; omega, by simp only [Problem.getInversionWeight, hn]⟩
    · exact ⟨by simp only; omega, hil.2, r3, by simp only [Problem.getInversionWeight, hn]⟩
  · exact nb_ok fm pi problem hp

theorem nb_plus_smp_ok (fm : FloatModel) (pi : Permutation) (problem : Problem)
    (hn : problem.n = pi.n) (hp : ∀ r ∈ problem.inversions, r.InRange pi.n)
    (hid : pi.isIdentity = false) : (nb_plus_smp fm pi problem).Ok pi.n := by
  unfold nb_plus_smp
  simp only
  cases hs : pi.isSigned
  · simp only [Bool.false_and, Bool.false_eq_true, if_false]
    split
    · exact bestBenefit_ok fm _ pi _ _ _ pi.n hp (Inversion.ok_zero _)
    · exact nb_plus_beststrip_ok fm pi problem hn hp hid
  · simp only [Bool.true_and, if_true]
    split
    · exact bestBenefit_ok fm _ pi _ _ _ pi.n hp (Inversion.ok_zero _)
    · split
      · exact bestBenefit_ok fm _ pi _ _ _ pi.n hp
          (bestBenefit_ok fm _ pi _ _ _ pi.n hp (Inversion.ok_zero _))
      · exact nb_plus_beststrip_ok fm pi problem hn hp hid

/-- Every strategy answers a valid permutation that is not the identity with the sentinel or
with an inversion in range that carries the weight of the problem. -/
theorem selectInversion_ok (fm : FloatModel) (heuristic : Int) (pi : Permutation)
    (problem : Problem) (hv : pi.Valid) (hn : problem.n = pi.n)
    (hp : ∀ r ∈ problem.inversions, r.InRange pi.n) (hid : pi.isIdentity = false) :
    (selectInversion fm heuristic pi problem).Ok pi.n := by
  have h1 : 1 ≤ pi.n := by
    obtain ⟨k, k1, k2, _⟩ := Permutation.exists_mismatch pi hid
    omega
  unfold selectInversion
  split_ifs
  · exact lr_ok pi problem hv hn h1
  · exact smp_ok fm pi problem hv hn hp
  · exact nb_plus_lr_ok fm pi problem hv hn hp h1
  · exact nb_plus_strip_ok fm pi problem hn hp hid
  · exact nb_plus_beststrip_ok fm pi problem hn hp hid
  · exact nb_plus_lrstrip_ok fm pi problem hn hp hid
  · exact nb_plus_smp_ok fm pi problem hn hp hid
  · exact Inversion.ok_zero _

end SWILS

namespace SWILS

theorem Inversion.InRange.w_bounds {n : Int} {r : Inversion} (h : r.InRange n) :
    1 ≤ r.w ∧ r.w ≤ n := by
  obtain ⟨h1, h2, h3, h4⟩ := h
  rw [h4]
  unfold Problem.weight iabs slice
  omega

theorem applyAll_append (p : Permutation) (l1 l2 : List Inversion) :
    applyAll p (l1 ++ l2) = applyAll (applyAll p l1) l2 := by
  unfold applyAll
  rw [List.foldl_append]

theorem weightSum_cons (r : Inversion) (l : List Inversion) :
    weightSum (r :: l) = r.w + weightSum l := by
  unfold weightSum
  simp

theorem wrap16_eq (x : Int) (h1 : -32768 ≤ x) (h2 : x ≤ 32767) : wrap16 x = x := by
  unfold wrap16
  omega

namespace Heuristics

theorem sort_loop_spec (fm : FloatModel) (problem : Problem) (heuristic limit n : Int)
    (hn : problem.n = n) (hp : ∀ r ∈ problem.inversions, r.InRange n)
    (hlim : limit + 1 ≤ 32767) (hw : (limit + 1) * n ≤ 32767) :
    ∀ (fuel : Nat) (pi : Permutation) (weight tries : Int) (invs : List Inversion),
      pi.Valid → pi.n = n → 0 ≤ tries → tries ≤ limit → 0 ≤ weight → weight ≤ tries * n →
      (sort_loop fm problem heuristic limit fuel pi weight tries invs).1.isIdentity = false ∨
      ∃ added : List Inversion,
        (sort_loop fm problem heuristic limit fuel pi weight tries invs).2.2 = invs ++ added ∧
        (∀ x ∈ added, x.InRange n) ∧
        (sort_loop fm problem heuristic limit fuel pi weight tries invs).1 = applyAll pi added ∧
        (sort_loop fm problem heuristic limit fuel pi weight tries invs).1.Valid ∧
        (sort_loop fm problem heuristic limit fuel pi weight tries invs).2.1
          = weight + weightSum added := by
  intro fuel
  induction fuel with
  | zero =>
    intro pi weight tries invs hv _ _ _ _ _
    right
    exact ⟨[], by simp [sort_loop], by simp, rfl, hv, by simp [sort_loop, weightSum]⟩
  | succ fuel ih =>
    intro pi weight tries invs hv hpn ht0 ht hw0 hw1
    simp only [sort_loop]
    cases hid : pi.isIdentity
    · simp only [Bool.not_false, if_true]
      have hok := selectInversion_ok fm heuristic pi problem hv (by rw [hn, hpn])
        (by rw [hpn]; exact hp) hid
      rw [hpn] at hok
      generalize selectInversion fm heuristic pi problem = inversion at hok ⊢
      by_cases hi0 : inversion.i = 0
      · left
        simp only [hi0, ne_eq, not_true_eq_false, if_false]
        exact hid
      · simp only [ne_eq, hi0, not_false_eq_true, if_true]
        have hr : inversion.InRange n := by
          rcases hok with h | h
          · exact absurd h hi0
          · exact h
        have hwb := hr.w_bounds
        have hn0 : 0 ≤ n := by omega
        have hmul : (tries + 1) * n ≤ (limit + 1) * n :=
          Int.mul_le_mul_of_nonneg_right (by omega) hn0
        have hsum : weight + inversion.w ≤ (tries + 1) * n := by
          have : (tries + 1) * n = tries * n + n := by ring
          omega
        have e1 : wrap16 (weight + inversion.w) = weight + inversion.w :=
          wrap16_eq _ (by omega) (by omega)
        have e2 : wrap16 (tries + 1) = tries + 1 := wrap16_eq _ (by omega) (by omega)
        rw [e1, e2]
        have hv1 : (pi.applyInversion inversion.i inversion.j).Valid :=
          Permutation.applyInversion_valid pi _ _ hv hr.1 hr.2.1 (by rw [hpn]; exact hr.2.2.1)
        by_cases hgt : tries + 1 > limit
        · simp only [hgt, if_true]
          right
          exact ⟨[inversion], rfl, by simpa using hr, rfl, hv1, by simp [weightSum]⟩
        · simp only [hgt, if_false]
          rcases ih (pi.applyInversion inversion.i inversion.j) (weight + inversion.w)
            (tries + 1) (invs ++ [inversion]) hv1 hpn (by omega) (by omega) (by omega) hsum
            with h | ⟨added, a1, a2, a3, a4, a5⟩
          · left; exact h
          · right
            refine ⟨inversion :: added, ?_, ?_, ?_, a4, ?_⟩
            · rw [a1]; simp
            · intro x hx
              simp only [List.mem_cons] at hx
              rcases hx with hx | hx
              · rw [hx]; exact hr
              · exact a2 x hx
            · rw [a3]; rfl
            · rw [a5, weightSum_cons]; ring
    · simp only [Bool.not_true, Bool.false_eq_true, if_false]
      right
      exact ⟨[], by simp, by simp, rfl, hv, by simp [weightSum]⟩

end Heuristics
end SWILS

namespace SWILS
namespace Permutation

theorem newVector_length (n : Int) (hn : 0 ≤ n) : (newVector n).length = n.toNat + 2 := by
  unfold newVector
  simp only [List.length_set, List.length_replicate]
  omega

theorem newVector_getD (n : Int) (hn : 0 ≤ n) (x : Nat) :
    (newVector n).getD x 0 = if x = n.toNat + 1 then n + 1 else 0 := by
  unfold newVector
  rw [getD_set_eq, getD_set_eq]
  simp only [List.length_set, List.length_replicate]
  have e : (n + 1).toNat = n.toNat + 1 := by omega
  rw [e]
  by_cases h : x = n.toNat + 1
  · subst h
    rw [if_pos ⟨rfl, by omega⟩, if_pos rfl]
  · rw [if_neg (by omega), if_neg h]
    split
    · rfl
    · simp only [List.getD_eq_getElem?_getD, List.getElem?_replicate]
      split <;> rfl

theorem copy_fold_spec (p : Permutation) (hv : p.Valid) : ∀ t : Nat, t ≤ p.n.toNat →
    ((List.range t).foldl
      (fun (st : List Int × List Int) (k : Nat) =>
        (st.1.set ((k : Int) + 1).toNat (p.element_at ((k : Int) + 1)),
          st.2.set (p.element_at ((k : Int) + 1)).natAbs ((k : Int) + 1)))
      (newVector p.n, newVector p.n)).1.length = p.n.toNat + 2 ∧
    ((List.range t).foldl
      (fun (st : List Int × List Int) (k : Nat) =>
        (st.1.set ((k : Int) + 1).toNat (p.element_at ((k : Int) + 1)),
          st.2.set (p.element_at ((k : Int) + 1)).natAbs ((k : Int) + 1)))
      (newVector p.n, newVector p.n)).2.length = p.n.toNat + 2 ∧
    (∀ x : Nat, ((List.range t).foldl
      (fun (st : List Int × List Int) (k : Nat) =>
        (st.1.set ((k : Int) + 1).toNat (p.element_at ((k : Int) + 1)),
          st.2.set (p.element_at ((k : Int) + 1)).natAbs ((k : Int) + 1)))
      (newVector p.n, newVector p.n)).1.getD x 0
        = if 1 ≤ x ∧ x ≤ t then p.permutation.getD x 0 else (newVector p.n).getD x 0) ∧
    (∀ m : Nat, ((List.range t).foldl
      (fun (st : List Int × List Int) (k : Nat) =>
        (st.1.set ((k : Int) + 1).toNat (p.element_at ((k : Int) + 1)),
          st.2.set (p.element_at ((k : Int) + 1)).natAbs ((k : Int) + 1)))
      (newVector p.n, newVector p.n)).2.getD m 0
        = if 1 ≤ m ∧ m ≤ p.n.toNat ∧ p.inverse.getD m 0 ≤ t then p.inverse.getD m 0
          else (newVector p.n).getD m 0) := by
  intro t
  induction t with
  | zero =>
    intro _
    simp only [List.range_zero, List.foldl_nil]
    refine ⟨newVector_length _ hv.1, newVector_length _ hv.1, ?_, ?_⟩
    · intro x; rw [if_neg (by omega)]
    · intro m
      split
      · rename_i h
        have := (hv.bw m h.1 h.2.1).1
        omega
      · rfl
  | succ t ih =>
    intro ht
    obtain ⟨l1, l2, g1, g2⟩ := ih (by omega)
    rw [List.range_succ, List.foldl_append]
    simp only [List.foldl_cons, List.foldl_nil]
    generalize (List.range t).foldl
      (fun (st : List Int × List Int) (k : Nat) =>
        (st.1.set ((k : Int) + 1).toNat (p.element_at ((k : Int) + 1)),
          st.2.set (p.element_at ((k : Int) + 1)).natAbs ((k : Int) + 1)))
      (newVector p.n, newVector p.n) = st at l1 l2 g1 g2 ⊢
    have e1 : ((t : Int) + 1).toNat = t + 1 := by omega
    have e2 : p.element_at ((t : Int) + 1) = p.permutation.getD (t + 1) 0 := by
      unfold element_at; rw [e1]
    rw [e1, e2]
    have hf := hv.fw (t + 1) (by omega) (by omega)
    refine ⟨by simp [l1], by simp [l2], ?_, ?_⟩
    · intro x
      rw [getD_set_eq, g1]
      by_cases hx : t + 1 = x
      · subst hx
        rw [if_pos ⟨rfl, by omega⟩, if_pos ⟨by omega, le_refl _⟩]
      · rw [if_neg (by tauto)]
        by_cases hx2 : 1 ≤ x ∧ x ≤ t
        · rw [if_pos hx2, if_pos (by omega)]
        · rw [if_neg hx2, if_neg (by omega)]
    · intro m
      rw [getD_set_eq, g2]
      by_cases hm : (p.permutation.getD (t + 1) 0).natAbs = m
      · subst hm
        rw [if_pos ⟨rfl, by omega⟩, if_pos ⟨hf.1, hf.2.1, by rw [hf.2.2]⟩,
          hf.2.2]
        push_cast; rfl
      · rw [if_neg (by tauto)]
        by_cases hm2 : 1 ≤ m ∧ m ≤ p.n.toNat
        · have hb := hv.bw m hm2.1 hm2.2
          have hne : p.inverse.getD m 0 ≠ (t : Int) + 1 := by
            intro h
            apply hm
            have := hb.2.2
            rw [h, e1] at this
            exact this
          by_cases hle : p.inverse.getD m 0 ≤ t
          · rw [if_pos ⟨hm2.1, hm2.2, hle⟩, if_pos ⟨hm2.1, hm2.2, by push_cast; omega⟩]
          · rw [if_neg (by tauto), if_neg (by push_cast; omega)]
        · rw [if_neg (by tauto), if_neg (by tauto)]

/-- The copy constructor returns an equal object on a valid permutation. -/
theorem copy_eq (p : Permutation) (hv : p.Valid) : p.copy = p := by
  obtain ⟨l1, l2, g1, g2⟩ := copy_fold_spec p hv p.n.toNat (le_refl _)
  have hv0 := hv
  obtain ⟨hn, hlen, hlen2, hs0, hs1, hi0, hi1, _, _, _⟩ := hv0
  apply ext_fields
  · rfl
  · unfold copy
    simp only [size]
    apply ext_getD
    · rw [l1, hlen]
    · intro x hx
      rw [l1] at hx
      rw [g1, newVector_getD _ hn]
      by_cases h : 1 ≤ x ∧ x ≤ p.n.toNat
      · rw [if_pos h]
      · rw [if_neg h]
        by_cases h2 : x = p.n.toNat + 1
        · rw [if_pos h2, h2, hs1]
        · have : x = 0 := by omega
          rw [if_neg h2, this, hs0]
  · unfold copy
    simp only [size]
    apply ext_getD
    · rw [l2, hlen2]
    · intro m hm
      rw [l2] at hm
      rw [g2, newVector_getD _ hn]
      by_cases h : 1 ≤ m ∧ m ≤ p.n.toNat
      · have hb := hv.bw m h.1 h.2
        rw [if_pos ⟨h.1, h.2, by omega⟩]
      · rw [if_neg (by tauto)]
        by_cases h2 : m = p.n.toNat + 1
        · rw [if_pos h2, h2, hi1]
        · have : m = 0 := by omega
          rw [if_neg h2, this, hi0]
  · rfl

end Permutation
end SWILS

namespace SWILS
namespace Heuristics

theorem limit_bounds (n : Int) (h0 : 0 ≤ n) (h16 : n ≤ 16) :
    wrap16 (n * LIMIT_MULTIPLIER) = n * 15 ∧ n * 15 + 1 ≤ 32767 ∧ (n * 15 + 1) * n ≤ 32767 := by
  unfold LIMIT_MULTIPLIER
  refine ⟨wrap16_eq _ (by omega) (by omega), by omega, ?_⟩
  have a : (n * 15 + 1) * n ≤ (16 * 15 + 1) * n :=
    Int.mul_le_mul_of_nonneg_right (by omega) h0
  omega

/-- On a valid permutation of size at most 16 the 16-bit `weight` of the driver
`Heuristics::sort(permutation, problem, heuristic, weight)` cannot wrap: with the problem
`SWI_LS` of the same size and sign, if the final `weight` is not `-1` then it is the sum of the
`w` fields of the returned inversions, every returned inversion has
`w = getInversionWeight(i, j)`, and applying the returned inversions in order to the
permutation yields the identity. -/
theorem sort_permutation_exact_small (fm : FloatModel) (P : Permutation) (problem : Problem)
    (heuristic : Int) (hv : P.Valid) (h16 : P.n ≤ 16)
    (hp : Problem.create SWI_LS P.n P.sign = some problem)
    (hw : (sort_permutation fm P problem heuristic).2 ≠ -1) :
    (sort_permutation fm P problem heuristic).2
      = weightSum (sort_permutation fm P problem heuristic).1 ∧
    (∀ r ∈ (sort_permutation fm P problem heuristic).1,
      r.w = problem.getInversionWeight r.i r.j) ∧
    (applyAll P (sort_permutation fm P problem heuristic).1).isIdentity = true := by
  obtain ⟨pn, _, pinv⟩ := Problem.create_eq _ _ _ _ hp
  have hlist : ∀ r ∈ problem.inversions, r.InRange P.n := by
    intro r hr
    rw [pinv] at hr
    exact Problem.mem_swi_ls _ _ r hr
  obtain ⟨l1, l2, l3⟩ := limit_bounds P.n hv.1 h16
  have hspec := sort_loop_spec fm problem heuristic (P.n * 15) P.n pn hlist l2 l3
    (sort_fuel (P.n * 15)) P 0 0 [] hv rfl (le_refl _) (by have := hv.1; omega) (le_refl _)
    (by simp)
  unfold sort_permutation at hw ⊢
  simp only [Permutation.copy_eq P hv, Permutation.size, l1] at hw ⊢
  generalize sort_loop fm problem heuristic (P.n * 15) (sort_fuel (P.n * 15)) P 0 0 [] = r
    at hspec hw ⊢
  cases hid : r.1.isIdentity
  · simp [hid] at hw
  · rcases hspec with h | ⟨added, a1, a2, a3, _, a5⟩
    · rw [hid] at h; exact absurd h (by simp)
    · simp only [hid, Bool.not_true, Bool.false_eq_true, if_false]
      simp only [List.nil_append] at a1
      rw [a1]
      refine ⟨by rw [a5]; simp, ?_, ?_⟩
      · intro x hx
        rw [(a2 x hx).2.2.2]
        simp only [Problem.getInversionWeight, pn]
      · rw [← a3]; exact hid

end Heuristics
end SWILS

namespace SWILS
namespace Heuristics

/-- The loop of the integer driver and the loop of the list driver go through the same
working permutations and weights: the list of inversions kept by the second driver has no
influence on the run. -/
theorem sort_int_loop_eq (fm : FloatModel) (problem : Problem) (heuristic limit : Int) :
    ∀ (fuel : Nat) (pi : Permutation) (weight tries : Int) (invs : List Inversion),
      sort_int_loop fm problem heuristic limit fuel pi weight tries
        = ((sort_loop fm problem heuristic limit fuel pi weight tries invs).1,
            (sort_loop fm problem heuristic limit fuel pi weight tries invs).2.1) := by
  intro fuel
  induction fuel with
  | zero => intro pi weight tries invs; rfl
  | succ fuel ih =>
    intro pi weight tries invs
    simp only [sort_int_loop, sort_loop]
    cases hid : pi.isIdentity
    · simp only [Bool.not_false, if_true]
      by_cases hi0 : (selectInversion fm heuristic pi problem).i = 0
      · simp only [hi0, ne_eq, not_true_eq_false, if_false]
      · simp only [ne_eq, hi0, not_false_eq_true, if_true]
        by_cases hgt : wrap16 (tries + 1) > limit
        · simp only [hgt, if_true]
        · simp only [hgt, if_false]
          exact ih _ _ _ _
    · simp only [Bool.not_true, Bool.false_eq_true, if_false]

/-- The integer driver in terms of the loop of the list driver. -/
theorem sort_eq_list (fm : FloatModel) (intPi : Nat) (n : Int) (sign : Bool)
    (problem : Problem) (heuristic : Int) :
    sort fm intPi n sign problem heuristic
      = match Permutation.ofInt intPi n sign with
        | none => none
        | some pi =>
            if (sort_loop fm problem heuristic (wrap16 (n * LIMIT_MULTIPLIER))
                (sort_fuel (wrap16 (n * LIMIT_MULTIPLIER))) pi 0 0 []).1.isIdentity
            then some (sort_loop fm problem heuristic (wrap16 (n * LIMIT_MULTIPLIER))
                (sort_fuel (wrap16 (n * LIMIT_MULTIPLIER))) pi 0 0 []).2.1
            else some (-1) := by
  unfold sort
  cases h : Permutation.ofInt intPi n sign with
  | none => rfl
  | some pi =>
    simp only []
    rw [sort_int_loop_eq fm problem heuristic _ _ pi 0 0 []]

end Heuristics
end SWILS

namespace SWILS

theorem wrap16_idem (x : Int) : wrap16 (wrap16 x) = wrap16 x := by
  unfold wrap16
  omega

theorem wrap16_add_left (x y : Int) : wrap16 (wrap16 x + y) = wrap16 (x + y) := by
  unfold wrap16
  omega

namespace Heuristics

/-- The limit `n * LIMIT_MULTIPLIER` in the 16-bit `integer` is never above `n * 15` and is
not the greatest 16-bit value, for a size `n` of the 16-bit range. -/
theorem limit_range (n : Int) (h0 : 0 ≤ n) (hn : n ≤ 32767) :
    wrap16 (n * LIMIT_MULTIPLIER) < 32767 ∧ wrap16 (n * LIMIT_MULTIPLIER) ≤ n * 15 := by
  unfold LIMIT_MULTIPLIER wrap16
  omega

/-- Invariant of the loop of the list driver for a permutation of any size: unless the loop
ends on a permutation that is not the identity, the inversions added to the list are in
range, their application gives the final permutation, and the final 16-bit `weight` is the
initial weight plus the sum of their weights, reduced to the 16-bit range. -/
theorem sort_loop_spec_wrap (fm : FloatModel) (problem : Problem) (heuristic limit n : Int)
    (hn : problem.n = n) (hp : ∀ r ∈ problem.inversions, r.InRange n)
    (hlim : limit < 32767) :
    ∀ (fuel : Nat) (pi : Permutation) (weight tries : Int) (invs : List Inversion),
      pi.Valid → pi.n = n → 0 ≤ tries → tries < 32767 → wrap16 weight = weight →
      (sort_loop fm problem heuristic limit fuel pi weight tries invs).1.isIdentity = false ∨
      ∃ added : List Inversion,
        (sort_loop fm problem heuristic limit fuel pi weight tries invs).2.2 = invs ++ added ∧
        (∀ x ∈ added, x.InRange n) ∧
        (sort_loop fm problem heuristic limit fuel pi weight tries invs).1 = applyAll pi added ∧
        (sort_loop fm problem heuristic limit fuel pi weight tries invs).1.Valid ∧
        (sort_loop fm problem heuristic limit fuel pi weight tries invs).2.1
          = wrap16 (weight + weightSum added) := by
  intro fuel
  induction fuel with
  | zero =>
    intro pi weight tries invs hv _ _ _ hw
    right
    exact ⟨[], by simp [sort_loop], by simp, rfl, hv, by simp [sort_loop, weightSum, hw]⟩
  | succ fuel ih =>
    intro pi weight tries invs hv hpn ht0 ht hw
    simp only [sort_loop]
    cases hid : pi.isIdentity
    · simp only [Bool.not_false, if_true]
      have hok := selectInversion_ok fm heuristic pi problem hv (by rw [hn, hpn])
        (by rw [hpn]; exact hp) hid
      rw [hpn] at hok
      generalize selectInversion fm heuristic pi problem = inversion at hok ⊢
      by_cases hi0 : inversion.i = 0
      · left
        simp only [hi0, ne_eq, not_true_eq_false, if_false]
        exact hid
      · simp only [ne_eq, hi0, not_false_eq_true, if_true]
        have hr : inversion.InRange n := by
          rcases hok with h | h
          · exact absurd h hi0
          · exact h
        have e2 : wrap16 (tries + 1) = tries + 1 := wrap16_eq _ (by omega) (by omega)
        rw [e2]
        have hv1 : (pi.applyInversion inversion.i inversion.j).Valid :=
          Permutation.applyInversion_valid pi _ _ hv hr.1 hr.2.1 (by rw [hpn]; exact hr.2.2.1)
        by_cases hgt : tries + 1 > limit
        · simp only [hgt, if_true]
          right
          exact ⟨[inversion], rfl, by simpa using hr, rfl, hv1, by simp [weightSum]⟩
        · simp only [hgt, if_false]
          rcases ih (pi.applyInversion inversion.i inversion.j) (wrap16 (weight + inversion.w))
            (tries + 1) (invs ++ [inversion]) hv1 hpn (by omega) (by omega) (wrap16_idem _)
            with h | ⟨added, a1, a2, a3, a4, a5⟩
          · left; exact h
          · right
            refine ⟨inversion :: added, ?_, ?_, ?_, a4, ?_⟩
            · rw [a1]; simp
            · intro x hx
              simp only [List.mem_cons] at hx
              rcases hx with hx | hx
              · rw [hx]; exact hr
              · exact a2 x hx
            · rw [a3]; rfl
            · rw [a5, weightSum_cons, wrap16_add_left]
              congr 1
              ring
    · simp only [Bool.not_true, Bool.false_eq_true, if_false]
      right
      exact ⟨[], by simp, by simp, rfl, hv, by simp [weightSum, hw]⟩

end Heuristics
end SWILS

namespace SWILS
namespace Permutation

theorem decodeSigned_eq_generic : ∀ (i aux : Nat) (st : List Int × List Int),
    decodeSigned_loop i aux st
      = decode_generic_loop
          (fun aux => if aux &&& S_SIGN ≠ 0 then -(((aux &&& S_NUMBERS : Nat) : Int) + 1)
            else ((aux &&& S_NUMBERS : Nat) : Int) + 1) S_N_BITS i aux st := by
  intro i
  induction i with
  | zero => intro aux st; rfl
  | succ i ih =>
    intro aux st
    simp only [decodeSigned_loop, decode_generic_loop, ih]
    congr 3
    split <;> omega

theorem decodeUnsigned_eq_generic : ∀ (i aux : Nat) (st : List Int × List Int),
    decodeUnsigned_loop i aux st
      = decode_generic_loop (fun aux => ((aux &&& U_NUMBERS : Nat) : Int) + 1) U_N_BITS i aux st := by
  intro i
  induction i with
  | zero => intro aux st; rfl
  | succ i ih =>
    intro aux st
    simp only [decodeUnsigned_loop, decode_generic_loop, ih]
    congr 3

theorem decode_generic_spec (val : Nat → Int) (bits : Nat) (hval : ∀ a, val a ≠ 0) :
    ∀ (i aux : Nat) (st : List Int × List Int), i + 1 < st.1.length →
      (decode_generic_loop val bits i aux st).1.length = st.1.length ∧
      (decode_generic_loop val bits i aux st).2.length = st.2.length ∧
      (∀ x : Nat, (x = 0 ∨ i < x) →
        (decode_generic_loop val bits i aux st).1.getD x 0 = st.1.getD x 0) ∧
      (∀ k : Nat, 1 ≤ k → k ≤ i →
        (decode_generic_loop val bits i aux st).1.getD k 0 ≠ 0 ∧
        ((∀ a, 0 < val a) → 0 < (decode_generic_loop val bits i aux st).1.getD k 0) ∧
        ∃ k2 : Nat, 1 ≤ k2 ∧ k2 ≤ k ∧
          ((decode_generic_loop val bits i aux st).1.getD k2 0).natAbs
            = ((decode_generic_loop val bits i aux st).1.getD k 0).natAbs ∧
          (((decode_generic_loop val bits i aux st).1.getD k 0).natAbs < st.2.length →
            (decode_generic_loop val bits i aux st).2.getD
              ((decode_generic_loop val bits i aux st).1.getD k 0).natAbs 0 = (k2 : Int))) ∧
      (∀ m : Nat, (∀ k : Nat, 1 ≤ k → k ≤ i →
          ((decode_generic_loop val bits i aux st).1.getD k 0).natAbs ≠ m) →
        (decode_generic_loop val bits i aux st).2.getD m 0 = st.2.getD m 0) := by
  intro i
  induction i with
  | zero =>
    intro aux st _
    simp only [decode_generic_loop, true_and]
    exact ⟨fun x _ => trivial, fun k h1 h2 => by omega, fun m _ => trivial⟩
  | succ i ih =>
    intro aux st hlen
    simp only [decode_generic_loop]
    obtain ⟨a1, a2, a3, a4, a5⟩ := ih (aux >>> bits)
      (st.1.set (i + 1) (val aux), st.2.set (val aux).natAbs ((i : Int) + 1))
      (by simp only [List.length_set]; omega)
    generalize decode_generic_loop val bits i (aux >>> bits)
      (st.1.set (i + 1) (val aux), st.2.set (val aux).natAbs ((i : Int) + 1)) = r at *
    simp only [List.length_set] at a1 a2
    have top : r.1.getD (i + 1) 0 = val aux := by
      rw [a3 (i + 1) (Or.inr (by omega))]
      show (st.1.set (i + 1) (val aux)).getD (i + 1) 0 = val aux
      rw [getD_set_eq, if_pos ⟨rfl, by omega⟩]
    refine ⟨a1, a2, ?_, ?_, ?_⟩
    · intro x hx
      rw [a3 x (by omega)]
      show (st.1.set (i + 1) (val aux)).getD x 0 = st.1.getD x 0
      rw [getD_set_eq, if_neg (by omega)]
    · intro k h1 h2
      by_cases hk : k ≤ i
      · obtain ⟨b1, b2, k2, c1, c2, c3, c4⟩ := a4 k h1 hk
        exact ⟨b1, b2, k2, c1, c2, c3, fun h => c4 (by simp only [List.length_set]; exact h)⟩
      · have ek : k = i + 1 := by omega
        subst ek
        rw [top]
        refine ⟨hval aux, fun h => h aux, ?_⟩
        by_cases hex : ∃ k0 : Nat, 1 ≤ k0 ∧ k0 ≤ i ∧ (r.1.getD k0 0).natAbs = (val aux).natAbs
        · obtain ⟨k0, d1, d2, d3⟩ := hex
          obtain ⟨_, _, k2, c1, c2, c3, c4⟩ := a4 k0 d1 d2
          refine ⟨k2, c1, by omega, by rw [c3, d3], ?_⟩
          intro h
          rw [← d3]
          exact c4 (by rw [d3]; simp only [List.length_set]; exact h)
        · refine ⟨i + 1, by omega, le_refl _, by rw [top], ?_⟩
          intro h
          rw [a5 (val aux).natAbs (fun k0 e1 e2 e3 => hex ⟨k0, e1, e2, e3⟩)]
          show (st.2.set (val aux).natAbs ((i : Int) + 1)).getD (val aux).natAbs 0 = _
          rw [getD_set_eq, if_pos ⟨rfl, h⟩]
          push_cast; rfl
    · intro m hm
      rw [a5 m (fun k e1 e2 => hm k e1 (by omega))]
      show (st.2.set (val aux).natAbs ((i : Int) + 1)).getD m 0 = st.2.getD m 0
      rw [getD_set_eq, if_neg]
      intro h
      apply hm (i + 1) (by omega) (le_refl _)
      rw [top]
      exact h.1

end Permutation
end SWILS

namespace SWILS
namespace Permutation

theorem validate_perm (N : Nat) (f : Nat → Int)
    (h : ∀ k, k < N → ((k : Int) + 1) ∈ List.map f (List.range N)) :
    (∀ k, k < N → 1 ≤ f k ∧ f k ≤ N) ∧
    (∀ k k2, k < N → k2 < N → f k = f k2 → k = k2) := by
  have nd : (List.map (fun (k : Nat) => (k : Int) + 1) (List.range N)).Nodup := by
    apply List.Nodup.map _ (List.nodup_range N)
    intro a b hab
    simp only at hab
    omega
  have sub : List.map (fun (k : Nat) => (k : Int) + 1) (List.range N)
      ⊆ List.map f (List.range N) := by
    intro x hx
    simp only [List.mem_map, List.mem_range] at hx
    obtain ⟨k, hk, e⟩ := hx
    rw [← e]
    exact h k hk
  have perm := (List.subperm_of_subset nd sub).perm_of_length_le (by simp)
  have nd2 : (List.map f (List.range N)).Nodup := perm.nodup_iff.mp nd
  constructor
  · intro k hk
    have : f k ∈ List.map (fun (k : Nat) => (k : Int) + 1) (List.range N) :=
      perm.symm.subset (List.mem_map_of_mem f (List.mem_range.mpr hk))
    simp only [List.mem_map, List.mem_range] at this
    obtain ⟨j, hj, e⟩ := this
    omega
  · intro k k2 hk hk2 e
    exact List.inj_on_of_nodup_map nd2 (List.mem_range.mpr hk) (List.mem_range.mpr hk2) e

theorem ofInt_generic_valid (val : Nat → Int) (bits : Nat) (hval : ∀ a, val a ≠ 0)
    (x : Nat) (n : Int) (S : Bool) (hn : 0 ≤ n) (hS : S = false → ∀ a, 0 < val a)
    (hvalid : validate n (List.map
      (fun (k : Nat) => iabs ((decode_generic_loop val bits n.toNat x
        (newVector n, newVector n)).1.getD (k + 1) 0)) (List.range n.toNat)) = true) :
    (Permutation.mk n (decode_generic_loop val bits n.toNat x (newVector n, newVector n)).1
      (decode_generic_loop val bits n.toNat x (newVector n, newVector n)).2 S).Valid := by
  obtain ⟨a1, a2, a3, a4, a5⟩ := decode_generic_spec val bits hval n.toNat x
    (newVector n, newVector n) (by simp only [newVector_length n hn]; omega)
  generalize decode_generic_loop val bits n.toNat x (newVector n, newVector n) = r at *
  simp only [newVector_length n hn] at a1 a2 a4
  unfold validate at hvalid
  rw [List.all_eq_true] at hvalid
  have hmem : ∀ k, k < n.toNat → ((k : Int) + 1) ∈ List.map
      (fun (k : Nat) => iabs (r.1.getD (k + 1) 0)) (List.range n.toNat) := by
    intro k hk
    have := hvalid k (List.mem_range.mpr hk)
    simpa using this
  obtain ⟨hb, hinj⟩ := validate_perm n.toNat _ hmem
  unfold iabs at hb hinj hmem
  have fw : ∀ k : Nat, k < n.toNat →
      1 ≤ (r.1.getD (k + 1) 0).natAbs ∧ (r.1.getD (k + 1) 0).natAbs ≤ n.toNat ∧
      r.2.getD (r.1.getD (k + 1) 0).natAbs 0 = (k : Int) + 1 := by
    intro k hk
    have b := hb k hk
    refine ⟨by omega, by omega, ?_⟩
    obtain ⟨_, _, k2, c1, c2, c3, c4⟩ := a4 (k + 1) (by omega) (by omega)
    rw [c4 (by omega)]
    have := hinj (k2 - 1) k (by omega) hk (by
      rw [show k2 - 1 + 1 = k2 by omega]
      omega)
    omega
  refine ⟨hn, a1, a2, ?_, ?_, ?_, ?_, fw, ?_, ?_⟩
  · show r.1.getD 0 0 = 0
    rw [a3 0 (Or.inl rfl)]
    show (newVector n).getD 0 0 = 0
    rw [newVector_getD n hn, if_neg (by omega)]
  · show r.1.getD (n.toNat + 1) 0 = n + 1
    rw [a3 _ (Or.inr (by omega))]
    show (newVector n).getD (n.toNat + 1) 0 = n + 1
    rw [newVector_getD n hn, if_pos rfl]
  · show r.2.getD 0 0 = 0
    rw [a5 0]
    · show (newVector n).getD 0 0 = 0
      rw [newVector_getD n hn, if_neg (by omega)]
    · intro k h1 h2
      have := (fw (k - 1) (by omega)).1
      rw [show k - 1 + 1 = k by omega] at this
      omega
  · show r.2.getD (n.toNat + 1) 0 = n + 1
    rw [a5]
    · show (newVector n).getD (n.toNat + 1) 0 = n + 1
      rw [newVector_getD n hn, if_pos rfl]
    · intro k h1 h2
      have := (fw (k - 1) (by omega)).2.1
      rw [show k - 1 + 1 = k by omega] at this
      omega
  · intro m (hm : m < n.toNat)
    show 1 ≤ r.2.getD (m + 1) 0 ∧ r.2.getD (m + 1) 0 ≤ n ∧
      (r.1.getD (r.2.getD (m + 1) 0).toNat 0).natAbs = m + 1
    have := hmem m hm
    simp only [List.mem_map, List.mem_range] at this
    obtain ⟨k, hk, e⟩ := this
    have f := fw k hk
    have e2 : (r.1.getD (k + 1) 0).natAbs = m + 1 := by omega
    rw [e2] at f
    rw [f.2.2]
    refine ⟨by omega, by omega, ?_⟩
    rw [show ((k : Int) + 1).toNat = k + 1 by omega, e2]
  · intro hs k (hk : k < n.toNat)
    show 0 < r.1.getD (k + 1) 0
    exact (a4 (k + 1) (by omega) (by omega)).2.1 (hS hs)

/-- An accepted construction from an integer gives a valid object. -/
theorem ofInt_valid (x : Nat) (n : Int) (S : Bool) (pi : Permutation) (hn : 0 ≤ n)
    (h : ofInt x n S = some pi) : pi.Valid ∧ pi.n = n ∧ pi.sign = S := by
  cases S
  · simp only [ofInt, Bool.false_eq_true, if_false, decodeUnsigned_eq_generic] at h
    by_cases hvalid : validate n (List.map
        (fun (k : Nat) => iabs ((decode_generic_loop (fun aux => ((aux &&& U_NUMBERS : Nat) : Int) + 1)
          U_N_BITS n.toNat x (newVector n, newVector n)).1.getD (k + 1) 0))
        (List.range n.toNat)) = true
    · rw [if_pos hvalid] at h
      simp only [Option.some.injEq] at h
      subst h
      exact ⟨ofInt_generic_valid _ _ (fun a => by omega) x n false hn (fun _ a => by omega)
        hvalid, rfl, rfl⟩
    · rw [if_neg hvalid] at h
      exact absurd h (by simp)
  · simp only [ofInt, if_true, decodeSigned_eq_generic] at h
    by_cases hvalid : validate n (List.map
        (fun (k : Nat) => iabs ((decode_generic_loop
          (fun aux => if aux &&& S_SIGN ≠ 0 then -(((aux &&& S_NUMBERS : Nat) : Int) + 1)
            else ((aux &&& S_NUMBERS : Nat) : Int) + 1)
          S_N_BITS n.toNat x (newVector n, newVector n)).1.getD (k + 1) 0))
        (List.range n.toNat)) = true
    · rw [if_pos hvalid] at h
      simp only [Option.some.injEq] at h
      subst h
      exact ⟨ofInt_generic_valid _ _ (fun a => by split <;> omega) x n true hn
        (fun hc => by simp at hc) hvalid, rfl, rfl⟩
    · rw [if_neg hvalid] at h
      exact absurd h (by simp)

end Permutation

namespace Heuristics

/-- C7. The two sort drivers agree: when `intPi` decodes to a permutation that the constructor
accepts, `Heuristics::sort(intPi, n, sign, problem, heuristic)` returns the final `weight` of
`Heuristics::sort(Permutation(intPi, n, sign), problem, heuristic, weight)`, for every
heuristic identifier, problem and `float` arithmetic. -/
theorem sort_drivers_agree (fm : FloatModel) (intPi : Nat) (n : Int) (sign : Bool)
    (problem : Problem) (heuristic : Int) (pi : Permutation) (hn : 0 ≤ n)
    (h : Permutation.ofInt intPi n sign = some pi) :
    sort fm intPi n sign problem heuristic
      = some (sort_permutation fm pi problem heuristic).2 := by
  obtain ⟨hv, hpn, _⟩ := Permutation.ofInt_valid intPi n sign pi hn h
  unfold sort sort_permutation
  simp only [h, Permutation.copy_eq pi hv, Permutation.size, hpn]
  rw [sort_int_loop_eq fm problem heuristic _ _ pi 0 0 []]
  split <;> simp_all

/-- Witness of C7: the code `0x1032` of the unsigned permutation `2, 1, 4, 3` and `NB+LR`. -/
theorem sort_drivers_agree_witness :
    sort exactFloat 0x1032 4 false (Problem.mk 4 false (Problem.swi_ls 4 false)) NB_PLUS_LR
      = some (sort_permutation exactFloat
          (Permutation.mk 4 [0, 2, 1, 4, 3, 5] [0, 2, 1, 4, 3, 5] false)
          (Problem.mk 4 false (Problem.swi_ls 4 false)) NB_PLUS_LR).2 :=
  sort_drivers_agree exactFloat 0x1032 4 false (Problem.mk 4 false (Problem.swi_ls 4 false))
    NB_PLUS_LR (Permutation.mk 4 [0, 2, 1, 4, 3, 5] [0, 2, 1, 4, 3, 5] false) (by decide)
    (by decide)

end Heuristics
end SWILS

namespace SWILS
namespace Database

theorem applyInversion_loop_eq_generic (g : Int → Nat) : ∀ (fuel : Nat) (i j : Int)
    (sigma q : List Int),
    applyInversion_loop fuel i j sigma
      = (applyInversion_generic_loop (fun x => x) g fuel i j (sigma, q)).1 := by
  intro fuel
  induction fuel with
  | zero => intro i j sigma q; rfl
  | succ fuel ih =>
    intro i j sigma q
    simp only [applyInversion_loop, applyInversion_generic_loop]
    split
    · exact ih _ _ _ _
    · rfl

/-- The database `applyInversion` reverses the closed range `[i, j]`. -/
theorem applyInversion_eq_reverseRange (i j : Nat) (P : List Int) (hij : i ≤ j)
    (hj : j < P.length) :
    applyInversion (i : Int) (j : Int) P = reverseRange (fun x => x) i j P := by
  unfold applyInversion
  rw [applyInversion_loop_eq_generic Int.toNat _ _ _ _ []]
  obtain ⟨h1, h2⟩ := generic_loop_perm (fun x => x) Int.toNat ((j : Int) + 1 - i).toNat i j
    (P, []) (le_refl _) (by omega) (by simpa using hj)
  apply ext_getD
  · rw [h1, length_reverseRange _ _ _ _ hij hj]
  · intro x _
    rw [h2, getD_reverseRange _ _ _ _ hij hj]
    by_cases h : i ≤ x ∧ x ≤ j
    · rw [if_pos (by omega), if_pos h]
      congr 1
      omega
    · rw [if_neg (by omega), if_neg h]

theorem reverseRange_perm (i j : Nat) (P : List Int) (hij : i ≤ j) :
    List.Perm (reverseRange (fun x => x) i j P) P := by
  have := reverseRange_map_perm (fun x => x) (fun x => x) (fun _ => rfl) i j hij P
  simpa using this

theorem reverseRange_isPerm (n i j : Nat) (P : List Int) (hij : i ≤ j)
    (h : IsPermutationVector n P) : IsPermutationVector n (reverseRange (fun x => x) i j P) :=
  (reverseRange_perm i j P hij).trans h

theorem db_mem_swi_ls (n : Nat) (info : inversion_info) :
    info ∈ swi_ls (n : Int) true ↔
      ∃ i j : Nat, i ≤ j ∧ j < n ∧ info = inversion_info.mk i j (moveWeight n (i, j)) := by
  unfold swi_ls moveWeight
  simp only [List.mem_flatMap, List.mem_map, List.mem_range, List.mem_range'_1, if_true,
    Int.toNat_ofNat, Nat.add_zero]
  constructor
  · rintro ⟨i, hi, j, hj, e⟩
    exact ⟨i, j, by omega, by omega, e.symm⟩
  · rintro ⟨i, j, h1, h2, e⟩
    exact ⟨i, by omega, j, by omega, e.symm⟩

theorem moveWeight_bounds (n : Nat) (m : Nat × Nat) (h : ValidMove n m) :
    1 ≤ moveWeight n m ∧ moveWeight n m ≤ n := by
  unfold ValidMove at h
  unfold moveWeight iabs
  omega

theorem identityPermutation_eq (n : Nat) :
    identityPermutation n (List.replicate n 0) = identityVector n := by
  unfold identityPermutation identityVector
  have key : ∀ t : Nat, t ≤ n →
      ((List.range t).foldl (fun (v : List Int) (i : Nat) => v.set i ((i : Int) + 1))
        (List.replicate n 0)).length = n ∧
      ∀ x : Nat, ((List.range t).foldl (fun (v : List Int) (i : Nat) => v.set i ((i : Int) + 1))
        (List.replicate n 0)).getD x 0 = if x < t then (x : Int) + 1 else 0 := by
    intro t
    induction t with
    | zero =>
      intro _
      simp only [List.range_zero, List.foldl_nil, List.length_replicate, true_and]
      intro x
      simp only [List.getD_eq_getElem?_getD, List.getElem?_replicate]
      split <;> simp
    | succ t ih =>
      intro ht
      obtain ⟨l, g⟩ := ih (by omega)
      rw [List.range_succ, List.foldl_append]
      simp only [List.foldl_cons, List.foldl_nil, List.length_set]
      refine ⟨l, ?_⟩
      intro x
      rw [getD_set_eq, g, l]
      by_cases hx : t = x
      · subst hx
        rw [if_pos ⟨rfl, by omega⟩, if_pos (by omega)]
      · rw [if_neg (by tauto)]
        by_cases hx2 : x < t
        · rw [if_pos hx2, if_pos (by omega)]
        · rw [if_neg hx2, if_neg (by omega)]
  obtain ⟨l, g⟩ := key n (le_refl _)
  apply ext_getD
  · rw [l]; simp
  · intro x hx
    rw [l] at hx
    rw [g, if_pos hx]
    simp [List.getD_eq_getElem?_getD, List.getElem?_map, List.getElem?_range hx]

theorem identityVector_isPerm (n : Nat) : IsPermutationVector n (identityVector n) :=
  List.Perm.refl _

end Database
end SWILS

namespace SWILS
namespace Database

/-- Keys in strictly increasing order, as `std::map` keeps them. -/
theorem mapFind_mapSet (m : List (Nat × Int)) (k : Nat) (v : Int) (k2 : Nat) :
    mapFind (mapSet m k v) k2 = if k2 = k then some v else mapFind m k2 := by
  induction m with
  | nil =>
    simp only [mapSet, mapFind]
    split_ifs <;> first | rfl | omega
  | cons e rest ih =>
    simp only [mapSet]
    split
    · simp only [mapFind]
      split_ifs <;> first | rfl | omega
    · split
      · simp only [mapFind]
        split_ifs <;> first | rfl | omega
      · simp only [mapFind, ih]
        split_ifs <;> first | rfl | omega

theorem mapFind_mapErase (m : List (Nat × Int)) (k : Nat) (k2 : Nat) :
    mapFind (mapErase m k) k2 = if k2 = k then none else mapFind m k2 := by
  unfold mapErase
  induction m with
  | nil => simp [mapFind]
  | cons e rest ih =>
    simp only [List.filter_cons]
    by_cases he : e.1 = k
    · simp only [he, ne_eq, not_true_eq_false, decide_False, Bool.false_eq_true, if_false, ih,
        mapFind]
      split_ifs <;> first | rfl | omega
    · simp only [ne_eq, he, not_false_eq_true, decide_True, if_true, mapFind, ih]
      split_ifs <;> first | rfl | omega

theorem mapFind_some_mem (m : List (Nat × Int)) (k : Nat) (v : Int)
    (h : mapFind m k = some v) : (k, v) ∈ m := by
  induction m with
  | nil => simp [mapFind] at h
  | cons e rest ih =>
    simp only [mapFind] at h
    split at h
    · rename_i he
      simp only [Option.some.injEq] at h
      rw [← he, ← h]
      exact List.mem_cons_self _ _
    · exact List.mem_cons_of_mem _ (ih h)

theorem mem_mapFind (m : List (Nat × Int)) (hs : (m.map Prod.fst).Nodup) (k : Nat) (v : Int)
    (h : (k, v) ∈ m) : mapFind m k = some v := by
  induction m with
  | nil => simp at h
  | cons e rest ih =>
    simp only [List.map_cons, List.nodup_cons] at hs
    simp only [mapFind]
    rcases List.mem_cons.mp h with h | h
    · rw [← h]; simp
    · have : e.1 ≠ k := by
        intro he
        apply hs.1
        rw [he]
        exact List.mem_map_of_mem Prod.fst h
      rw [if_neg this]
      exact ih hs.2 h

theorem mapSet_keys_sorted (m : List (Nat × Int)) (k : Nat) (v : Int)
    (hs : (m.map Prod.fst).Pairwise (fun a b => a < b)) :
    ((mapSet m k v).map Prod.fst).Pairwise (fun a b => a < b) ∧
    ∀ x, x ∈ (mapSet m k v).map Prod.fst ↔ x = k ∨ x ∈ m.map Prod.fst := by
  induction m with
  | nil => simp [mapSet]
  | cons e rest ih =>
    simp only [List.map_cons, List.pairwise_cons] at hs
    simp only [mapSet]
    split
    · rename_i h1
      refine ⟨?_, by simp⟩
      simp only [List.map_cons, List.pairwise_cons]
      refine ⟨?_, hs.1, hs.2⟩
      intro a ha
      rcases List.mem_cons.mp ha with ha | ha
      · omega
      · have := hs.1 a ha; omega
    · split
      · rename_i h1 h2
        refine ⟨?_, ?_⟩
        · simp only [List.map_cons, List.pairwise_cons]
          exact ⟨fun a ha => by have := hs.1 a ha; omega, hs.2⟩
        · intro x
          simp only [List.map_cons, List.mem_cons]
          constructor
          · rintro (h | h)
            · left; exact h
            · right; right; exact h
          · rintro (h | h | h)
            · left; exact h
            · left; omega
            · right; exact h
      · rename_i h1 h2
        obtain ⟨i1, i2⟩ := ih hs.2
        refine ⟨?_, ?_⟩
        · simp only [List.map_cons, List.pairwise_cons]
          refine ⟨?_, i1⟩
          intro a ha
          rcases (i2 a).mp ha with h | h
          · omega
          · exact hs.1 a h
        · intro x
          simp only [List.map_cons, List.mem_cons, i2]
          tauto

theorem mapErase_keys_sorted (m : List (Nat × Int)) (k : Nat)
    (hs : (m.map Prod.fst).Pairwise (fun a b => a < b)) :
    ((mapErase m k).map Prod.fst).Pairwise (fun a b => a < b) := by
  unfold mapErase
  exact List.Pairwise.sublist (List.Sublist.map _ (List.filter_sublist _)) hs

theorem sorted_nodup (l : List Nat) (hs : l.Pairwise (fun a b => a < b)) : l.Nodup :=
  hs.imp (fun h => Nat.ne_of_lt h)

theorem mapFind_none_of_not_mem (m : List (Nat × Int)) (k : Nat)
    (h : k ∉ m.map Prod.fst) : mapFind m k = none := by
  cases hf : mapFind m k with
  | none => rfl
  | some v =>
    exfalso
    apply h
    exact List.mem_map_of_mem Prod.fst (mapFind_some_mem m k v hf)

theorem mapErase_eq_nil (m : List (Nat × Int)) (k : Nat)
    (h : ∀ x ∈ m.map Prod.fst, x = k) : mapErase m k = [] := by
  unfold mapErase
  rw [List.filter_eq_nil_iff]
  intro e he
  have := h e.1 (List.mem_map_of_mem Prod.fst he)
  simp [this]

end Database
end SWILS

namespace SWILS
namespace Database

theorem nextGroup_eq (m : List (Nat × Int)) :
    nextGroup m = m.foldl nextGroupStep ([], INT_MAX) := rfl

theorem nextGroup_fold_spec : ∀ (l : List (Nat × Int)) (q : List Nat) (d : Int),
    (l.foldl nextGroupStep (q, d)).2 ≤ d ∧
    (∀ e ∈ l, (l.foldl nextGroupStep (q, d)).2 ≤ e.2) ∧
    (∀ k ∈ (l.foldl nextGroupStep (q, d)).1,
      (k ∈ q ∧ (l.foldl nextGroupStep (q, d)).2 = d) ∨
      (k, (l.foldl nextGroupStep (q, d)).2) ∈ l) ∧
    List.Sublist (l.foldl nextGroupStep (q, d)).1 (q ++ l.map Prod.fst) ∧
    (q ≠ [] → (l.foldl nextGroupStep (q, d)).1 ≠ []) ∧
    ((∀ e ∈ l, e.2 ≤ d) → l ≠ [] → (l.foldl nextGroupStep (q, d)).1 ≠ []) := by
  intro l
  induction l with
  | nil =>
    intro q d
    simp only [List.foldl_nil, List.map_nil, List.append_nil]
    exact ⟨le_refl _, fun e he => by simp at he, fun k hk => Or.inl ⟨hk, trivial⟩,
      List.Sublist.refl _, fun h => h, fun _ h => absurd rfl h⟩
  | cons e rest ih =>
    intro q d
    simp only [List.foldl_cons]
    by_cases h1 : d > e.2
    · have es : nextGroupStep (q, d) e = ([e.1], e.2) := by
        simp only [nextGroupStep, h1, if_true]
      rw [es]
      obtain ⟨a1, a2, a3, a4, a5, a6⟩ := ih [e.1] e.2
      refine ⟨by omega, ?_, ?_, ?_, fun _ => a5 (by simp), fun _ _ => a5 (by simp)⟩
      · intro x hx
        rcases List.mem_cons.mp hx with hx | hx
        · rw [hx]; exact a1
        · exact a2 x hx
      · intro k hk
        right
        rcases a3 k hk with ⟨h, h2⟩ | h
        · simp only [List.mem_singleton] at h
          rw [h2, h]
          exact List.mem_cons_self _ _
        · exact List.mem_cons_of_mem _ h
      · simp only [List.map_cons]
        exact a4.trans (List.sublist_append_right _ _)
    · by_cases h2 : d = e.2
      · have es : nextGroupStep (q, d) e = (q ++ [e.1], d) := by
          simp only [nextGroupStep, if_neg h1]
          rw [if_pos h2]
        rw [es]
        obtain ⟨a1, a2, a3, a4, a5, a6⟩ := ih (q ++ [e.1]) d
        refine ⟨a1, ?_, ?_, ?_, fun _ => a5 (by simp), fun _ _ => a5 (by simp)⟩
        · intro x hx
          rcases List.mem_cons.mp hx with hx | hx
          · rw [hx]; omega
          · exact a2 x hx
        · intro k hk
          rcases a3 k hk with ⟨h, h3⟩ | h
          · rcases List.mem_append.mp h with h | h
            · left; exact ⟨h, h3⟩
            · right
              simp only [List.mem_singleton] at h
              rw [h3, h, h2]
              exact List.mem_cons_self _ _
          · right; exact List.mem_cons_of_mem _ h
        · simp only [List.map_cons]
          simpa using a4
      · have es : nextGroupStep (q, d) e = (q, d) := by
          simp only [nextGroupStep, if_neg h1]
          rw [if_neg h2]
        rw [es]
        obtain ⟨a1, a2, a3, a4, a5, a6⟩ := ih q d
        refine ⟨a1, ?_, ?_, ?_, a5, ?_⟩
        · intro x hx
          rcases List.mem_cons.mp hx with hx | hx
          · rw [hx]; omega
          · exact a2 x hx
        · intro k hk
          rcases a3 k hk with h | h
          · left; exact h
          · right; exact List.mem_cons_of_mem _ h
        · simp only [List.map_cons]
          exact a4.trans (List.Sublist.append_left (List.sublist_cons_self _ _) _)
        · intro h3 _
          have := h3 e (List.mem_cons_self _ _)
          omega

/-- The next group: the keys of minimal distance, in key order. -/
theorem nextGroup_spec (m : List (Nat × Int)) (hs : (m.map Prod.fst).Nodup)
    (hb : ∀ e ∈ m, e.2 ≤ INT_MAX) :
    (∀ e ∈ m, (nextGroup m).2 ≤ e.2) ∧
    (∀ k ∈ (nextGroup m).1, mapFind m k = some (nextGroup m).2) ∧
    (nextGroup m).1.Nodup ∧
    (m ≠ [] → (nextGroup m).1 ≠ []) ∧
    (m = [] → (nextGroup m).1 = []) := by
  obtain ⟨a1, a2, a3, a4, a5, a6⟩ := nextGroup_fold_spec m [] INT_MAX
  rw [nextGroup_eq]
  refine ⟨a2, ?_, ?_, a6 hb, ?_⟩
  · intro k hk
    rcases a3 k hk with ⟨h, _⟩ | h
    · simp at h
    · exact mem_mapFind m hs k _ h
  · simp only [List.nil_append] at a4
    exact List.Nodup.sublist a4 hs
  · intro h
    subst h
    rfl

end Database
end SWILS

namespace SWILS
namespace Database

theorem relax_eq (n : Nat) (list : List inversion_info) (vectorPi : List Int) (cd : Int)
    (visited : List Nat) (init : List (Nat × Int) × List Int) :
    relax n list vectorPi cd visited init
      = list.foldl (relaxStep n vectorPi cd visited) init := rfl

theorem relaxStep_spec (n : Nat) (vectorPi : List Int) (cd : Int) (visited : List Nat)
    (st : List (Nat × Int) × List Int) (info : inversion_info)
    (hs : (st.1.map Prod.fst).Pairwise (fun a b => a < b))
    (hw : wrap32 (cd + info.w) = cd + info.w) :
    ((relaxStep n vectorPi cd visited st info).1.map Prod.fst).Pairwise (fun a b => a < b) ∧
    (∀ k v, mapFind (relaxStep n vectorPi cd visited st info).1 k = some v →
      mapFind st.1 k = some v ∨
      (vector_to_int n (applyInversion info.i info.j vectorPi) = k ∧ k ∉ visited ∧
        v = cd + info.w)) ∧
    (∀ k v, mapFind st.1 k = some v →
      ∃ v2, mapFind (relaxStep n vectorPi cd visited st info).1 k = some v2 ∧ v2 ≤ v) ∧
    (vector_to_int n (applyInversion info.i info.j vectorPi) ∈ visited ∨
      ∃ v, mapFind (relaxStep n vectorPi cd visited st info).1
        (vector_to_int n (applyInversion info.i info.j vectorPi)) = some v ∧
        v ≤ cd + info.w) := by
  unfold relaxStep
  simp only [hw]
  generalize vector_to_int n (applyInversion info.i info.j vectorPi) = nb
  by_cases hv : nb ∈ visited
  · simp only [hv, not_true_eq_false, if_false]
    exact ⟨hs, fun k v h => Or.inl h, fun k v h => ⟨v, h, le_refl _⟩, Or.inl trivial⟩
  · simp only [hv, not_false_eq_true, if_true]
    cases hf : mapFind st.1 nb with
    | none =>
      simp only
      refine ⟨(mapSet_keys_sorted _ _ _ hs).1, ?_, ?_, Or.inr ⟨cd + info.w, ?_, le_refl _⟩⟩
      · intro k v h
        rw [mapFind_mapSet] at h
        split at h
        · rename_i hk
          simp only [Option.some.injEq] at h
          exact Or.inr ⟨hk.symm, by rw [hk]; exact hv, h.symm⟩
        · exact Or.inl h
      · intro k v h
        rw [mapFind_mapSet]
        split
        · rename_i hk
          rw [hk, hf] at h
          exact absurd h (by simp)
        · exact ⟨v, h, le_refl _⟩
      · rw [mapFind_mapSet, if_pos rfl]
    | some old =>
      simp only
      by_cases hgt : old > cd + info.w
      · simp only [hgt, if_true]
        refine ⟨(mapSet_keys_sorted _ _ _ hs).1, ?_, ?_, Or.inr ⟨cd + info.w, ?_, le_refl _⟩⟩
        · intro k v h
          rw [mapFind_mapSet] at h
          split at h
          · rename_i hk
            simp only [Option.some.injEq] at h
            exact Or.inr ⟨hk.symm, by rw [hk]; exact hv, h.symm⟩
          · exact Or.inl h
        · intro k v h
          rw [mapFind_mapSet]
          split
          · rename_i hk
            rw [hk, hf] at h
            simp only [Option.some.injEq] at h
            exact ⟨cd + info.w, rfl, by omega⟩
          · exact ⟨v, h, le_refl _⟩
        · rw [mapFind_mapSet, if_pos rfl]
      · simp only [hgt, if_false]
        exact ⟨hs, fun k v h => Or.inl h, fun k v h => ⟨v, h, le_refl _⟩,
          Or.inr ⟨old, hf, by omega⟩⟩

theorem relax_spec (n : Nat) (vectorPi : List Int) (cd : Int) (visited : List Nat) :
    ∀ (list : List inversion_info) (st : List (Nat × Int) × List Int),
      (st.1.map Prod.fst).Pairwise (fun a b => a < b) →
      (∀ info ∈ list, wrap32 (cd + info.w) = cd + info.w) →
      ((relax n list vectorPi cd visited st).1.map Prod.fst).Pairwise (fun a b => a < b) ∧
      (∀ k v, mapFind (relax n list vectorPi cd visited st).1 k = some v →
        mapFind st.1 k = some v ∨
        ∃ info ∈ list, vector_to_int n (applyInversion info.i info.j vectorPi) = k ∧
          k ∉ visited ∧ v = cd + info.w) ∧
      (∀ k v, mapFind st.1 k = some v →
        ∃ v2, mapFind (relax n list vectorPi cd visited st).1 k = some v2 ∧ v2 ≤ v) ∧
      (∀ info ∈ list, vector_to_int n (applyInversion info.i info.j vectorPi) ∈ visited ∨
        ∃ v, mapFind (relax n list vectorPi cd visited st).1
          (vector_to_int n (applyInversion info.i info.j vectorPi)) = some v ∧
          v ≤ cd + info.w) := by
  intro list
  induction list with
  | nil =>
    intro st hs _
    simp only [relax_eq, List.foldl_nil]
    exact ⟨hs, fun k v h => Or.inl h, fun k v h => ⟨v, h, le_refl _⟩,
      fun info h => by simp at h⟩
  | cons info rest ih =>
    intro st hs hw
    obtain ⟨s1, s2, s3, s4⟩ := relaxStep_spec n vectorPi cd visited st info hs
      (hw info (List.mem_cons_self _ _))
    obtain ⟨r1, r2, r3, r4⟩ := ih (relaxStep n vectorPi cd visited st info) s1
      (fun x hx => hw x (List.mem_cons_of_mem _ hx))
    simp only [relax_eq, List.foldl_cons] at r1 r2 r3 r4 ⊢
    refine ⟨r1, ?_, ?_, ?_⟩
    · intro k v h
      rcases r2 k v h with h2 | ⟨x, hx, e⟩
      · rcases s2 k v h2 with h3 | h3
        · exact Or.inl h3
        · exact Or.inr ⟨info, List.mem_cons_self _ _, h3⟩
      · exact Or.inr ⟨x, List.mem_cons_of_mem _ hx, e⟩
    · intro k v h
      obtain ⟨v2, e2, l2⟩ := s3 k v h
      obtain ⟨v3, e3, l3⟩ := r3 k v2 e2
      exact ⟨v3, e3, by omega⟩
    · intro x hx
      rcases List.mem_cons.mp hx with hx | hx
      · subst hx
        rcases s4 with h | ⟨v, e, l⟩
        · exact Or.inl h
        · obtain ⟨v3, e3, l3⟩ := r3 _ v e
          exact Or.inr ⟨v3, e3, by omega⟩
      · exact r4 x hx

/-- The entries of the visited permutations are neither created nor changed by `relax`. -/
theorem relax_visited (n : Nat) (vectorPi : List Int) (cd : Int) (visited : List Nat) :
    ∀ (list : List inversion_info) (st : List (Nat × Int) × List Int) (k : Nat),
      k ∈ visited → mapFind (relax n list vectorPi cd visited st).1 k = mapFind st.1 k := by
  intro list
  induction list with
  | nil => intro st k _; rfl
  | cons info rest ih =>
    intro st k hk
    simp only [relax_eq, List.foldl_cons]
    have := ih (relaxStep n vectorPi cd visited st info) k hk
    simp only [relax_eq] at this
    rw [this]
    unfold relaxStep
    simp only
    split
    · rename_i hv
      have hne : ¬ k = vector_to_int n (applyInversion info.i info.j vectorPi) := by
        intro e; rw [e] at hk; exact hv hk
      split
      · simp only [mapFind_mapSet, if_neg hne]
      · split
        · simp only [mapFind_mapSet, if_neg hne]
        · rfl
    · rfl

end Database
end SWILS

namespace SWILS
namespace Database

theorem moveWeight_pos (n : Nat) (m : Nat × Nat) : 1 ≤ moveWeight n m := by
  unfold moveWeight iabs
  omega

theorem movesWeight_nonneg (n : Nat) (moves : List (Nat × Nat)) : 0 ≤ movesWeight n moves := by
  unfold movesWeight
  induction moves with
  | nil => simp
  | cons m rest ih =>
    simp only [List.map_cons, List.sum_cons]
    have := moveWeight_pos n m
    omega

theorem movesWeight_le (n : Nat) (moves : List (Nat × Nat)) (h : ∀ m ∈ moves, ValidMove n m) :
    movesWeight n moves ≤ n * moves.length := by
  unfold movesWeight
  induction moves with
  | nil => simp
  | cons m rest ih =>
    simp only [List.map_cons, List.sum_cons, List.length_cons]
    have := (moveWeight_bounds n m (h m (List.mem_cons_self _ _))).2
    have := ih (fun x hx => h x (List.mem_cons_of_mem _ hx))
    push_cast
    have e : (n : Int) * ((rest.length : Int) + 1) = n * rest.length + n := by ring
    omega

theorem applyMoves_isPerm (n : Nat) : ∀ (moves : List (Nat × Nat)) (P : List Int),
    (∀ m ∈ moves, ValidMove n m) → IsPermutationVector n P →
    IsPermutationVector n (applyMoves moves P) := by
  intro moves
  induction moves with
  | nil => intro P _ h; exact h
  | cons m rest ih =>
    intro P hm h
    simp only [applyMoves, List.foldl_cons]
    exact ih _ (fun x hx => hm x (List.mem_cons_of_mem _ hx))
      (reverseRange_isPerm n _ _ P (hm m (List.mem_cons_self _ _)).1 h)

theorem Reach.isPerm {n : Nat} {P : List Int} {d : Int} (h : Reach n P d) :
    IsPermutationVector n P := by
  obtain ⟨moves, hv, e, _⟩ := h
  rw [← e]
  exact applyMoves_isPerm n moves _ hv (identityVector_isPerm n)

theorem Reach.nonneg {n : Nat} {P : List Int} {d : Int} (h : Reach n P d) : 0 ≤ d := by
  obtain ⟨moves, _, _, e⟩ := h
  rw [← e]
  exact movesWeight_nonneg n moves

theorem Reach.zero (n : Nat) : Reach n (identityVector n) 0 :=
  ⟨[], fun m hm => by simp at hm, rfl, rfl⟩

theorem Reach.step {n : Nat} {P : List Int} {d : Int} (h : Reach n P d) (m : Nat × Nat)
    (hm : ValidMove n m) : Reach n (reverseRange (fun x => x) m.1 m.2 P) (d + moveWeight n m) := by
  obtain ⟨moves, hv, e, w⟩ := h
  refine ⟨moves ++ [m], ?_, ?_, ?_⟩
  · intro x hx
    rcases List.mem_append.mp hx with hx | hx
    · exact hv x hx
    · simp only [List.mem_singleton] at hx
      rw [hx]; exact hm
  · simp only [applyMoves, List.foldl_append, List.foldl_cons, List.foldl_nil]
    simp only [applyMoves] at e
    rw [e]
  · simp only [movesWeight, List.map_append, List.sum_append, List.map_cons, List.map_nil,
      List.sum_cons, List.sum_nil]
    simp only [movesWeight] at w
    rw [w]; ring

theorem isPerm_nodup (n : Nat) (P : List Int) (h : IsPermutationVector n P) : P.Nodup := by
  unfold IsPermutationVector at h
  rw [h.nodup_iff]
  apply List.Nodup.map _ (List.nodup_range n)
  intro a b hab
  simp only at hab
  omega

/-- Selection of the entries one position at a time: every permutation vector is obtained
from any other one by at most `n - k` inversions when the first `k` entries agree. -/
theorem sort_moves (n : Nat) (P : List Int) (hP : IsPermutationVector n P) :
    ∀ (c k : Nat) (A : List Int), k + c = n → IsPermutationVector n A →
      (∀ x, x < k → A.getD x 0 = P.getD x 0) →
      ∃ moves : List (Nat × Nat), (∀ m ∈ moves, ValidMove n m) ∧ applyMoves moves A = P ∧
        moves.length ≤ c := by
  have lenP : P.length = n := (getD_bounds_of_perm n P hP).1
  have ndP := isPerm_nodup n P hP
  intro c
  induction c with
  | zero =>
    intro k A hk hA hx
    have lenA : A.length = n := (getD_bounds_of_perm n A hA).1
    refine ⟨[], fun m hm => by simp at hm, ?_, le_refl _⟩
    simp only [applyMoves, List.foldl_nil]
    exact ext_getD A P (by omega) (fun x h => hx x (by omega))
  | succ c ih =>
    intro k A hk hA hx
    have lenA : A.length = n := (getD_bounds_of_perm n A hA).1
    have hmem : P.getD k 0 ∈ A := by
      have : P.getD k 0 ∈ P := getD_mem_of_lt P k (by omega)
      exact (hA.trans hP.symm).symm.subset this
    obtain ⟨m, hm, em⟩ := List.getElem_of_mem hmem
    have em2 : A.getD m 0 = P.getD k 0 := by rw [List.getD_eq_getElem _ _ hm, em]
    have hkm : k ≤ m := by
      by_contra hc
      have h1 := hx m (by omega)
      rw [em2] at h1
      rw [List.getD_eq_getElem _ _ (by omega : k < P.length),
        List.getD_eq_getElem _ _ (by omega : m < P.length)] at h1
      have := (List.Nodup.getElem_inj_iff ndP).mp h1
      omega
    obtain ⟨moves, mv, e, l⟩ := ih (k + 1) (reverseRange (fun x => x) k m A) (by omega)
      (reverseRange_isPerm n k m A hkm hA)
      (by
        intro x hxk
        rw [getD_reverseRange _ _ _ _ hkm (by omega)]
        by_cases h : x = k
        · subst h
          rw [if_pos ⟨le_refl _, hkm⟩]
          rw [show x + m - x = m by omega, em2]
        · rw [if_neg (by omega)]
          exact hx x (by omega))
    refine ⟨(k, m) :: moves, ?_, ?_, by simp; omega⟩
    · intro x hx2
      rcases List.mem_cons.mp hx2 with h | h
      · rw [h]; exact ⟨hkm, by simp only; omega⟩
      · exact mv x h
    · simp only [applyMoves, List.foldl_cons]
      exact e

/-- Every permutation vector is reached from the identity with weight at most `n * n`. -/
theorem reach_all (n : Nat) (P : List Int) (hP : IsPermutationVector n P) :
    ∃ d : Int, Reach n P d ∧ d ≤ n * n := by
  obtain ⟨moves, mv, e, l⟩ := sort_moves n P hP n 0 (identityVector n) (by omega)
    (identityVector_isPerm n) (fun x hx => by omega)
  refine ⟨movesWeight n moves, ⟨moves, mv, e, rfl⟩, ?_⟩
  have h1 := movesWeight_le n moves mv
  have h2 : (n : Int) * moves.length ≤ n * n :=
    Int.mul_le_mul_of_nonneg_left (by exact_mod_cast l) (by omega)
  omega

end Database
end SWILS

namespace SWILS
namespace Database

theorem code_decode (n : Nat) (hn : n ≤ 16) (P V : List Int) (hP : IsPermutationVector n P)
    (hV : V.length = n) : int_to_vector n (vector_to_int n P) V = P := by
  obtain ⟨hl, hb⟩ := getD_bounds_of_perm n P hP
  exact int_to_vector_vector_to_int n P V hn hl
    (fun i hi => ⟨(hb i hi).1, by have := (hb i hi).2; omega⟩) hV

theorem code_inj (n : Nat) (hn : n ≤ 16) (P Q : List Int) (hP : IsPermutationVector n P)
    (hQ : IsPermutationVector n Q) (e : vector_to_int n P = vector_to_int n Q) : P = Q := by
  have hl := (getD_bounds_of_perm n P hP).1
  have a := code_decode n hn P P hP hl
  have b := code_decode n hn Q P hQ hl
  rw [← a, e, b]

theorem code_lt (n : Nat) (hn : n ≤ 16) (P : List Int) (hP : IsPermutationVector n P) :
    vector_to_int n P < 16 ^ n := by
  obtain ⟨hl, hb⟩ := getD_bounds_of_perm n P hP
  have hb2 : ∀ i, i < P.length → 1 ≤ P.getD i 0 ∧ P.getD i 0 ≤ 16 :=
    fun i hi => ⟨(hb i hi).1, by have := (hb i hi).2; omega⟩
  rw [vector_to_int_eq_digitsValue P hb2 n (by omega) hn]
  exact digitsValue_lt P hb2 n (by omega)

theorem mem_visited_iff {n : Nat} {st : SolverState} {D : Int} (inv : SolverInv n st D)
    (x : Nat) : x ∈ st.visited ↔ ∃ d, (x, d) ∈ st.output := by
  rw [inv.visited_eq, List.mem_reverse, List.mem_map]
  constructor
  · rintro ⟨r, hr, e⟩
    exact ⟨r.2, by rw [← e]; exact hr⟩
  · rintro ⟨d, h⟩
    exact ⟨(x, d), h, rfl⟩

/-- Lower bound: a path that starts at a visited permutation and ends outside of the visited
set weighs at least `D` minus the distance of its start. -/
theorem lower_bound {n : Nat} (hn : n ≤ 16) {st : SolverState} {D : Int}
    (inv : SolverInv n st D) :
    ∀ (moves : List (Nat × Nat)) (A : List Int) (dA : Int),
      (∀ m ∈ moves, ValidMove n m) → IsPermutationVector n A →
      (vector_to_int n A, dA) ∈ st.output →
      vector_to_int n (applyMoves moves A) ∉ st.visited →
      D ≤ dA + movesWeight n moves := by
  intro moves
  induction moves with
  | nil =>
    intro A dA _ _ hA hend
    exfalso
    apply hend
    exact (mem_visited_iff inv _).mpr ⟨dA, hA⟩
  | cons m rest ih =>
    intro A dA hv hP hA hend
    have hm := hv m (List.mem_cons_self _ _)
    have hQ := reverseRange_isPerm n m.1 m.2 A hm.1 hP
    have hw : movesWeight n (m :: rest) = moveWeight n m + movesWeight n rest := by
      simp [movesWeight]
    have hnn := movesWeight_nonneg n rest
    rw [hw]
    rcases inv.closed _ hA A hP rfl m hm with h | ⟨v, hv2, hle⟩
    · obtain ⟨dQ, hdQ⟩ := (mem_visited_iff inv _).mp h
      obtain ⟨Q2, q1, q2, q3, _⟩ := inv.out_min _ hdQ
      have eq : Q2 = reverseRange (fun x => x) m.1 m.2 A := code_inj n hn _ _ q1 hQ q2
      obtain ⟨A2, a1, a2, a3, _⟩ := inv.out_min _ hA
      have ea : A2 = A := code_inj n hn _ _ a1 hP a2
      rw [ea] at a3
      rw [eq] at q3
      simp only at a3 q3
      have hle := q3.2 _ (a3.1.step m hm)
      have := ih (reverseRange (fun x => x) m.1 m.2 A) dQ
        (fun x hx => hv x (List.mem_cons_of_mem _ hx)) hQ hdQ
        (by simpa [applyMoves] using hend)
      omega
    · have := (inv.dist_ok _ _ hv2).2.1
      omega

end Database
end SWILS

namespace SWILS
namespace Database

theorem sq_le_256 (n : Nat) (hn : n ≤ 16) : (n : Int) * n ≤ 256 := by
  have : n * n ≤ 16 * 16 := Nat.mul_le_mul hn hn
  have h2 : ((n * n : Nat) : Int) ≤ 256 := by exact_mod_cast this
  simpa using h2

/-- One iteration of the solver loop keeps the invariant, writes the record of the front of
the queue with the distance of the group, and moves to a group that is not nearer. -/
theorem process_step_inv (n : Nat) (hn : n ≤ 16) (st : SolverState) (D : Int) (u : Nat)
    (rest : List Nat) (inv : SolverInv n st D) (hq : st.queue = u :: rest) :
    ∃ D2 : Int, D ≤ D2 ∧
      SolverInv n (process_step n (swi_ls (n : Int) true) u rest st) D2 ∧
      (process_step n (swi_ls (n : Int) true) u rest st).output = st.output ++ [(u, D)] ∧
      (process_step n (swi_ls (n : Int) true) u rest st).visited = u :: st.visited := by
  have hu : mapFind st.distances u = some D :=
    inv.queue_ok u (by rw [hq]; exact List.mem_cons_self _ _)
  obtain ⟨hnv, _, _, P, hP, hcode, hreach⟩ := inv.dist_ok u D hu
  have hcd : (mapFind st.distances u).getD 0 = D := by rw [hu]; rfl
  have hvec : int_to_vector n u st.vectorPi = P := by
    rw [← hcode]; exact code_decode n hn P _ hP inv.buf
  have lenP : P.length = n := (getD_bounds_of_perm n P hP).1
  have hmin : MinDist n P D := by
    refine ⟨hreach, ?_⟩
    intro d2 h2
    rcases inv.start with hs | ⟨_, _, hD0⟩
    · obtain ⟨moves, mv, e, w⟩ := h2
      have hmem : (vector_to_int n (identityVector n), (0 : Int)) ∈ st.output :=
        List.mem_of_mem_head? hs
      have := lower_bound hn inv moves (identityVector n) 0 mv (identityVector_isPerm n) hmem
        (by rw [e, hcode]; exact hnv)
      omega
    · have := h2.nonneg
      omega
  have hDle : D ≤ (n : Int) * n := by
    obtain ⟨d0, r0, l0⟩ := reach_all n P hP
    have := hmin.2 d0 r0
    omega
  have h256 := sq_le_256 n hn
  have hD0 := inv.nonneg
  have hwrap : ∀ info ∈ swi_ls (n : Int) true, wrap32 (D + info.w) = D + info.w := by
    intro info hi
    obtain ⟨i, j, h1, h2, e⟩ := (db_mem_swi_ls n info).mp hi
    subst e
    have := moveWeight_bounds n (i, j) ⟨h1, h2⟩
    simp only
    unfold wrap32
    omega
  have ks1 := mapErase_keys_sorted st.distances u inv.keys_sorted
  obtain ⟨r1, r2, r3, r4⟩ := relax_spec n P D (u :: st.visited) (swi_ls (n : Int) true)
    (mapErase st.distances u, st.vectorSigma) ks1 hwrap
  have hstep : process_step n (swi_ls (n : Int) true) u rest st =
      { queue := if rest.length = 0 then
          (nextGroup (relax n (swi_ls (n : Int) true) P D (u :: st.visited)
            (mapErase st.distances u, st.vectorSigma)).1).1 else rest,
        distances := (relax n (swi_ls (n : Int) true) P D (u :: st.visited)
            (mapErase st.distances u, st.vectorSigma)).1,
        visited := u :: st.visited,
        vectorPi := P,
        vectorSigma := (relax n (swi_ls (n : Int) true) P D (u :: st.visited)
            (mapErase st.distances u, st.vectorSigma)).2,
        output := st.output ++ [(u, D)] } := by
    unfold process_step
    simp only [hcd, hvec]
  rw [hstep]
  generalize hm : (relax n (swi_ls (n : Int) true) P D (u :: st.visited)
    (mapErase st.distances u, st.vectorSigma)) = rl at r1 r2 r3 r4 ⊢
  simp only at r1 r2 r3
  -- entries of the new map
  have hE : ∀ k v, mapFind rl.1 k = some v →
      k ∉ u :: st.visited ∧ D ≤ v ∧ v ≤ (n : Int) * n + n ∧
      ∃ Q, IsPermutationVector n Q ∧ vector_to_int n Q = k ∧ Reach n Q v := by
    intro k v h
    rcases r2 k v h with h0 | ⟨info, hi, e1, e2, e3⟩
    · rw [mapFind_mapErase] at h0
      split at h0
      · exact absurd h0 (by simp)
      · rename_i hne
        obtain ⟨o1, o2, o3, o4⟩ := inv.dist_ok k v h0
        refine ⟨?_, o2, o3, o4⟩
        intro hmem
        rcases List.mem_cons.mp hmem with h | h
        · exact hne h
        · exact o1 h
    · obtain ⟨i, j, h1, h2, e⟩ := (db_mem_swi_ls n info).mp hi
      subst e
      simp only at e1 e3
      rw [applyInversion_eq_reverseRange i j P h1 (by omega)] at e1
      have hb := moveWeight_bounds n (i, j) ⟨h1, h2⟩
      refine ⟨e2, by omega, by omega, reverseRange (fun x => x) i j P,
        reverseRange_isPerm n i j P h1 hP, e1, ?_⟩
      rw [e3]
      exact hreach.step (i, j) ⟨h1, h2⟩
  have hvis : u :: st.visited = ((st.output ++ [(u, D)]).map Prod.fst).reverse := by
    rw [inv.visited_eq]; simp
  have hnodup : ((st.output ++ [(u, D)]).map Prod.fst).Nodup := by
    rw [List.map_append, List.nodup_append]
    refine ⟨inv.out_nodup, by simp, ?_⟩
    intro a ha hb
    simp only [List.map_cons, List.map_nil, List.mem_singleton] at hb
    subst hb
    apply hnv
    rw [inv.visited_eq, List.mem_reverse]
    exact ha
  have hsorted : ((st.output ++ [(u, D)]).map Prod.snd).Pairwise (fun a b => a ≤ b) := by
    rw [List.map_append, List.pairwise_append]
    refine ⟨inv.out_sorted, by simp, ?_⟩
    intro a ha b hb
    simp only [List.map_cons, List.map_nil, List.mem_singleton] at hb
    subst hb
    obtain ⟨r, hr, e⟩ := List.mem_map.mp ha
    obtain ⟨_, _, _, _, l⟩ := inv.out_min r hr
    omega
  have hmin2 : ∀ D2 : Int, D ≤ D2 → ∀ r ∈ st.output ++ [(u, D)],
      ∃ Q, IsPermutationVector n Q ∧ vector_to_int n Q = r.1 ∧ MinDist n Q r.2 ∧ r.2 ≤ D2 := by
    intro D2 hD2 r hr
    rcases List.mem_append.mp hr with hr | hr
    · obtain ⟨Q, q1, q2, q3, q4⟩ := inv.out_min r hr
      exact ⟨Q, q1, q2, q3, by omega⟩
    · simp only [List.mem_singleton] at hr
      subst hr
      exact ⟨P, hP, hcode, hmin, hD2⟩
  have hclosed : ∀ r ∈ st.output ++ [(u, D)], ∀ Q, IsPermutationVector n Q →
      vector_to_int n Q = r.1 → ∀ m, ValidMove n m →
      vector_to_int n (reverseRange (fun x => x) m.1 m.2 Q) ∈ u :: st.visited ∨
      ∃ v, mapFind rl.1 (vector_to_int n (reverseRange (fun x => x) m.1 m.2 Q)) = some v ∧
        v ≤ r.2 + moveWeight n m := by
    intro r hr Q hQ hc m hmv
    rcases List.mem_append.mp hr with hr | hr
    · rcases inv.closed r hr Q hQ hc m hmv with h | ⟨v, hv, hle⟩
      · exact Or.inl (List.mem_cons_of_mem _ h)
      · by_cases heq : vector_to_int n (reverseRange (fun x => x) m.1 m.2 Q) = u
        · left; rw [heq]; exact List.mem_cons_self _ _
        · right
          have : mapFind (mapErase st.distances u)
              (vector_to_int n (reverseRange (fun x => x) m.1 m.2 Q)) = some v := by
            rw [mapFind_mapErase, if_neg heq]; exact hv
          obtain ⟨v2, e2, l2⟩ := r3 _ v this
          exact ⟨v2, e2, by omega⟩
    · simp only [List.mem_singleton] at hr
      subst hr
      simp only at hc
      have eQ : Q = P := code_inj n hn Q P hQ hP (by rw [hc, hcode])
      subst eQ
      have hi : inversion_info.mk (m.1 : Int) (m.2 : Int) (moveWeight n (m.1, m.2))
          ∈ swi_ls (n : Int) true :=
        (db_mem_swi_ls n _).mpr ⟨m.1, m.2, hmv.1, hmv.2, rfl⟩
      have := r4 _ hi
      simp only at this
      rw [applyInversion_eq_reverseRange m.1 m.2 Q hmv.1 (by rw [lenP]; exact hmv.2)] at this
      exact this
  have hstart : (st.output ++ [(u, D)]).head? = some (vector_to_int n (identityVector n), 0) := by
    rcases inv.start with hs | ⟨ho, hqq, hD⟩
    · cases hout : st.output with
      | nil => rw [hout] at hs; simp at hs
      | cons a t => rw [hout] at hs; simpa using hs
    · rw [hqq] at hq
      simp only [List.cons.injEq] at hq
      rw [ho, ← hq.1, hD]
      rfl
  by_cases hrest : rest = []
  · subst hrest
    simp only [List.length_nil, if_true]
    have hkn := sorted_nodup _ r1
    have hb : ∀ e ∈ rl.1, e.2 ≤ INT_MAX := by
      intro e he
      have := (hE e.1 e.2 (mem_mapFind rl.1 hkn e.1 e.2 he)).2.2.1
      unfold INT_MAX
      omega
    obtain ⟨g1, g2, g3, g4, g5⟩ := nextGroup_spec rl.1 hkn hb
    by_cases hempty : rl.1 = []
    · refine ⟨D, le_refl _, ?_, by first | rfl | trivial, by first | rfl | trivial⟩
      exact {
        out_min := hmin2 D (le_refl _)
        visited_eq := hvis
        out_nodup := hnodup
        out_sorted := hsorted
        keys_sorted := r1
        dist_ok := fun k v h => hE k v h
        closed := hclosed
        queue_nodup := g3
        queue_ok := fun q hq2 => by rw [g5 hempty] at hq2; simp at hq2
        queue_empty := fun _ => hempty
        start := Or.inl hstart
        buf := lenP
        nonneg := hD0 }
    · have hne := g4 hempty
      obtain ⟨q0, hq0⟩ := List.exists_mem_of_ne_nil _ hne
      have hDmin : D ≤ (nextGroup rl.1).2 := (hE q0 _ (g2 q0 hq0)).2.1
      refine ⟨(nextGroup rl.1).2, hDmin, ?_, by first | rfl | trivial, by first | rfl | trivial⟩
      exact {
        out_min := hmin2 _ hDmin
        visited_eq := hvis
        out_nodup := hnodup
        out_sorted := hsorted
        keys_sorted := r1
        dist_ok := fun k v h => by
          obtain ⟨e1, _, e3, e4⟩ := hE k v h
          exact ⟨e1, g1 (k, v) (mapFind_some_mem _ _ _ h), e3, e4⟩
        closed := hclosed
        queue_nodup := g3
        queue_ok := g2
        queue_empty := fun h => absurd h hne
        start := Or.inl hstart
        buf := lenP
        nonneg := by omega }
  · have hlen : ¬ rest.length = 0 := by
      intro h; exact hrest (List.length_eq_zero.mp h)
    simp only [hlen, if_false]
    have hqn := inv.queue_nodup
    rw [hq, List.nodup_cons] at hqn
    refine ⟨D, le_refl _, ?_, by first | rfl | trivial, by first | rfl | trivial⟩
    exact {
      out_min := hmin2 D (le_refl _)
      visited_eq := hvis
      out_nodup := hnodup
      out_sorted := hsorted
      keys_sorted := r1
      dist_ok := fun k v h => hE k v h
      closed := hclosed
      queue_nodup := hqn.2
      queue_ok := fun q hq2 => by
        have h0 := inv.queue_ok q (by rw [hq]; exact List.mem_cons_of_mem _ hq2)
        have hne : ¬ q = u := by
          intro e; rw [e] at hq2; exact hqn.1 hq2
        have : mapFind (mapErase st.distances u) q = some D := by
          rw [mapFind_mapErase, if_neg hne]; exact h0
        obtain ⟨v2, e2, l2⟩ := r3 q D this
        have := (hE q v2 e2).2.1
        have : v2 = D := by omega
        rw [e2, this]
      queue_empty := fun h => absurd h hrest
      start := Or.inl hstart
      buf := lenP
      nonneg := hD0 }

end Database
end SWILS

namespace SWILS
namespace Database

theorem identityVector_length (n : Nat) : (identityVector n).length = n := by
  simp [identityVector]

theorem process_init_inv (n : Nat) : SolverInv n (process_init n) 0 := by
  have hinit : process_init n =
      { queue := [vector_to_int n (identityVector n)],
        distances := [(vector_to_int n (identityVector n), 0)],
        visited := [], vectorPi := identityVector n, vectorSigma := List.replicate n 0,
        output := [] } := by
    unfold process_init
    simp only [identityPermutation_eq]
  rw [hinit]
  exact {
    out_min := fun r hr => by simp at hr
    visited_eq := rfl
    out_nodup := by simp
    out_sorted := by simp
    keys_sorted := by simp
    dist_ok := fun k v h => by
      simp only [mapFind] at h
      split at h
      · rename_i hk
        simp only [Option.some.injEq] at h
        subst h
        refine ⟨by simp, le_refl _, ?_, identityVector n, identityVector_isPerm n, hk,
          Reach.zero n⟩
        have : (0 : Int) ≤ (n : Int) * n := mul_nonneg (by omega) (by omega)
        omega
      · exact absurd h (by simp)
    closed := fun r hr => by simp at hr
    queue_nodup := by simp
    queue_ok := fun q hq => by
      simp only [List.mem_singleton] at hq
      subst hq
      simp [mapFind]
    queue_empty := fun h => by simp at h
    start := Or.inr ⟨rfl, rfl, rfl⟩
    buf := identityVector_length n
    nonneg := le_refl _ }

theorem process_loop_nil (n : Nat) (list : List inversion_info) (fuel : Nat) (st : SolverState)
    (h : st.queue = []) : process_loop n list fuel st = st := by
  cases fuel with
  | zero => rfl
  | succ f => simp only [process_loop, h]

theorem process_loop_add (n : Nat) (list : List inversion_info) : ∀ (a b : Nat)
    (st : SolverState),
    process_loop n list (a + b) st = process_loop n list b (process_loop n list a st) := by
  intro a
  induction a with
  | zero => intro b st; simp [process_loop]
  | succ a ih =>
    intro b st
    rw [show a + 1 + b = (a + b) + 1 by omega]
    simp only [process_loop]
    cases hq : st.queue with
    | nil =>
      simp only
      rw [process_loop_nil n list b st hq]
    | cons u rest =>
      simp only
      exact ih b _

/-- The invariant holds at every point of the loop. -/
theorem process_loop_inv (n : Nat) (hn : n ≤ 16) : ∀ (fuel : Nat) (st : SolverState) (D : Int),
    SolverInv n st D →
    ∃ D2 : Int, SolverInv n (process_loop n (swi_ls (n : Int) true) fuel st) D2 := by
  intro fuel
  induction fuel with
  | zero => intro st D inv; exact ⟨D, inv⟩
  | succ fuel ih =>
    intro st D inv
    simp only [process_loop]
    cases hq : st.queue with
    | nil => exact ⟨D, inv⟩
    | cons u rest =>
      simp only
      obtain ⟨D2, _, inv2, _, _⟩ := process_step_inv n hn st D u rest inv hq
      exact ih _ D2 inv2

theorem nodup_lt_length (l : List Nat) (N : Nat) (hnd : l.Nodup) (hlt : ∀ x ∈ l, x < N) :
    l.length ≤ N := by
  have sub : l ⊆ List.range N := fun x hx => List.mem_range.mpr (hlt x hx)
  have := (List.subperm_of_subset hnd sub).length_le
  simpa using this

theorem visited_length_lt (n : Nat) (hn : n ≤ 16) (st : SolverState) (D : Int)
    (inv : SolverInv n st D) (u : Nat) (rest : List Nat) (hq : st.queue = u :: rest) :
    st.visited.length < 16 ^ n := by
  have hu : mapFind st.distances u = some D :=
    inv.queue_ok u (by rw [hq]; exact List.mem_cons_self _ _)
  obtain ⟨hnv, _, _, P, hP, hcode, _⟩ := inv.dist_ok u D hu
  have hnd : (u :: st.visited).Nodup := by
    rw [List.nodup_cons]
    refine ⟨hnv, ?_⟩
    rw [inv.visited_eq, List.nodup_reverse]
    exact inv.out_nodup
  have hlt : ∀ x ∈ u :: st.visited, x < 16 ^ n := by
    intro x hx
    rcases List.mem_cons.mp hx with h | h
    · rw [h, ← hcode]; exact code_lt n hn P hP
    · obtain ⟨d, hd⟩ := (mem_visited_iff inv x).mp h
      obtain ⟨Q, q1, q2, _, _⟩ := inv.out_min _ hd
      simp only at q2
      rw [← q2]; exact code_lt n hn Q q1
  have := nodup_lt_length _ _ hnd hlt
  simp only [List.length_cons] at this
  omega

/-- Termination: after `16 ^ n` iterations the queue is empty. -/
theorem process_loop_terminates (n : Nat) (hn : n ≤ 16) : ∀ (fuel : Nat) (st : SolverState)
    (D : Int), SolverInv n st D → 16 ^ n ≤ st.visited.length + fuel →
    (process_loop n (swi_ls (n : Int) true) fuel st).queue = [] := by
  intro fuel
  induction fuel with
  | zero =>
    intro st D inv h
    simp only [process_loop]
    cases hq : st.queue with
    | nil => rfl
    | cons u rest =>
      have := visited_length_lt n hn st D inv u rest hq
      omega
  | succ fuel ih =>
    intro st D inv h
    simp only [process_loop]
    cases hq : st.queue with
    | nil => simp only [hq]
    | cons u rest =>
      simp only
      obtain ⟨D2, _, inv2, _, hv⟩ := process_step_inv n hn st D u rest inv hq
      apply ih _ D2 inv2
      rw [hv, List.length_cons]
      omega

theorem process_eq (n fuel : Nat) :
    process n fuel = some (process_loop n (swi_ls (n : Int) true) fuel (process_init n)) := by
  unfold process getPossibleInversions
  simp

theorem process_loop_output_prefix (n : Nat) (list : List inversion_info) :
    ∀ (fuel : Nat) (st : SolverState),
      ∃ suffix, (process_loop n list fuel st).output = st.output ++ suffix := by
  intro fuel
  induction fuel with
  | zero => intro st; exact ⟨[], by simp [process_loop]⟩
  | succ fuel ih =>
    intro st
    simp only [process_loop]
    cases hq : st.queue with
    | nil => exact ⟨[], by simp⟩
    | cons u rest =>
      simp only
      obtain ⟨s, hs⟩ := ih (process_step n list u rest st)
      rw [hs]
      exact ⟨[(u, (mapFind st.distances u).getD 0)] ++ s, by simp [process_step]⟩

end Database
end SWILS

namespace SWILS
namespace Database

theorem first_record (n : Nat) (list : List inversion_info) (fuel : Nat) (h : 1 ≤ fuel) :
    ∃ (d : Int) (s : List (Nat × Int)),
      (process_loop n list fuel (process_init n)).output
        = (vector_to_int n (identityPermutation n (List.replicate n 0)), d) :: s := by
  obtain ⟨f, rfl⟩ : ∃ f, fuel = f + 1 := ⟨fuel - 1, by omega⟩
  have hq : (process_init n).queue
      = [vector_to_int n (identityPermutation n (List.replicate n 0))] := rfl
  simp only [process_loop, hq]
  obtain ⟨s, hs⟩ := process_loop_output_prefix n list f
    (process_step n list (vector_to_int n (identityPermutation n (List.replicate n 0))) []
      (process_init n))
  refine ⟨(mapFind (process_init n).distances
    (vector_to_int n (identityPermutation n (List.replicate n 0)))).getD 0, s, ?_⟩
  rw [hs]
  rfl

theorem filter_length_eq_one {α : Type} (f : α → List Int) : ∀ (l : List α) (b : List Int),
    (l.map f).Nodup → b ∈ l.map f → (l.filter (fun x => decide (f x = b))).length = 1 := by
  intro l
  induction l with
  | nil => intro b _ h; simp at h
  | cons a t ih =>
    intro b hnd hmem
    simp only [List.map_cons, List.nodup_cons] at hnd
    simp only [List.filter_cons]
    by_cases h : f a = b
    · simp only [h, decide_True, if_true, List.length_cons]
      have : t.filter (fun x => decide (f x = b)) = [] := by
        rw [List.filter_eq_nil_iff]
        intro x hx
        simp only [decide_eq_true_eq]
        intro e
        apply hnd.1
        rw [h, ← e]
        exact List.mem_map_of_mem f hx
      rw [this]; rfl
    · simp only [h, decide_False, Bool.false_eq_true, if_false]
      apply ih b hnd.2
      simp only [List.map_cons, List.mem_cons] at hmem
      rcases hmem with e | e
      · exact absurd e.symm h
      · exact e

theorem emitted_of_code (n : Nat) (hn : n ≤ 16) (P : List Int) (hP : IsPermutationVector n P) :
    emittedVector n (vector_to_int n P) = P :=
  code_decode n hn P _ hP (by simp)

/-- C2 (amended). For every `1 ≤ n ≤ 16`, every pair written by the solver loop of `process`
carries the minimum, over the sequences of inversions `(i, j)` with `0 ≤ i ≤ j < n` that
transform the identity into the permutation of the pair, of the sum of the weights
`|slice(i) - slice(j)| + 1`; the identity is written with distance `0`. -/
theorem solver_exact (n : Nat) (_h1 : 1 ≤ n) (h16 : n ≤ 16) : SolverExact n := by
  intro fuel st h
  rw [process_eq] at h
  simp only [Option.some.injEq] at h
  obtain ⟨D, inv⟩ := process_loop_inv n h16 fuel (process_init n) 0 (process_init_inv n)
  rw [h] at inv
  constructor
  · intro r hr
    obtain ⟨P, p1, p2, p3, _⟩ := inv.out_min r hr
    rw [← p2, emitted_of_code n h16 P p1]
    exact p3
  · intro hf
    obtain ⟨d, s, hs⟩ := first_record n (swi_ls (n : Int) true) fuel hf
    rw [h] at hs
    rcases inv.start with hst | ⟨ho, _, _⟩
    · refine ⟨_, List.mem_of_mem_head? hst, ?_, rfl⟩
      exact emitted_of_code n h16 _ (identityVector_isPerm n)
    · rw [ho] at hs
      exact absurd hs (by simp)

/-- Witness of C2 (amended) at `n = 3`. -/
theorem solver_exact_witness : SolverExact 3 := solver_exact 3 (by decide) (by decide)

set_option maxRecDepth 100000 in
/-- C2 as stated fails at `n = 17`: the first record of the solver loop is the code of the
identity computed in 64 bits, which `process` decodes to `1, 2, ..., 16, 1`; no sequence of
inversions transforms the identity into this vector, so its distance `0` is not a minimum
over such sequences. -/
theorem solver_exact_fails_17 : ¬ SolverExact 17 := by
  intro h
  obtain ⟨d, s, hs⟩ := first_record 17 (swi_ls ((17 : Nat) : Int) true) 1 (le_refl _)
  have := (h 1 _ (process_eq 17 1)).1 _ (by rw [hs]; exact List.mem_cons_self _ _)
  have hp : IsPermutationVector 17
      (emittedVector 17 (vector_to_int 17 (identityPermutation 17 (List.replicate 17 0)))) :=
    this.1.isPerm
  revert hp
  decide

/-- C3 (amended). For every `1 ≤ n ≤ 16` the solver loop terminates, and its records hold
each of the permutations of `1..n` exactly once and nothing that is not a permutation of
`1..n`. -/
theorem solver_coverage (n : Nat) (_h1 : 1 ≤ n) (h16 : n ≤ 16) : SolverCoverage n := by
  refine ⟨16 ^ n, ?_⟩
  intro fuel hfuel
  have hterm := process_loop_terminates n h16 (16 ^ n) (process_init n) 0 (process_init_inv n)
    (by simp)
  obtain ⟨D, inv⟩ := process_loop_inv n h16 (16 ^ n) (process_init n) 0 (process_init_inv n)
  have hsame : process_loop n (swi_ls (n : Int) true) fuel (process_init n)
      = process_loop n (swi_ls (n : Int) true) (16 ^ n) (process_init n) := by
    rw [show fuel = 16 ^ n + (fuel - 16 ^ n) by omega, process_loop_add,
      process_loop_nil _ _ _ _ hterm]
  refine ⟨process_loop n (swi_ls (n : Int) true) (16 ^ n) (process_init n), ?_, process_eq _ _,
    hterm, ?_, ?_⟩
  · rw [process_eq, hsame]
  · generalize process_loop n (swi_ls (n : Int) true) (16 ^ n) (process_init n) = st at *
    have hdist := inv.queue_empty hterm
    have hid : vector_to_int n (identityVector n) ∈ st.visited := by
      rcases inv.start with hst | ⟨_, hq, _⟩
      · exact (mem_visited_iff inv _).mpr ⟨0, List.mem_of_mem_head? hst⟩
      · rw [hterm] at hq; exact absurd hq (by simp)
    have hall : ∀ (moves : List (Nat × Nat)) (A : List Int), IsPermutationVector n A →
        vector_to_int n A ∈ st.visited → (∀ m ∈ moves, ValidMove n m) →
        vector_to_int n (applyMoves moves A) ∈ st.visited := by
      intro moves
      induction moves with
      | nil => intro A _ hA _; exact hA
      | cons m rest ih =>
        intro A hP hA hv
        have hm := hv m (List.mem_cons_self _ _)
        obtain ⟨dA, hdA⟩ := (mem_visited_iff inv _).mp hA
        simp only [applyMoves, List.foldl_cons]
        apply ih _ (reverseRange_isPerm n m.1 m.2 A hm.1 hP) _
          (fun x hx => hv x (List.mem_cons_of_mem _ hx))
        rcases inv.closed _ hdA A hP rfl m hm with h | ⟨v, hv2, _⟩
        · exact h
        · rw [hdist] at hv2
          simp [mapFind] at hv2
    intro P hP
    obtain ⟨d, ⟨moves, mv, e, _⟩, _⟩ := reach_all n P hP
    have hPv : vector_to_int n P ∈ st.visited := by
      rw [← e]
      exact hall moves _ (identityVector_isPerm n) hid mv
    obtain ⟨dP, hdP⟩ := (mem_visited_iff inv _).mp hPv
    apply filter_length_eq_one
    · rw [show st.output.map (fun r => emittedVector n r.1)
          = (st.output.map Prod.fst).map (emittedVector n) by simp]
      apply List.Nodup.map_on _ inv.out_nodup
      intro x hx y hy hxy
      obtain ⟨rx, hrx, ex⟩ := List.mem_map.mp hx
      obtain ⟨ry, hry, ey⟩ := List.mem_map.mp hy
      obtain ⟨X, x1, x2, _, _⟩ := inv.out_min rx hrx
      obtain ⟨Y, y1, y2, _, _⟩ := inv.out_min ry hry
      rw [← ex, ← x2, emitted_of_code n h16 X x1] at hxy
      rw [← ey, ← y2, emitted_of_code n h16 Y y1] at hxy
      rw [← ex, ← ey, ← x2, ← y2, hxy]
    · rw [List.mem_map]
      exact ⟨_, hdP, emitted_of_code n h16 P hP⟩
  · intro r hr
    obtain ⟨P, p1, p2, _, _⟩ := inv.out_min r hr
    rw [← p2, emitted_of_code n h16 P p1]
    exact p1

/-- Witness of C3 (amended) at `n = 4`. -/
theorem solver_coverage_witness : SolverCoverage 4 := solver_coverage 4 (by decide) (by decide)

set_option maxRecDepth 100000 in
/-- C3 as stated fails at `n = 17`: whatever the number of iterations, the records start with
the 64-bit code of the identity, which is decoded to `1, 2, ..., 16, 1`, not a permutation of
`1..17`. -/
theorem solver_coverage_fails_17 : ¬ SolverCoverage 17 := by
  rintro ⟨F, h⟩
  obtain ⟨st, hst, _, _, _, hperm⟩ := h (F + 1) (by omega)
  rw [process_eq] at hst
  simp only [Option.some.injEq] at hst
  obtain ⟨d, s, hs⟩ := first_record 17 (swi_ls ((17 : Nat) : Int) true) (F + 1) (by omega)
  rw [hst] at hs
  have hmem : (vector_to_int 17 (identityPermutation 17 (List.replicate 17 0)), d) ∈ st.output := by
    rw [hs]; exact List.mem_cons_self _ _
  have hp : IsPermutationVector 17
      (emittedVector 17 (vector_to_int 17 (identityPermutation 17 (List.replicate 17 0)))) :=
    hperm (vector_to_int 17 (identityPermutation 17 (List.replicate 17 0)), d) hmem
  revert hp
  decide

/-- C4. Emission order of the solver loop, for the sizes `1 ≤ n ≤ 16` that `process`
receives: the distances written do not decrease, the first record is the identity with
distance `0`, and a permutation once written (inserted in `visited`) has no entry of
tentative distance, neither at the head of an iteration nor through a relaxation. -/
theorem solver_order (n : Nat) (_h1 : 1 ≤ n) (h16 : n ≤ 16) : SolverOrder n := by
  intro fuel st h
  rw [process_eq] at h
  simp only [Option.some.injEq] at h
  obtain ⟨D, inv⟩ := process_loop_inv n h16 fuel (process_init n) 0 (process_init_inv n)
  rw [h] at inv
  refine ⟨inv.out_sorted, ?_, ?_, ?_, ?_⟩
  · intro hf
    obtain ⟨d, s, hs⟩ := first_record n (swi_ls (n : Int) true) fuel hf
    rw [h] at hs
    rcases inv.start with hst | ⟨ho, _, _⟩
    · exact hst
    · rw [ho] at hs
      exact absurd hs (by simp)
  · intro x
    rw [inv.visited_eq, List.mem_reverse]
  · intro x hx
    cases hf : mapFind st.distances x with
    | none => rfl
    | some v => exact absurd hx (inv.dist_ok x v hf).1
  · intro list vectorPi cd init x hx
    exact relax_visited n vectorPi cd st.visited list init x hx

/-- Witness of C4 at `n = 5`. -/
theorem solver_order_witness : SolverOrder 5 := solver_order 5 (by decide) (by decide)

end Database
end SWILS

namespace SWILS

theorem reverseRange_involution (i j : Nat) (L : List Int) (hij : i ≤ j) (hj : j < L.length) :
    reverseRange (fun x => x) i j (reverseRange (fun x => x) i j L) = L := by
  have hl := length_reverseRange (fun x => x) i j L hij hj
  apply ext_getD
  · rw [length_reverseRange _ _ _ _ hij (by omega), hl]
  · intro x _
    rw [getD_reverseRange _ _ _ _ hij (by omega)]
    by_cases h : i ≤ x ∧ x ≤ j
    · rw [if_pos h, getD_reverseRange _ _ _ _ hij hj, if_pos (by omega)]
      congr 1
      omega
    · rw [if_neg h, getD_reverseRange _ _ _ _ hij hj, if_neg h]

namespace Database

theorem applyMoves_length (n : Nat) : ∀ (moves : List (Nat × Nat)) (L : List Int),
    (∀ m ∈ moves, ValidMove n m) → L.length = n → (applyMoves moves L).length = n := by
  intro moves
  induction moves with
  | nil => intro L _ h; exact h
  | cons m rest ih =>
    intro L hv hl
    have hm := hv m (List.mem_cons_self _ _)
    simp only [applyMoves, List.foldl_cons]
    exact ih _ (fun x hx => hv x (List.mem_cons_of_mem _ hx))
      (by rw [length_reverseRange _ _ _ _ hm.1 (by rw [hl]; exact hm.2), hl])

/-- A sequence of inversions read backwards undoes it. -/
theorem applyMoves_reverse (n : Nat) : ∀ (moves : List (Nat × Nat)) (L : List Int),
    (∀ m ∈ moves, ValidMove n m) → L.length = n →
    applyMoves moves.reverse (applyMoves moves L) = L := by
  intro moves
  induction moves with
  | nil => intro L _ _; rfl
  | cons m rest ih =>
    intro L hv hl
    have hm := hv m (List.mem_cons_self _ _)
    have hl2 : (reverseRange (fun x => x) m.1 m.2 L).length = n := by
      rw [length_reverseRange _ _ _ _ hm.1 (by rw [hl]; exact hm.2), hl]
    simp only [applyMoves, List.foldl_cons, List.reverse_cons, List.foldl_append, List.foldl_nil]
    have := ih (reverseRange (fun x => x) m.1 m.2 L)
      (fun x hx => hv x (List.mem_cons_of_mem _ hx)) hl2
    simp only [applyMoves] at this
    rw [this]
    exact reverseRange_involution m.1 m.2 L hm.1 (by rw [hl]; exact hm.2)

theorem movesWeight_reverse (n : Nat) (moves : List (Nat × Nat)) :
    movesWeight n moves.reverse = movesWeight n moves := by
  unfold movesWeight
  rw [List.map_reverse, List.sum_reverse]

/-- If some valid sequence of inversions sorts `P`, the reversed sequence reaches `P`. -/
theorem reach_of_sorting (n : Nat) (P : List Int) (hl : P.length = n)
    (moves : List (Nat × Nat)) (hv : ∀ m ∈ moves, ValidMove n m)
    (h : applyMoves moves P = identityVector n) : Reach n P (movesWeight n moves) := by
  refine ⟨moves.reverse, fun m hm => hv m (List.mem_reverse.mp hm), ?_, movesWeight_reverse n moves⟩
  rw [← h]
  exact applyMoves_reverse n moves P hv hl

end Database
end SWILS

namespace SWILS

open Database

theorem decodeUnsigned_getD (P : List Int)
    (hP : ∀ i, i < P.length → 1 ≤ P.getD i 0 ∧ P.getD i 0 ≤ 16) :
    ∀ (k : Nat) (st : List Int × List Int), k ≤ P.length → k < st.1.length → ∀ x,
      (Permutation.decodeUnsigned_loop k (digitsValue P k) st).1.getD x 0
        = if 1 ≤ x ∧ x ≤ k then P.getD (x - 1) 0 else st.1.getD x 0 := by
  intro k
  induction k with
  | zero =>
    intro st _ _ x
    simp only [Permutation.decodeUnsigned_loop]
    rw [if_neg (by omega)]
  | succ k ih =>
    intro st hk hst x
    have hb := hP k (by omega)
    have hd : (P.getD k 0 - 1).toNat < 16 := by omega
    simp only [Permutation.decodeUnsigned_loop, digitsValue, U_N_BITS, U_NUMBERS]
    have e1 : (digitsValue P k * 16 + (P.getD k 0 - 1).toNat) >>> 4 = digitsValue P k := by
      rw [Nat.shiftRight_eq_div_pow]; omega
    have e2 : (digitsValue P k * 16 + (P.getD k 0 - 1).toNat) &&& 15 = (P.getD k 0 - 1).toNat := by
      have := Nat.and_pow_two_sub_one_eq_mod (digitsValue P k * 16 + (P.getD k 0 - 1).toNat) 4
      rw [show (2:Nat) ^ 4 - 1 = 15 from rfl, show (2:Nat) ^ 4 = 16 from rfl] at this
      rw [this]; omega
    have e3 : (((P.getD k 0 - 1).toNat : Nat) : Int) + 1 = P.getD k 0 := by omega
    rw [e1, e2, e3, ih _ (by omega) (by simp only [List.length_set]; omega)]
    rw [getD_set_eq]
    by_cases h1 : 1 ≤ x ∧ x ≤ k
    · rw [if_pos h1, if_pos (by omega)]
    · rw [if_neg h1]
      by_cases h2 : k + 1 = x
      · rw [if_pos ⟨h2, by omega⟩, if_pos (by omega)]
        rw [show x - 1 = k by omega]
      · rw [if_neg (by tauto), if_neg (by omega)]

/-- The constructor accepts the code of an unsigned permutation vector and stores the vector
in the entries `1..n`. -/
theorem ofInt_code (n : Nat) (hn : n ≤ 16) (P : List Int) (hP : IsPermutationVector n P) :
    ∃ pi : Permutation, Permutation.ofInt (vector_to_int n P) (n : Int) false = some pi ∧
      pi.entries = P := by
  obtain ⟨hl, hb⟩ := getD_bounds_of_perm n P hP
  have hb2 : ∀ i, i < P.length → 1 ≤ P.getD i 0 ∧ P.getD i 0 ≤ 16 :=
    fun i hi => ⟨(hb i hi).1, by have := (hb i hi).2; omega⟩
  have hdec := decodeUnsigned_getD P hb2 n
    (Permutation.newVector (n : Int), Permutation.newVector (n : Int)) (by omega)
    (by simp only [Permutation.newVector_length (n : Int) (by omega)]; omega)
  have hcode := vector_to_int_eq_digitsValue P hb2 n (by omega) hn
  have hlen := (Permutation.decodeUnsigned_eq_generic n (digitsValue P n)
    (Permutation.newVector (n : Int), Permutation.newVector (n : Int))) ▸
    (Permutation.decode_generic_spec (fun aux => ((aux &&& U_NUMBERS : Nat) : Int) + 1) U_N_BITS
      (fun a => by
        show ((a &&& U_NUMBERS : Nat) : Int) + 1 ≠ 0
        have : (0 : Int) ≤ ((a &&& U_NUMBERS : Nat) : Int) := Int.natCast_nonneg _
        omega) n (digitsValue P n)
      (Permutation.newVector (n : Int), Permutation.newVector (n : Int))
      (by simp only [Permutation.newVector_length (n : Int) (by omega)]; omega)).1
  simp only [Permutation.newVector_length (n : Int) (by omega), Int.toNat_ofNat] at hlen
  unfold Permutation.ofInt
  simp only [Bool.false_eq_true, if_false, Int.toNat_ofNat, hcode]
  generalize Permutation.decodeUnsigned_loop n (digitsValue P n)
    (Permutation.newVector (n : Int), Permutation.newVector (n : Int)) = r at hdec hlen ⊢
  have hval : Permutation.validate (n : Int)
      (List.map (fun (k : Nat) => iabs (r.1.getD (k + 1) 0)) (List.range n)) = true := by
    unfold Permutation.validate
    rw [List.all_eq_true]
    intro k hk
    rw [List.mem_range, Int.toNat_ofNat] at hk
    rw [List.contains_iff_exists_mem_beq]
    simp only [beq_iff_eq, exists_eq_right]
    have hmem : ((k : Int) + 1) ∈ P := by
      apply hP.symm.subset
      exact List.mem_map.mpr ⟨k, List.mem_range.mpr hk, rfl⟩
    obtain ⟨m, hm, em⟩ := List.getElem_of_mem hmem
    refine ⟨_, List.mem_map.mpr ⟨m, List.mem_range.mpr (by omega), rfl⟩, ?_⟩
    rw [hdec (m + 1), if_pos (by omega), show m + 1 - 1 = m by omega,
      List.getD_eq_getElem _ _ hm, em]
    unfold iabs
    omega
  rw [if_pos hval]
  refine ⟨_, rfl, ?_⟩
  apply ext_getD
  · rw [Permutation.entries_length _ (by simpa using hlen)]
    simp [hl]
  · intro x hx
    rw [Permutation.entries_length _ (by simpa using hlen)] at hx
    simp only [Int.toNat_ofNat] at hx
    rw [Permutation.entries_getD _ x (by simpa using hx)]
    simp only
    rw [hdec (x + 1), if_pos (by omega), show x + 1 - 1 = x by omega]

theorem entries_of_isIdentity (pi : Permutation) (hv : pi.Valid) (h : pi.isIdentity = true) :
    pi.entries = identityVector pi.n.toNat := by
  unfold Permutation.isIdentity at h
  rw [List.all_eq_true] at h
  apply ext_getD
  · rw [Permutation.entries_length _ hv.2.1, identityVector_length]
  · intro x hx
    rw [Permutation.entries_length _ hv.2.1] at hx
    rw [Permutation.entries_getD _ x hx]
    have := h x (List.mem_range.mpr hx)
    simp only [decide_eq_true_eq] at this
    rw [this]
    simp [identityVector, List.getD_eq_getElem?_getD, List.getElem?_map, List.getElem?_range hx]

theorem toMove_valid (n : Nat) (r : Inversion) (h : r.InRange (n : Int)) :
    ValidMove n r.toMove := by
  obtain ⟨h1, h2, h3, _⟩ := h
  unfold ValidMove Inversion.toMove
  simp only
  omega

theorem toMove_weight (n : Nat) (r : Inversion) (h : r.InRange (n : Int)) :
    moveWeight n r.toMove = r.w := by
  obtain ⟨h1, h2, h3, h4⟩ := h
  rw [h4]
  unfold moveWeight Inversion.toMove Problem.weight slice iabs
  simp only
  have e1 : (((r.i - 1).toNat : Nat) : Int) = r.i - 1 := by omega
  have e2 : (((r.j - 1).toNat : Nat) : Int) = r.j - 1 := by omega
  rw [e1, e2]
  have a : min (r.i - 1 + 1) ((n : Int) - (r.i - 1)) = min r.i ((n : Int) - r.i + 1) := by
    omega
  have b : min (r.j - 1 + 1) ((n : Int) - (r.j - 1)) = min r.j ((n : Int) - r.j + 1) := by
    omega
  rw [a, b]

theorem applyAll_entries (n : Nat) : ∀ (added : List Inversion) (pi : Permutation),
    pi.Valid → pi.sign = false → pi.n = (n : Int) → (∀ r ∈ added, r.InRange (n : Int)) →
    (applyAll pi added).entries = applyMoves (added.map Inversion.toMove) pi.entries := by
  intro added
  induction added with
  | nil => intro pi _ _ _ _; rfl
  | cons r rest ih =>
    intro pi hv hs hn hr
    have h0 := hr r (List.mem_cons_self _ _)
    obtain ⟨h1, h2, h3, _⟩ := h0
    have hv1 := Permutation.applyInversion_valid pi r.i r.j hv h1 h2 (by rw [hn]; exact h3)
    simp only [applyAll, List.foldl_cons, List.map_cons, applyMoves]
    have := ih (pi.applyInversion r.i r.j) hv1 hs hn
      (fun x hx => hr x (List.mem_cons_of_mem _ hx))
    simp only [applyAll, applyMoves] at this
    rw [this, Permutation.applyInversion_entries pi r.i r.j hv.1 hv.2.1 h1 h2
      (by rw [hn]; exact h3), hs]
    rfl

theorem weightSum_eq_movesWeight (n : Nat) : ∀ (added : List Inversion),
    (∀ r ∈ added, r.InRange (n : Int)) →
    movesWeight n (added.map Inversion.toMove) = weightSum added := by
  intro added
  induction added with
  | nil => intro _; rfl
  | cons r rest ih =>
    intro hr
    have := ih (fun x hx => hr x (List.mem_cons_of_mem _ hx))
    simp only [movesWeight, weightSum, List.map_cons, List.sum_cons] at this ⊢
    rw [this, toMove_weight n r (hr r (List.mem_cons_self _ _))]

end SWILS

namespace SWILS

open Database

/-- Once the solver loop has stopped, every permutation of `1..n` has a record. -/
theorem Database.process_final_mem (n : Nat) (h16 : n ≤ 16) (P : List Int)
    (hP : IsPermutationVector n P) :
    ∃ d, (vector_to_int n P, d)
      ∈ (process_loop n (swi_ls (n : Int) true) (16 ^ n) (process_init n)).output := by
  have hterm := process_loop_terminates n h16 (16 ^ n) (process_init n) 0 (process_init_inv n)
    (by simp)
  obtain ⟨D, inv⟩ := process_loop_inv n h16 (16 ^ n) (process_init n) 0 (process_init_inv n)
  generalize process_loop n (swi_ls (n : Int) true) (16 ^ n) (process_init n) = st at *
  have hdist := inv.queue_empty hterm
  have hid : vector_to_int n (identityVector n) ∈ st.visited := by
    rcases inv.start with hst | ⟨_, hq, _⟩
    · exact (mem_visited_iff inv _).mpr ⟨0, List.mem_of_mem_head? hst⟩
    · rw [hterm] at hq; exact absurd hq (by simp)
  have hall : ∀ (moves : List (Nat × Nat)) (A : List Int), IsPermutationVector n A →
      vector_to_int n A ∈ st.visited → (∀ m ∈ moves, ValidMove n m) →
      vector_to_int n (applyMoves moves A) ∈ st.visited := by
    intro moves
    induction moves with
    | nil => intro A _ hA _; exact hA
    | cons m rest ih =>
      intro A hP hA hv
      have hm := hv m (List.mem_cons_self _ _)
      obtain ⟨dA, hdA⟩ := (mem_visited_iff inv _).mp hA
      simp only [applyMoves, List.foldl_cons]
      apply ih _ (reverseRange_isPerm n m.1 m.2 A hm.1 hP) _
        (fun x hx => hv x (List.mem_cons_of_mem _ hx))
      rcases inv.closed _ hdA A hP rfl m hm with h | ⟨v, hv2, _⟩
      · exact h
      · rw [hdist] at hv2
        simp [mapFind] at hv2
  obtain ⟨d, ⟨moves, mv, e, _⟩, _⟩ := reach_all n P hP
  have hPv : vector_to_int n P ∈ st.visited := by
    rw [← e]
    exact hall moves _ (identityVector_isPerm n) hid mv
  exact (mem_visited_iff inv _).mp hPv

/-- A weight returned by the driver on the code of an unsigned permutation vector is the
weight of a sequence of inversions that transforms the identity into the vector. -/
theorem Heuristics.sort_reach (fm : FloatModel) (n : Nat) (P : List Int) (problem : Problem)
    (heuristic w : Int) (h16 : n ≤ 16) (hP : IsPermutationVector n P)
    (hp : Problem.create SWI_LS (n : Int) false = some problem)
    (hs : Heuristics.sort fm (vector_to_int n P) (n : Int) false problem heuristic = some w)
    (hw : w ≠ -1) : Reach n P w := by
  obtain ⟨pi, hof, hent⟩ := ofInt_code n h16 P hP
  obtain ⟨hv, hpn, hsign⟩ := Permutation.ofInt_valid _ _ _ pi (by omega) hof
  obtain ⟨pn, _, pinv⟩ := Problem.create_eq _ _ _ _ hp
  have hlist : ∀ r ∈ problem.inversions, r.InRange (n : Int) := by
    intro r hr
    rw [pinv] at hr
    exact Problem.mem_swi_ls _ _ r hr
  obtain ⟨l1, l2, l3⟩ := Heuristics.limit_bounds (n : Int) (by omega) (by omega)
  have hspec := Heuristics.sort_loop_spec fm problem heuristic ((n : Int) * 15) (n : Int) pn
    hlist l2 l3 (Heuristics.sort_fuel ((n : Int) * 15)) pi 0 0 [] hv hpn (le_refl _)
    (by omega) (le_refl _) (by simp)
  rw [Heuristics.sort_eq_list] at hs
  simp only [hof, l1] at hs
  generalize Heuristics.sort_loop fm problem heuristic ((n : Int) * 15)
    (Heuristics.sort_fuel ((n : Int) * 15)) pi 0 0 [] = r at hspec hs
  cases hid : r.1.isIdentity
  · simp only [hid, Bool.false_eq_true, if_false, Option.some.injEq] at hs
    exact absurd hs.symm hw
  · simp only [hid, if_true, Option.some.injEq] at hs
    rcases hspec with h | ⟨added, _, a2, a3, a4, a5⟩
    · rw [hid] at h; exact absurd h (by simp)
    · have hl := (getD_bounds_of_perm n P hP).1
      have hn2 : r.1.n.toNat = n := by
        rw [a3]
        have : ∀ (l : List Inversion) (q : Permutation), (applyAll q l).n = q.n := by
          intro l
          induction l with
          | nil => intro q; rfl
          | cons x rest ih =>
            intro q
            simp only [applyAll, List.foldl_cons] at ih ⊢
            rw [ih, Permutation.applyInversion_n]
        rw [this, hpn]
        simp
      have e1 := entries_of_isIdentity r.1 a4 hid
      rw [hn2, a3, applyAll_entries n added pi hv hsign hpn a2, hent] at e1
      have := reach_of_sorting n P hl (added.map Inversion.toMove)
        (fun m hm => by
          obtain ⟨x, hx, e⟩ := List.mem_map.mp hm
          rw [← e]
          exact toMove_valid n x (a2 x hx)) e1
      rw [weightSum_eq_movesWeight n added a2] at this
      rw [← hs, a5]
      simpa using this

namespace Heuristics

/-- C6. The heuristics never under-estimate: for an unsigned permutation `P` of size
`n ≤ 16`, the problem `SWI_LS` of size `n`, any `float` arithmetic and any heuristic
identifier (in particular `1..7`), if `Heuristics::sort(encode(P), n, false, problem, h)`
returns `w ≠ -1`, then the exact solver writes a record for `P`, and the distance of every
record that the solver loop writes for `P` is the minimum sorting distance of `P` and is at
most `w`. -/
theorem sort_never_underestimates (fm : FloatModel) (n : Nat) (P : List Int)
    (problem : Problem) (heuristic w : Int) (h16 : n ≤ 16) (hP : IsPermutationVector n P)
    (hp : Problem.create SWI_LS (n : Int) false = some problem)
    (hs : sort fm (vector_to_int n P) (n : Int) false problem heuristic = some w)
    (hw : w ≠ -1) :
    (∃ (fuel : Nat) (st : SolverState) (d : Int),
      process n fuel = some st ∧ (vector_to_int n P, d) ∈ st.output) ∧
    ∀ (fuel : Nat) (st : SolverState) (d : Int), process n fuel = some st →
      (vector_to_int n P, d) ∈ st.output → MinDist n P d ∧ d ≤ w := by
  have hreach := sort_reach fm n P problem heuristic w h16 hP hp hs hw
  constructor
  · obtain ⟨d, hd⟩ := process_final_mem n h16 P hP
    exact ⟨16 ^ n, _, d, process_eq _ _, hd⟩
  · intro fuel st d h hmem
    rw [process_eq] at h
    simp only [Option.some.injEq] at h
    obtain ⟨D, inv⟩ := process_loop_inv n h16 fuel (process_init n) 0 (process_init_inv n)
    rw [h] at inv
    obtain ⟨Q, q1, q2, q3, _⟩ := inv.out_min _ hmem
    have := code_inj n h16 Q P q1 hP q2
    subst this
    exact ⟨q3, q3.2 w hreach⟩

/-- Witness of C6: the unsigned permutation `2, 1, 4, 3`, of code `0x1032`, sorted by `LR`
with weight `4`. -/
theorem sort_never_underestimates_witness :
    (∃ (fuel : Nat) (st : SolverState) (d : Int),
      process 4 fuel = some st ∧ (vector_to_int 4 [2, 1, 4, 3], d) ∈ st.output) ∧
    ∀ (fuel : Nat) (st : SolverState) (d : Int), process 4 fuel = some st →
      (vector_to_int 4 [2, 1, 4, 3], d) ∈ st.output → MinDist 4 [2, 1, 4, 3] d ∧ d ≤ 4 :=
  sort_never_underestimates exactFloat 4 [2, 1, 4, 3]
    (Problem.mk 4 false (Problem.swi_ls 4 false)) LR 4 (by decide) (by decide) (by decide)
    (by decide) (by decide)

end Heuristics
end SWILS

namespace SWILS
namespace Permutation

theorem ofVector_loop_none_iff (S : Bool) (n : Int) :
    ∀ (l : List Int) (idx : Int) (st : List Int × List Int × List Int),
      ofVector_loop S n l idx st = none ↔
        ∃ e ∈ l, (S = false ∧ e < 0) ∨ iabs e > n ∨ e = 0 := by
  intro l
  induction l with
  | nil => intro idx st; simp [ofVector_loop]
  | cons e rest ih =>
    intro idx st
    simp only [ofVector_loop]
    by_cases hbad : (S = false ∧ e < 0) ∨ iabs e > n ∨ e = 0
    · have hc : ((!S && decide (e < 0)) || decide (iabs e > n) || decide (e = 0)) = true := by
        rcases hbad with ⟨h1, h2⟩ | h | h
        · simp [h1, h2]
        · simp [h]
        · simp [h]
      rw [if_pos hc]
      simp only [true_iff]
      exact ⟨e, List.mem_cons_self _ _, hbad⟩
    · have hc : ¬ ((!S && decide (e < 0)) || decide (iabs e > n) || decide (e = 0)) = true := by
        intro h
        apply hbad
        simp only [Bool.or_eq_true, Bool.and_eq_true, Bool.not_eq_true', decide_eq_true_eq] at h
        rcases h with (⟨h1, h2⟩ | h) | h
        · exact Or.inl ⟨h1, h2⟩
        · exact Or.inr (Or.inl h)
        · exact Or.inr (Or.inr h)
      rw [if_neg hc, ih]
      constructor
      · rintro ⟨x, hx, hb⟩
        exact ⟨x, List.mem_cons_of_mem _ hx, hb⟩
      · rintro ⟨x, hx, hb⟩
        rcases List.mem_cons.mp hx with h | h
        · subst h; exact absurd hb hbad
        · exact ⟨x, h, hb⟩

theorem ofVector_loop_spec (S : Bool) (n : Int) :
    ∀ (l : List Int) (idx : Nat) (st r : List Int × List Int × List Int),
      ofVector_loop S n l (idx : Int) st = some r →
      idx + l.length ≤ st.1.length → n + 1 < st.2.1.length →
      r.1.length = st.1.length ∧ r.2.1.length = st.2.1.length ∧
      r.2.2 = (l.map iabs).reverse ++ st.2.2 ∧
      (∀ x : Nat, r.1.getD x 0
        = if idx ≤ x ∧ x < idx + l.length then l.getD (x - idx) 0 else st.1.getD x 0) ∧
      (∀ m : Nat, (∀ e ∈ l, e.natAbs ≠ m) → r.2.1.getD m 0 = st.2.1.getD m 0) ∧
      (∀ k : Nat, k < l.length → ∃ k2 : Nat, k ≤ k2 ∧ k2 < l.length ∧
        (l.getD k2 0).natAbs = (l.getD k 0).natAbs ∧
        r.2.1.getD (l.getD k 0).natAbs 0 = ((idx + k2 : Nat) : Int)) := by
  intro l
  induction l with
  | nil =>
    intro idx st r h _ _
    simp only [ofVector_loop, Option.some.injEq] at h
    subst h
    refine ⟨rfl, rfl, by simp, ?_, fun _ _ => rfl, ?_⟩
    · intro x
      rw [if_neg (by simp)]
    · intro k hk
      simp at hk
  | cons e rest ih =>
    intro idx st r h hl1 hl2
    have hnn : ofVector_loop S n (e :: rest) (idx : Int) st ≠ none := by rw [h]; simp
    have hgood : ¬ ((S = false ∧ e < 0) ∨ iabs e > n ∨ e = 0) := by
      intro hb
      exact hnn ((ofVector_loop_none_iff S n _ _ _).mpr ⟨e, List.mem_cons_self _ _, hb⟩)
    have hc : ¬ ((!S && decide (e < 0)) || decide (iabs e > n) || decide (e = 0)) = true := by
      intro h
      apply hgood
      simp only [Bool.or_eq_true, Bool.and_eq_true, Bool.not_eq_true', decide_eq_true_eq] at h
      rcases h with (⟨h1, h2⟩ | h) | h
      · exact Or.inl ⟨h1, h2⟩
      · exact Or.inr (Or.inl h)
      · exact Or.inr (Or.inr h)
    simp only [ofVector_loop, if_neg hc] at h
    rw [show ((idx : Int) + 1) = ((idx + 1 : Nat) : Int) by push_cast; rfl] at h
    simp only [List.length_cons] at hl1
    obtain ⟨a1, a2, a3, a4, a5, a6⟩ := ih (idx + 1) _ r h
      (by simp only [List.length_set]; omega) (by simp only [List.length_set]; exact hl2)
    simp only [List.length_set, Int.toNat_ofNat] at a1 a2 a4 a5 a6
    have he : e.natAbs < st.2.1.length := by
      have : ¬ iabs e > n := fun h => hgood (Or.inr (Or.inl h))
      unfold iabs at this
      omega
    refine ⟨a1, a2, ?_, ?_, ?_, ?_⟩
    · rw [a3]; simp
    · intro x
      rw [a4 x, getD_set_eq]
      simp only [List.length_cons]
      by_cases h1 : idx + 1 ≤ x ∧ x < idx + 1 + rest.length
      · rw [if_pos h1, if_pos (by omega)]
        rw [show x - idx = (x - (idx + 1)) + 1 by omega]
        simp
      · rw [if_neg h1]
        by_cases h2 : idx = x
        · subst h2
          rw [if_pos ⟨rfl, by omega⟩, if_pos (by omega)]
          simp
        · rw [if_neg (by tauto), if_neg (by omega)]
    · intro m hm
      rw [a5 m (fun x hx => hm x (List.mem_cons_of_mem _ hx)), getD_set_eq]
      rw [if_neg (by
        intro hh
        exact hm e (List.mem_cons_self _ _) hh.1)]
    · intro k hk
      simp only [List.length_cons] at hk
      cases k with
      | zero =>
        simp only [List.getD_cons_zero]
        by_cases hex : ∃ x ∈ rest, x.natAbs = e.natAbs
        · obtain ⟨x, hx, ex⟩ := hex
          obtain ⟨k1, hk1, ek1⟩ := List.getElem_of_mem hx
          obtain ⟨k2, b1, b2, b3, b4⟩ := a6 k1 hk1
          rw [List.getD_eq_getElem _ _ hk1, ek1, ex] at b3 b4
          refine ⟨k2 + 1, by omega, by simp only [List.length_cons]; omega, ?_, ?_⟩
          · simp only [List.getD_cons_succ]; exact b3
          · rw [b4]; push_cast; omega
        · refine ⟨0, le_refl _, by simp, rfl, ?_⟩
          rw [a5 e.natAbs (fun x hx hh => hex ⟨x, hx, hh⟩), getD_set_eq, if_pos ⟨rfl, he⟩]
          simp
      | succ k =>
        obtain ⟨k2, b1, b2, b3, b4⟩ := a6 k (by omega)
        refine ⟨k2 + 1, by omega, by simp only [List.length_cons]; omega, ?_, ?_⟩
        · simp only [List.getD_cons_succ]; exact b3
        · simp only [List.getD_cons_succ]; rw [b4]; push_cast; omega

/-- The facts the constructor `Permutation(vector, S)` has established when it returns. -/
theorem ofVector_some (vector : List Int) (S : Bool) (pi : Permutation)
    (h : ofVector vector S = some pi) :
    ∃ r : List Int × List Int × List Int,
      ofVector_loop S (vector.length : Int) vector 1
        (newVector (vector.length : Int), newVector (vector.length : Int), []) = some r ∧
      validate (vector.length : Int) r.2.2 = true ∧
      pi = { n := (vector.length : Int), permutation := r.1, inverse := r.2.1, sign := S } := by
  unfold ofVector at h
  simp only at h
  cases hl : ofVector_loop S (vector.length : Int) vector 1
      (newVector (vector.length : Int), newVector (vector.length : Int), []) with
  | none => rw [hl] at h; exact absurd h (by simp)
  | some r =>
    rw [hl] at h
    simp only at h
    by_cases hv : validate (vector.length : Int) r.2.2 = true
    · rw [if_pos hv] at h
      simp only [Option.some.injEq] at h
      exact ⟨r, rfl, hv, h.symm⟩
    · rw [if_neg hv] at h
      exact absurd h (by simp)

theorem validate_iff (n : Int) (elements : List Int) :
    validate n elements = true ↔ ∀ k : Nat, k < n.toNat → ((k : Int) + 1) ∈ elements := by
  unfold validate
  rw [List.all_eq_true]
  constructor
  · intro h k hk
    have := h k (List.mem_range.mpr hk)
    rw [List.contains_iff_exists_mem_beq] at this
    obtain ⟨a, ha, e⟩ := this
    rw [beq_iff_eq] at e
    rw [e]; exact ha
  · intro h k hk
    rw [List.contains_iff_exists_mem_beq]
    exact ⟨_, h k (List.mem_range.mp hk), by simp⟩

theorem mem_map_iabs_iff (v : List Int) (x : Int) :
    x ∈ v.map iabs ↔ x ∈ List.map (fun (k : Nat) => iabs (v.getD k 0)) (List.range v.length) := by
  simp only [List.mem_map, List.mem_range]
  constructor
  · rintro ⟨e, he, rfl⟩
    obtain ⟨k, hk, ek⟩ := List.getElem_of_mem he
    exact ⟨k, hk, by rw [List.getD_eq_getElem _ _ hk, ek]⟩
  · rintro ⟨k, hk, rfl⟩
    exact ⟨v.getD k 0, by rw [List.getD_eq_getElem _ _ hk]; exact List.getElem_mem _, rfl⟩

theorem ofVector_valid (vector : List Int) (S : Bool) (pi : Permutation)
    (h : ofVector vector S = some pi) :
    pi.Valid ∧ pi.n = (vector.length : Int) ∧ pi.sign = S ∧
    ∀ k : Nat, k < vector.length → pi.permutation.getD (k + 1) 0 = vector.getD k 0 := by
  obtain ⟨r, hl, hv, rfl⟩ := ofVector_some vector S pi h
  have hnv := newVector_length (vector.length : Int) (by omega)
  simp only [Int.toNat_ofNat] at hnv
  have hgood : ∀ e ∈ vector, ¬ ((S = false ∧ e < 0) ∨ iabs e > (vector.length : Int) ∨ e = 0) := by
    intro e he hb
    have := (ofVector_loop_none_iff S _ vector 1
      (newVector (vector.length : Int), newVector (vector.length : Int), [])).mpr ⟨e, he, hb⟩
    rw [hl] at this
    exact absurd this (by simp)
  obtain ⟨a1, a2, a3, a4, a5, a6⟩ := ofVector_loop_spec S _ vector 1 _ r hl
    (by simp only [hnv]; omega) (by simp only [hnv]; omega)
  simp only [hnv, List.append_nil] at a1 a2 a3 a4 a5 a6
  have hmem : ∀ k : Nat, k < vector.length →
      ((k : Int) + 1) ∈ List.map (fun (k : Nat) => iabs (vector.getD k 0))
        (List.range vector.length) := by
    intro k hk
    rw [← mem_map_iabs_iff]
    have := (validate_iff _ _).mp hv k (by simpa using hk)
    rw [a3] at this
    exact List.mem_reverse.mp this
  obtain ⟨hb, hinj⟩ := validate_perm vector.length (fun k => iabs (vector.getD k 0)) hmem
  have hnew := newVector_getD (vector.length : Int) (by omega)
  simp only [Int.toNat_ofNat] at hnew
  have hget : ∀ k : Nat, k < vector.length → r.1.getD (k + 1) 0 = vector.getD k 0 := by
    intro k hk
    rw [a4, if_pos (by omega)]
    simp
  have hinv : ∀ k : Nat, k < vector.length →
      r.2.1.getD (vector.getD k 0).natAbs 0 = (k : Int) + 1 := by
    intro k hk
    obtain ⟨k2, b1, b2, b3, b4⟩ := a6 k hk
    have : k2 = k := hinj k2 k b2 hk (by simp only [iabs]; rw [b3])
    subst this
    rw [b4]; push_cast; omega
  refine ⟨⟨by simp, by simpa using a1, by simpa using a2, ?_, ?_, ?_, ?_, ?_, ?_, ?_⟩,
    rfl, rfl, hget⟩
  · simp only
    rw [a4, if_neg (by omega), hnew, if_neg (by omega)]
  · simp only [Int.toNat_ofNat]
    rw [a4, if_neg (by omega), hnew, if_pos rfl]
  · simp only
    rw [a5 0, hnew, if_neg (by omega)]
    intro e he h0
    exact hgood e he (Or.inr (Or.inr (by omega)))
  · simp only [Int.toNat_ofNat]
    rw [a5, hnew, if_pos rfl]
    intro e he h0
    apply hgood e he
    right; left
    unfold iabs
    omega
  · intro k hk
    simp only [Int.toNat_ofNat] at hk ⊢
    rw [hget k hk]
    have := hb k hk
    simp only [iabs] at this
    exact ⟨by omega, by omega, hinv k hk⟩
  · intro m hm
    simp only [Int.toNat_ofNat] at hm ⊢
    obtain ⟨k, hk, ek⟩ := List.mem_map.mp (hmem m hm)
    rw [List.mem_range] at hk
    simp only [iabs] at ek
    have e2 : (vector.getD k 0).natAbs = m + 1 := by omega
    have := hinv k hk
    rw [e2] at this
    rw [this]
    refine ⟨by omega, by omega, ?_⟩
    rw [show ((k : Int) + 1).toNat = k + 1 by omega, hget k hk, e2]
  · intro hs k hk
    simp only [Int.toNat_ofNat] at hk ⊢
    rw [hget k hk]
    have hmemk : vector.getD k 0 ∈ vector := by
      rw [List.getD_eq_getElem _ _ hk]; exact List.getElem_mem _
    have := hgood _ hmemk
    simp only [not_or, not_and, not_lt] at this
    have h1 := this.1 hs
    have h2 := this.2.2
    omega

end Permutation
end SWILS

namespace SWILS
namespace Permutation

theorem ofInt_eq_decoded (x : Nat) (N : Int) (S : Bool) :
    ofInt x N S = if validate N ((decodedEntries x N S).map iabs) = true then
        some { n := N, permutation := (decoded x N S).1, inverse := (decoded x N S).2, sign := S }
      else none := by
  unfold ofInt decodedEntries decoded
  simp only [List.map_map]
  rfl

theorem ofInt_n (x : Nat) (N : Int) (S : Bool) (pi : Permutation)
    (h : ofInt x N S = some pi) : pi.n = N := by
  rw [ofInt_eq_decoded] at h
  by_cases hv : validate N ((decodedEntries x N S).map iabs) = true
  · rw [if_pos hv] at h
    simp only [Option.some.injEq] at h
    rw [← h]
  · rw [if_neg hv] at h
    exact absurd h (by simp)

/-- An object a program can hold satisfies the class invariant, or its size is not
positive. -/
theorem Built.valid_or_small {p : Permutation} (h : p.Built) : p.Valid ∨ p.n ≤ 0 := by
  induction h with
  | empty => right; exact le_refl _
  | ofInt x N S pi h =>
    by_cases hN : 0 ≤ N
    · exact Or.inl (ofInt_valid x N S pi hN h).1
    · right
      rw [ofInt_n x N S pi h]
      omega
  | ofVector v S pi h => exact Or.inl (ofVector_valid v S pi h).1
  | copy p _ ih =>
    rcases ih with hv | hn
    · rw [copy_eq p hv]; exact Or.inl hv
    · right; exact hn
  | applyInversion p i j _ hi hij hj ih =>
    rcases ih with hv | hn
    · exact Or.inl (applyInversion_valid p i j hv hi hij hj)
    · omega

/-- C11. The inverse map stays in lockstep: for every object produced by a constructor that
returned (the empty one, the one from an integer, the one from a vector, the copy) and then
changed by any sequence of calls `applyInversion(i, j)` with `1 ≤ i ≤ j ≤ n`,
`position(element_at(k)) = k` for every `k` in `1..n`, and
`|element_at(position(e))| = |e|` for every `e` with `1 ≤ |e| ≤ n`. -/
theorem inverse_lockstep (p : Permutation) (h : p.Built) :
    (∀ k : Int, 1 ≤ k → k ≤ p.n → p.position (p.element_at k) = k) ∧
    (∀ e : Int, 1 ≤ |e| → |e| ≤ p.n → |p.element_at (p.position e)| = |e|) := by
  rcases Built.valid_or_small h with hv | hn
  · constructor
    · intro k h1 h2
      unfold position element_at
      rw [(hv.fw k.toNat (by omega) (by omega)).2.2]
      omega
    · intro e h1 h2
      rw [Int.abs_eq_natAbs] at h1 h2
      unfold position element_at
      rw [Int.abs_eq_natAbs, Int.abs_eq_natAbs,
        (hv.bw e.natAbs (by omega) (by omega)).2.2]
  · constructor
    · intro k h1 h2; omega
    · intro e h1 h2; omega

/-- Witness of C11: the signed permutation `-2, 1, 3` built from its vector and changed by
`applyInversion(1, 3)`. -/
theorem inverse_lockstep_witness :
    ((Permutation.mk 3 [0, -2, 1, 3, 4] [0, 2, 1, 3, 4] true).applyInversion 1 3).Built ∧
    ((∀ k : Int, 1 ≤ k →
        k ≤ ((Permutation.mk 3 [0, -2, 1, 3, 4] [0, 2, 1, 3, 4] true).applyInversion 1 3).n →
        ((Permutation.mk 3 [0, -2, 1, 3, 4] [0, 2, 1, 3, 4] true).applyInversion 1 3).position
          (((Permutation.mk 3 [0, -2, 1, 3, 4] [0, 2, 1, 3, 4] true).applyInversion 1 3).element_at
            k) = k) ∧
      (∀ e : Int, 1 ≤ |e| →
        |e| ≤ ((Permutation.mk 3 [0, -2, 1, 3, 4] [0, 2, 1, 3, 4] true).applyInversion 1 3).n →
        |((Permutation.mk 3 [0, -2, 1, 3, 4] [0, 2, 1, 3, 4] true).applyInversion 1 3).element_at
          (((Permutation.mk 3 [0, -2, 1, 3, 4] [0, 2, 1, 3, 4] true).applyInversion 1 3).position
            e)| = |e|)) :=
  ⟨Built.applyInversion _ 1 3 (Built.ofVector [-2, 1, 3] true _ (by decide)) (by decide)
      (by decide) (by decide),
    inverse_lockstep _ (Built.applyInversion _ 1 3
      (Built.ofVector [-2, 1, 3] true _ (by decide)) (by decide) (by decide) (by decide))⟩

end Permutation
end SWILS

namespace SWILS
namespace Permutation

theorem iabs_eq_abs (e : Int) : iabs e = |e| := by
  unfold iabs
  rw [Int.abs_eq_natAbs]

theorem map_getD_range (L : List Int) :
    List.map (fun (k : Nat) => L.getD k 0) (List.range L.length) = L := by
  apply List.ext_getElem
  · simp
  · intro i h1 h2
    simp only [List.getElem_map, List.getElem_range]
    exact List.getD_eq_getElem _ _ h2

/-- Finding every value `1..n` among `n` entries leaves no room for a duplicate or for
another value. -/
theorem validate_exact (n : Nat) (elements : List Int) (hl : elements.length = n)
    (hv : validate (n : Int) elements = true) :
    elements.Nodup ∧ ∀ v : Int, v ∈ elements ↔ 1 ≤ v ∧ v ≤ n := by
  have hmem := (validate_iff _ _).mp hv
  simp only [Int.toNat_ofNat] at hmem
  have hmem2 : ∀ k, k < n →
      ((k : Int) + 1) ∈ List.map (fun (k : Nat) => elements.getD k 0) (List.range n) := by
    intro k hk
    rw [← hl, map_getD_range]
    exact hmem k hk
  obtain ⟨hb, hinj⟩ := validate_perm n (fun k => elements.getD k 0) hmem2
  constructor
  · rw [List.nodup_iff_injective_get]
    intro a b hab
    have ha : a.1 < n := by rw [← hl]; exact a.2
    have hb2 : b.1 < n := by rw [← hl]; exact b.2
    apply Fin.ext
    apply hinj a.1 b.1 ha hb2
    show elements.getD a.1 0 = elements.getD b.1 0
    rw [List.getD_eq_getElem _ _ a.2, List.getD_eq_getElem _ _ b.2]
    exact hab
  · intro v
    constructor
    · intro h
      obtain ⟨k, hk, ek⟩ := List.getElem_of_mem h
      have := hb k (by omega)
      rw [List.getD_eq_getElem _ _ hk, ek] at this
      exact this
    · rintro ⟨h1, h2⟩
      have := hmem (v - 1).toNat (by omega)
      rw [show (((v - 1).toNat : Nat) : Int) + 1 = v by omega] at this
      exact this

theorem validate_of_exact (n : Int) (elements : List Int)
    (h : ∀ v : Int, v ∈ elements ↔ 1 ≤ v ∧ v ≤ n) : validate n elements = true := by
  rw [validate_iff]
  intro k hk
  exact (h _).mpr ⟨by omega, by omega⟩

theorem decodedEntries_length (x : Nat) (N : Int) (S : Bool) :
    (decodedEntries x N S).length = N.toNat := by
  simp [decodedEntries]

theorem ofVector_eq (vector : List Int) (S : Bool) :
    ofVector vector S
      = match ofVector_loop S (vector.length : Int) vector 1
          (newVector (vector.length : Int), newVector (vector.length : Int), []) with
        | none => none
        | some r =>
            if validate (vector.length : Int) r.2.2 = true then
              some { n := (vector.length : Int), permutation := r.1, inverse := r.2.1, sign := S }
            else none := rfl

/-- C12. Construction validates the bijection invariant.  `Permutation(intPi, N, S)` is
rejected exactly when the absolute values of the `N` decoded entries are not exactly the set
`{1..N}`; `Permutation(vector, S)`, for a vector whose size the 16-bit `integer` counts, is
rejected exactly when some entry is `0`, has an absolute value above the size, is negative
while `S` is false, or the absolute values are not exactly `{1..n}`; and a list of `n`
entries among which every value `1..n` is found has no duplicate and holds exactly the values
`1..n`. -/
theorem construction_validates (intPi : Nat) (N : Int) (S : Bool) (vector : List Int)
    (S2 : Bool) (elements : List Int) (hN : 0 ≤ N) (hV : vector.length < 32767) :
    (ofInt intPi N S = none ↔
      ¬ ∀ v : Int, v ∈ (decodedEntries intPi N S).map (fun e => |e|) ↔ 1 ≤ v ∧ v ≤ N) ∧
    (ofVector vector S2 = none ↔
      ((∃ e ∈ vector, e = 0 ∨ |e| > (vector.length : Int) ∨ (e < 0 ∧ S2 = false)) ∨
        ¬ ∀ v : Int, v ∈ vector.map (fun e => |e|) ↔ 1 ≤ v ∧ v ≤ (vector.length : Int))) ∧
    (validate (elements.length : Int) elements = true →
      elements.Nodup ∧ ∀ v : Int, v ∈ elements ↔ 1 ≤ v ∧ v ≤ (elements.length : Int)) := by
  have hfun : (fun e : Int => |e|) = iabs := by
    funext e; exact (iabs_eq_abs e).symm
  rw [hfun]
  refine ⟨?_, ?_, ?_⟩
  · rw [ofInt_eq_decoded]
    by_cases hv : validate N ((decodedEntries intPi N S).map iabs) = true
    · rw [if_pos hv]
      simp only [reduceCtorEq, false_iff, not_not]
      have := (validate_exact N.toNat ((decodedEntries intPi N S).map iabs)
        (by rw [List.length_map, decodedEntries_length])
        (by rw [Int.toNat_of_nonneg hN]; exact hv)).2
      rw [Int.toNat_of_nonneg hN] at this
      exact this
    · rw [if_neg hv]
      simp only [true_iff]
      intro h
      exact hv (validate_of_exact _ _ h)
  · rw [ofVector_eq]
    have hbad : (∃ e ∈ vector, e = 0 ∨ |e| > (vector.length : Int) ∨ (e < 0 ∧ S2 = false)) ↔
        ∃ e ∈ vector, (S2 = false ∧ e < 0) ∨ iabs e > (vector.length : Int) ∨ e = 0 := by
      constructor
      · rintro ⟨e, he, h | h | h⟩
        · exact ⟨e, he, Or.inr (Or.inr h)⟩
        · exact ⟨e, he, Or.inr (Or.inl (by rw [iabs_eq_abs]; exact h))⟩
        · exact ⟨e, he, Or.inl ⟨h.2, h.1⟩⟩
      · rintro ⟨e, he, h | h | h⟩
        · exact ⟨e, he, Or.inr (Or.inr ⟨h.2, h.1⟩)⟩
        · exact ⟨e, he, Or.inr (Or.inl (by rw [← iabs_eq_abs]; exact h))⟩
        · exact ⟨e, he, Or.inl h⟩
    rw [hbad, ← ofVector_loop_none_iff S2 (vector.length : Int) vector 1
      (newVector (vector.length : Int), newVector (vector.length : Int), [])]
    cases hl : ofVector_loop S2 (vector.length : Int) vector 1
        (newVector (vector.length : Int), newVector (vector.length : Int), []) with
    | none => simp
    | some r =>
      have hnv := newVector_length (vector.length : Int) (by omega)
      simp only [Int.toNat_ofNat] at hnv
      obtain ⟨_, _, a3, _⟩ := ofVector_loop_spec S2 _ vector 1 _ r hl
        (by simp only [hnv]; omega) (by simp only [hnv]; omega)
      simp only [List.append_nil] at a3
      simp only [reduceCtorEq, false_or]
      by_cases hv : validate (vector.length : Int) r.2.2 = true
      · rw [if_pos hv]
        simp only [reduceCtorEq, false_iff, not_not]
        have := (validate_exact vector.length r.2.2 (by rw [a3]; simp) hv).2
        intro v
        rw [← this v, a3, List.mem_reverse]
      · rw [if_neg hv]
        simp only [true_iff]
        intro h
        apply hv
        apply validate_of_exact
        intro v
        rw [a3, List.mem_reverse]
        exact h v
  · intro hv
    exact validate_exact elements.length elements rfl hv

/-- Witness of C12: the code `0x1032` with size `4`, the vector `2, 2, 1` and the entries
`3, 1, 2`. -/
theorem construction_validates_witness :
    (ofInt 0x1032 4 false = none ↔
      ¬ ∀ v : Int, v ∈ (decodedEntries 0x1032 4 false).map (fun e => |e|) ↔ 1 ≤ v ∧ v ≤ 4) ∧
    (ofVector [2, 2, 1] true = none ↔
      ((∃ e ∈ [2, 2, 1], e = 0 ∨ |e| > (([2, 2, 1] : List Int).length : Int) ∨
          (e < 0 ∧ true = false)) ∨
        ¬ ∀ v : Int, v ∈ ([2, 2, 1] : List Int).map (fun e => |e|) ↔
          1 ≤ v ∧ v ≤ (([2, 2, 1] : List Int).length : Int))) ∧
    (validate (([3, 1, 2] : List Int).length : Int) [3, 1, 2] = true →
      ([3, 1, 2] : List Int).Nodup ∧
        ∀ v : Int, v ∈ ([3, 1, 2] : List Int) ↔ 1 ≤ v ∧ v ≤ (([3, 1, 2] : List Int).length : Int)) :=
  construction_validates 0x1032 4 false [2, 2, 1] true [3, 1, 2] (by decide) (by decide)

end Permutation
end SWILS

namespace SWILS
namespace Permutation

/-- Entry `k` at the end of a decoding loop over `i` groups: the value of the group
`i - k` positions above the lowest one. -/
theorem decode_generic_getD (val : Nat → Int) (bits : Nat) (hval : ∀ a, val a ≠ 0) :
    ∀ (i aux : Nat) (st : List Int × List Int), i + 1 < st.1.length →
      ∀ k : Nat, 1 ≤ k → k ≤ i →
        (decode_generic_loop val bits i aux st).1.getD k 0 = val (aux >>> (bits * (i - k))) := by
  intro i
  induction i with
  | zero => intro aux st _ k h1 h2; omega
  | succ i ih =>
    intro aux st hl k h1 h2
    simp only [decode_generic_loop]
    by_cases hk : k = i + 1
    · subst hk
      obtain ⟨_, _, a3, _⟩ := decode_generic_spec val bits hval i (aux >>> bits)
        (st.1.set (i + 1) (val aux), st.2.set (val aux).natAbs ((i : Int) + 1))
        (by simp only [List.length_set]; omega)
      rw [a3 (i + 1) (Or.inr (by omega)), getD_set_eq, if_pos ⟨rfl, by omega⟩]
      simp
    · rw [ih (aux >>> bits) _ (by simp only [List.length_set]; omega) k h1 (by omega)]
      rw [← Nat.shiftRight_add]
      congr 2
      rw [show i + 1 - k = (i - k) + 1 by omega]
      ring

/-- C13. Signed decoding layout: the decoding loop of `Permutation(x, n, true)` places at
every position `k` of `1..n` (for every size `n`, in particular `1 ≤ n ≤ 12`) the element
whose magnitude is `((x >> 5(n - k)) & 15) + 1` and which is negative exactly when the bit
`((x >> 5(n - k)) & 16)` of that 5-bit group is set, so position `1` is taken from the most
significant group; the object the constructor returns holds these elements. -/
theorem signed_decoding_layout (x n k : Nat) (h1 : 1 ≤ k) (hk : k ≤ n) :
    (|(decoded x (n : Int) true).1.getD k 0| = (((x >>> (5 * (n - k))) &&& 15 : Nat) : Int) + 1 ∧
      ((decoded x (n : Int) true).1.getD k 0 < 0 ↔ (x >>> (5 * (n - k))) &&& 16 ≠ 0)) ∧
    ∀ pi : Permutation, ofInt x (n : Int) true = some pi →
      |pi.element_at (k : Int)| = (((x >>> (5 * (n - k))) &&& 15 : Nat) : Int) + 1 ∧
      (pi.element_at (k : Int) < 0 ↔ (x >>> (5 * (n - k))) &&& 16 ≠ 0) := by
  have hnv := newVector_length (n : Int) (by omega)
  simp only [Int.toNat_ofNat] at hnv
  have hdec : (decoded x (n : Int) true).1.getD k 0
      = if (x >>> (5 * (n - k))) &&& 16 ≠ 0 then
          -((((x >>> (5 * (n - k))) &&& 15 : Nat) : Int) + 1)
        else (((x >>> (5 * (n - k))) &&& 15 : Nat) : Int) + 1 := by
    unfold decoded
    simp only [if_true, Int.toNat_ofNat]
    rw [decodeSigned_eq_generic]
    exact decode_generic_getD _ S_N_BITS (fun a => by
        show (if a &&& S_SIGN ≠ 0 then -(((a &&& S_NUMBERS : Nat) : Int) + 1)
          else ((a &&& S_NUMBERS : Nat) : Int) + 1) ≠ 0
        split <;> omega) n x _ (by simp only [hnv]; omega) k h1 hk
  have hres : (|(decoded x (n : Int) true).1.getD k 0|
        = (((x >>> (5 * (n - k))) &&& 15 : Nat) : Int) + 1 ∧
      ((decoded x (n : Int) true).1.getD k 0 < 0 ↔ (x >>> (5 * (n - k))) &&& 16 ≠ 0)) := by
    rw [hdec]
    by_cases hs : (x >>> (5 * (n - k))) &&& 16 ≠ 0
    · rw [if_pos hs]
      refine ⟨?_, ?_⟩
      · rw [abs_neg, abs_of_nonneg (by omega)]
      · exact ⟨fun _ => hs, fun _ => by omega⟩
    · rw [if_neg hs]
      refine ⟨abs_of_nonneg (by omega), ?_⟩
      exact ⟨fun h => by omega, fun h => absurd h hs⟩
  refine ⟨hres, ?_⟩
  intro pi h
  rw [ofInt_eq_decoded] at h
  by_cases hv : validate (n : Int) ((decodedEntries x (n : Int) true).map iabs) = true
  · rw [if_pos hv] at h
    simp only [Option.some.injEq] at h
    subst h
    unfold element_at
    simp only [Int.toNat_ofNat]
    exact hres
  · rw [if_neg hv] at h
    exact absurd h (by simp)

/-- Witness of C13: the code `17410` (groups `10001`, `00000`, `00010`) of the signed
permutation `-2, 1, 3`, at position `1`. -/
theorem signed_decoding_layout_witness :
    (|(decoded 17410 ((3 : Nat) : Int) true).1.getD 1 0|
        = (((17410 >>> (5 * (3 - 1))) &&& 15 : Nat) : Int) + 1 ∧
      ((decoded 17410 ((3 : Nat) : Int) true).1.getD 1 0 < 0 ↔
        (17410 >>> (5 * (3 - 1))) &&& 16 ≠ 0)) ∧
    ∀ pi : Permutation, ofInt 17410 ((3 : Nat) : Int) true = some pi →
      |pi.element_at ((1 : Nat) : Int)| = (((17410 >>> (5 * (3 - 1))) &&& 15 : Nat) : Int) + 1 ∧
      (pi.element_at ((1 : Nat) : Int) < 0 ↔ (17410 >>> (5 * (3 - 1))) &&& 16 ≠ 0) :=
  signed_decoding_layout 17410 3 1 (by decide) (by decide)

/-- C14. Characterisation of `isIdentity()`: for every permutation object of size `n`, valid
or not, signed or unsigned, it returns true if and only if `element_at(k) = k`, with the
positive sign, for every `k` in `1..n`. -/
theorem isIdentity_iff (p : Permutation) :
    p.isIdentity = true ↔ ∀ k : Int, 1 ≤ k → k ≤ p.n → p.element_at k = k := by
  unfold isIdentity element_at
  rw [List.all_eq_true]
  constructor
  · intro h k h1 h2
    have := h (k - 1).toNat (List.mem_range.mpr (by omega))
    simp only [decide_eq_true_eq] at this
    rw [show (k - 1).toNat + 1 = k.toNat by omega] at this
    rw [this]
    omega
  · intro h k hk
    rw [List.mem_range] at hk
    simp only [decide_eq_true_eq]
    have := h ((k : Int) + 1) (by omega) (by omega)
    rw [show ((k : Int) + 1).toNat = k + 1 by omega] at this
    exact this

/-- C15 (amended). For `n = 1` the identity test is sensitive to the sign: `isIdentity()` is
true for the signed permutation `1` and false for the signed permutation `-1`, built from
their vectors or from their codes `0` and `16`. -/
theorem isIdentity_size_one :
    (ofVector [1] true).map isIdentity = some true ∧
    (ofVector [-1] true).map isIdentity = some false ∧
    (ofInt 0 1 true).map isIdentity = some true ∧
    (ofInt 16 1 true).map isIdentity = some false := by
  decide

/-- C15 as stated fails: `isIdentity()` is not true for both signed permutations of size
`1`; the constructor accepts the vector `-1` and `isIdentity()` returns false on it. -/
theorem isIdentity_size_one_not_any_sign :
    ¬ ((ofVector [1] true).map isIdentity = some true ∧
      (ofVector [-1] true).map isIdentity = some true) := by
  decide

end Permutation

namespace Problem

/-- C16. Symmetry and positivity of the weight: for every size `n ≥ 1` and all positions
`i`, `j` in `1..n`, `getInversionWeight(i, j) = getInversionWeight(j, i)
= |min(i, n - i + 1) - min(j, n - j + 1)| + 1`, and the value is at least `1`. -/
theorem weight_symmetric_positive (p : Problem) (i j : Int) (_hn : 1 ≤ p.n)
    (_hi1 : 1 ≤ i) (_hi2 : i ≤ p.n) (_hj1 : 1 ≤ j) (_hj2 : j ≤ p.n) :
    p.getInversionWeight i j = p.getInversionWeight j i ∧
    p.getInversionWeight i j = |min i (p.n - i + 1) - min j (p.n - j + 1)| + 1 ∧
    1 ≤ p.getInversionWeight i j := by
  unfold getInversionWeight weight slice
  rw [Permutation.iabs_eq_abs, Permutation.iabs_eq_abs]
  refine ⟨by rw [abs_sub_comm], rfl, ?_⟩
  have := abs_nonneg (min i (p.n - i + 1) - min j (p.n - j + 1))
  omega

/-- Witness of C16: the positions `1` and `3` of the problem of size `4`. -/
theorem weight_symmetric_positive_witness :
    (Problem.mk 4 false (swi_ls 4 false)).getInversionWeight 1 3
      = (Problem.mk 4 false (swi_ls 4 false)).getInversionWeight 3 1 ∧
    (Problem.mk 4 false (swi_ls 4 false)).getInversionWeight 1 3
      = |min 1 ((Problem.mk 4 false (swi_ls 4 false)).n - 1 + 1)
          - min 3 ((Problem.mk 4 false (swi_ls 4 false)).n - 3 + 1)| + 1 ∧
    1 ≤ (Problem.mk 4 false (swi_ls 4 false)).getInversionWeight 1 3 :=
  weight_symmetric_positive (Problem.mk 4 false (swi_ls 4 false)) 1 3 (by decide) (by decide)
    (by decide) (by decide) (by decide)

end Problem
end SWILS

namespace SWILS
namespace Problem

theorem swi_ls_length_sum (N delta : Nat) : ∀ m : Nat, m + delta ≤ N + 1 → m ≤ N →
    2 * (((List.map (fun (i : Nat) => N - (i + delta)) (List.range m)).sum : Nat) : Int)
      = 2 * (m : Int) * N - (m : Int) * ((m : Int) - 1) - 2 * (m : Int) * delta := by
  intro m
  induction m with
  | zero => intro _ _; simp
  | succ m ih =>
    intro h1 h2
    have hs : (List.map (fun (i : Nat) => N - (i + delta)) (List.range (m + 1))).sum
        = (List.map (fun (i : Nat) => N - (i + delta)) (List.range m)).sum
          + (N - (m + delta)) := by
      rw [List.range_succ, List.map_append, List.sum_append]
      simp
    have := ih (by omega) (by omega)
    rw [hs, Nat.cast_add, mul_add, this]
    have e : ((N - (m + delta) : Nat) : Int) = (N : Int) - m - delta := by omega
    rw [e]
    push_cast
    ring

theorem swi_ls_length (n : Int) (sign : Bool) (hn : 0 ≤ n) :
    2 * ((swi_ls n sign).length : Int) = if sign then n * (n + 1) else n * (n - 1) := by
  have hN : ((n.toNat : Nat) : Int) = n := Int.toNat_of_nonneg hn
  cases sign
  · simp only [swi_ls, List.length_flatMap, Function.comp_def, List.length_map,
      List.length_range', Bool.false_eq_true, if_false]
    by_cases h0 : n.toNat = 0
    · have : n = 0 := by omega
      subst this
      simp
    · have := swi_ls_length_sum n.toNat 1 n.toNat (by omega) (le_refl _)
      rw [this, hN]
      push_cast
      ring
  · simp only [swi_ls, List.length_flatMap, Function.comp_def, List.length_map,
      List.length_range', if_true]
    have := swi_ls_length_sum n.toNat 0 n.toNat (by omega) (le_refl _)
    rw [this, hN]
    push_cast
    ring

theorem swi_ls_pairwise (n : Int) (sign : Bool) :
    List.Pairwise (fun (a b : Inversion) => a.i < b.i ∨ (a.i = b.i ∧ a.j < b.j))
      (swi_ls n sign) := by
  unfold swi_ls
  rw [List.pairwise_flatMap]
  constructor
  · intro i _
    rw [List.pairwise_map]
    apply List.Pairwise.imp _ (List.pairwise_lt_range' _ _)
    intro a b hab
    right
    simp only [true_and]
    omega
  · apply List.Pairwise.imp _ (List.pairwise_lt_range n.toNat)
    intro a b hab x hx y hy
    obtain ⟨_, _, rfl⟩ := List.mem_map.mp hx
    obtain ⟨_, _, rfl⟩ := List.mem_map.mp hy
    left
    simp only
    omega

theorem swi_ls_mem (n : Int) (sign : Bool) (i j : Int) :
    (∃ r ∈ swi_ls n sign, r.i = i ∧ r.j = j) ↔
      1 ≤ i ∧ (if sign then i ≤ j else i < j) ∧ j ≤ n := by
  unfold swi_ls
  simp only [List.mem_flatMap, List.mem_map, List.mem_range, List.mem_range'_1]
  constructor
  · rintro ⟨r, ⟨a, ha, b, hb, rfl⟩, rfl, rfl⟩
    simp only
    cases sign
    · simp only [Bool.false_eq_true, if_false] at hb ⊢
      omega
    · simp only [if_true] at hb ⊢
      omega
  · rintro ⟨h1, h2, h3⟩
    cases sign
    · simp only [Bool.false_eq_true, if_false] at h2 ⊢
      exact ⟨_, ⟨(i - 1).toNat, by omega, (j - 1).toNat, by omega, rfl⟩, by simp only; omega,
        by simp only; omega⟩
    · simp only [if_true] at h2 ⊢
      exact ⟨_, ⟨(i - 1).toNat, by omega, (j - 1).toNat, by omega, rfl⟩, by simp only; omega,
        by simp only; omega⟩

/-- C17. Inversion universe: for every size `n ≥ 1`, the list `getInversions()` of
`Problem(SWI_LS, n, sign)` is in strict lexicographic order of `(i, j)`, hence without
repetition, holds exactly the pairs `1 ≤ i ≤ j ≤ n` when `sign` is true and exactly the pairs
`1 ≤ i < j ≤ n` when `sign` is false, has `n(n+1)/2` respectively `n(n-1)/2` entries, and each
entry carries `w = getInversionWeight(i, j)`. -/
theorem inversion_universe (n : Int) (sign : Bool) (problem : Problem) (hn : 1 ≤ n)
    (hp : Problem.create SWI_LS n sign = some problem) :
    List.Pairwise (fun (a b : Inversion) => a.i < b.i ∨ (a.i = b.i ∧ a.j < b.j))
      problem.getInversions ∧
    problem.getInversions.Nodup ∧
    (∀ i j : Int, (∃ r ∈ problem.getInversions, r.i = i ∧ r.j = j) ↔
      1 ≤ i ∧ (if sign then i ≤ j else i < j) ∧ j ≤ n) ∧
    (problem.getInversions.length : Int)
      = (if sign then n * (n + 1) / 2 else n * (n - 1) / 2) ∧
    (∀ r ∈ problem.getInversions, r.w = problem.getInversionWeight r.i r.j) := by
  obtain ⟨pn, _, pinv⟩ := Problem.create_eq _ _ _ _ hp
  unfold getInversions
  rw [pinv]
  have hpw := swi_ls_pairwise n sign
  refine ⟨hpw, ?_, swi_ls_mem n sign, ?_, ?_⟩
  · apply List.Pairwise.imp _ hpw
    intro a b hab e
    subst e
    omega
  · have := swi_ls_length n sign (by omega)
    cases sign
    · simp only [Bool.false_eq_true, if_false] at this ⊢
      omega
    · simp only [if_true] at this ⊢
      omega
  · intro r hr
    have := (Problem.mem_swi_ls n sign r hr).2.2.2
    rw [this]
    unfold getInversionWeight
    rw [pn]

/-- Witness of C17: the signed problem of size `3`. -/
theorem inversion_universe_witness :
    List.Pairwise (fun (a b : Inversion) => a.i < b.i ∨ (a.i = b.i ∧ a.j < b.j))
      (Problem.mk 3 true (swi_ls 3 true)).getInversions ∧
    (Problem.mk 3 true (swi_ls 3 true)).getInversions.Nodup ∧
    (∀ i j : Int, (∃ r ∈ (Problem.mk 3 true (swi_ls 3 true)).getInversions, r.i = i ∧ r.j = j) ↔
      1 ≤ i ∧ (if true then i ≤ j else i < j) ∧ j ≤ 3) ∧
    ((Problem.mk 3 true (swi_ls 3 true)).getInversions.length : Int)
      = (if true then 3 * (3 + 1) / 2 else 3 * (3 - 1) / 2) ∧
    (∀ r ∈ (Problem.mk 3 true (swi_ls 3 true)).getInversions,
      r.w = (Problem.mk 3 true (swi_ls 3 true)).getInversionWeight r.i r.j) :=
  inversion_universe 3 true (Problem.mk 3 true (swi_ls 3 true)) (by decide) (by decide)

end Problem
end SWILS

namespace SWILS
namespace Problem

/-- The four outcomes of `inversionsToCorrectPosition`. -/
theorem inversionsToCorrectPosition_eq (p : Problem) (pos : Int) (pi : Permutation) :
    p.inversionsToCorrectPosition pos pi
      = if pi.position pos = pos then
          (if pi.sign = true ∧ pi.element_at (pi.position pos) < 0 then
            ([Inversion.mk pos pos (p.getInversionWeight pos pos)], p.getInversionWeight pos pos)
          else ([], 0))
        else
          (if pi.sign = true ∧ 0 < pi.element_at (pi.position pos) then
            ([Inversion.mk (min pos (pi.position pos)) (max pos (pi.position pos))
                (p.getInversionWeight (min pos (pi.position pos)) (max pos (pi.position pos))),
              Inversion.mk pos pos (p.getInversionWeight pos pos)],
              p.getInversionWeight (min pos (pi.position pos)) (max pos (pi.position pos))
                + p.getInversionWeight pos pos)
          else
            ([Inversion.mk (min pos (pi.position pos)) (max pos (pi.position pos))
                (p.getInversionWeight (min pos (pi.position pos)) (max pos (pi.position pos)))],
              p.getInversionWeight (min pos (pi.position pos)) (max pos (pi.position pos)))) := by
  unfold inversionsToCorrectPosition
  simp only [Permutation.isSigned]
  by_cases hc : pi.position pos = pos
  · simp only [if_pos hc]
    by_cases hs : pi.sign = true ∧ pi.element_at (pi.position pos) < 0
    · rw [if_pos hs]
      have : (pi.sign && decide (pi.element_at (pi.position pos) < 0)) = true := by
        simp [hs.1, hs.2]
      rw [if_pos this]
    · rw [if_neg hs]
      have : ¬ (pi.sign && decide (pi.element_at (pi.position pos) < 0)) = true := by
        intro hh
        simp only [Bool.and_eq_true, decide_eq_true_eq] at hh
        exact hs ⟨hh.1, hh.2⟩
      rw [if_neg this]
  · simp only [if_neg hc]
    have hmin : (if pi.position pos < pos then pi.position pos else pos)
        = min pos (pi.position pos) := by
      split <;> omega
    have hmax : (if pi.position pos < pos then pos else pi.position pos)
        = max pos (pi.position pos) := by
      split <;> omega
    rw [hmin, hmax]
    by_cases hs : pi.sign = true ∧ 0 < pi.element_at (pi.position pos)
    · rw [if_pos hs]
      have : (pi.sign && decide (pi.element_at (pi.position pos) > 0)) = true := by
        simp [hs.1, hs.2]
      rw [if_pos this]
    · rw [if_neg hs]
      have : ¬ (pi.sign && decide (pi.element_at (pi.position pos) > 0)) = true := by
        intro hh
        simp only [Bool.and_eq_true, decide_eq_true_eq] at hh
        exact hs ⟨hh.1, hh.2⟩
      rw [if_neg this]

/-- Where the element `pos` stands in a valid permutation. -/
theorem position_spec (pi : Permutation) (pos : Int) (hv : pi.Valid) (h1 : 1 ≤ pos)
    (h2 : pos ≤ pi.n) :
    1 ≤ pi.position pos ∧ pi.position pos ≤ pi.n ∧
    (pi.element_at (pi.position pos) = pos ∨ pi.element_at (pi.position pos) = -pos) ∧
    (pi.sign = false → pi.element_at (pi.position pos) = pos) ∧
    (pi.element_at pos = pos → pi.position pos = pos) := by
  unfold Permutation.position Permutation.element_at
  obtain ⟨b1, b2, b3⟩ := hv.bw pos.natAbs (by omega) (by omega)
  refine ⟨b1, b2, by omega, ?_, ?_⟩
  · intro hs
    have := hv.pos hs (pi.inverse.getD pos.natAbs 0).toNat (by omega) (by omega)
    omega
  · intro he
    have := (hv.fw pos.toNat (by omega) (by omega)).2.2
    rw [he] at this
    rw [this]
    omega

theorem element_at_applyInversion (p : Permutation) (i j : Int)
    (hlen : p.permutation.length = p.n.toNat + 2) (hi : 1 ≤ i) (hj : j ≤ p.n) (k : Int)
    (hk : 0 ≤ k) :
    (p.applyInversion i j).element_at k
      = if i ≤ k ∧ k ≤ j then
          (if p.sign then - p.element_at (i + j - k) else p.element_at (i + j - k))
        else p.element_at k := by
  unfold Permutation.element_at
  rw [(Permutation.applyInversion_permutation p i j hlen hi hj).2 k.toNat,
    Int.toNat_of_nonneg hk]

/-- C18. `inversionsToCorrectPosition` fixes the position: for every valid permutation `pi`,
signed or unsigned, and every `pos` in `1..n`, applying the returned inversions in order to
`pi` gives a permutation with `element_at(pos) = pos` (positive sign), and the returned
`totalCost` is the sum of the `w` fields of the returned inversions. -/
theorem inversionsToCorrectPosition_fixes (problem : Problem) (pi : Permutation) (pos : Int)
    (hv : pi.Valid) (h1 : 1 ≤ pos) (h2 : pos ≤ pi.n) :
    (applyAll pi (problem.inversionsToCorrectPosition pos pi).1).element_at pos = pos ∧
    (problem.inversionsToCorrectPosition pos pi).2
      = weightSum (problem.inversionsToCorrectPosition pos pi).1 := by
  obtain ⟨c1, c2, c3, c4, c5⟩ := position_spec pi pos hv h1 h2
  rw [inversionsToCorrectPosition_eq]
  by_cases hc : pi.position pos = pos
  · rw [if_pos hc]
    by_cases hs : pi.sign = true ∧ pi.element_at (pi.position pos) < 0
    · rw [if_pos hs]
      refine ⟨?_, by simp [weightSum]⟩
      simp only [applyAll, List.foldl_cons, List.foldl_nil]
      rw [element_at_applyInversion pi pos pos hv.2.1 h1 h2 pos (by omega),
        if_pos ⟨le_refl _, le_refl _⟩, if_pos hs.1]
      rw [hc] at hs c3
      rw [show pos + pos - pos = pos by omega]
      omega
    · rw [if_neg hs]
      refine ⟨?_, by simp [weightSum]⟩
      simp only [applyAll, List.foldl_nil]
      rw [hc] at hs c3 c4
      cases hsg : pi.sign
      · exact c4 hsg
      · have : ¬ pi.element_at pos < 0 := fun h => hs ⟨hsg, h⟩
        omega
  · rw [if_neg hc]
    have hi : 1 ≤ min pos (pi.position pos) := by omega
    have hj : max pos (pi.position pos) ≤ pi.n := by omega
    have hsum : min pos (pi.position pos) + max pos (pi.position pos) - pos
        = pi.position pos := by omega
    have hfirst := element_at_applyInversion pi (min pos (pi.position pos))
      (max pos (pi.position pos)) hv.2.1 hi hj pos (by omega)
    rw [if_pos ⟨by omega, by omega⟩, hsum] at hfirst
    by_cases hs : pi.sign = true ∧ 0 < pi.element_at (pi.position pos)
    · rw [if_pos hs]
      refine ⟨?_, by simp [weightSum]⟩
      simp only [applyAll, List.foldl_cons, List.foldl_nil]
      have hlen1 := (Permutation.applyInversion_permutation pi (min pos (pi.position pos))
        (max pos (pi.position pos)) hv.2.1 hi hj).1
      rw [element_at_applyInversion _ pos pos
        (by rw [hlen1, Permutation.applyInversion_n]; exact hv.2.1) h1
        (by rw [Permutation.applyInversion_n]; exact h2) pos (by omega),
        if_pos ⟨le_refl _, le_refl _⟩, Permutation.applyInversion_sign, if_pos hs.1,
        show pos + pos - pos = pos by omega, hfirst, if_pos hs.1]
      omega
    · rw [if_neg hs]
      refine ⟨?_, by simp [weightSum]⟩
      simp only [applyAll, List.foldl_cons, List.foldl_nil]
      rw [hfirst]
      cases hsg : pi.sign
      · simp only [Bool.false_eq_true, if_false]
        exact c4 hsg
      · simp only [if_true]
        have : ¬ 0 < pi.element_at (pi.position pos) := fun h => hs ⟨hsg, h⟩
        omega

/-- Witness of C18: the signed permutation `-2, 1, 3` and the position `1`. -/
theorem inversionsToCorrectPosition_fixes_witness :
    (applyAll (Permutation.mk 3 [0, -2, 1, 3, 4] [0, 2, 1, 3, 4] true)
      ((Problem.mk 3 true (swi_ls 3 true)).inversionsToCorrectPosition 1
        (Permutation.mk 3 [0, -2, 1, 3, 4] [0, 2, 1, 3, 4] true)).1).element_at 1 = 1 ∧
    ((Problem.mk 3 true (swi_ls 3 true)).inversionsToCorrectPosition 1
        (Permutation.mk 3 [0, -2, 1, 3, 4] [0, 2, 1, 3, 4] true)).2
      = weightSum ((Problem.mk 3 true (swi_ls 3 true)).inversionsToCorrectPosition 1
        (Permutation.mk 3 [0, -2, 1, 3, 4] [0, 2, 1, 3, 4] true)).1 :=
  inversionsToCorrectPosition_fixes (Problem.mk 3 true (swi_ls 3 true))
    (Permutation.mk 3 [0, -2, 1, 3, 4] [0, 2, 1, 3, 4] true) 1 (by decide) (by decide)
    (by decide)

/-- C19. Shape of the result of `inversionsToCorrectPosition` on a valid permutation and a
position `pos` of `1..n`, with `cur = position(pos)`: the result is empty with `totalCost`
`0` if and only if `element_at(pos) = pos`; it is the single unitary inversion `(pos, pos)`
if and only if `cur = pos` and the permutation is signed with a negative element there;
otherwise its first inversion is `(min(pos, cur), max(pos, cur))`, followed by the unitary
inversion `(pos, pos)` exactly when the permutation is signed and the element at `cur` is
positive, and by nothing else. -/
theorem inversionsToCorrectPosition_shape (problem : Problem) (pi : Permutation) (pos : Int)
    (hv : pi.Valid) (h1 : 1 ≤ pos) (h2 : pos ≤ pi.n) :
    (problem.inversionsToCorrectPosition pos pi = ([], 0) ↔ pi.element_at pos = pos) ∧
    ((problem.inversionsToCorrectPosition pos pi).1
        = [Inversion.mk pos pos (problem.getInversionWeight pos pos)] ↔
      (pi.position pos = pos ∧ pi.isSigned = true ∧ pi.element_at pos < 0)) ∧
    (pi.element_at pos ≠ pos →
      ¬ (pi.position pos = pos ∧ pi.isSigned = true ∧ pi.element_at pos < 0) →
      (problem.inversionsToCorrectPosition pos pi).1
        = Inversion.mk (min pos (pi.position pos)) (max pos (pi.position pos))
            (problem.getInversionWeight (min pos (pi.position pos)) (max pos (pi.position pos)))
          :: (if pi.isSigned = true ∧ 0 < pi.element_at (pi.position pos) then
                [Inversion.mk pos pos (problem.getInversionWeight pos pos)]
              else [])) := by
  obtain ⟨c1, c2, c3, c4, c5⟩ := position_spec pi pos hv h1 h2
  rw [inversionsToCorrectPosition_eq]
  simp only [Permutation.isSigned]
  by_cases hc : pi.position pos = pos
  · rw [if_pos hc]
    rw [hc] at c3 c4
    by_cases hs : pi.sign = true ∧ pi.element_at (pi.position pos) < 0
    · rw [if_pos hs]
      rw [hc] at hs
      refine ⟨?_, ?_, ?_⟩
      · constructor
        · intro h; exact absurd h (by simp)
        · intro h; omega
      · exact ⟨fun _ => ⟨hc, hs.1, hs.2⟩, fun _ => rfl⟩
      · intro _ hn
        exact absurd ⟨hc, hs.1, hs.2⟩ hn
    · rw [if_neg hs]
      rw [hc] at hs
      have hpos : pi.element_at pos = pos := by
        cases hsg : pi.sign
        · exact c4 hsg
        · have : ¬ pi.element_at pos < 0 := fun h => hs ⟨hsg, h⟩
          omega
      refine ⟨?_, ?_, ?_⟩
      · exact ⟨fun _ => hpos, fun _ => rfl⟩
      · constructor
        · intro h; exact absurd h (by simp)
        · rintro ⟨_, a, b⟩; exact absurd ⟨a, b⟩ hs
      · intro hne _
        exact absurd hpos hne
  · rw [if_neg hc]
    have hne : pi.element_at pos ≠ pos := fun h => hc (c5 h)
    have hij : min pos (pi.position pos) ≠ max pos (pi.position pos) := by omega
    by_cases hs : pi.sign = true ∧ 0 < pi.element_at (pi.position pos)
    · rw [if_pos hs]
      refine ⟨?_, ?_, ?_⟩
      · constructor
        · intro h; exact absurd h (by simp)
        · intro h; exact absurd h hne
      · constructor
        · intro h; exact absurd h (by simp)
        · rintro ⟨a, _⟩; exact absurd a hc
      · intro _ _; rw [if_pos hs]
    · rw [if_neg hs]
      refine ⟨?_, ?_, ?_⟩
      · constructor
        · intro h; exact absurd h (by simp)
        · intro h; exact absurd h hne
      · constructor
        · intro h
          simp only [List.cons.injEq, Inversion.mk.injEq, and_true] at h
          omega
        · rintro ⟨a, _⟩; exact absurd a hc
      · intro _ _; rw [if_neg hs]

/-- Witness of C19: the signed permutation `-2, 1, 3` and the position `1`. -/
theorem inversionsToCorrectPosition_shape_witness :
    ((Problem.mk 3 true (swi_ls 3 true)).inversionsToCorrectPosition 1
        (Permutation.mk 3 [0, -2, 1, 3, 4] [0, 2, 1, 3, 4] true) = ([], 0) ↔
      (Permutation.mk 3 [0, -2, 1, 3, 4] [0, 2, 1, 3, 4] true).element_at 1 = 1) ∧
    (((Problem.mk 3 true (swi_ls 3 true)).inversionsToCorrectPosition 1
        (Permutation.mk 3 [0, -2, 1, 3, 4] [0, 2, 1, 3, 4] true)).1
        = [Inversion.mk 1 1 ((Problem.mk 3 true (swi_ls 3 true)).getInversionWeight 1 1)] ↔
      ((Permutation.mk 3 [0, -2, 1, 3, 4] [0, 2, 1, 3, 4] true).position 1 = 1 ∧
        (Permutation.mk 3 [0, -2, 1, 3, 4] [0, 2, 1, 3, 4] true).isSigned = true ∧
        (Permutation.mk 3 [0, -2, 1, 3, 4] [0, 2, 1, 3, 4] true).element_at 1 < 0)) ∧
    ((Permutation.mk 3 [0, -2, 1, 3, 4] [0, 2, 1, 3, 4] true).element_at 1 ≠ 1 →
      ¬ ((Permutation.mk 3 [0, -2, 1, 3, 4] [0, 2, 1, 3, 4] true).position 1 = 1 ∧
        (Permutation.mk 3 [0, -2, 1, 3, 4] [0, 2, 1, 3, 4] true).isSigned = true ∧
        (Permutation.mk 3 [0, -2, 1, 3, 4] [0, 2, 1, 3, 4] true).element_at 1 < 0) →
      ((Problem.mk 3 true (swi_ls 3 true)).inversionsToCorrectPosition 1
          (Permutation.mk 3 [0, -2, 1, 3, 4] [0, 2, 1, 3, 4] true)).1
        = Inversion.mk
            (min 1 ((Permutation.mk 3 [0, -2, 1, 3, 4] [0, 2, 1, 3, 4] true).position 1))
            (max 1 ((Permutation.mk 3 [0, -2, 1, 3, 4] [0, 2, 1, 3, 4] true).position 1))
            ((Problem.mk 3 true (swi_ls 3 true)).getInversionWeight
              (min 1 ((Permutation.mk 3 [0, -2, 1, 3, 4] [0, 2, 1, 3, 4] true).position 1))
              (max 1 ((Permutation.mk 3 [0, -2, 1, 3, 4] [0, 2, 1, 3, 4] true).position 1)))
          :: (if (Permutation.mk 3 [0, -2, 1, 3, 4] [0, 2, 1, 3, 4] true).isSigned = true ∧
                0 < (Permutation.mk 3 [0, -2, 1, 3, 4] [0, 2, 1, 3, 4] true).element_at
                  ((Permutation.mk 3 [0, -2, 1, 3, 4] [0, 2, 1, 3, 4] true).position 1) then
                [Inversion.mk 1 1 ((Problem.mk 3 true (swi_ls 3 true)).getInversionWeight 1 1)]
              else [])) :=
  inversionsToCorrectPosition_shape (Problem.mk 3 true (swi_ls 3 true))
    (Permutation.mk 3 [0, -2, 1, 3, 4] [0, 2, 1, 3, 4] true) 1 (by decide) (by decide)
    (by decide)

end Problem
end SWILS

namespace SWILS
namespace Heuristics

/-- The loop of the drivers stops by itself: past `limit - tries + 1` iterations more fuel
changes nothing, and at the end the permutation is the identity, or the strategy returns the
sentinel on it, or more than `limit` inversions have been applied. -/
theorem sort_loop_stops (fm : FloatModel) (problem : Problem) (heuristic limit : Int)
    (hlim : limit + 1 ≤ 32767) :
    ∀ (fuel extra : Nat) (pi : Permutation) (weight tries : Int) (invs : List Inversion),
      0 ≤ tries → tries ≤ limit → (limit - tries + 1).toNat ≤ fuel →
      (invs.length : Int) = tries →
      sort_loop fm problem heuristic limit (fuel + extra) pi weight tries invs
        = sort_loop fm problem heuristic limit fuel pi weight tries invs ∧
      ((sort_loop fm problem heuristic limit fuel pi weight tries invs).1.isIdentity = true ∨
        (selectInversion fm heuristic
          (sort_loop fm problem heuristic limit fuel pi weight tries invs).1 problem).i = 0 ∨
        limit < ((sort_loop fm problem heuristic limit fuel pi weight tries invs).2.2.length
          : Int)) := by
  intro fuel
  induction fuel with
  | zero => intro extra pi weight tries invs h0 h1 h2 _; omega
  | succ fuel ih =>
    intro extra pi weight tries invs h0 h1 h2 hlen
    rw [show fuel + 1 + extra = (fuel + extra) + 1 by omega]
    simp only [sort_loop]
    cases hid : pi.isIdentity
    · simp only [Bool.not_false, if_true]
      by_cases hi : (selectInversion fm heuristic pi problem).i ≠ 0
      · simp only [if_pos hi]
        have hw : wrap16 (tries + 1) = tries + 1 := wrap16_eq _ (by omega) (by omega)
        rw [hw]
        by_cases ht : tries + 1 > limit
        · simp only [if_pos ht, true_and]
          right; right
          simp only [List.length_append, List.length_singleton]
          push_cast
          omega
        · simp only [if_neg ht]
          exact ih extra _ _ _ _ (by omega) (by omega) (by omega)
            (by simp only [List.length_append, List.length_singleton]; push_cast; omega)
      · simp only [if_neg hi, true_and]
        right; left
        simpa using hi
    · simp only [Bool.not_true, Bool.false_eq_true, if_false, true_and]
      left; exact hid

theorem weightSum_nonneg (n : Int) : ∀ l : List Inversion, (∀ x ∈ l, x.InRange n) →
    0 ≤ weightSum l := by
  intro l
  induction l with
  | nil => intro _; simp [weightSum]
  | cons r rest ih =>
    intro h
    rw [weightSum_cons]
    have := (h r (List.mem_cons_self _ _)).w_bounds.1
    have := ih (fun x hx => h x (List.mem_cons_of_mem _ hx))
    omega

/-- C20. Failure sentinel: for every integer that the constructor decodes to a permutation
of size `n ≤ 16`, the problem `SWI_LS` of the same size and sign, any `float` arithmetic and
any heuristic identifier, the loop of `Heuristics::sort` stops (more iterations change
nothing); the driver returns `-1` if and only if the working permutation is not the identity
when the loop stops, which happens only when the strategy returns the sentinel inversion on
it or more than `limit` inversions were applied; every other returned value is at least `0`;
and on an identity input the driver returns `0` with the permutation unchanged and no
inversion selected. -/
theorem sort_failure_sentinel (fm : FloatModel) (intPi : Nat) (n : Int) (sign : Bool)
    (problem : Problem) (heuristic : Int) (pi : Permutation) (hn : 0 ≤ n) (h16 : n ≤ 16)
    (hp : Problem.create SWI_LS n sign = some problem)
    (h : Permutation.ofInt intPi n sign = some pi) :
    (∃ w : Int, sort fm intPi n sign problem heuristic = some w) ∧
    (∀ fuel : Nat, sort_fuel (wrap16 (n * LIMIT_MULTIPLIER)) ≤ fuel →
      sort_loop fm problem heuristic (wrap16 (n * LIMIT_MULTIPLIER)) fuel pi 0 0 []
        = sort_final fm problem heuristic n pi) ∧
    ((sort_final fm problem heuristic n pi).1.isIdentity = false →
      (selectInversion fm heuristic (sort_final fm problem heuristic n pi).1 problem).i = 0 ∨
      wrap16 (n * LIMIT_MULTIPLIER)
        < ((sort_final fm problem heuristic n pi).2.2.length : Int)) ∧
    (sort fm intPi n sign problem heuristic = some (-1) ↔
      (sort_final fm problem heuristic n pi).1.isIdentity = false) ∧
    (∀ w : Int, sort fm intPi n sign problem heuristic = some w → w ≠ -1 → 0 ≤ w) ∧
    (pi.isIdentity = true →
      sort fm intPi n sign problem heuristic = some 0 ∧
      sort_final fm problem heuristic n pi = (pi, 0, [])) := by
  obtain ⟨hv, hpn, _⟩ := Permutation.ofInt_valid intPi n sign pi hn h
  obtain ⟨pn, _, pinv⟩ := Problem.create_eq _ _ _ _ hp
  have hlist : ∀ r ∈ problem.inversions, r.InRange n := by
    intro r hr
    rw [pinv] at hr
    exact Problem.mem_swi_ls _ _ r hr
  obtain ⟨l1, l2, l3⟩ := limit_bounds n hn h16
  have hspec := sort_loop_spec fm problem heuristic (n * 15) n pn hlist l2 l3
    (sort_fuel (n * 15)) pi 0 0 [] hv hpn (le_refl _) (by omega) (le_refl _) (by simp)
  have hstop := fun extra => sort_loop_stops fm problem heuristic (n * 15) l2
    (sort_fuel (n * 15)) extra pi 0 0 [] (le_refl _) (by omega)
    (by unfold sort_fuel; omega) (by simp)
  have hsort : sort fm intPi n sign problem heuristic
      = some (if (sort_final fm problem heuristic n pi).1.isIdentity = true then
          (sort_final fm problem heuristic n pi).2.1 else -1) := by
    rw [sort_eq_list]
    unfold sort_final
    simp only [h]
    split <;> rfl
  have hident : pi.isIdentity = true →
      sort_loop fm problem heuristic (n * 15) (sort_fuel (n * 15)) pi 0 0 [] = (pi, 0, []) := by
    intro hid
    unfold sort_fuel
    simp [sort_loop, hid]
  rw [hsort]
  unfold sort_final
  rw [l1]
  generalize sort_loop fm problem heuristic (n * 15) (sort_fuel (n * 15)) pi 0 0 [] = r
    at hspec hstop hident ⊢
  have hw0 : r.1.isIdentity = true → 0 ≤ r.2.1 := by
    intro hid
    rcases hspec with hh | ⟨added, _, a2, _, _, a5⟩
    · rw [hid] at hh; exact absurd hh (by simp)
    · rw [a5]
      have := weightSum_nonneg n added a2
      omega
  refine ⟨⟨_, rfl⟩, ?_, ?_, ?_, ?_, ?_⟩
  · intro fuel hfuel
    have := (hstop (fuel - sort_fuel (n * 15))).1
    rw [show sort_fuel (n * 15) + (fuel - sort_fuel (n * 15)) = fuel by omega] at this
    exact this
  · intro hid
    rcases (hstop 0).2 with hh | hh | hh
    · rw [hid] at hh; exact absurd hh (by simp)
    · exact Or.inl hh
    · exact Or.inr hh
  · cases hid : r.1.isIdentity
    · simp
    · simp only [if_true, Option.some.injEq]
      have := hw0 hid
      constructor
      · intro hh; omega
      · intro hh; exact absurd hh (by simp)
  · intro w hw hne
    simp only [Option.some.injEq] at hw
    cases hid : r.1.isIdentity
    · rw [hid] at hw
      simp only [Bool.false_eq_true, if_false] at hw
      exact absurd hw.symm hne
    · rw [hid] at hw
      simp only [if_true] at hw
      rw [← hw]
      exact hw0 hid
  · intro hid
    rw [hident hid]
    simp [hid]

/-- Witness of C20: the code `0x1032` of the unsigned permutation `2, 1, 4, 3` and `LR`. -/
theorem sort_failure_sentinel_witness :
    (∃ w : Int, sort exactFloat 0x1032 4 false (Problem.mk 4 false (Problem.swi_ls 4 false)) LR
      = some w) ∧
    (∀ fuel : Nat, sort_fuel (wrap16 (4 * LIMIT_MULTIPLIER)) ≤ fuel →
      sort_loop exactFloat (Problem.mk 4 false (Problem.swi_ls 4 false)) LR
          (wrap16 (4 * LIMIT_MULTIPLIER)) fuel
          (Permutation.mk 4 [0, 2, 1, 4, 3, 5] [0, 2, 1, 4, 3, 5] false) 0 0 []
        = sort_final exactFloat (Problem.mk 4 false (Problem.swi_ls 4 false)) LR 4
          (Permutation.mk 4 [0, 2, 1, 4, 3, 5] [0, 2, 1, 4, 3, 5] false)) ∧
    ((sort_final exactFloat (Problem.mk 4 false (Problem.swi_ls 4 false)) LR 4
        (Permutation.mk 4 [0, 2, 1, 4, 3, 5] [0, 2, 1, 4, 3, 5] false)).1.isIdentity = false →
      (selectInversion exactFloat LR
        (sort_final exactFloat (Problem.mk 4 false (Problem.swi_ls 4 false)) LR 4
          (Permutation.mk 4 [0, 2, 1, 4, 3, 5] [0, 2, 1, 4, 3, 5] false)).1
        (Problem.mk 4 false (Problem.swi_ls 4 false))).i = 0 ∨
      wrap16 (4 * LIMIT_MULTIPLIER)
        < ((sort_final exactFloat (Problem.mk 4 false (Problem.swi_ls 4 false)) LR 4
          (Permutation.mk 4 [0, 2, 1, 4, 3, 5] [0, 2, 1, 4, 3, 5] false)).2.2.length : Int)) ∧
    (sort exactFloat 0x1032 4 false (Problem.mk 4 false (Problem.swi_ls 4 false)) LR
        = some (-1) ↔
      (sort_final exactFloat (Problem.mk 4 false (Problem.swi_ls 4 false)) LR 4
        (Permutation.mk 4 [0, 2, 1, 4, 3, 5] [0, 2, 1, 4, 3, 5] false)).1.isIdentity = false) ∧
    (∀ w : Int, sort exactFloat 0x1032 4 false (Problem.mk 4 false (Problem.swi_ls 4 false)) LR
        = some w → w ≠ -1 → 0 ≤ w) ∧
    ((Permutation.mk 4 [0, 2, 1, 4, 3, 5] [0, 2, 1, 4, 3, 5] false).isIdentity = true →
      sort exactFloat 0x1032 4 false (Problem.mk 4 false (Problem.swi_ls 4 false)) LR = some 0 ∧
      sort_final exactFloat (Problem.mk 4 false (Problem.swi_ls 4 false)) LR 4
          (Permutation.mk 4 [0, 2, 1, 4, 3, 5] [0, 2, 1, 4, 3, 5] false)
        = ((Permutation.mk 4 [0, 2, 1, 4, 3, 5] [0, 2, 1, 4, 3, 5] false), 0, [])) :=
  sort_failure_sentinel exactFloat 0x1032 4 false (Problem.mk 4 false (Problem.swi_ls 4 false))
    LR (Permutation.mk 4 [0, 2, 1, 4, 3, 5] [0, 2, 1, 4, 3, 5] false) (by decide) (by decide)
    (by decide) (by decide)

end Heuristics
end SWILS

namespace SWILS

theorem selectInversion_LR (fm : FloatModel) (pi : Permutation) (problem : Problem) :
    selectInversion fm LR pi problem = lr pi problem := by
  unfold selectInversion
  rw [if_pos rfl]

namespace Heuristics

/-- The strategy `LR` uses no `float`: the loop of the drivers does not depend on the
arithmetic. -/
theorem sort_loop_LR (fm1 fm2 : FloatModel) (problem : Problem) (limit : Int) :
    ∀ (fuel : Nat) (pi : Permutation) (weight tries : Int) (invs : List Inversion),
      sort_loop fm1 problem LR limit fuel pi weight tries invs
        = sort_loop fm2 problem LR limit fuel pi weight tries invs := by
  intro fuel
  induction fuel with
  | zero => intro pi weight tries invs; rfl
  | succ fuel ih =>
    intro pi weight tries invs
    simp only [sort_loop, selectInversion_LR, ih]

/-- C22 (amended). Concrete `LR` scenario: for the unsigned permutation `2, 1, 4, 3`
(`n = 4`, code `0x1032`) both sort drivers with `LR` reach the identity; the inversions
applied are `(1, 2)` and `(3, 4)`, each of weight `|slice(1) - slice(2)| + 1 = 2`, and the
reported total weight is `4`, whatever the `float` arithmetic. -/
theorem lr_scenario (fm : FloatModel) :
    sort_permutation fm (Permutation.mk 4 [0, 2, 1, 4, 3, 5] [0, 2, 1, 4, 3, 5] false)
        (Problem.mk 4 false (Problem.swi_ls 4 false)) LR
      = ([Inversion.mk 1 2 2, Inversion.mk 3 4 2], 4) ∧
    (applyAll (Permutation.mk 4 [0, 2, 1, 4, 3, 5] [0, 2, 1, 4, 3, 5] false)
      [Inversion.mk 1 2 2, Inversion.mk 3 4 2]).isIdentity = true ∧
    Permutation.ofVector [2, 1, 4, 3] false
      = some (Permutation.mk 4 [0, 2, 1, 4, 3, 5] [0, 2, 1, 4, 3, 5] false) ∧
    sort fm 0x1032 4 false (Problem.mk 4 false (Problem.swi_ls 4 false)) LR = some 4 := by
  have h1 : sort_permutation fm (Permutation.mk 4 [0, 2, 1, 4, 3, 5] [0, 2, 1, 4, 3, 5] false)
        (Problem.mk 4 false (Problem.swi_ls 4 false)) LR
      = sort_permutation exactFloat
        (Permutation.mk 4 [0, 2, 1, 4, 3, 5] [0, 2, 1, 4, 3, 5] false)
        (Problem.mk 4 false (Problem.swi_ls 4 false)) LR := by
    unfold sort_permutation
    simp only [sort_loop_LR fm exactFloat]
  have h2 : sort fm 0x1032 4 false (Problem.mk 4 false (Problem.swi_ls 4 false)) LR
      = sort exactFloat 0x1032 4 false (Problem.mk 4 false (Problem.swi_ls 4 false)) LR := by
    rw [sort_eq_list, sort_eq_list]
    simp only [sort_loop_LR fm exactFloat]
  rw [h1, h2]
  decide

/-- C22 as stated fails: on the unsigned permutation `2, 1, 4, 3` neither driver reports the
total weight `2` with `LR`. -/
theorem lr_scenario_weight_not_two :
    ¬ ((sort_permutation exactFloat
          (Permutation.mk 4 [0, 2, 1, 4, 3, 5] [0, 2, 1, 4, 3, 5] false)
          (Problem.mk 4 false (Problem.swi_ls 4 false)) LR).2 = 2) ∧
    ¬ (sort exactFloat 0x1032 4 false (Problem.mk 4 false (Problem.swi_ls 4 false)) LR
        = some 2) := by
  decide

end Heuristics

namespace Permutation

theorem breakpoints_loop_eq (read : Int → Int) (isBreak : Int → Int → Bool) (perm : List Int) :
    ∀ (m : Nat) (last breakpoints : Int),
      breakpoints_loop read isBreak perm (m + 1) last breakpoints
        = breakpoints + (if isBreak last (read (perm.getD m 0)) then 1 else 0)
          + (((List.range m).countP
              (fun k => isBreak (read (perm.getD (k + 1) 0)) (read (perm.getD k 0))) : Nat)
              : Int) := by
  intro m
  induction m with
  | zero =>
    intro last bp
    simp only [breakpoints_loop, List.range_zero, List.countP_nil]
    split <;> simp
  | succ m ih =>
    intro last bp
    rw [breakpoints_loop, ih, List.range_succ, List.countP_append]
    simp only [List.countP_cons, List.countP_nil]
    push_cast
    split <;> split <;> simp <;> ring

/-- C24 (amended). Definition of `numberOfBreakpoints()`: for every valid permutation it is
the number of indices `k` in `0..n` (sentinels `p[0] = 0` and `p[n+1] = n + 1` included) for
which `p[k+1] - p[k] != 1` when the permutation is signed, and for which
`|p[k+1] - p[k]| != 1` when it is unsigned. -/
theorem numberOfBreakpoints_eq (p : Permutation) (hv : p.Valid) :
    p.numberOfBreakpoints
      = (((List.range (p.n.toNat + 1)).countP
          (fun (k : Nat) => if p.sign then
              decide (p.element_at ((k : Int) + 1) - p.element_at (k : Int) ≠ 1)
            else decide (|p.element_at ((k : Int) + 1) - p.element_at (k : Int)| ≠ 1)) : Nat)
          : Int) := by
  have hn := hv.1
  have hs := hv.2.2.2.2.1
  have e1 : (p.n + 1).toNat = p.n.toNat + 1 := by omega
  have e2 : ∀ k : Nat, p.element_at ((k : Int) + 1) = p.permutation.getD (k + 1) 0 := by
    intro k; unfold element_at; congr 1
  have e3 : ∀ k : Nat, p.element_at (k : Int) = p.permutation.getD k 0 := by
    intro k; unfold element_at; congr 1
  simp only [e2, e3]
  unfold numberOfBreakpoints
  rw [e1, List.range_succ, List.countP_append]
  simp only [List.countP_cons, List.countP_nil, hs]
  cases hsg : p.sign
  · simp only [Bool.false_eq_true, if_false]
    rw [breakpoints_loop_eq]
    simp only [iabs_eq_abs]
    push_cast
    split <;> first | (simp; ring) | simp
  · simp only [if_true]
    rw [breakpoints_loop_eq]
    push_cast
    split <;> first | (simp; ring) | simp

/-- Witness of C24 (amended): the unsigned permutation `2, 1`, with `2` breakpoints. -/
theorem numberOfBreakpoints_eq_witness :
    (Permutation.mk 2 [0, 2, 1, 3] [0, 2, 1, 3] false).numberOfBreakpoints
      = (((List.range ((Permutation.mk 2 [0, 2, 1, 3] [0, 2, 1, 3] false).n.toNat + 1)).countP
          (fun (k : Nat) => if (Permutation.mk 2 [0, 2, 1, 3] [0, 2, 1, 3] false).sign then
              decide ((Permutation.mk 2 [0, 2, 1, 3] [0, 2, 1, 3] false).element_at ((k : Int) + 1)
                - (Permutation.mk 2 [0, 2, 1, 3] [0, 2, 1, 3] false).element_at (k : Int) ≠ 1)
            else decide (|(Permutation.mk 2 [0, 2, 1, 3] [0, 2, 1, 3] false).element_at
                ((k : Int) + 1)
                - (Permutation.mk 2 [0, 2, 1, 3] [0, 2, 1, 3] false).element_at (k : Int)| ≠ 1))
          : Nat) : Int) :=
  numberOfBreakpoints_eq (Permutation.mk 2 [0, 2, 1, 3] [0, 2, 1, 3] false) (by decide)

/-- C24 as stated fails on unsigned permutations: the valid unsigned permutation `2, 1` has
three indices `k` in `0..2` with `p[k+1] - p[k] != 1`, and `numberOfBreakpoints()` is `2`. -/
theorem numberOfBreakpoints_unsigned_differs :
    (Permutation.mk 2 [0, 2, 1, 3] [0, 2, 1, 3] false).Valid ∧
    (Permutation.mk 2 [0, 2, 1, 3] [0, 2, 1, 3] false).numberOfBreakpoints
      ≠ (((List.range 3).countP
          (fun (k : Nat) => decide ((Permutation.mk 2 [0, 2, 1, 3] [0, 2, 1, 3] false).element_at
              ((k : Int) + 1)
            - (Permutation.mk 2 [0, 2, 1, 3] [0, 2, 1, 3] false).element_at (k : Int) ≠ 1))
          : Nat) : Int) := by
  decide

end Permutation
end SWILS

namespace SWILS

theorem nb_eq (fm : FloatModel) (pi : Permutation) (problem : Problem) :
    nb fm pi problem
      = if fm.gt (problem.getInversions.foldl
            (nbStep fm pi.numberOfBreakpoints pi.breakpointsAfter)
            (fm.ofInt 0, Inversion.zero, Inversion.zero)).1 (fm.ofInt 0) = true then
          (problem.getInversions.foldl (nbStep fm pi.numberOfBreakpoints pi.breakpointsAfter)
            (fm.ofInt 0, Inversion.zero, Inversion.zero)).2.1
        else if (pi.isSigned && decide ((problem.getInversions.foldl
            (nbStep fm pi.numberOfBreakpoints pi.breakpointsAfter)
            (fm.ofInt 0, Inversion.zero, Inversion.zero)).2.2.i ≠ 0)) = true then
          (problem.getInversions.foldl (nbStep fm pi.numberOfBreakpoints pi.breakpointsAfter)
            (fm.ofInt 0, Inversion.zero, Inversion.zero)).2.2
        else Inversion.zero := rfl

theorem exactFloat_exactOn (B : Int) : exactFloat.ExactOn B where
  gt_zero := by
    intro a b w _ _ hw _
    simp only [FloatModel.quot, exactFloat, gt_iff_lt, decide_eq_decide]
    constructor
    · intro h
      have : 0 < (a - b) * 1 := by simpa using h
      omega
    · intro h
      simp
      omega
  gt_quot := by
    intro a b w a2 b2 w2 _ _ _ _ _ _ _ _
    simp only [FloatModel.quot, exactFloat, gt_iff_lt, decide_eq_decide]
    constructor
    · intro h; simpa using h
    · intro h; simpa using h
  eq_zero := by
    intro a b w _ _ _ _
    simp only [FloatModel.quot, exactFloat, decide_eq_decide]
    constructor
    · intro h
      have : a - b = 0 := by simpa using h
      omega
    · intro h
      subst h
      simp
  gt_zero_zero := by decide

theorem Permutation.numberOfBreakpoints_bounds (p : Permutation) (hn : 0 ≤ p.n) :
    0 ≤ p.numberOfBreakpoints ∧ p.numberOfBreakpoints ≤ p.n + 1 := by
  have e1 : (p.n + 1).toNat = p.n.toNat + 1 := by omega
  have hc : ∀ (f : Nat → Bool), ((List.range p.n.toNat).countP f : Int) ≤ p.n := by
    intro f
    have := List.countP_le_length f (l := List.range p.n.toNat)
    rw [List.length_range] at this
    omega
  unfold Permutation.numberOfBreakpoints
  rw [e1]
  split
  · rw [Permutation.breakpoints_loop_eq]
    have := hc (fun k => decide (p.permutation.getD (k + 1) 0 - p.permutation.getD k 0 ≠ 1))
    split <;> omega
  · rw [Permutation.breakpoints_loop_eq]
    have := hc (fun k =>
      decide (iabs (p.permutation.getD (k + 1) 0 - p.permutation.getD k 0) ≠ 1))
    split <;> omega

theorem Permutation.breakpointsAfter_bounds (pi : Permutation) (hn : 0 ≤ pi.n) (r : Inversion) :
    0 ≤ pi.breakpointsAfter r ∧ pi.breakpointsAfter r ≤ pi.n + 1 :=
  Permutation.numberOfBreakpoints_bounds _ hn

/-- Invariant of the loop of `nb` over a prefix `pre` of the inversions. -/
theorem nbStep_inv (fm : FloatModel) (B A : Int) (sc : Inversion → Int) (hfm : fm.ExactOn B)
    (hA : |A| ≤ B) (pre : List Inversion) (st : fm.F × Inversion × Inversion) (r : Inversion)
    (hpre : ∀ x ∈ pre, 1 ≤ x.w ∧ x.w ≤ B ∧ |sc x| ≤ B)
    (hr : 1 ≤ r.w ∧ r.w ≤ B ∧ |sc r| ≤ B) (hri : r.i ≠ 0)
    (h : ((∀ x ∈ pre, A - sc x ≤ 0) ∧ st.1 = fm.ofInt 0 ∧ st.2.1 = Inversion.zero ∧
          ((st.2.2 = Inversion.zero ∧ ∀ x ∈ pre, ¬ (sc x = A ∧ x.i = x.j)) ∨
            (st.2.2.i ≠ 0 ∧ FirstZeroUnitary A sc pre st.2.2))) ∨
        (FirstBest A sc pre st.2.1 ∧ st.1 = fm.quot A (sc st.2.1) st.2.1.w)) :
    ((∀ x ∈ pre ++ [r], A - sc x ≤ 0) ∧ (nbStep fm A sc st r).1 = fm.ofInt 0 ∧
        (nbStep fm A sc st r).2.1 = Inversion.zero ∧
        (((nbStep fm A sc st r).2.2 = Inversion.zero ∧
            ∀ x ∈ pre ++ [r], ¬ (sc x = A ∧ x.i = x.j)) ∨
          ((nbStep fm A sc st r).2.2.i ≠ 0 ∧
            FirstZeroUnitary A sc (pre ++ [r]) (nbStep fm A sc st r).2.2))) ∨
      (FirstBest A sc (pre ++ [r]) (nbStep fm A sc st r).2.1 ∧
        (nbStep fm A sc st r).1
          = fm.quot A (sc (nbStep fm A sc st r).2.1) (nbStep fm A sc st r).2.1.w) := by
  obtain ⟨w1, w2, w3⟩ := hr
  rcases h with ⟨hle, hb, hbi, hz⟩ | ⟨⟨l1, l2, e, hpos, hl1, hl2⟩, hb⟩
  · unfold nbStep
    simp only [hb, hfm.gt_zero A (sc r) r.w hA w3 w1 w2]
    by_cases hp : 0 < A - sc r
    · right
      simp only [hp, decide_True, if_true]
      refine ⟨⟨pre, [], rfl, hp, ?_, by simp⟩, trivial⟩
      intro x hx
      have h1 := hle x hx
      have h2 := (hpre x hx).1
      have : (A - sc x) * r.w ≤ 0 := Int.mul_nonpos_of_nonpos_of_nonneg h1 (by omega)
      have : 0 < (A - sc r) * x.w := Int.mul_pos hp (by omega)
      omega
    · left
      simp only [hp, decide_False, Bool.false_eq_true, if_false,
        hfm.eq_zero A (sc r) r.w hA w3 w1 w2]
      have hle2 : ∀ x ∈ pre ++ [r], A - sc x ≤ 0 := by
        intro x hx
        rcases List.mem_append.mp hx with h | h
        · exact hle x h
        · rw [List.mem_singleton] at h; subst h; omega
      by_cases hc : (decide (A = sc r) && decide (r.i = r.j) && decide (st.2.2.i = 0)) = true
      · rw [if_pos hc]
        simp only [Bool.and_eq_true, decide_eq_true_eq] at hc
        obtain ⟨⟨c1, c2⟩, c3⟩ := hc
        refine ⟨hle2, rfl, hbi, Or.inr ⟨hri, ?_⟩⟩
        rcases hz with ⟨_, hnone⟩ | ⟨hne, _⟩
        · exact ⟨pre, [], rfl, c1.symm, c2, hnone⟩
        · exact absurd c3 hne
      · rw [if_neg hc]
        refine ⟨hle2, hb, hbi, ?_⟩
        rcases hz with ⟨hzu, hnone⟩ | ⟨hne, l1, l2, e, z1, z2, z3⟩
        · left
          refine ⟨hzu, ?_⟩
          intro x hx
          rcases List.mem_append.mp hx with h | h
          · exact hnone x h
          · rw [List.mem_singleton] at h
            subst h
            intro hh
            apply hc
            simp only [Bool.and_eq_true, decide_eq_true_eq]
            exact ⟨⟨hh.1.symm, hh.2⟩, by rw [hzu]; rfl⟩
        · right
          exact ⟨hne, l1, l2 ++ [r], by rw [e]; simp, z1, z2, z3⟩
  · right
    have hx : st.2.1 ∈ pre := by rw [e]; simp
    obtain ⟨x1, x2, x3⟩ := hpre _ hx
    unfold nbStep
    simp only [hb, hfm.gt_quot A (sc r) r.w A (sc st.2.1) st.2.1.w hA w3 w1 w2 hA x3 x1 x2]
    by_cases hp : (A - sc st.2.1) * r.w < (A - sc r) * st.2.1.w
    · simp only [hp, decide_True, if_true]
      have hrpos : 0 < A - sc r := by
        by_contra hcon
        have : (A - sc r) * st.2.1.w ≤ 0 :=
          Int.mul_nonpos_of_nonpos_of_nonneg (by omega) (by omega)
        have : 0 < (A - sc st.2.1) * r.w := Int.mul_pos hpos (by omega)
        omega
      refine ⟨⟨pre, [], rfl, hrpos, ?_, by simp⟩, trivial⟩
      intro y hy
      have hyw := (hpre y hy).1
      have hyle : (A - sc y) * st.2.1.w ≤ (A - sc st.2.1) * y.w := by
        rw [e] at hy
        rcases List.mem_append.mp hy with h | h
        · exact le_of_lt (hl1 y h)
        · rcases List.mem_cons.mp h with h | h
          · subst h; exact le_refl _
          · exact hl2 y h
      by_contra hcon
      have hcon2 : (A - sc r) * y.w ≤ (A - sc y) * r.w := by omega
      have a1 : (A - sc r) * y.w * st.2.1.w ≤ (A - sc y) * r.w * st.2.1.w :=
        Int.mul_le_mul_of_nonneg_right hcon2 (by omega)
      have a2 : (A - sc y) * st.2.1.w * r.w ≤ (A - sc st.2.1) * y.w * r.w :=
        Int.mul_le_mul_of_nonneg_right hyle (by omega)
      have a3 : (A - sc st.2.1) * r.w * y.w < (A - sc r) * st.2.1.w * y.w :=
        Int.mul_lt_mul_of_pos_right hp (by omega)
      nlinarith [a1, a2, a3]
    · simp only [hp, decide_False, Bool.false_eq_true, if_false]
      have hfb : FirstBest A sc (pre ++ [r]) st.2.1 := by
        refine ⟨l1, l2 ++ [r], by rw [e]; simp, hpos, hl1, ?_⟩
        intro y hy
        rcases List.mem_append.mp hy with h | h
        · exact hl2 y h
        · rw [List.mem_singleton] at h; subst h; omega
      split
      · first | exact ⟨hfb, rfl⟩ | exact ⟨hfb, hb⟩ | exact ⟨hfb, trivial⟩
      · first | exact ⟨hfb, hb⟩ | exact ⟨hfb, rfl⟩ | exact ⟨hfb, trivial⟩

end SWILS

namespace SWILS

theorem nb_fold_inv (fm : FloatModel) (B A : Int) (sc : Inversion → Int) (hfm : fm.ExactOn B)
    (hA : |A| ≤ B) :
    ∀ (l pre : List Inversion) (st : fm.F × Inversion × Inversion),
      (∀ x ∈ pre ++ l, 1 ≤ x.w ∧ x.w ≤ B ∧ |sc x| ≤ B ∧ x.i ≠ 0) →
      NbInv fm A sc pre st → NbInv fm A sc (pre ++ l) (l.foldl (nbStep fm A sc) st) := by
  intro l
  induction l with
  | nil => intro pre st _ h; simpa using h
  | cons r rest ih =>
    intro pre st hb h
    rw [List.foldl_cons, show pre ++ r :: rest = (pre ++ [r]) ++ rest by simp]
    apply ih
    · intro x hx
      exact hb x (by simpa using hx)
    · unfold NbInv at h ⊢
      have hr := hb r (by simp)
      exact nbStep_inv fm B A sc hfm hA pre st r
        (fun x hx => by
          have := hb x (List.mem_append_left _ hx)
          exact ⟨this.1, this.2.1, this.2.2.1⟩)
        ⟨hr.1, hr.2.1, hr.2.2.1⟩ hr.2.2.2 h

/-- What `nb` returns, for an arithmetic that compares the benefits exactly. -/
theorem nb_spec (fm : FloatModel) (B : Int) (pi : Permutation) (problem : Problem)
    (hfm : fm.ExactOn B) (hB : pi.n + 1 ≤ B) (hn : 0 ≤ pi.n)
    (hp : ∀ r ∈ problem.inversions, r.InRange pi.n) :
    ((∀ x ∈ problem.getInversions, pi.numberOfBreakpoints - pi.breakpointsAfter x ≤ 0) ∧
      ((nb fm pi problem = Inversion.zero ∧
          (pi.isSigned = true → ∀ x ∈ problem.getInversions,
            ¬ (pi.breakpointsAfter x = pi.numberOfBreakpoints ∧ x.i = x.j))) ∨
        (pi.isSigned = true ∧
          FirstZeroUnitary pi.numberOfBreakpoints pi.breakpointsAfter problem.getInversions
            (nb fm pi problem)))) ∨
    FirstBest pi.numberOfBreakpoints pi.breakpointsAfter problem.getInversions
      (nb fm pi problem) := by
  have hA0 := Permutation.numberOfBreakpoints_bounds pi hn
  have hA : |pi.numberOfBreakpoints| ≤ B := abs_le.mpr ⟨by omega, by omega⟩
  have hU : ∀ x ∈ ([] : List Inversion) ++ problem.getInversions,
      1 ≤ x.w ∧ x.w ≤ B ∧ |pi.breakpointsAfter x| ≤ B ∧ x.i ≠ 0 := by
    intro x hx
    have hin := hp x (by simpa [Problem.getInversions] using hx)
    have hw := hin.w_bounds
    have hs := Permutation.breakpointsAfter_bounds pi hn x
    refine ⟨hw.1, by omega, abs_le.mpr ⟨by omega, by omega⟩, ?_⟩
    have := hin.1
    omega
  have hinv := nb_fold_inv fm B pi.numberOfBreakpoints pi.breakpointsAfter hfm hA
    problem.getInversions [] (fm.ofInt 0, Inversion.zero, Inversion.zero) hU
    (Or.inl ⟨by simp, rfl, rfl, Or.inl ⟨rfl, by simp⟩⟩)
  rw [nb_eq]
  simp only [List.nil_append] at hinv hU
  generalize problem.getInversions.foldl (nbStep fm pi.numberOfBreakpoints pi.breakpointsAfter)
    (fm.ofInt 0, Inversion.zero, Inversion.zero) = st at hinv ⊢
  rcases hinv with ⟨hle, hb, _, hz⟩ | ⟨hfb, hb⟩
  · left
    refine ⟨hle, ?_⟩
    rw [hb, hfm.gt_zero_zero]
    simp only [Bool.false_eq_true, if_false]
    rcases hz with ⟨hzu, hnone⟩ | ⟨hne, hfz⟩
    · left
      rw [hzu]
      exact ⟨by simp [Inversion.zero], fun _ => hnone⟩
    · by_cases hs : pi.isSigned = true
      · right
        refine ⟨hs, ?_⟩
        simp only [hs, Bool.true_and, decide_eq_true_eq]
        rw [if_pos hne]
        exact hfz
      · left
        have : pi.isSigned = false := by simpa using hs
        simp only [this, Bool.false_and, Bool.false_eq_true, if_false, true_and]
        intro h; exact absurd h (by simp)
  · right
    have hfb2 := hfb
    obtain ⟨l1, l2, e, hpos, _, _⟩ := hfb
    have hmem : st.2.1 ∈ problem.getInversions := by rw [e]; simp
    obtain ⟨x1, x2, x3, _⟩ := hU _ hmem
    rw [hb, hfm.gt_zero _ _ _ hA x3 x1 x2]
    simp only [hpos, decide_True, if_true]
    exact hfb2

end SWILS

namespace SWILS

/-- Two arithmetics that compare the benefits exactly run the loop of `nb` in lockstep. -/
theorem nbStep_sim (fm1 fm2 : FloatModel) (B A : Int) (sc : Inversion → Int)
    (h1 : fm1.ExactOn B) (h2 : fm2.ExactOn B) (hA : |A| ≤ B) :
    ∀ (l : List Inversion) (st1 : fm1.F × Inversion × Inversion)
      (st2 : fm2.F × Inversion × Inversion),
      (∀ x ∈ l, 1 ≤ x.w ∧ x.w ≤ B ∧ |sc x| ≤ B) →
      st1.2 = st2.2 →
      ((st1.1 = fm1.ofInt 0 ∧ st2.1 = fm2.ofInt 0) ∨
        ∃ b w : Int, |b| ≤ B ∧ 1 ≤ w ∧ w ≤ B ∧ st1.1 = fm1.quot A b w ∧
          st2.1 = fm2.quot A b w) →
      (l.foldl (nbStep fm1 A sc) st1).2 = (l.foldl (nbStep fm2 A sc) st2).2 ∧
      fm1.gt (l.foldl (nbStep fm1 A sc) st1).1 (fm1.ofInt 0)
        = fm2.gt (l.foldl (nbStep fm2 A sc) st2).1 (fm2.ofInt 0) := by
  intro l
  induction l with
  | nil =>
    intro st1 st2 _ he hb
    refine ⟨he, ?_⟩
    rcases hb with ⟨a, b⟩ | ⟨b, w, b1, b2, b3, e1, e2⟩
    · simp only [List.foldl_nil, a, b, h1.gt_zero_zero, h2.gt_zero_zero]
    · simp only [List.foldl_nil, e1, e2, h1.gt_zero A b w hA b1 b2 b3,
        h2.gt_zero A b w hA b1 b2 b3]
  | cons r rest ih =>
    intro st1 st2 hl he hb
    obtain ⟨w1, w2, w3⟩ := hl r (List.mem_cons_self _ _)
    have hrest : ∀ x ∈ rest, 1 ≤ x.w ∧ x.w ≤ B ∧ |sc x| ≤ B :=
      fun x hx => hl x (List.mem_cons_of_mem _ hx)
    simp only [List.foldl_cons]
    have hgt : fm1.gt (fm1.quot A (sc r) r.w) st1.1 = fm2.gt (fm2.quot A (sc r) r.w) st2.1 := by
      rcases hb with ⟨a, b⟩ | ⟨b, w, b1, b2, b3, e1, e2⟩
      · rw [a, b, h1.gt_zero A (sc r) r.w hA w3 w1 w2, h2.gt_zero A (sc r) r.w hA w3 w1 w2]
      · rw [e1, e2, h1.gt_quot A (sc r) r.w A b w hA w3 w1 w2 hA b1 b2 b3,
          h2.gt_quot A (sc r) r.w A b w hA w3 w1 w2 hA b1 b2 b3]
    have heq : fm1.eq (fm1.quot A (sc r) r.w) (fm1.ofInt 0)
        = fm2.eq (fm2.quot A (sc r) r.w) (fm2.ofInt 0) := by
      rw [h1.eq_zero A (sc r) r.w hA w3 w1 w2, h2.eq_zero A (sc r) r.w hA w3 w1 w2]
    have he2 : st1.2.2 = st2.2.2 := by rw [he]
    have he1 : st1.2.1 = st2.2.1 := by rw [he]
    cases hg : fm2.gt (fm2.quot A (sc r) r.w) st2.1
    · rw [hg] at hgt
      cases hc : (fm2.eq (fm2.quot A (sc r) r.w) (fm2.ofInt 0) && decide (r.i = r.j)
          && decide (st2.2.2.i = 0))
      · have hc1 : (fm1.eq (fm1.quot A (sc r) r.w) (fm1.ofInt 0) && decide (r.i = r.j)
            && decide (st1.2.2.i = 0)) = false := by rw [heq, he2]; exact hc
        have e1 : nbStep fm1 A sc st1 r = st1 := by
          unfold nbStep; simp only [hgt, hc1, Bool.false_eq_true, if_false]
        have e2 : nbStep fm2 A sc st2 r = st2 := by
          unfold nbStep; simp only [hg, hc, Bool.false_eq_true, if_false]
        rw [e1, e2]
        exact ih st1 st2 hrest he hb
      · have hc1 : (fm1.eq (fm1.quot A (sc r) r.w) (fm1.ofInt 0) && decide (r.i = r.j)
            && decide (st1.2.2.i = 0)) = true := by rw [heq, he2]; exact hc
        have e1 : nbStep fm1 A sc st1 r = (st1.1, st1.2.1, r) := by
          unfold nbStep; simp only [hgt, hc1, Bool.false_eq_true, if_false, if_true]
        have e2 : nbStep fm2 A sc st2 r = (st2.1, st2.2.1, r) := by
          unfold nbStep; simp only [hg, hc, Bool.false_eq_true, if_false, if_true]
        rw [e1, e2]
        exact ih _ _ hrest (by simp only [he1]) hb
    · rw [hg] at hgt
      have e1 : nbStep fm1 A sc st1 r = (fm1.quot A (sc r) r.w, r, st1.2.2) := by
        unfold nbStep; simp only [hgt, if_true]
      have e2 : nbStep fm2 A sc st2 r = (fm2.quot A (sc r) r.w, r, st2.2.2) := by
        unfold nbStep; simp only [hg, if_true]
      rw [e1, e2]
      exact ih _ _ hrest (by simp only [he2]) (Or.inr ⟨sc r, r.w, w3, w1, w2, rfl, rfl⟩)

/-- With an arithmetic that compares the benefits exactly, `nb` returns what it returns with
exact fractions. -/
theorem nb_eq_exact (fm : FloatModel) (B : Int) (pi : Permutation) (problem : Problem)
    (hfm : fm.ExactOn B) (hB : pi.n + 1 ≤ B) (hn : 0 ≤ pi.n)
    (hp : ∀ r ∈ problem.inversions, r.InRange pi.n) :
    nb fm pi problem = nb exactFloat pi problem := by
  have hA0 := Permutation.numberOfBreakpoints_bounds pi hn
  have hA : |pi.numberOfBreakpoints| ≤ B := abs_le.mpr ⟨by omega, by omega⟩
  have hU : ∀ x ∈ problem.getInversions,
      1 ≤ x.w ∧ x.w ≤ B ∧ |pi.breakpointsAfter x| ≤ B := by
    intro x hx
    have hw := (hp x (by simpa [Problem.getInversions] using hx)).w_bounds
    have hs := Permutation.breakpointsAfter_bounds pi hn x
    exact ⟨hw.1, by omega, abs_le.mpr ⟨by omega, by omega⟩⟩
  obtain ⟨s1, s2⟩ := nbStep_sim fm exactFloat B pi.numberOfBreakpoints pi.breakpointsAfter hfm
    (exactFloat_exactOn B) hA problem.getInversions
    (fm.ofInt 0, Inversion.zero, Inversion.zero)
    (exactFloat.ofInt 0, Inversion.zero, Inversion.zero) hU rfl (Or.inl ⟨rfl, rfl⟩)
  rw [nb_eq, nb_eq, s2, s1]

end SWILS

namespace SWILS

theorem selectInversion_NB_PLUS_LR (fm : FloatModel) (pi : Permutation) (problem : Problem) :
    selectInversion fm NB_PLUS_LR pi problem = nb_plus_lr fm pi problem := by
  unfold selectInversion
  rw [if_neg (by decide), if_neg (by decide), if_pos rfl]

theorem nb_plus_lr_eq_exact (fm : FloatModel) (B : Int) (pi : Permutation) (problem : Problem)
    (hfm : fm.ExactOn B) (hB : pi.n + 1 ≤ B) (hn : 0 ≤ pi.n)
    (hp : ∀ r ∈ problem.inversions, r.InRange pi.n) :
    nb_plus_lr fm pi problem = nb_plus_lr exactFloat pi problem := by
  unfold nb_plus_lr
  rw [nb_eq_exact fm B pi problem hfm hB hn hp]

namespace Heuristics

/-- With an arithmetic that compares the benefits exactly, the loop of the drivers with
`NB+LR` runs as with exact fractions. -/
theorem sort_loop_nblr_exact (fm : FloatModel) (B n : Int) (problem : Problem) (limit : Int)
    (hfm : fm.ExactOn B) (hB : n + 1 ≤ B) (hn : 0 ≤ n)
    (hp : ∀ r ∈ problem.inversions, r.InRange n) :
    ∀ (fuel : Nat) (pi : Permutation) (weight tries : Int) (invs : List Inversion),
      pi.n = n →
      sort_loop fm problem NB_PLUS_LR limit fuel pi weight tries invs
        = sort_loop exactFloat problem NB_PLUS_LR limit fuel pi weight tries invs := by
  intro fuel
  induction fuel with
  | zero => intro pi weight tries invs _; rfl
  | succ fuel ih =>
    intro pi weight tries invs hpi
    simp only [sort_loop, selectInversion_NB_PLUS_LR]
    rw [nb_plus_lr_eq_exact fm B pi problem hfm (by rw [hpi]; exact hB) (by rw [hpi]; exact hn)
      (by rw [hpi]; exact hp)]
    rw [ih (pi.applyInversion (nb_plus_lr exactFloat pi problem).i
      (nb_plus_lr exactFloat pi problem).j) _ _ _ hpi]

/-- C23. Concrete `NB` scenario, for every `float` arithmetic that compares the benefits over
scores up to `4` exactly: starting from the signed permutation `-1, -2, -3` (`n = 3`, code
`16946`), `nb` selects `(1, 1)`, then `(2, 2)`, then `(3, 3)`, never the sentinel, and these
three inversions, well within the cap of `45`, give `1, 2, 3`; both drivers with `NB+LR`
return the weight `3`. -/
theorem nb_scenario (fm : FloatModel) (B : Int) (hfm : fm.ExactOn B) (hB : 4 ≤ B) :
    Permutation.ofVector [-1, -2, -3] true
      = some (Permutation.mk 3 [0, -1, -2, -3, 4] [0, 1, 2, 3, 4] true) ∧
    nb fm (Permutation.mk 3 [0, -1, -2, -3, 4] [0, 1, 2, 3, 4] true)
        (Problem.mk 3 true (Problem.swi_ls 3 true)) = Inversion.mk 1 1 1 ∧
    nb fm ((Permutation.mk 3 [0, -1, -2, -3, 4] [0, 1, 2, 3, 4] true).applyInversion 1 1)
        (Problem.mk 3 true (Problem.swi_ls 3 true)) = Inversion.mk 2 2 1 ∧
    nb fm (((Permutation.mk 3 [0, -1, -2, -3, 4] [0, 1, 2, 3, 4] true).applyInversion
          1 1).applyInversion 2 2)
        (Problem.mk 3 true (Problem.swi_ls 3 true)) = Inversion.mk 3 3 1 ∧
    ((((Permutation.mk 3 [0, -1, -2, -3, 4] [0, 1, 2, 3, 4] true).applyInversion
        1 1).applyInversion 2 2).applyInversion 3 3).entries = [1, 2, 3] ∧
    ((((Permutation.mk 3 [0, -1, -2, -3, 4] [0, 1, 2, 3, 4] true).applyInversion
        1 1).applyInversion 2 2).applyInversion 3 3).isIdentity = true ∧
    sort_permutation fm (Permutation.mk 3 [0, -1, -2, -3, 4] [0, 1, 2, 3, 4] true)
        (Problem.mk 3 true (Problem.swi_ls 3 true)) NB_PLUS_LR
      = ([Inversion.mk 1 1 1, Inversion.mk 2 2 1, Inversion.mk 3 3 1], 3) ∧
    sort fm 16946 3 true (Problem.mk 3 true (Problem.swi_ls 3 true)) NB_PLUS_LR = some 3 := by
  have hp : ∀ r ∈ (Problem.mk 3 true (Problem.swi_ls 3 true)).inversions, r.InRange 3 :=
    fun r hr => Problem.mem_swi_ls 3 true r hr
  have e1 := nb_eq_exact fm B (Permutation.mk 3 [0, -1, -2, -3, 4] [0, 1, 2, 3, 4] true)
    (Problem.mk 3 true (Problem.swi_ls 3 true)) hfm hB (by decide) hp
  have e2 := nb_eq_exact fm B
    ((Permutation.mk 3 [0, -1, -2, -3, 4] [0, 1, 2, 3, 4] true).applyInversion 1 1)
    (Problem.mk 3 true (Problem.swi_ls 3 true)) hfm hB (by decide) hp
  have e3 := nb_eq_exact fm B
    (((Permutation.mk 3 [0, -1, -2, -3, 4] [0, 1, 2, 3, 4] true).applyInversion
      1 1).applyInversion 2 2)
    (Problem.mk 3 true (Problem.swi_ls 3 true)) hfm hB (by decide) hp
  have e4 : sort_permutation fm (Permutation.mk 3 [0, -1, -2, -3, 4] [0, 1, 2, 3, 4] true)
        (Problem.mk 3 true (Problem.swi_ls 3 true)) NB_PLUS_LR
      = sort_permutation exactFloat
        (Permutation.mk 3 [0, -1, -2, -3, 4] [0, 1, 2, 3, 4] true)
        (Problem.mk 3 true (Problem.swi_ls 3 true)) NB_PLUS_LR := by
    unfold sort_permutation
    simp only [sort_loop_nblr_exact fm B 3 _ _ hfm hB (by decide) hp _ _ _ _ _
      (show (Permutation.copy (Permutation.copy
        (Permutation.mk 3 [0, -1, -2, -3, 4] [0, 1, 2, 3, 4] true))).n = 3 from rfl)]
  have e5 : sort fm 16946 3 true (Problem.mk 3 true (Problem.swi_ls 3 true)) NB_PLUS_LR
      = sort exactFloat 16946 3 true (Problem.mk 3 true (Problem.swi_ls 3 true))
        NB_PLUS_LR := by
    have hof : Permutation.ofInt 16946 3 true
        = some (Permutation.mk 3 [0, -1, -2, -3, 4] [0, 1, 2, 3, 4] true) := by decide
    rw [sort_eq_list, sort_eq_list]
    simp only [hof]
    rw [sort_loop_nblr_exact fm B 3 _ _ hfm hB (by decide) hp _ _ _ _ _ rfl]
  rw [e1, e2, e3, e4, e5]
  decide

/-- Witness of C23: the exact fractions, exact up to `17`. -/
theorem nb_scenario_witness :
    Permutation.ofVector [-1, -2, -3] true
      = some (Permutation.mk 3 [0, -1, -2, -3, 4] [0, 1, 2, 3, 4] true) ∧
    nb exactFloat (Permutation.mk 3 [0, -1, -2, -3, 4] [0, 1, 2, 3, 4] true)
        (Problem.mk 3 true (Problem.swi_ls 3 true)) = Inversion.mk 1 1 1 ∧
    nb exactFloat
        ((Permutation.mk 3 [0, -1, -2, -3, 4] [0, 1, 2, 3, 4] true).applyInversion 1 1)
        (Problem.mk 3 true (Problem.swi_ls 3 true)) = Inversion.mk 2 2 1 ∧
    nb exactFloat (((Permutation.mk 3 [0, -1, -2, -3, 4] [0, 1, 2, 3, 4] true).applyInversion
          1 1).applyInversion 2 2)
        (Problem.mk 3 true (Problem.swi_ls 3 true)) = Inversion.mk 3 3 1 ∧
    ((((Permutation.mk 3 [0, -1, -2, -3, 4] [0, 1, 2, 3, 4] true).applyInversion
        1 1).applyInversion 2 2).applyInversion 3 3).entries = [1, 2, 3] ∧
    ((((Permutation.mk 3 [0, -1, -2, -3, 4] [0, 1, 2, 3, 4] true).applyInversion
        1 1).applyInversion 2 2).applyInversion 3 3).isIdentity = true ∧
    sort_permutation exactFloat (Permutation.mk 3 [0, -1, -2, -3, 4] [0, 1, 2, 3, 4] true)
        (Problem.mk 3 true (Problem.swi_ls 3 true)) NB_PLUS_LR
      = ([Inversion.mk 1 1 1, Inversion.mk 2 2 1, Inversion.mk 3 3 1], 3) ∧
    sort exactFloat 16946 3 true (Problem.mk 3 true (Problem.swi_ls 3 true)) NB_PLUS_LR
      = some 3 :=
  nb_scenario exactFloat 17 (exactFloat_exactOn 17) (by decide)

end Heuristics
end SWILS

namespace SWILS

theorem Permutation.breakpointsAfter_eq (pi : Permutation) (hv : pi.Valid) :
    pi.breakpointsAfter = fun r => (pi.applyInversion r.i r.j).numberOfBreakpoints := by
  funext r
  unfold Permutation.breakpointsAfter
  rw [Permutation.copy_eq pi hv]

/-- C27. Selection rule of `nb`, for a valid permutation `pi`, the problem `SWI_LS` of its
size and sign, and a `float` arithmetic that compares the benefits over scores up to `n + 1`
exactly.  If some inversion of the universe has a positive benefit
`breakpoints(pi) - breakpoints(r pi)`, `nb` returns the first inversion in enumeration order
that maximises `(breakpoints(pi) - breakpoints(r pi)) / r.w`, and this move strictly
decreases `numberOfBreakpoints()`; otherwise, if `pi` is signed and some unitary inversion
leaves the count unchanged, `nb` returns the first such unitary inversion; otherwise it
returns the sentinel. -/
theorem nb_selection_rule (fm : FloatModel) (B : Int) (pi : Permutation) (problem : Problem)
    (hfm : fm.ExactOn B) (hB : pi.n + 1 ≤ B) (hv : pi.Valid)
    (hp : Problem.create SWI_LS pi.n pi.sign = some problem) :
    ((∃ r ∈ problem.getInversions,
        0 < pi.numberOfBreakpoints - (pi.applyInversion r.i r.j).numberOfBreakpoints) →
      FirstBest pi.numberOfBreakpoints
          (fun r => (pi.applyInversion r.i r.j).numberOfBreakpoints) problem.getInversions
          (nb fm pi problem) ∧
        (pi.applyInversion (nb fm pi problem).i (nb fm pi problem).j).numberOfBreakpoints
          < pi.numberOfBreakpoints) ∧
    ((¬ ∃ r ∈ problem.getInversions,
        0 < pi.numberOfBreakpoints - (pi.applyInversion r.i r.j).numberOfBreakpoints) →
      pi.isSigned = true →
      (∃ r ∈ problem.getInversions, r.i = r.j ∧
        (pi.applyInversion r.i r.j).numberOfBreakpoints = pi.numberOfBreakpoints) →
      FirstZeroUnitary pi.numberOfBreakpoints
        (fun r => (pi.applyInversion r.i r.j).numberOfBreakpoints) problem.getInversions
        (nb fm pi problem)) ∧
    ((¬ ∃ r ∈ problem.getInversions,
        0 < pi.numberOfBreakpoints - (pi.applyInversion r.i r.j).numberOfBreakpoints) →
      ¬ (pi.isSigned = true ∧ ∃ r ∈ problem.getInversions, r.i = r.j ∧
        (pi.applyInversion r.i r.j).numberOfBreakpoints = pi.numberOfBreakpoints) →
      nb fm pi problem = Inversion.zero) := by
  obtain ⟨_, _, pinv⟩ := Problem.create_eq _ _ _ _ hp
  have hlist : ∀ r ∈ problem.inversions, r.InRange pi.n := by
    intro r hr
    rw [pinv] at hr
    exact Problem.mem_swi_ls _ _ r hr
  have hspec := nb_spec fm B pi problem hfm hB hv.1 hlist
  rw [Permutation.breakpointsAfter_eq pi hv] at hspec
  refine ⟨?_, ?_, ?_⟩
  · rintro ⟨r, hr, hpos⟩
    rcases hspec with ⟨hle, _⟩ | hfb
    · have := hle r hr
      simp only at this
      omega
    · refine ⟨hfb, ?_⟩
      obtain ⟨_, _, _, h, _⟩ := hfb
      simp only at h
      omega
  · intro hno hs hex
    rcases hspec with ⟨_, ⟨_, hnone⟩ | ⟨_, hfz⟩⟩ | hfb
    · obtain ⟨r, hr, e1, e2⟩ := hex
      exact absurd ⟨e2, e1⟩ (hnone hs r hr)
    · exact hfz
    · obtain ⟨l1, l2, e, h, _⟩ := hfb
      exact absurd ⟨_, by rw [e]; simp, h⟩ hno
  · intro hno hns
    rcases hspec with ⟨_, ⟨hz, _⟩ | ⟨hs, l1, l2, e, z1, z2, _⟩⟩ | hfb
    · exact hz
    · exact absurd ⟨hs, _, by rw [e]; simp, z2, z1⟩ hns
    · obtain ⟨l1, l2, e, h, _⟩ := hfb
      exact absurd ⟨_, by rw [e]; simp, h⟩ hno

/-- Witness of C27: the signed permutation `2, 1` with the exact fractions. -/
theorem nb_selection_rule_witness :
    ((∃ r ∈ (Problem.mk 2 true (Problem.swi_ls 2 true)).getInversions,
        0 < (Permutation.mk 2 [0, 2, 1, 3] [0, 2, 1, 3] true).numberOfBreakpoints
          - ((Permutation.mk 2 [0, 2, 1, 3] [0, 2, 1, 3] true).applyInversion
              r.i r.j).numberOfBreakpoints) →
      FirstBest (Permutation.mk 2 [0, 2, 1, 3] [0, 2, 1, 3] true).numberOfBreakpoints
          (fun r => ((Permutation.mk 2 [0, 2, 1, 3] [0, 2, 1, 3] true).applyInversion
            r.i r.j).numberOfBreakpoints)
          (Problem.mk 2 true (Problem.swi_ls 2 true)).getInversions
          (nb exactFloat (Permutation.mk 2 [0, 2, 1, 3] [0, 2, 1, 3] true)
            (Problem.mk 2 true (Problem.swi_ls 2 true))) ∧
        ((Permutation.mk 2 [0, 2, 1, 3] [0, 2, 1, 3] true).applyInversion
            (nb exactFloat (Permutation.mk 2 [0, 2, 1, 3] [0, 2, 1, 3] true)
              (Problem.mk 2 true (Problem.swi_ls 2 true))).i
            (nb exactFloat (Permutation.mk 2 [0, 2, 1, 3] [0, 2, 1, 3] true)
              (Problem.mk 2 true (Problem.swi_ls 2 true))).j).numberOfBreakpoints
          < (Permutation.mk 2 [0, 2, 1, 3] [0, 2, 1, 3] true).numberOfBreakpoints) ∧
    ((¬ ∃ r ∈ (Problem.mk 2 true (Problem.swi_ls 2 true)).getInversions,
        0 < (Permutation.mk 2 [0, 2, 1, 3] [0, 2, 1, 3] true).numberOfBreakpoints
          - ((Permutation.mk 2 [0, 2, 1, 3] [0, 2, 1, 3] true).applyInversion
              r.i r.j).numberOfBreakpoints) →
      (Permutation.mk 2 [0, 2, 1, 3] [0, 2, 1, 3] true).isSigned = true →
      (∃ r ∈ (Problem.mk 2 true (Problem.swi_ls 2 true)).getInversions, r.i = r.j ∧
        ((Permutation.mk 2 [0, 2, 1, 3] [0, 2, 1, 3] true).applyInversion
            r.i r.j).numberOfBreakpoints
          = (Permutation.mk 2 [0, 2, 1, 3] [0, 2, 1, 3] true).numberOfBreakpoints) →
      FirstZeroUnitary (Permutation.mk 2 [0, 2, 1, 3] [0, 2, 1, 3] true).numberOfBreakpoints
        (fun r => ((Permutation.mk 2 [0, 2, 1, 3] [0, 2, 1, 3] true).applyInversion
          r.i r.j).numberOfBreakpoints)
        (Problem.mk 2 true (Problem.swi_ls 2 true)).getInversions
        (nb exactFloat (Permutation.mk 2 [0, 2, 1, 3] [0, 2, 1, 3] true)
          (Problem.mk 2 true (Problem.swi_ls 2 true)))) ∧
    ((¬ ∃ r ∈ (Problem.mk 2 true (Problem.swi_ls 2 true)).getInversions,
        0 < (Permutation.mk 2 [0, 2, 1, 3] [0, 2, 1, 3] true).numberOfBreakpoints
          - ((Permutation.mk 2 [0, 2, 1, 3] [0, 2, 1, 3] true).applyInversion
              r.i r.j).numberOfBreakpoints) →
      ¬ ((Permutation.mk 2 [0, 2, 1, 3] [0, 2, 1, 3] true).isSigned = true ∧
        ∃ r ∈ (Problem.mk 2 true (Problem.swi_ls 2 true)).getInversions, r.i = r.j ∧
        ((Permutation.mk 2 [0, 2, 1, 3] [0, 2, 1, 3] true).applyInversion
            r.i r.j).numberOfBreakpoints
          = (Permutation.mk 2 [0, 2, 1, 3] [0, 2, 1, 3] true).numberOfBreakpoints) →
      nb exactFloat (Permutation.mk 2 [0, 2, 1, 3] [0, 2, 1, 3] true)
        (Problem.mk 2 true (Problem.swi_ls 2 true)) = Inversion.zero) :=
  nb_selection_rule exactFloat 17 (Permutation.mk 2 [0, 2, 1, 3] [0, 2, 1, 3] true)
    (Problem.mk 2 true (Problem.swi_ls 2 true)) (exactFloat_exactOn 17) (by decide) (by decide)
    (by decide)

end SWILS

namespace SWILS

theorem lr_loop_scan (pi : Permutation) : ∀ (fuel : Nat) (right left : Int),
    (left - right).toNat ≤ fuel →
    (lr_loop pi fuel right left).1 + (lr_loop pi fuel right left).2 = right + left ∧
    right ≤ (lr_loop pi fuel right left).1 ∧
    (∀ k : Int, right ≤ k → k < (lr_loop pi fuel right left).1 →
      pi.element_at k = k ∧ pi.element_at (right + left - k) = right + left - k) ∧
    ((lr_loop pi fuel right left).1 < (lr_loop pi fuel right left).2 →
      (pi.element_at (lr_loop pi fuel right left).1 ≠ (lr_loop pi fuel right left).1 ∨
        pi.element_at (lr_loop pi fuel right left).2 ≠ (lr_loop pi fuel right left).2)) ∧
    (right ≤ left + 1 → (lr_loop pi fuel right left).1 ≤ (lr_loop pi fuel right left).2 + 1) := by
  intro fuel
  induction fuel with
  | zero =>
    intro right left h
    unfold lr_loop
    exact ⟨rfl, le_refl _, fun k h1 h2 => by simp only at h2; omega,
      fun h2 => by simp only at h2; omega, fun h2 => h2⟩
  | succ fuel ih =>
    intro right left h
    unfold lr_loop
    by_cases hlt : right < left
    · rw [if_pos hlt]
      by_cases hm : pi.element_at right ≠ right ∨ pi.element_at left ≠ left
      · rw [if_pos hm]
        exact ⟨rfl, le_refl _, fun k h1 h2 => by simp only at h2; omega, fun _ => hm,
          fun h2 => h2⟩
      · rw [if_neg hm]
        obtain ⟨a1, a2, a3, a4, a5⟩ := ih (right + 1) (left - 1) (by omega)
        have hm1 : pi.element_at right = right := by
          by_contra hc; exact hm (Or.inl hc)
        have hm2 : pi.element_at left = left := by
          by_contra hc; exact hm (Or.inr hc)
        refine ⟨by omega, by omega, ?_, a4, fun _ => a5 (by omega)⟩
        intro k h1 h2
        by_cases hk : k = right
        · subst hk
          rw [show k + left - k = left by omega]
          exact ⟨hm1, hm2⟩
        · have := a3 k (by omega) h2
          rw [show right + 1 + (left - 1) - k = right + left - k by omega] at this
          exact this
    · rw [if_neg hlt]
      exact ⟨rfl, le_refl _, fun k h1 h2 => by simp only at h2; omega,
        fun h2 => by simp only at h2; omega, fun h2 => h2⟩

/-- Where the scan of `lr` stops on a valid permutation that is not the identity. -/
theorem lr_scan (pi : Permutation) (hv : pi.Valid) (hid : pi.isIdentity = false) :
    (lr_loop pi pi.size.toNat 1 pi.size).2 = pi.n + 1 - (lr_loop pi pi.size.toNat 1 pi.size).1 ∧
    1 ≤ (lr_loop pi pi.size.toNat 1 pi.size).1 ∧
    (lr_loop pi pi.size.toNat 1 pi.size).1 ≤ pi.n + 1 - (lr_loop pi pi.size.toNat 1 pi.size).1 ∧
    (∀ k : Int, 1 ≤ k → k < (lr_loop pi pi.size.toNat 1 pi.size).1 →
      pi.element_at k = k ∧ pi.element_at (pi.n + 1 - k) = pi.n + 1 - k) ∧
    (pi.element_at (lr_loop pi pi.size.toNat 1 pi.size).1
        ≠ (lr_loop pi pi.size.toNat 1 pi.size).1 ∨
      pi.element_at (pi.n + 1 - (lr_loop pi pi.size.toNat 1 pi.size).1)
        ≠ pi.n + 1 - (lr_loop pi pi.size.toNat 1 pi.size).1) := by
  have hn := hv.1
  obtain ⟨a1, a2, a3, a4, a5⟩ := lr_loop_scan pi pi.size.toNat 1 pi.size
    (by simp only [Permutation.size]; omega)
  simp only [Permutation.size] at a1 a2 a3 a4 a5 ⊢
  generalize lr_loop pi pi.n.toNat 1 pi.n = res at a1 a2 a3 a4 a5 ⊢
  have a5 := a5 (by omega)
  have hl : res.2 = pi.n + 1 - res.1 := by omega
  obtain ⟨m, m1, m2, m3⟩ := Permutation.exists_mismatch pi hid
  have hout : ∀ k : Int, 1 ≤ k → k < res.1 →
      pi.element_at k = k ∧ pi.element_at (pi.n + 1 - k) = pi.n + 1 - k := by
    intro k h1 h2
    have := a3 k h1 h2
    rw [show (1 : Int) + pi.n - k = pi.n + 1 - k by omega] at this
    exact this
  have hm : res.1 ≤ m ∧ m ≤ res.2 := by
    constructor
    · by_contra hc
      exact m3 (hout m m1 (by omega)).1
    · by_contra hc
      have := (hout (pi.n + 1 - m) (by omega) (by omega)).2
      rw [show pi.n + 1 - (pi.n + 1 - m) = m by omega] at this
      exact m3 this
  refine ⟨hl, a2, by omega, hout, ?_⟩
  rw [← hl]
  by_cases hlt : res.1 < res.2
  · exact a4 hlt
  · left
    have : m = res.1 := by omega
    rw [← this]
    exact m3

theorem Problem.getInversionWeight_pos (problem : Problem) (i j : Int) :
    1 ≤ problem.getInversionWeight i j := by
  unfold Problem.getInversionWeight Problem.weight iabs
  omega

/-- Cost and length of a correction sequence on a valid permutation. -/
theorem Problem.inversionsToCorrectPosition_cost (problem : Problem) (pi : Permutation)
    (pos : Int) (hv : pi.Valid) (h1 : 1 ≤ pos) (h2 : pos ≤ pi.n) :
    ((problem.inversionsToCorrectPosition pos pi).1 = [] ↔
      (problem.inversionsToCorrectPosition pos pi).2 = 0) ∧
    ((problem.inversionsToCorrectPosition pos pi).1 = [] ↔ pi.element_at pos = pos) ∧
    0 ≤ (problem.inversionsToCorrectPosition pos pi).2 := by
  obtain ⟨c1, c2, c3, c4, c5⟩ := Problem.position_spec pi pos hv h1 h2
  have w1 := problem.getInversionWeight_pos pos pos
  have w2 := problem.getInversionWeight_pos (min pos (pi.position pos)) (max pos (pi.position pos))
  rw [Problem.inversionsToCorrectPosition_eq]
  by_cases hc : pi.position pos = pos
  · rw [if_pos hc]
    rw [hc] at c3 c4
    by_cases hs : pi.sign = true ∧ pi.element_at (pi.position pos) < 0
    · rw [if_pos hs]
      rw [hc] at hs
      refine ⟨⟨fun h => absurd h (by simp), fun h => by omega⟩,
        ⟨fun h => absurd h (by simp), fun h => by omega⟩, by omega⟩
    · rw [if_neg hs]
      rw [hc] at hs
      have hpos : pi.element_at pos = pos := by
        cases hsg : pi.sign
        · exact c4 hsg
        · have : ¬ pi.element_at pos < 0 := fun h => hs ⟨hsg, h⟩
          omega
      exact ⟨⟨fun _ => rfl, fun _ => rfl⟩, ⟨fun _ => hpos, fun _ => rfl⟩, le_refl _⟩
  · rw [if_neg hc]
    have hne : pi.element_at pos ≠ pos := fun h => hc (c5 h)
    by_cases hs : pi.sign = true ∧ 0 < pi.element_at (pi.position pos)
    · rw [if_pos hs]
      refine ⟨⟨fun h => absurd h (by simp), fun h => by omega⟩,
        ⟨fun h => absurd h (by simp), fun h => absurd h hne⟩, by omega⟩
    · rw [if_neg hs]
      refine ⟨⟨fun h => absurd h (by simp), fun h => by omega⟩,
        ⟨fun h => absurd h (by simp), fun h => absurd h hne⟩, by omega⟩

end SWILS

namespace SWILS

theorem lr_choice_aux (R L : List Inversion × Int) (hR : R.1 = [] ↔ R.2 = 0)
    (hL : L.1 = [] ↔ L.2 = 0) (hne : ¬ (R.1 = [] ∧ L.1 = [])) :
    ∃ (x : Inversion) (rest : List Inversion), lrChoice R L = x :: rest ∧
      (if R.2 ≠ 0 ∧ L.2 = 0 then R.1.getD 0 Inversion.zero
        else if R.2 = 0 ∧ L.2 ≠ 0 then L.1.getD 0 Inversion.zero
        else if R.2 < L.2 then R.1.getD 0 Inversion.zero
        else if R.2 > L.2 then L.1.getD 0 Inversion.zero
        else if R.1.length ≤ L.1.length then R.1.getD 0 Inversion.zero
        else L.1.getD 0 Inversion.zero) = x := by
  obtain ⟨r, cR⟩ := R
  obtain ⟨l, cL⟩ := L
  simp only at hR hL hne ⊢
  unfold lrChoice
  simp only
  cases l with
  | nil =>
    have hcL : cL = 0 := hL.mp rfl
    cases r with
    | nil => exact absurd ⟨rfl, rfl⟩ hne
    | cons x xs =>
      have hcR : cR ≠ 0 := fun h => by
        have := hR.mpr h
        exact absurd this (by simp)
      refine ⟨x, xs, by simp, ?_⟩
      rw [if_pos ⟨hcR, hcL⟩]
      rfl
  | cons y ys =>
    have hcL : cL ≠ 0 := fun h => by
      have := hL.mpr h
      exact absurd this (by simp)
    cases r with
    | nil =>
      have hcR : cR = 0 := hR.mp rfl
      refine ⟨y, ys, by simp, ?_⟩
      rw [if_neg (by tauto), if_pos ⟨hcR, hcL⟩]
      rfl
    | cons x xs =>
      have hcR : cR ≠ 0 := fun h => by
        have := hR.mpr h
        exact absurd this (by simp)
      have c1 : ¬ ((y :: ys) = []) := by simp
      have c2 : ¬ ((x :: xs) = []) := by simp
      have c3 : ¬ (cR ≠ 0 ∧ cL = 0) := by tauto
      have c4 : ¬ (cR = 0 ∧ cL ≠ 0) := by tauto
      simp only [if_neg c1, if_neg c2, if_neg c3, if_neg c4, gt_iff_lt]
      by_cases h1 : cR < cL
      · simp only [if_pos h1]
        exact ⟨x, xs, rfl, rfl⟩
      · simp only [if_neg h1]
        by_cases h2 : cL < cR
        · simp only [if_pos h2]
          exact ⟨y, ys, rfl, rfl⟩
        · simp only [if_neg h2]
          by_cases h3 : (y :: ys).length < (x :: xs).length
          · have h4 : ¬ (x :: xs).length ≤ (y :: ys).length := by omega
            simp only [if_pos h3, if_neg h4]
            exact ⟨y, ys, rfl, rfl⟩
          · have h4 : (x :: xs).length ≤ (y :: ys).length := by omega
            simp only [if_neg h3, if_pos h4]
            exact ⟨x, xs, rfl, rfl⟩

theorem lr_unfold (pi : Permutation) (problem : Problem) :
    lr pi problem
      = if (problem.inversionsToCorrectPosition (lr_loop pi pi.size.toNat 1 pi.size).1 pi).2 ≠ 0 ∧
            (problem.inversionsToCorrectPosition (lr_loop pi pi.size.toNat 1 pi.size).2 pi).2 = 0
        then (problem.inversionsToCorrectPosition
          (lr_loop pi pi.size.toNat 1 pi.size).1 pi).1.getD 0 Inversion.zero
        else if (problem.inversionsToCorrectPosition
              (lr_loop pi pi.size.toNat 1 pi.size).1 pi).2 = 0 ∧
            (problem.inversionsToCorrectPosition
              (lr_loop pi pi.size.toNat 1 pi.size).2 pi).2 ≠ 0
        then (problem.inversionsToCorrectPosition
          (lr_loop pi pi.size.toNat 1 pi.size).2 pi).1.getD 0 Inversion.zero
        else if (problem.inversionsToCorrectPosition
              (lr_loop pi pi.size.toNat 1 pi.size).1 pi).2
            < (problem.inversionsToCorrectPosition
              (lr_loop pi pi.size.toNat 1 pi.size).2 pi).2
        then (problem.inversionsToCorrectPosition
          (lr_loop pi pi.size.toNat 1 pi.size).1 pi).1.getD 0 Inversion.zero
        else if (problem.inversionsToCorrectPosition
              (lr_loop pi pi.size.toNat 1 pi.size).1 pi).2
            > (problem.inversionsToCorrectPosition
              (lr_loop pi pi.size.toNat 1 pi.size).2 pi).2
        then (problem.inversionsToCorrectPosition
          (lr_loop pi pi.size.toNat 1 pi.size).2 pi).1.getD 0 Inversion.zero
        else if (problem.inversionsToCorrectPosition
              (lr_loop pi pi.size.toNat 1 pi.size).1 pi).1.length
            ≤ (problem.inversionsToCorrectPosition
              (lr_loop pi pi.size.toNat 1 pi.size).2 pi).1.length
        then (problem.inversionsToCorrectPosition
          (lr_loop pi pi.size.toNat 1 pi.size).1 pi).1.getD 0 Inversion.zero
        else (problem.inversionsToCorrectPosition
          (lr_loop pi pi.size.toNat 1 pi.size).2 pi).1.getD 0 Inversion.zero := rfl

/-- On a valid permutation that is not the identity, `lr` returns the first inversion of a
non-empty correction sequence for a position `k` or `n + 1 - k` of the permutation. -/
theorem lr_head (pi : Permutation) (problem : Problem) (hv : pi.Valid)
    (hid : pi.isIdentity = false) :
    ∃ k : Int, 1 ≤ k ∧ k ≤ pi.n + 1 - k ∧
      ∃ (x : Inversion) (rest : List Inversion),
        lrChoice (problem.inversionsToCorrectPosition k pi)
          (problem.inversionsToCorrectPosition (pi.n + 1 - k) pi) = x :: rest ∧
        lr pi problem = x := by
  obtain ⟨s1, s2, s3, _, s5⟩ := lr_scan pi hv hid
  rw [lr_unfold, s1]
  generalize (lr_loop pi pi.size.toNat 1 pi.size).1 = k at s2 s3 s5 ⊢
  refine ⟨k, s2, s3, ?_⟩
  obtain ⟨r1, r2, _⟩ := problem.inversionsToCorrectPosition_cost pi k hv s2 (by omega)
  obtain ⟨l1, l2, _⟩ := problem.inversionsToCorrectPosition_cost pi (pi.n + 1 - k) hv
    (by omega) (by omega)
  apply lr_choice_aux _ _ r1 l1
  rintro ⟨a, b⟩
  rcases s5 with h | h
  · exact h (r2.mp a)
  · exact h (l2.mp b)

end SWILS

namespace SWILS

theorem lrChoice_mem (R L : List Inversion × Int) :
    lrChoice R L = R.1 ∨ lrChoice R L = L.1 := by
  unfold lrChoice
  split_ifs <;> simp

/-- On a valid permutation that is not the identity `lr` returns an inversion in range: the
correction sequence it reads the first inversion of is not empty. -/
theorem lr_inRange (pi : Permutation) (problem : Problem) (hv : pi.Valid)
    (hid : pi.isIdentity = false) (hn : problem.n = pi.n) : (lr pi problem).InRange pi.n := by
  obtain ⟨k, k1, k2, x, rest, hx, e⟩ := lr_head pi problem hv hid
  rw [e]
  rcases lrChoice_mem (problem.inversionsToCorrectPosition k pi)
    (problem.inversionsToCorrectPosition (pi.n + 1 - k) pi) with h | h
  · rw [h] at hx
    exact Problem.inversionsToCorrectPosition_inRange problem pi hv hn k k1 (by omega) x
      (by rw [hx]; simp)
  · rw [h] at hx
    exact Problem.inversionsToCorrectPosition_inRange problem pi hv hn (pi.n + 1 - k)
      (by omega) (by omega) x (by rw [hx]; simp)

/-- C25. Strategies only propose in-range moves: for every valid non-identity permutation
`pi`, the problem `SWI_LS` of its size and sign and any `float` arithmetic, the inversion
returned by each of `lr`, `smp`, `nb_plus_lr`, `nb_plus_strip`, `nb_plus_beststrip`,
`nb_plus_lrstrip` and `nb_plus_smp` is the sentinel (`i = 0`) or has `1 ≤ i ≤ j ≤ n` and
`w = getInversionWeight(i, j)`; and `lr` never returns the sentinel, which is what reading
index `0` of an empty correction list gives: the list it indexes is never empty. -/
theorem strategies_in_range (fm : FloatModel) (pi : Permutation) (problem : Problem)
    (hv : pi.Valid) (hid : pi.isIdentity = false)
    (hp : Problem.create SWI_LS pi.n pi.sign = some problem) :
    ((lr pi problem).i ≠ 0 ∧ 1 ≤ (lr pi problem).i ∧ (lr pi problem).i ≤ (lr pi problem).j ∧
      (lr pi problem).j ≤ pi.n ∧
      (lr pi problem).w = problem.getInversionWeight (lr pi problem).i (lr pi problem).j) ∧
    (∀ r ∈ [smp fm pi problem, nb_plus_lr fm pi problem, nb_plus_strip fm pi problem,
        nb_plus_beststrip fm pi problem, nb_plus_lrstrip fm pi problem,
        nb_plus_smp fm pi problem],
      r.i = 0 ∨ (1 ≤ r.i ∧ r.i ≤ r.j ∧ r.j ≤ pi.n ∧ r.w = problem.getInversionWeight r.i r.j)) := by
  obtain ⟨pn, _, pinv⟩ := Problem.create_eq _ _ _ _ hp
  have hlist : ∀ r ∈ problem.inversions, r.InRange pi.n := by
    intro r hr
    rw [pinv] at hr
    exact Problem.mem_swi_ls _ _ r hr
  have hw : ∀ i j : Int, problem.getInversionWeight i j = Problem.weight pi.n i j := by
    intro i j
    unfold Problem.getInversionWeight
    rw [pn]
  have hlr := lr_inRange pi problem hv hid pn
  have h1 : 1 ≤ pi.n := by
    obtain ⟨k, k1, k2, _⟩ := Permutation.exists_mismatch pi hid
    omega
  constructor
  · obtain ⟨a, b, c, d⟩ := hlr
    exact ⟨by omega, a, b, c, by rw [hw]; exact d⟩
  · intro r hr
    have hok : r.Ok pi.n := by
      simp only [List.mem_cons, List.mem_singleton, List.not_mem_nil, or_false] at hr
      rcases hr with rfl | rfl | rfl | rfl | rfl | rfl
      · exact smp_ok fm pi problem hv pn hlist
      · exact nb_plus_lr_ok fm pi problem hv pn hlist h1
      · exact nb_plus_strip_ok fm pi problem pn hlist hid
      · exact nb_plus_beststrip_ok fm pi problem pn hlist hid
      · exact nb_plus_lrstrip_ok fm pi problem pn hlist hid
      · exact nb_plus_smp_ok fm pi problem pn hlist hid
    rcases hok with h | ⟨a, b, c, d⟩
    · exact Or.inl h
    · exact Or.inr ⟨a, b, c, by rw [hw]; exact d⟩

/-- Witness of C25: the unsigned permutation `2, 1, 4, 3` with the exact fractions. -/
theorem strategies_in_range_witness :
    ((lr (Permutation.mk 4 [0, 2, 1, 4, 3, 5] [0, 2, 1, 4, 3, 5] false)
          (Problem.mk 4 false (Problem.swi_ls 4 false))).i ≠ 0 ∧
      1 ≤ (lr (Permutation.mk 4 [0, 2, 1, 4, 3, 5] [0, 2, 1, 4, 3, 5] false)
          (Problem.mk 4 false (Problem.swi_ls 4 false))).i ∧
      (lr (Permutation.mk 4 [0, 2, 1, 4, 3, 5] [0, 2, 1, 4, 3, 5] false)
          (Problem.mk 4 false (Problem.swi_ls 4 false))).i
        ≤ (lr (Permutation.mk 4 [0, 2, 1, 4, 3, 5] [0, 2, 1, 4, 3, 5] false)
          (Problem.mk 4 false (Problem.swi_ls 4 false))).j ∧
      (lr (Permutation.mk 4 [0, 2, 1, 4, 3, 5] [0, 2, 1, 4, 3, 5] false)
          (Problem.mk 4 false (Problem.swi_ls 4 false))).j
        ≤ (Permutation.mk 4 [0, 2, 1, 4, 3, 5] [0, 2, 1, 4, 3, 5] false).n ∧
      (lr (Permutation.mk 4 [0, 2, 1, 4, 3, 5] [0, 2, 1, 4, 3, 5] false)
          (Problem.mk 4 false (Problem.swi_ls 4 false))).w
        = (Problem.mk 4 false (Problem.swi_ls 4 false)).getInversionWeight
          (lr (Permutation.mk 4 [0, 2, 1, 4, 3, 5] [0, 2, 1, 4, 3, 5] false)
            (Problem.mk 4 false (Problem.swi_ls 4 false))).i
          (lr (Permutation.mk 4 [0, 2, 1, 4, 3, 5] [0, 2, 1, 4, 3, 5] false)
            (Problem.mk 4 false (Problem.swi_ls 4 false))).j) ∧
    (∀ r ∈ [smp exactFloat (Permutation.mk 4 [0, 2, 1, 4, 3, 5] [0, 2, 1, 4, 3, 5] false)
          (Problem.mk 4 false (Problem.swi_ls 4 false)),
        nb_plus_lr exactFloat (Permutation.mk 4 [0, 2, 1, 4, 3, 5] [0, 2, 1, 4, 3, 5] false)
          (Problem.mk 4 false (Problem.swi_ls 4 false)),
        nb_plus_strip exactFloat (Permutation.mk 4 [0, 2, 1, 4, 3, 5] [0, 2, 1, 4, 3, 5] false)
          (Problem.mk 4 false (Problem.swi_ls 4 false)),
        nb_plus_beststrip exactFloat
          (Permutation.mk 4 [0, 2, 1, 4, 3, 5] [0, 2, 1, 4, 3, 5] false)
          (Problem.mk 4 false (Problem.swi_ls 4 false)),
        nb_plus_lrstrip exactFloat
          (Permutation.mk 4 [0, 2, 1, 4, 3, 5] [0, 2, 1, 4, 3, 5] false)
          (Problem.mk 4 false (Problem.swi_ls 4 false)),
        nb_plus_smp exactFloat (Permutation.mk 4 [0, 2, 1, 4, 3, 5] [0, 2, 1, 4, 3, 5] false)
          (Problem.mk 4 false (Problem.swi_ls 4 false))],
      r.i = 0 ∨ (1 ≤ r.i ∧ r.i ≤ r.j ∧
        r.j ≤ (Permutation.mk 4 [0, 2, 1, 4, 3, 5] [0, 2, 1, 4, 3, 5] false).n ∧
        r.w = (Problem.mk 4 false (Problem.swi_ls 4 false)).getInversionWeight r.i r.j)) :=
  strategies_in_range exactFloat (Permutation.mk 4 [0, 2, 1, 4, 3, 5] [0, 2, 1, 4, 3, 5] false)
    (Problem.mk 4 false (Problem.swi_ls 4 false)) (by decide) (by decide) (by decide)

/-- C26. Selection rule of `LR`: for every valid non-identity permutation there is a first
`k` (scanning `k = 1, 2, ...`) at which `element_at(k) != k` or
`element_at(n+1-k) != n+1-k`, it has `k ≤ n + 1 - k`, and with `r = k` and `l = n + 1 - k`
`lr` returns the first inversion of the correction sequence chosen by the rule between the
one for `r` and the one for `l`: the cheaper non-empty sequence, on equal non-zero cost the
one with fewer inversions, and on a further tie the one computed for `r`. -/
theorem lr_selection_rule (pi : Permutation) (problem : Problem) (hv : pi.Valid)
    (hid : pi.isIdentity = false) :
    ∃ k : Int, 1 ≤ k ∧ k ≤ pi.n + 1 - k ∧
      (∀ k2 : Int, 1 ≤ k2 → k2 < k →
        pi.element_at k2 = k2 ∧ pi.element_at (pi.n + 1 - k2) = pi.n + 1 - k2) ∧
      (pi.element_at k ≠ k ∨ pi.element_at (pi.n + 1 - k) ≠ pi.n + 1 - k) ∧
      ∃ (x : Inversion) (rest : List Inversion),
        lrChoice (problem.inversionsToCorrectPosition k pi)
          (problem.inversionsToCorrectPosition (pi.n + 1 - k) pi) = x :: rest ∧
        lr pi problem = x := by
  obtain ⟨s1, s2, s3, s4, s5⟩ := lr_scan pi hv hid
  rw [lr_unfold, s1]
  generalize (lr_loop pi pi.size.toNat 1 pi.size).1 = k at s2 s3 s4 s5 ⊢
  refine ⟨k, s2, s3, s4, s5, ?_⟩
  have hk : k ≤ pi.n := by omega
  obtain ⟨r1, r2, _⟩ := problem.inversionsToCorrectPosition_cost pi k hv s2 hk
  obtain ⟨l1, l2, _⟩ := problem.inversionsToCorrectPosition_cost pi (pi.n + 1 - k) hv
    (by omega) (by omega)
  apply lr_choice_aux _ _ r1 l1
  rintro ⟨a, b⟩
  rcases s5 with h | h
  · exact h (r2.mp a)
  · exact h (l2.mp b)

/-- Witness of C26: the unsigned permutation `2, 1, 4, 3`. -/
theorem lr_selection_rule_witness :
    ∃ k : Int, 1 ≤ k ∧
      k ≤ (Permutation.mk 4 [0, 2, 1, 4, 3, 5] [0, 2, 1, 4, 3, 5] false).n + 1 - k ∧
      (∀ k2 : Int, 1 ≤ k2 → k2 < k →
        (Permutation.mk 4 [0, 2, 1, 4, 3, 5] [0, 2, 1, 4, 3, 5] false).element_at k2 = k2 ∧
        (Permutation.mk 4 [0, 2, 1, 4, 3, 5] [0, 2, 1, 4, 3, 5] false).element_at
            ((Permutation.mk 4 [0, 2, 1, 4, 3, 5] [0, 2, 1, 4, 3, 5] false).n + 1 - k2)
          = (Permutation.mk 4 [0, 2, 1, 4, 3, 5] [0, 2, 1, 4, 3, 5] false).n + 1 - k2) ∧
      ((Permutation.mk 4 [0, 2, 1, 4, 3, 5] [0, 2, 1, 4, 3, 5] false).element_at k ≠ k ∨
        (Permutation.mk 4 [0, 2, 1, 4, 3, 5] [0, 2, 1, 4, 3, 5] false).element_at
            ((Permutation.mk 4 [0, 2, 1, 4, 3, 5] [0, 2, 1, 4, 3, 5] false).n + 1 - k)
          ≠ (Permutation.mk 4 [0, 2, 1, 4, 3, 5] [0, 2, 1, 4, 3, 5] false).n + 1 - k) ∧
      ∃ (x : Inversion) (rest : List Inversion),
        lrChoice ((Problem.mk 4 false (Problem.swi_ls 4 false)).inversionsToCorrectPosition k
            (Permutation.mk 4 [0, 2, 1, 4, 3, 5] [0, 2, 1, 4, 3, 5] false))
          ((Problem.mk 4 false (Problem.swi_ls 4 false)).inversionsToCorrectPosition
            ((Permutation.mk 4 [0, 2, 1, 4, 3, 5] [0, 2, 1, 4, 3, 5] false).n + 1 - k)
            (Permutation.mk 4 [0, 2, 1, 4, 3, 5] [0, 2, 1, 4, 3, 5] false)) = x :: rest ∧
        lr (Permutation.mk 4 [0, 2, 1, 4, 3, 5] [0, 2, 1, 4, 3, 5] false)
          (Problem.mk 4 false (Problem.swi_ls 4 false)) = x :=
  lr_selection_rule (Permutation.mk 4 [0, 2, 1, 4, 3, 5] [0, 2, 1, 4, 3, 5] false)
    (Problem.mk 4 false (Problem.swi_ls 4 false)) (by decide) (by decide)

end SWILS

namespace SWILS

theorem defineRight_loop_stop (pi : Permutation) : ∀ (fuel : Nat) (right : Int),
    (pi.size + 1 - right).toNat ≤ fuel →
    defineRight_loop pi fuel right ≤ pi.size →
    pi.element_at (defineRight_loop pi fuel right) ≠ defineRight_loop pi fuel right := by
  intro fuel
  induction fuel with
  | zero =>
    intro right h hle
    unfold defineRight_loop at hle
    omega
  | succ fuel ih =>
    intro right h
    unfold defineRight_loop
    by_cases h1 : right ≤ pi.size
    · rw [if_pos h1]
      by_cases h2 : pi.element_at right ≠ right
      · rw [if_pos h2]
        exact fun _ => h2
      · rw [if_neg h2]
        exact ih (right + 1) (by omega)
    · rw [if_neg h1]
      intro hle
      exact absurd hle h1

theorem defineLeft_loop_stop (pi : Permutation) : ∀ (fuel : Nat) (left : Int),
    (left - 1).toNat ≤ fuel →
    1 < defineLeft_loop pi fuel left →
    pi.element_at (defineLeft_loop pi fuel left) ≠ defineLeft_loop pi fuel left := by
  intro fuel
  induction fuel with
  | zero =>
    intro left h hlt
    unfold defineLeft_loop at hlt
    omega
  | succ fuel ih =>
    intro left h
    unfold defineLeft_loop
    by_cases h1 : left > 1
    · rw [if_pos h1]
      by_cases h2 : pi.element_at left ≠ left
      · rw [if_pos h2]
        exact fun _ => h2
      · rw [if_neg h2]
        exact ih (left - 1) (by omega)
    · rw [if_neg h1]
      intro hlt
      exact absurd hlt h1

/-- C30. Fallback of `NB+STRIP`: for every non-identity permutation on which `nb` returns the
sentinel, `nb_plus_strip` returns the inversion `(r, l, getInversionWeight(r, l))` where `r`
is the smallest position with `element_at(r) != r` and `l` the largest position with
`element_at(l) != l`, so that `1 ≤ r ≤ l ≤ n` and every position outside of `[r, l]` is
already correct. -/
theorem nb_plus_strip_fallback (fm : FloatModel) (pi : Permutation) (problem : Problem)
    (hid : pi.isIdentity = false) (hnb : (nb fm pi problem).i = 0) :
    ∃ r l : Int, 1 ≤ r ∧ r ≤ l ∧ l ≤ pi.n ∧
      pi.element_at r ≠ r ∧ pi.element_at l ≠ l ∧
      (∀ k : Int, 1 ≤ k → k < r → pi.element_at k = k) ∧
      (∀ k : Int, l < k → k ≤ pi.n → pi.element_at k = k) ∧
      nb_plus_strip fm pi problem = Inversion.mk r l (problem.getInversionWeight r l) := by
  obtain ⟨b1, b2, b3⟩ := defineRightAndLeft_spec pi hid
  have hr := defineRight_loop_spec pi pi.n.toNat 1
  have hl := defineLeft_loop_spec pi pi.n.toNat pi.n
  have sr := defineRight_loop_stop pi pi.n.toNat 1 (by simp only [Permutation.size]; omega)
  have sl := defineLeft_loop_stop pi pi.n.toNat pi.n (by omega)
  have hstrip : nb_plus_strip fm pi problem
      = Inversion.mk (defineRightAndLeft pi).1 (defineRightAndLeft pi).2
          (problem.getInversionWeight (defineRightAndLeft pi).1 (defineRightAndLeft pi).2) := by
    unfold nb_plus_strip
    simp only [hnb, Problem.getId, and_self, if_true]
  rw [hstrip]
  unfold defineRightAndLeft at b1 b2 b3 ⊢
  simp only [Permutation.size] at b1 b2 b3 sr ⊢
  generalize defineRight_loop pi pi.n.toNat 1 = r at b1 b2 b3 hr sr ⊢
  generalize defineLeft_loop pi pi.n.toNat pi.n = l at b2 b3 hl sl ⊢
  have hrm : pi.element_at r ≠ r := sr (by omega)
  refine ⟨r, l, b1, b2, b3, hrm, ?_, fun k h1 h2 => hr.2 k h1 h2,
    fun k h1 h2 => hl.2.2 k h1 h2, rfl⟩
  by_cases h1 : 1 < l
  · exact sl h1
  · have : r = l := by omega
    rw [← this]
    exact hrm

/-- Witness of C30: the signed permutation `3, 4, 1, 2`, on which `nb` finds no move with the
exact fractions. -/
theorem nb_plus_strip_fallback_witness :
    ∃ r l : Int, 1 ≤ r ∧ r ≤ l ∧
      l ≤ (Permutation.mk 4 [0, 3, 4, 1, 2, 5] [0, 3, 4, 1, 2, 5] true).n ∧
      (Permutation.mk 4 [0, 3, 4, 1, 2, 5] [0, 3, 4, 1, 2, 5] true).element_at r ≠ r ∧
      (Permutation.mk 4 [0, 3, 4, 1, 2, 5] [0, 3, 4, 1, 2, 5] true).element_at l ≠ l ∧
      (∀ k : Int, 1 ≤ k → k < r →
        (Permutation.mk 4 [0, 3, 4, 1, 2, 5] [0, 3, 4, 1, 2, 5] true).element_at k = k) ∧
      (∀ k : Int, l < k → k ≤ (Permutation.mk 4 [0, 3, 4, 1, 2, 5] [0, 3, 4, 1, 2, 5] true).n →
        (Permutation.mk 4 [0, 3, 4, 1, 2, 5] [0, 3, 4, 1, 2, 5] true).element_at k = k) ∧
      nb_plus_strip exactFloat (Permutation.mk 4 [0, 3, 4, 1, 2, 5] [0, 3, 4, 1, 2, 5] true)
          (Problem.mk 4 true (Problem.swi_ls 4 true))
        = Inversion.mk r l ((Problem.mk 4 true (Problem.swi_ls 4 true)).getInversionWeight r l) :=
  nb_plus_strip_fallback exactFloat
    (Permutation.mk 4 [0, 3, 4, 1, 2, 5] [0, 3, 4, 1, 2, 5] true)
    (Problem.mk 4 true (Problem.swi_ls 4 true)) (by decide) (by decide)

end SWILS

namespace SWILS

theorem adjustSlices_loop_scan (pi : Permutation) (problem : Problem) :
    ∀ (fuel : Nat) (i j : Int), (j + 1 - i).toNat ≤ fuel →
      (∃ i2 : Int, i ≤ i2 ∧ i2 ≤ i + j - i2 ∧ pi.position i2 ≠ i2 ∧
        (∀ x : Int, i ≤ x → x < i2 → pi.position x = x) ∧
        adjustSlices_loop pi problem fuel i j
          = some (Inversion.mk i2 (i + j - i2) (problem.getInversionWeight i2 (i + j - i2)))) ∨
      (adjustSlices_loop pi problem fuel i j = none ∧
        ∀ x : Int, i ≤ x → x ≤ i + j - x → pi.position x = x) := by
  intro fuel
  induction fuel with
  | zero =>
    intro i j h
    right
    exact ⟨rfl, fun x h1 h2 => by omega⟩
  | succ fuel ih =>
    intro i j h
    unfold adjustSlices_loop
    by_cases h1 : i ≤ j
    · rw [if_pos h1]
      by_cases h2 : i ≠ pi.position i
      · left
        simp only [if_pos h2]
        refine ⟨i, le_refl _, by omega, fun h => h2 h.symm, fun x a b => by omega, ?_⟩
        rw [show i + j - i = j by omega]
      · simp only [if_neg h2]
        have h3 : pi.position i = i := by
          by_contra hc; exact h2 (fun h => hc h.symm)
        rcases ih (i + 1) (j - 1) (by omega) with ⟨i2, a1, a2, a3, a4, a5⟩ | ⟨a1, a2⟩
        · left
          rw [show i + 1 + (j - 1) = i + j by omega] at a2 a5
          refine ⟨i2, by omega, a2, a3, ?_, a5⟩
          intro x b1 b2
          by_cases hx : x = i
          · rw [hx]; exact h3
          · exact a4 x (by omega) b2
        · right
          refine ⟨a1, ?_⟩
          intro x b1 b2
          by_cases hx : x = i
          · rw [hx]; exact h3
          · exact a2 x (by omega) (by omega)
    · rw [if_neg h1]
      right
      exact ⟨rfl, fun x a b => by omega⟩

theorem adjustSlices_unitary_scan (pi : Permutation) (problem : Problem) :
    ∀ (m s : Nat),
      (∃ k : Nat, s ≤ k ∧ k < s + m ∧ pi.element_at ((k : Int) + 1) < 0 ∧
        (∀ k2 : Nat, s ≤ k2 → k2 < k → ¬ pi.element_at ((k2 : Int) + 1) < 0) ∧
        adjustSlices_unitary pi problem (List.range' s m)
          = some (Inversion.mk ((k : Int) + 1) ((k : Int) + 1)
              (problem.getInversionWeight ((k : Int) + 1) ((k : Int) + 1)))) ∨
      (adjustSlices_unitary pi problem (List.range' s m) = none ∧
        ∀ k : Nat, s ≤ k → k < s + m → ¬ pi.element_at ((k : Int) + 1) < 0) := by
  intro m
  induction m with
  | zero =>
    intro s
    right
    exact ⟨rfl, fun k a b => by omega⟩
  | succ m ih =>
    intro s
    rw [List.range'_succ]
    unfold adjustSlices_unitary
    by_cases h1 : pi.element_at ((s : Int) + 1) < 0
    · left
      simp only [if_pos h1]
      exact ⟨s, le_refl _, by omega, h1, fun k2 a b => by omega, rfl⟩
    · simp only [if_neg h1]
      rcases ih (s + 1) with ⟨k, a1, a2, a3, a4, a5⟩ | ⟨a1, a2⟩
      · left
        refine ⟨k, by omega, by omega, a3, ?_, a5⟩
        intro k2 b1 b2
        by_cases hk : k2 = s
        · rw [hk]; exact h1
        · exact a4 k2 (by omega) b2
      · right
        refine ⟨a1, ?_⟩
        intro k b1 b2
        by_cases hk : k = s
        · rw [hk]; exact h1
        · exact a2 k (by omega) (by omega)

theorem slice_eq_cases (n p e : Int) (h : slice p n = slice e n) :
    p = e ∨ p = n + 1 - e := by
  unfold slice at h
  omega

/-- When every element lies in its final slice and the elements of the first half stand at
their positions, every position holds its own element up to the sign. -/
theorem natAbs_of_slices (pi : Permutation) (hv : pi.Valid)
    (hs : ∀ e : Int, 1 ≤ e → e ≤ pi.n → pi.currentElementSlice e = pi.finalElementSlice e)
    (hh : ∀ x : Int, 1 ≤ x → x ≤ pi.n + 1 - x → pi.position x = x) :
    ∀ i : Int, 1 ≤ i → i ≤ pi.n → pi.element_at i = i ∨ pi.element_at i = -i := by
  have key : ∀ i : Int, 1 ≤ i → i ≤ pi.n → pi.position i = i →
      pi.element_at i = i ∨ pi.element_at i = -i := by
    intro i h1 h2 hp
    have := (Problem.position_spec pi i hv h1 h2).2.2.1
    rw [hp] at this
    exact this
  intro i h1 h2
  by_cases hi : i ≤ pi.n + 1 - i
  · exact key i h1 h2 (hh i h1 hi)
  · obtain ⟨p1, p2, p3, _⟩ := Problem.position_spec pi i hv h1 h2
    have hsl := hs i h1 h2
    unfold Permutation.currentElementSlice Permutation.finalElementSlice at hsl
    rw [show iabs i = i by unfold iabs; omega] at hsl
    rcases slice_eq_cases pi.n (pi.position i) i hsl with h | h
    · exact key i h1 h2 h
    · exfalso
      have h4 := key (pi.n + 1 - i) (by omega) (by omega) (hh (pi.n + 1 - i) (by omega) (by omega))
      rw [h] at p3
      omega

/-- C28. The slice-adjustment fallback always has a move: for every valid non-identity
permutation in which every element lies in its final slice, `adjustSlices` returns a
non-sentinel inversion: the symmetric inversion `(i, n + 1 - i)` for the smallest `i` with
`position(i) != i` (it has `i ≤ n + 1 - i`), or, when no `i ≤ n + 1 - i` has
`position(i) != i`, the unitary inversion at the first negative position of the (then signed)
permutation; the final `return Inversion()` is not reached. -/
theorem adjustSlices_has_move (pi : Permutation) (problem : Problem) (hv : pi.Valid)
    (hid : pi.isIdentity = false)
    (hs : ∀ e : Int, 1 ≤ e → e ≤ pi.n → pi.currentElementSlice e = pi.finalElementSlice e) :
    (adjustSlices pi problem).i ≠ 0 ∧
    ((∃ i : Int, 1 ≤ i ∧ i ≤ pi.n + 1 - i ∧ pi.position i ≠ i ∧
        (∀ i2 : Int, 1 ≤ i2 → i2 < i → pi.position i2 = i2) ∧
        adjustSlices pi problem
          = Inversion.mk i (pi.n + 1 - i) (problem.getInversionWeight i (pi.n + 1 - i))) ∨
      ((∀ i : Int, 1 ≤ i → i ≤ pi.n + 1 - i → pi.position i = i) ∧ pi.isSigned = true ∧
        ∃ i : Int, 1 ≤ i ∧ i ≤ pi.n ∧ pi.element_at i < 0 ∧
          (∀ i2 : Int, 1 ≤ i2 → i2 < i → ¬ pi.element_at i2 < 0) ∧
          adjustSlices pi problem = Inversion.mk i i (problem.getInversionWeight i i))) := by
  have hn := hv.1
  have hcases : (∃ i : Int, 1 ≤ i ∧ i ≤ pi.n + 1 - i ∧ pi.position i ≠ i ∧
        (∀ i2 : Int, 1 ≤ i2 → i2 < i → pi.position i2 = i2) ∧
        adjustSlices pi problem
          = Inversion.mk i (pi.n + 1 - i) (problem.getInversionWeight i (pi.n + 1 - i))) ∨
      ((∀ i : Int, 1 ≤ i → i ≤ pi.n + 1 - i → pi.position i = i) ∧ pi.isSigned = true ∧
        ∃ i : Int, 1 ≤ i ∧ i ≤ pi.n ∧ pi.element_at i < 0 ∧
          (∀ i2 : Int, 1 ≤ i2 → i2 < i → ¬ pi.element_at i2 < 0) ∧
          adjustSlices pi problem = Inversion.mk i i (problem.getInversionWeight i i)) := by
    unfold adjustSlices
    simp only [Permutation.size]
    rcases adjustSlices_loop_scan pi problem pi.n.toNat 1 pi.n (by omega) with
      ⟨i2, a1, a2, a3, a4, a5⟩ | ⟨a1, a2⟩
    · left
      rw [a5]
      rw [show (1 : Int) + pi.n - i2 = pi.n + 1 - i2 by omega] at a2 ⊢
      exact ⟨i2, a1, a2, a3, a4, rfl⟩
    · right
      rw [a1]
      have hh : ∀ x : Int, 1 ≤ x → x ≤ pi.n + 1 - x → pi.position x = x :=
        fun x b1 b2 => a2 x b1 (by omega)
      have habs := natAbs_of_slices pi hv hs hh
      obtain ⟨m, m1, m2, m3⟩ := Permutation.exists_mismatch pi hid
      have hneg : pi.element_at m < 0 := by
        rcases habs m m1 m2 with h | h
        · exact absurd h m3
        · omega
      have hsg : pi.isSigned = true := by
        unfold Permutation.isSigned
        by_contra hc
        have hf : pi.sign = false := by simpa using hc
        have := hv.pos hf m.toNat (by omega) (by omega)
        unfold Permutation.element_at at hneg
        omega
      refine ⟨hh, hsg, ?_⟩
      simp only [hsg, if_true]
      rw [List.range_eq_range']
      rcases adjustSlices_unitary_scan pi problem pi.n.toNat 0 with
        ⟨k, b1, b2, b3, b4, b5⟩ | ⟨b1, b2⟩
      · rw [b5]
        refine ⟨(k : Int) + 1, by omega, by omega, b3, ?_, rfl⟩
        intro i2 c1 c2
        have := b4 (i2 - 1).toNat (by omega) (by omega)
        rw [show (((i2 - 1).toNat : Nat) : Int) + 1 = i2 by omega] at this
        exact this
      · exfalso
        have := b2 (m - 1).toNat (by omega) (by omega)
        rw [show (((m - 1).toNat : Nat) : Int) + 1 = m by omega] at this
        exact this hneg
  refine ⟨?_, hcases⟩
  rcases hcases with ⟨i, h1, _, _, _, e⟩ | ⟨_, _, i, h1, _, _, _, e⟩
  · rw [e]; simp only; omega
  · rw [e]; simp only; omega

/-- Witness of C28: the signed permutation `3, -2, 1`, every element of which lies in its
final slice. -/
theorem adjustSlices_has_move_witness :
    (adjustSlices (Permutation.mk 3 [0, 3, -2, 1, 4] [0, 3, 2, 1, 4] true)
      (Problem.mk 3 true (Problem.swi_ls 3 true))).i ≠ 0 ∧
    ((∃ i : Int, 1 ≤ i ∧
        i ≤ (Permutation.mk 3 [0, 3, -2, 1, 4] [0, 3, 2, 1, 4] true).n + 1 - i ∧
        (Permutation.mk 3 [0, 3, -2, 1, 4] [0, 3, 2, 1, 4] true).position i ≠ i ∧
        (∀ i2 : Int, 1 ≤ i2 → i2 < i →
          (Permutation.mk 3 [0, 3, -2, 1, 4] [0, 3, 2, 1, 4] true).position i2 = i2) ∧
        adjustSlices (Permutation.mk 3 [0, 3, -2, 1, 4] [0, 3, 2, 1, 4] true)
            (Problem.mk 3 true (Problem.swi_ls 3 true))
          = Inversion.mk i ((Permutation.mk 3 [0, 3, -2, 1, 4] [0, 3, 2, 1, 4] true).n + 1 - i)
              ((Problem.mk 3 true (Problem.swi_ls 3 true)).getInversionWeight i
                ((Permutation.mk 3 [0, 3, -2, 1, 4] [0, 3, 2, 1, 4] true).n + 1 - i))) ∨
      ((∀ i : Int, 1 ≤ i →
          i ≤ (Permutation.mk 3 [0, 3, -2, 1, 4] [0, 3, 2, 1, 4] true).n + 1 - i →
          (Permutation.mk 3 [0, 3, -2, 1, 4] [0, 3, 2, 1, 4] true).position i = i) ∧
        (Permutation.mk 3 [0, 3, -2, 1, 4] [0, 3, 2, 1, 4] true).isSigned = true ∧
        ∃ i : Int, 1 ≤ i ∧ i ≤ (Permutation.mk 3 [0, 3, -2, 1, 4] [0, 3, 2, 1, 4] true).n ∧
          (Permutation.mk 3 [0, 3, -2, 1, 4] [0, 3, 2, 1, 4] true).element_at i < 0 ∧
          (∀ i2 : Int, 1 ≤ i2 → i2 < i →
            ¬ (Permutation.mk 3 [0, 3, -2, 1, 4] [0, 3, 2, 1, 4] true).element_at i2 < 0) ∧
          adjustSlices (Permutation.mk 3 [0, 3, -2, 1, 4] [0, 3, 2, 1, 4] true)
              (Problem.mk 3 true (Problem.swi_ls 3 true))
            = Inversion.mk i i
                ((Problem.mk 3 true (Problem.swi_ls 3 true)).getInversionWeight i i))) :=
  adjustSlices_has_move (Permutation.mk 3 [0, 3, -2, 1, 4] [0, 3, 2, 1, 4] true)
    (Problem.mk 3 true (Problem.swi_ls 3 true)) (by decide) (by decide)
    (by
      intro e h1 h2
      have : e = 1 ∨ e = 2 ∨ e = 3 := by
        have h3 : e ≤ 3 := h2
        omega
      rcases this with rfl | rfl | rfl <;> decide)

end SWILS

namespace SWILS

/-- The loop of `smp` that looks for the first element outside of its final slice stops at
the first such element at or after its start, with the two slices of that element, or runs to
`n + 1`. -/
theorem smp_mistake_loop_scan (pi : Permutation) :
    ∀ (fuel : Nat) (s cs fs : Int), s ≤ pi.size + 1 → pi.size + 1 - s ≤ fuel →
      s ≤ (smp_mistake_loop pi fuel s cs fs).1 ∧
      (∀ e : Int, s ≤ e → e < (smp_mistake_loop pi fuel s cs fs).1 →
        pi.currentElementSlice e = pi.finalElementSlice e) ∧
      (((smp_mistake_loop pi fuel s cs fs).1 < pi.size + 1 ∧
          (smp_mistake_loop pi fuel s cs fs).2.1
            = pi.currentElementSlice (smp_mistake_loop pi fuel s cs fs).1 ∧
          (smp_mistake_loop pi fuel s cs fs).2.2
            = pi.finalElementSlice (smp_mistake_loop pi fuel s cs fs).1 ∧
          pi.currentElementSlice (smp_mistake_loop pi fuel s cs fs).1
            ≠ pi.finalElementSlice (smp_mistake_loop pi fuel s cs fs).1) ∨
        (smp_mistake_loop pi fuel s cs fs).1 = pi.size + 1) := by
  intro fuel
  induction fuel with
  | zero =>
    intro s cs fs h1 h2
    have hs : s = pi.size + 1 := by omega
    unfold smp_mistake_loop
    exact ⟨le_refl _, fun e a b => by simp only at b; omega, Or.inr hs⟩
  | succ fuel ih =>
    intro s cs fs h1 h2
    unfold smp_mistake_loop
    by_cases hlt : s < pi.size + 1
    · simp only [if_pos hlt]
      by_cases hne : pi.currentElementSlice s ≠ pi.finalElementSlice s
      · simp only [if_pos hne]
        exact ⟨le_refl _, fun e a b => by omega, Or.inl ⟨hlt, trivial, trivial, hne⟩⟩
      · simp only [if_neg hne]
        obtain ⟨a1, a2, a3⟩ := ih (s + 1) (pi.currentElementSlice s) (pi.finalElementSlice s)
          (by omega) (by omega)
        refine ⟨by omega, ?_, a3⟩
        intro e b1 b2
        by_cases he : e = s
        · rw [he]; exact not_not.mp hne
        · exact a2 e (by omega) b2
    · simp only [if_neg hlt]
      exact ⟨le_refl _, fun e a b => by omega, Or.inr (by omega)⟩

/-- C29. The forced move of SMP is symmetric: when the best benefit found by `smp` is zero
(the test `best == 0` of the source: no inversion has a positive benefit) and some element of
`1..n` is outside of its final slice, `smp` returns the inversion `(s, n + 1 - s)` where `s`
is the larger of the current slice and the final slice of the smallest such element; it has
`1 ≤ s ≤ n + 1 - s ≤ n` and the weight 1. -/
theorem smp_forced_move (fm : FloatModel) (pi : Permutation) (problem : Problem)
    (hv : pi.Valid) (hp : Problem.create SWI_LS pi.n pi.sign = some problem)
    (hbest : fm.eq (bestBenefit fm (fun sigma => fm.ofInt sigma.sliceMisplacedPairs) pi
        (fm.ofInt pi.sliceMisplacedPairs) problem.getInversions (fm.ofInt 0, Inversion.zero)).1
        (fm.ofInt 0) = true)
    (hex : ∃ e : Int, 1 ≤ e ∧ e ≤ pi.n ∧ pi.currentElementSlice e ≠ pi.finalElementSlice e) :
    ∃ e s : Int, 1 ≤ e ∧ e ≤ pi.n ∧ pi.currentElementSlice e ≠ pi.finalElementSlice e ∧
      (∀ e2 : Int, 1 ≤ e2 → e2 < e → pi.currentElementSlice e2 = pi.finalElementSlice e2) ∧
      s = max (pi.currentElementSlice e) (pi.finalElementSlice e) ∧
      1 ≤ s ∧ s ≤ pi.n + 1 - s ∧ pi.n + 1 - s ≤ pi.n ∧
      problem.getInversionWeight s (pi.n + 1 - s) = 1 ∧
      smp fm pi problem = Inversion.mk s (pi.n + 1 - s) 1 := by
  have hn := hv.1
  have hpn : problem.n = pi.n := (Problem.create_eq _ _ _ _ hp).1
  obtain ⟨x, x1, x2, x3⟩ := hex
  obtain ⟨a1, a2, a3⟩ := smp_mistake_loop_scan pi (pi.n + 1).toNat 0 0 0
    (by unfold Permutation.size; omega) (by unfold Permutation.size; omega)
  have h0 : pi.currentElementSlice 0 = pi.finalElementSlice 0 := by
    unfold Permutation.currentElementSlice Permutation.finalElementSlice Permutation.position
      iabs slice
    have := hv.2.2.2.2.2.1
    simp only [Int.natAbs_zero]
    rw [this]
    rfl
  generalize hm : smp_mistake_loop pi (pi.n + 1).toNat 0 0 0 = m at a1 a2 a3
  have hlt : m.1 < pi.size + 1 := by
    rcases a3 with h | h
    · exact h.1
    · exfalso
      exact x3 (a2 x (by omega) (by unfold Permutation.size at h; omega))
  rcases a3 with ⟨_, b2, b3, b4⟩ | h
  swap
  · omega
  have hm1 : 1 ≤ m.1 := by
    by_contra hc
    have : m.1 = 0 := by omega
    rw [this] at b4
    exact b4 h0
  unfold Permutation.size at hlt
  obtain ⟨p1, p2, _, _⟩ := Problem.position_spec pi m.1 hv hm1 (by omega)
  have hcs : pi.currentElementSlice m.1 = slice (pi.position m.1) pi.n := rfl
  have hfs : pi.finalElementSlice m.1 = slice m.1 pi.n := by
    unfold Permutation.finalElementSlice iabs
    rw [show ((m.1.natAbs : Nat) : Int) = m.1 by omega]
  have hs1 : 1 ≤ max (pi.currentElementSlice m.1) (pi.finalElementSlice m.1) := by
    rw [hcs, hfs]; unfold slice; omega
  have hs2 : max (pi.currentElementSlice m.1) (pi.finalElementSlice m.1)
      ≤ pi.n + 1 - max (pi.currentElementSlice m.1) (pi.finalElementSlice m.1) := by
    rw [hcs, hfs]; unfold slice; omega
  have hw : ∀ s : Int,
      problem.getInversionWeight s (pi.n + 1 - s) = 1 := by
    intro s
    unfold Problem.getInversionWeight Problem.weight iabs slice
    rw [hpn]
    omega
  refine ⟨m.1, max (pi.currentElementSlice m.1) (pi.finalElementSlice m.1), hm1, by omega, b4,
    fun e2 c1 c2 => a2 e2 (by omega) c2, rfl, hs1, hs2, by omega, hw _, ?_⟩
  unfold smp
  simp only [hbest, if_true, Permutation.size, hm]
  rw [if_neg (by omega)]
  have hi : (if m.2.2 > m.2.1 then m.2.2 else m.2.1)
      = max (pi.currentElementSlice m.1) (pi.finalElementSlice m.1) := by
    rw [b2, b3]
    split <;> omega
  rw [hi]
  unfold symmetric
  rw [if_neg (by omega)]
  rw [show pi.n - max (pi.currentElementSlice m.1) (pi.finalElementSlice m.1) + 1
      = pi.n + 1 - max (pi.currentElementSlice m.1) (pi.finalElementSlice m.1) by omega]
  rw [hw]

/-- Witness of C29: on the unsigned permutation `4, 2, 3, 1, 5` no inversion has a positive
benefit and the element 1 stands in the slice 2: `smp` returns the inversion `(2, 4)` of
weight 1. -/
theorem smp_forced_move_witness :
    ∃ e s : Int, 1 ≤ e ∧ e ≤ (Permutation.mk 5 [0, 4, 2, 3, 1, 5, 6] [0, 4, 2, 3, 1, 5, 6] false).n ∧
      (Permutation.mk 5 [0, 4, 2, 3, 1, 5, 6] [0, 4, 2, 3, 1, 5, 6] false).currentElementSlice e
        ≠ (Permutation.mk 5 [0, 4, 2, 3, 1, 5, 6] [0, 4, 2, 3, 1, 5, 6] false).finalElementSlice e ∧
      (∀ e2 : Int, 1 ≤ e2 → e2 < e →
        (Permutation.mk 5 [0, 4, 2, 3, 1, 5, 6] [0, 4, 2, 3, 1, 5, 6] false).currentElementSlice e2
          = (Permutation.mk 5 [0, 4, 2, 3, 1, 5, 6] [0, 4, 2, 3, 1, 5, 6] false).finalElementSlice e2) ∧
      s = max ((Permutation.mk 5 [0, 4, 2, 3, 1, 5, 6] [0, 4, 2, 3, 1, 5, 6] false).currentElementSlice e)
        ((Permutation.mk 5 [0, 4, 2, 3, 1, 5, 6] [0, 4, 2, 3, 1, 5, 6] false).finalElementSlice e) ∧
      1 ≤ s ∧ s ≤ (Permutation.mk 5 [0, 4, 2, 3, 1, 5, 6] [0, 4, 2, 3, 1, 5, 6] false).n + 1 - s ∧
      (Permutation.mk 5 [0, 4, 2, 3, 1, 5, 6] [0, 4, 2, 3, 1, 5, 6] false).n + 1 - s
        ≤ (Permutation.mk 5 [0, 4, 2, 3, 1, 5, 6] [0, 4, 2, 3, 1, 5, 6] false).n ∧
      (Problem.mk 5 false (Problem.swi_ls 5 false)).getInversionWeight s
        ((Permutation.mk 5 [0, 4, 2, 3, 1, 5, 6] [0, 4, 2, 3, 1, 5, 6] false).n + 1 - s) = 1 ∧
      smp exactFloat (Permutation.mk 5 [0, 4, 2, 3, 1, 5, 6] [0, 4, 2, 3, 1, 5, 6] false)
          (Problem.mk 5 false (Problem.swi_ls 5 false))
        = Inversion.mk s ((Permutation.mk 5 [0, 4, 2, 3, 1, 5, 6] [0, 4, 2, 3, 1, 5, 6] false).n + 1 - s) 1 :=
  smp_forced_move exactFloat (Permutation.mk 5 [0, 4, 2, 3, 1, 5, 6] [0, 4, 2, 3, 1, 5, 6] false)
    (Problem.mk 5 false (Problem.swi_ls 5 false)) (by decide) (by rfl) (by decide)
    ⟨1, by decide, by decide, by decide⟩

end SWILS

namespace SWILS
namespace Heuristics

/-- Length of the list of the inversions selected by the loop of the drivers: one inversion
per iteration, and `tries` exceeds `limit` after `limit + 1` applied inversions. -/
theorem sort_loop_length (fm : FloatModel) (problem : Problem) (heuristic limit : Int)
    (hlim : limit + 1 ≤ 32767) :
    ∀ (fuel : Nat) (pi : Permutation) (weight tries : Int) (invs : List Inversion),
      0 ≤ tries → tries ≤ limit → (invs.length : Int) = tries →
      ((sort_loop fm problem heuristic limit fuel pi weight tries invs).2.2.length : Int)
        ≤ limit + 1 := by
  intro fuel
  induction fuel with
  | zero =>
    intro pi weight tries invs h0 h1 hlen
    simp only [sort_loop]
    omega
  | succ fuel ih =>
    intro pi weight tries invs h0 h1 hlen
    simp only [sort_loop]
    cases hid : pi.isIdentity
    · simp only [Bool.not_false, if_true]
      by_cases hi : (selectInversion fm heuristic pi problem).i ≠ 0
      · simp only [if_pos hi]
        have hw : wrap16 (tries + 1) = tries + 1 := wrap16_eq _ (by omega) (by omega)
        rw [hw]
        by_cases ht : tries + 1 > limit
        · simp only [if_pos ht]
          simp only [List.length_append, List.length_singleton]
          push_cast
          omega
        · simp only [if_neg ht]
          exact ih _ _ _ _ (by omega) (by omega)
            (by simp only [List.length_append, List.length_singleton]; push_cast; omega)
      · simp only [if_neg hi]
        simp only [List.length_append, List.length_singleton]
        push_cast
        omega
    · simp only [Bool.not_true, Bool.false_eq_true, if_false]
      omega

/-- With a negative limit the loop of the drivers stops after its first iteration. -/
theorem sort_loop_neg_limit (fm : FloatModel) (problem : Problem) (heuristic limit : Int)
    (hlim : limit < 0) (fuel extra : Nat) (pi : Permutation) (weight : Int) :
    sort_loop fm problem heuristic limit (fuel + 1 + extra) pi weight 0 []
      = sort_loop fm problem heuristic limit (fuel + 1) pi weight 0 [] ∧
    (sort_loop fm problem heuristic limit (fuel + 1) pi weight 0 []).2.2.length ≤ 1 := by
  rw [show fuel + 1 + extra = (fuel + extra) + 1 by omega]
  simp only [sort_loop]
  have hw : wrap16 (0 + 1) = 1 := by decide
  have hgt : (1 : Int) > limit := by omega
  cases hid : pi.isIdentity
  · simp only [Bool.not_false, if_true]
    by_cases hi : (selectInversion fm heuristic pi problem).i ≠ 0
    · simp only [if_pos hi, hw, if_pos hgt]
      simp
    · simp only [if_neg hi]
      simp
  · simp only [Bool.not_true, Bool.false_eq_true, if_false]
    simp

/-- A strategy that proposes the same inversion `x` on a permutation and on the result of
applying `x` to it, where applying `x` twice restores the permutation and neither of the two
is the identity, keeps the loop of the drivers running until the test `tries > limit` stops
it: from `tries`, the loop adds `limit - tries + 1` copies of `x` to the list and ends on one
of the two permutations. -/
theorem sort_loop_two_cycle (fm : FloatModel) (problem : Problem) (heuristic limit : Int)
    (hlim : limit < 32767) (pi : Permutation) (x : Inversion) (hx : x.i ≠ 0)
    (hid : pi.isIdentity = false) (hid2 : (pi.applyInversion x.i x.j).isIdentity = false)
    (hs : selectInversion fm heuristic pi problem = x)
    (hs2 : selectInversion fm heuristic (pi.applyInversion x.i x.j) problem = x)
    (hback : (pi.applyInversion x.i x.j).applyInversion x.i x.j = pi) :
    ∀ (fuel : Nat) (weight tries : Int) (invs : List Inversion),
      0 ≤ tries → tries ≤ limit → (limit - tries + 1).toNat ≤ fuel →
      ((sort_loop fm problem heuristic limit fuel pi weight tries invs).2.2
          = invs ++ List.replicate (limit - tries + 1).toNat x ∧
        (sort_loop fm problem heuristic limit fuel pi weight tries invs).1.isIdentity
          = false) ∧
      ((sort_loop fm problem heuristic limit fuel (pi.applyInversion x.i x.j) weight tries
            invs).2.2
          = invs ++ List.replicate (limit - tries + 1).toNat x ∧
        (sort_loop fm problem heuristic limit fuel (pi.applyInversion x.i x.j) weight tries
            invs).1.isIdentity = false) := by
  intro fuel
  induction fuel with
  | zero => intro weight tries invs h0 h1 h2; omega
  | succ fuel ih =>
    intro weight tries invs h0 h1 h2
    have hw : wrap16 (tries + 1) = tries + 1 := wrap16_eq _ (by omega) (by omega)
    simp only [sort_loop, hid, hid2, hs, hs2, hback, Bool.not_false, if_true, ne_eq, hx,
      not_false_eq_true, hw]
    by_cases ht : tries + 1 > limit
    · simp only [if_pos ht]
      have e : (limit - tries + 1).toNat = 1 := by omega
      rw [e]
      exact ⟨⟨rfl, hid2⟩, ⟨rfl, hid⟩⟩
    · simp only [if_neg ht]
      have e : (limit - tries + 1).toNat = (limit - (tries + 1) + 1).toNat + 1 := by omega
      obtain ⟨⟨a1, a2⟩, ⟨b1, b2⟩⟩ := ih (wrap16 (weight + x.w)) (tries + 1) (invs ++ [x])
        (by omega) (by omega) (by omega)
      rw [e, List.replicate_succ]
      refine ⟨⟨?_, b2⟩, ⟨?_, a2⟩⟩
      · rw [b1]; simp
      · rw [a1]; simp

/-- C21. Iteration cap of the sort drivers: for every permutation `pi` of size `n` (of the
16-bit range), every problem, every `float` arithmetic and every heuristic identifier, the
loop stops by itself (more iterations change nothing) after it has asked the strategy for a
move at most `n × 15 + 1` times, hence applied at most `n × 15 + 1` inversions; the same holds
for the list returned by the driver `sort(permutation, problem, heuristic, weight)`.  The
bound is `n × 15 + 1` and not `n × 15`: the test `tries > limit` lets the iteration number
`limit + 1` run.  Whenever the strategy proposes the same inversion `x` on `pi` and on the
result of applying `x` to `pi`, none of the two being the identity and `x` applied twice
restoring `pi`, the driver (for `n ≤ 2184`, where `n × 15` fits the 16-bit `integer`) returns
`n × 15 + 1` copies of `x`, all applied, and the weight `-1`. -/
theorem sort_iteration_cap (fm : FloatModel) (problem : Problem) (heuristic n : Int)
    (pi : Permutation) (h0 : 0 ≤ n) (hn : n ≤ 32767) (hpn : pi.n = n) :
    (∀ extra : Nat,
      sort_loop fm problem heuristic (wrap16 (n * LIMIT_MULTIPLIER))
          (sort_fuel (wrap16 (n * LIMIT_MULTIPLIER)) + extra) pi 0 0 []
        = sort_loop fm problem heuristic (wrap16 (n * LIMIT_MULTIPLIER))
            (sort_fuel (wrap16 (n * LIMIT_MULTIPLIER))) pi 0 0 []) ∧
    ((sort_loop fm problem heuristic (wrap16 (n * LIMIT_MULTIPLIER))
        (sort_fuel (wrap16 (n * LIMIT_MULTIPLIER))) pi 0 0 []).2.2.length : Int)
      ≤ n * 15 + 1 ∧
    ((List.countP (fun (r : Inversion) => decide (r.i ≠ 0))
        (sort_loop fm problem heuristic (wrap16 (n * LIMIT_MULTIPLIER))
          (sort_fuel (wrap16 (n * LIMIT_MULTIPLIER))) pi 0 0 []).2.2 : Nat) : Int)
      ≤ n * 15 + 1 ∧
    ((sort_permutation fm pi problem heuristic).1.length : Int) ≤ n * 15 + 1 ∧
    ((List.countP (fun (r : Inversion) => decide (r.i ≠ 0))
        (sort_permutation fm pi problem heuristic).1 : Nat) : Int) ≤ n * 15 + 1 ∧
    (∀ x : Inversion, n ≤ 2184 → pi.Valid → x.i ≠ 0 → pi.isIdentity = false →
      (pi.applyInversion x.i x.j).isIdentity = false →
      selectInversion fm heuristic pi problem = x →
      selectInversion fm heuristic (pi.applyInversion x.i x.j) problem = x →
      (pi.applyInversion x.i x.j).applyInversion x.i x.j = pi →
      sort_permutation fm pi problem heuristic
          = (List.replicate (n * 15 + 1).toNat x, -1) ∧
        List.countP (fun (r : Inversion) => decide (r.i ≠ 0))
          (sort_permutation fm pi problem heuristic).1 = (n * 15 + 1).toNat) := by
  obtain ⟨l1, l2⟩ := limit_range n h0 hn
  have hlen : ∀ p : Permutation,
      ((sort_loop fm problem heuristic (wrap16 (n * LIMIT_MULTIPLIER))
        (sort_fuel (wrap16 (n * LIMIT_MULTIPLIER))) p 0 0 []).2.2.length : Int)
        ≤ n * 15 + 1 := by
    intro p
    by_cases hneg : wrap16 (n * LIMIT_MULTIPLIER) < 0
    · have := (sort_loop_neg_limit fm problem heuristic _ hneg
        (wrap16 (n * LIMIT_MULTIPLIER) + 1).toNat 0 p 0).2
      unfold sort_fuel
      omega
    · have := sort_loop_length fm problem heuristic (wrap16 (n * LIMIT_MULTIPLIER)) (by omega)
        (sort_fuel (wrap16 (n * LIMIT_MULTIPLIER))) p 0 0 [] (le_refl _) (by omega) (by simp)
      omega
  have hperm : (sort_permutation fm pi problem heuristic).1
      = (sort_loop fm problem heuristic (wrap16 (n * LIMIT_MULTIPLIER))
          (sort_fuel (wrap16 (n * LIMIT_MULTIPLIER)))
          (Permutation.copy (Permutation.copy pi)) 0 0 []).2.2 := by
    unfold sort_permutation
    have hsz : (Permutation.copy pi).size = n := hpn
    simp only [hsz]
    split <;> rfl
  refine ⟨?_, hlen pi, ?_, ?_, ?_, ?_⟩
  · intro extra
    by_cases hneg : wrap16 (n * LIMIT_MULTIPLIER) < 0
    · exact (sort_loop_neg_limit fm problem heuristic _ hneg
        (wrap16 (n * LIMIT_MULTIPLIER) + 1).toNat extra pi 0).1
    · exact (sort_loop_stops fm problem heuristic (wrap16 (n * LIMIT_MULTIPLIER)) (by omega)
        (sort_fuel (wrap16 (n * LIMIT_MULTIPLIER))) extra pi 0 0 [] (le_refl _) (by omega)
        (by unfold sort_fuel; omega) (by simp)).1
  · have h1 := hlen pi
    have h2 : List.countP (fun (r : Inversion) => decide (r.i ≠ 0))
        (sort_loop fm problem heuristic (wrap16 (n * LIMIT_MULTIPLIER))
          (sort_fuel (wrap16 (n * LIMIT_MULTIPLIER))) pi 0 0 []).2.2
        ≤ (sort_loop fm problem heuristic (wrap16 (n * LIMIT_MULTIPLIER))
          (sort_fuel (wrap16 (n * LIMIT_MULTIPLIER))) pi 0 0 []).2.2.length :=
      List.countP_le_length _
    omega
  · rw [hperm]
    exact hlen _
  · rw [hperm]
    have h1 := hlen (Permutation.copy (Permutation.copy pi))
    have h2 : List.countP (fun (r : Inversion) => decide (r.i ≠ 0))
        (sort_loop fm problem heuristic (wrap16 (n * LIMIT_MULTIPLIER))
          (sort_fuel (wrap16 (n * LIMIT_MULTIPLIER)))
          (Permutation.copy (Permutation.copy pi)) 0 0 []).2.2
        ≤ (sort_loop fm problem heuristic (wrap16 (n * LIMIT_MULTIPLIER))
          (sort_fuel (wrap16 (n * LIMIT_MULTIPLIER)))
          (Permutation.copy (Permutation.copy pi)) 0 0 []).2.2.length :=
      List.countP_le_length _
    omega
  · intro x hn2 hv hx hid hid2 hs hs2 hback
    have hl : wrap16 (n * LIMIT_MULTIPLIER) = n * 15 := by
      unfold LIMIT_MULTIPLIER
      exact wrap16_eq _ (by omega) (by omega)
    obtain ⟨⟨c1, c2⟩, _⟩ := sort_loop_two_cycle fm problem heuristic (n * 15) (by omega) pi x hx
      hid hid2 hs hs2 hback (sort_fuel (n * 15)) 0 0 [] (le_refl _) (by omega)
      (by unfold sort_fuel; omega)
    have hsp : sort_permutation fm pi problem heuristic
        = (List.replicate (n * 15 + 1).toNat x, -1) := by
      unfold sort_permutation
      simp only [Permutation.copy_eq pi hv, Permutation.size, hpn, hl, c2, Bool.not_false,
        if_true]
      rw [c1]
      simp
    refine ⟨hsp, ?_⟩
    rw [hsp]
    simp only [List.countP_replicate, hx, ne_eq, not_false_eq_true, decide_True, if_true]

/-- Witness of C21: the unsigned permutation `2, 1, 4, 3`, its problem and `LR`. -/
theorem sort_iteration_cap_witness :
    (∀ extra : Nat,
      sort_loop exactFloat (Problem.mk 4 false (Problem.swi_ls 4 false)) LR (wrap16 (4 * LIMIT_MULTIPLIER))
          (sort_fuel (wrap16 (4 * LIMIT_MULTIPLIER)) + extra) (Permutation.mk 4 [0, 2, 1, 4, 3, 5] [0, 2, 1, 4, 3, 5] false) 0 0 []
        = sort_loop exactFloat (Problem.mk 4 false (Problem.swi_ls 4 false)) LR (wrap16 (4 * LIMIT_MULTIPLIER))
            (sort_fuel (wrap16 (4 * LIMIT_MULTIPLIER))) (Permutation.mk 4 [0, 2, 1, 4, 3, 5] [0, 2, 1, 4, 3, 5] false) 0 0 []) ∧
    ((sort_loop exactFloat (Problem.mk 4 false (Problem.swi_ls 4 false)) LR (wrap16 (4 * LIMIT_MULTIPLIER))
        (sort_fuel (wrap16 (4 * LIMIT_MULTIPLIER))) (Permutation.mk 4 [0, 2, 1, 4, 3, 5] [0, 2, 1, 4, 3, 5] false) 0 0 []).2.2.length : Int)
      ≤ 4 * 15 + 1 ∧
    ((List.countP (fun (r : Inversion) => decide (r.i ≠ 0))
        (sort_loop exactFloat (Problem.mk 4 false (Problem.swi_ls 4 false)) LR (wrap16 (4 * LIMIT_MULTIPLIER))
          (sort_fuel (wrap16 (4 * LIMIT_MULTIPLIER))) (Permutation.mk 4 [0, 2, 1, 4, 3, 5] [0, 2, 1, 4, 3, 5] false) 0 0 []).2.2 : Nat) : Int)
      ≤ 4 * 15 + 1 ∧
    ((sort_permutation exactFloat (Permutation.mk 4 [0, 2, 1, 4, 3, 5] [0, 2, 1, 4, 3, 5] false) (Problem.mk 4 false (Problem.swi_ls 4 false)) LR).1.length : Int) ≤ 4 * 15 + 1 ∧
    ((List.countP (fun (r : Inversion) => decide (r.i ≠ 0))
        (sort_permutation exactFloat (Permutation.mk 4 [0, 2, 1, 4, 3, 5] [0, 2, 1, 4, 3, 5] false) (Problem.mk 4 false (Problem.swi_ls 4 false)) LR).1 : Nat) : Int) ≤ 4 * 15 + 1 ∧
    (∀ x : Inversion, (4 : Int) ≤ 2184 → (Permutation.mk 4 [0, 2, 1, 4, 3, 5] [0, 2, 1, 4, 3, 5] false).Valid → x.i ≠ 0 → (Permutation.mk 4 [0, 2, 1, 4, 3, 5] [0, 2, 1, 4, 3, 5] false).isIdentity = false →
      ((Permutation.mk 4 [0, 2, 1, 4, 3, 5] [0, 2, 1, 4, 3, 5] false).applyInversion x.i x.j).isIdentity = false →
      selectInversion exactFloat LR (Permutation.mk 4 [0, 2, 1, 4, 3, 5] [0, 2, 1, 4, 3, 5] false) (Problem.mk 4 false (Problem.swi_ls 4 false)) = x →
      selectInversion exactFloat LR ((Permutation.mk 4 [0, 2, 1, 4, 3, 5] [0, 2, 1, 4, 3, 5] false).applyInversion x.i x.j) (Problem.mk 4 false (Problem.swi_ls 4 false)) = x →
      ((Permutation.mk 4 [0, 2, 1, 4, 3, 5] [0, 2, 1, 4, 3, 5] false).applyInversion x.i x.j).applyInversion x.i x.j = (Permutation.mk 4 [0, 2, 1, 4, 3, 5] [0, 2, 1, 4, 3, 5] false) →
      sort_permutation exactFloat (Permutation.mk 4 [0, 2, 1, 4, 3, 5] [0, 2, 1, 4, 3, 5] false) (Problem.mk 4 false (Problem.swi_ls 4 false)) LR
          = (List.replicate ((4 : Int) * 15 + 1).toNat x, -1) ∧
        List.countP (fun (r : Inversion) => decide (r.i ≠ 0))
          (sort_permutation exactFloat (Permutation.mk 4 [0, 2, 1, 4, 3, 5] [0, 2, 1, 4, 3, 5] false) (Problem.mk 4 false (Problem.swi_ls 4 false)) LR).1 = ((4 : Int) * 15 + 1).toNat) :=
  sort_iteration_cap exactFloat (Problem.mk 4 false (Problem.swi_ls 4 false)) LR 4
    (Permutation.mk 4 [0, 2, 1, 4, 3, 5] [0, 2, 1, 4, 3, 5] false) (by decide) (by decide) rfl

set_option maxRecDepth 100000 in
/-- A run of the drivers that the test `tries > limit` stops, on arguments of the embedding
that are not a permutation with its own problem: with the problem object built for the size
1, whose list of inversions is empty, `nb` finds no move on the unsigned permutation
`2, 1, 4, 3` of size 4 and `nb_plus_strip` falls back on the inversion `(1, 4)`, which
exchanges `2, 1, 4, 3` and `3, 4, 1, 2` for ever: both drivers select and apply
`61 = 4 × 15 + 1` inversions before the test stops them, and report `-1`. -/
theorem sort_two_cycle_run :
    Problem.create SWI_LS 1 false = some (Problem.mk 1 false (Problem.swi_ls 1 false)) ∧
    Permutation.ofInt 0x1032 4 false
      = some (Permutation.mk 4 [0, 2, 1, 4, 3, 5] [0, 2, 1, 4, 3, 5] false) ∧
    (sort_loop exactFloat (Problem.mk 1 false (Problem.swi_ls 1 false)) NB_PLUS_STRIP
        (wrap16 (4 * LIMIT_MULTIPLIER)) (sort_fuel (wrap16 (4 * LIMIT_MULTIPLIER)))
        (Permutation.mk 4 [0, 2, 1, 4, 3, 5] [0, 2, 1, 4, 3, 5] false) 0 0 []).2.2
      = List.replicate 61 (Inversion.mk 1 4 4) ∧
    sort exactFloat 0x1032 4 false (Problem.mk 1 false (Problem.swi_ls 1 false)) NB_PLUS_STRIP
      = some (-1) ∧
    sort_permutation exactFloat (Permutation.mk 4 [0, 2, 1, 4, 3, 5] [0, 2, 1, 4, 3, 5] false)
        (Problem.mk 1 false (Problem.swi_ls 1 false)) NB_PLUS_STRIP
      = (List.replicate 61 (Inversion.mk 1 4 4), -1) ∧
    List.countP (fun (r : Inversion) => decide (r.i ≠ 0))
        (sort_permutation exactFloat (Permutation.mk 4 [0, 2, 1, 4, 3, 5] [0, 2, 1, 4, 3, 5] false)
          (Problem.mk 1 false (Problem.swi_ls 1 false)) NB_PLUS_STRIP).1 = 61 ∧
    ¬ (((sort_permutation exactFloat (Permutation.mk 4 [0, 2, 1, 4, 3, 5] [0, 2, 1, 4, 3, 5] false)
          (Problem.mk 1 false (Problem.swi_ls 1 false)) NB_PLUS_STRIP).1.length : Int)
        ≤ 4 * LIMIT_MULTIPLIER) := by
  decide

end Heuristics
end SWILS

namespace SWILS

/-- C35. The exact solver and the strategies use the same cost model: for every `n` and every
flag `s`, `getPossibleInversions(SWI_LS, n, s)` of the database code returns a list, the
constructor `Problem(SWI_LS, n, s)` returns, and `getInversions()` is that list, entry by
entry and in the same order, with both positions shifted by one and the same weight, which is
`getInversionWeight` at the shifted positions. -/
theorem cost_model_agrees (n : Int) (s : Bool) :
    ∃ (list : List Database.inversion_info) (problem : Problem),
      Database.getPossibleInversions SWI_LS n s = some list ∧
      Problem.create SWI_LS n s = some problem ∧
      problem.getInversions
        = list.map (fun info => Inversion.mk (info.i + 1) (info.j + 1) info.w) ∧
      problem.getInversions.length = list.length ∧
      ∀ k : Nat, k < list.length →
        (problem.getInversions.getD k Inversion.zero).i
          = (list.getD k (Database.inversion_info.mk 0 0 0)).i + 1 ∧
        (problem.getInversions.getD k Inversion.zero).j
          = (list.getD k (Database.inversion_info.mk 0 0 0)).j + 1 ∧
        (problem.getInversions.getD k Inversion.zero).w
          = (list.getD k (Database.inversion_info.mk 0 0 0)).w ∧
        (list.getD k (Database.inversion_info.mk 0 0 0)).w
          = problem.getInversionWeight ((list.getD k (Database.inversion_info.mk 0 0 0)).i + 1)
              ((list.getD k (Database.inversion_info.mk 0 0 0)).j + 1) := by
  have hmap : Problem.swi_ls n s
      = (Database.swi_ls n s).map
          (fun info => Inversion.mk (info.i + 1) (info.j + 1) info.w) := by
    unfold Problem.swi_ls Database.swi_ls
    dsimp only
    rw [List.map_flatMap]
    congr 1
    funext i
    rw [List.map_map]
    congr 1
    funext j
    simp only [Function.comp, Problem.weight, slice, Inversion.mk.injEq, true_and]
    rw [show n - ((i : Int) + 1) + 1 = n - (i : Int) by omega,
      show n - ((j : Int) + 1) + 1 = n - (j : Int) by omega]
  have hw : ∀ info ∈ Database.swi_ls n s,
      info.w = Problem.weight n (info.i + 1) (info.j + 1) := by
    intro info hin
    unfold Database.swi_ls at hin
    simp only [List.mem_flatMap, List.mem_map] at hin
    obtain ⟨i, _, j, _, e⟩ := hin
    subst e
    simp only [Problem.weight, slice]
    rw [show n - ((i : Int) + 1) + 1 = n - (i : Int) by omega,
      show n - ((j : Int) + 1) + 1 = n - (j : Int) by omega]
  refine ⟨Database.swi_ls n s, Problem.mk n s (Problem.swi_ls n s), ?_, ?_, hmap, ?_, ?_⟩
  · unfold Database.getPossibleInversions
    rw [if_pos rfl]
  · unfold Problem.create
    rw [if_pos rfl]
  · show (Problem.swi_ls n s).length = _
    rw [hmap, List.length_map]
  · intro k hk
    show ((Problem.swi_ls n s).getD k Inversion.zero).i = _ ∧
      ((Problem.swi_ls n s).getD k Inversion.zero).j = _ ∧
      ((Problem.swi_ls n s).getD k Inversion.zero).w = _ ∧ _
    have hk2 : k < ((Database.swi_ls n s).map
        (fun info => Inversion.mk (info.i + 1) (info.j + 1) info.w)).length := by
      rw [List.length_map]; exact hk
    have hmem : (Database.swi_ls n s).getD k (Database.inversion_info.mk 0 0 0)
        ∈ Database.swi_ls n s := by
      rw [List.getD_eq_getElem _ _ hk]
      exact List.getElem_mem _
    rw [hmap, List.getD_eq_getElem _ _ hk2, List.getElem_map, List.getD_eq_getElem _ _ hk]
    refine ⟨rfl, rfl, rfl, ?_⟩
    have := hw _ hmem
    rw [List.getD_eq_getElem _ _ hk] at this
    exact this

namespace Database

/-- The loop of `int_to_vector` over `k` entries leaves the entries from `k` on. -/
theorem int_to_vector_loop_frame : ∀ (k x : Nat) (V : List Int) (i : Nat), k ≤ i →
    (int_to_vector_loop k x V).getD i 0 = V.getD i 0 := by
  intro k
  induction k with
  | zero => intro x V i _; rfl
  | succ k ih =>
    intro x V i hi
    simp only [int_to_vector_loop]
    rw [ih _ _ i (by omega)]
    simp only [List.getD_eq_getElem?_getD, List.getElem?_set]
    rw [if_neg (by omega)]

/-- The value of `digitsValue` depends on the first `k` entries only. -/
theorem digitsValue_congr (P Q : List Int) : ∀ k : Nat,
    (∀ i, i < k → P.getD i 0 = Q.getD i 0) → digitsValue P k = digitsValue Q k := by
  intro k
  induction k with
  | zero => intro _; rfl
  | succ k ih =>
    intro h
    simp only [digitsValue]
    rw [ih (fun i hi => h i (by omega)), h k (by omega)]

/-- The loop of `int_to_vector` over `k` entries writes values in `1..16`. -/
theorem int_to_vector_loop_bounds : ∀ (k x : Nat) (V : List Int) (i : Nat), i < k →
    k ≤ V.length →
    1 ≤ (int_to_vector_loop k x V).getD i 0 ∧ (int_to_vector_loop k x V).getD i 0 ≤ 16 := by
  intro k
  induction k with
  | zero => intro x V i hi; omega
  | succ k ih =>
    intro x V i hi hV
    simp only [int_to_vector_loop]
    by_cases h : i < k
    · exact ih _ _ i h (by simpa using (by omega : k ≤ V.length))
    · have hik : i = k := by omega
      subst hik
      rw [int_to_vector_loop_frame _ _ _ i (le_refl _)]
      have hm : x &&& NUMBERS = x % 16 := Nat.and_pow_two_sub_one_eq_mod x 4
      rw [hm]
      simp only [List.getD_eq_getElem?_getD, List.getElem?_set,
        (by omega : i < V.length), if_true, Option.getD_some]
      omega

/-- The digits that the loop of `int_to_vector` writes are those of `x` modulo `16 ^ k`. -/
theorem digitsValue_int_to_vector : ∀ (k x : Nat) (V : List Int), k ≤ V.length →
    digitsValue (int_to_vector_loop k x V) k = x % 16 ^ k := by
  intro k
  induction k with
  | zero => intro x V _; simp [digitsValue, Nat.mod_one]
  | succ k ih =>
    intro x V hV
    have hm : x &&& NUMBERS = x % 16 := Nat.and_pow_two_sub_one_eq_mod x 4
    have hs : x >>> N_BITS = x / 16 := Nat.shiftRight_eq_div_pow x 4
    simp only [digitsValue, int_to_vector_loop]
    rw [ih _ _ (by simpa using (by omega : k ≤ V.length)),
      int_to_vector_loop_frame _ _ _ k (le_refl _), hm, hs]
    simp only [List.getD_eq_getElem?_getD, List.getElem?_set,
      (by omega : k < V.length), if_true, Option.getD_some]
    rw [show (((x % 16 : Nat) : Int) + 1 - 1).toNat = x % 16 by omega]
    rw [pow_succ, Nat.mul_comm (16 ^ k) 16, Nat.mod_mul]
    omega

/-- The loop of `int_to_vector` over `k` entries reads the low `4 k` bits only. -/
theorem int_to_vector_loop_mod : ∀ (k x y : Nat) (V : List Int), x % 16 ^ k = y % 16 ^ k →
    int_to_vector_loop k x V = int_to_vector_loop k y V := by
  intro k
  induction k with
  | zero => intro x y V _; rfl
  | succ k ih =>
    intro x y V h
    simp only [int_to_vector_loop]
    have hx : x &&& NUMBERS = x % 16 := Nat.and_pow_two_sub_one_eq_mod x 4
    have hy : y &&& NUMBERS = y % 16 := Nat.and_pow_two_sub_one_eq_mod y 4
    have hsx : x >>> N_BITS = x / 16 := Nat.shiftRight_eq_div_pow x 4
    have hsy : y >>> N_BITS = y / 16 := Nat.shiftRight_eq_div_pow y 4
    rw [pow_succ, Nat.mul_comm (16 ^ k) 16, Nat.mod_mul, Nat.mod_mul] at h
    have h1 : x % 16 = y % 16 := by
      have := congrArg (fun z => z % 16) h
      simp only [Nat.add_mul_mod_self_left, Nat.mod_mod] at this
      exact this
    have h2 : (x / 16) % 16 ^ k = (y / 16) % 16 ^ k := by
      rw [h1] at h
      have := Nat.add_left_cancel h
      exact Nat.eq_of_mul_eq_mul_left (by norm_num) this
    rw [hx, hy, hsx, hsy, h1]
    exact ih _ _ _ h2

/-- C39. Decoding then encoding is exact on the integer side: for `n ≤ 16` and every
integer `x < 2 ^ (4 n)`, `vector_to_int(n, int_to_vector(n, x)) = x`; every decoded entry is
in `1..16`; and `int_to_vector` ignores the bits of `x` at or above the position `4 n`: two
integers that agree on their low `4 n` bits decode to the same vector. -/
theorem int_codec_round_trip (n : Nat) (x : Nat) (V : List Int) (h16 : n ≤ 16)
    (hV : V.length = n) :
    (x < 2 ^ (4 * n) → vector_to_int n (int_to_vector n x V) = x) ∧
    vector_to_int n (int_to_vector n x V) = x % 2 ^ (4 * n) ∧
    (∀ i : Nat, i < n →
      1 ≤ (int_to_vector n x V).getD i 0 ∧ (int_to_vector n x V).getD i 0 ≤ 16) ∧
    (∀ y : Nat, x % 2 ^ (4 * n) = y % 2 ^ (4 * n) →
      int_to_vector n x V = int_to_vector n y V) := by
  have hp : (2 : Nat) ^ (4 * n) = 16 ^ n := by
    rw [pow_mul]; norm_num
  have hb : ∀ i : Nat, i < n →
      1 ≤ (int_to_vector n x V).getD i 0 ∧ (int_to_vector n x V).getD i 0 ≤ 16 :=
    fun i hi => int_to_vector_loop_bounds n x V i hi (by omega)
  have hlen : (int_to_vector n x V).length = n := by
    unfold int_to_vector
    rw [int_to_vector_loop_length]; exact hV
  have hmod : vector_to_int n (int_to_vector n x V) = x % 2 ^ (4 * n) := by
    rw [vector_to_int_eq_digitsValue _ (fun i hi => hb i (by omega)) n (by omega) h16, hp]
    exact digitsValue_int_to_vector n x V (by omega)
  refine ⟨?_, hmod, hb, ?_⟩
  · intro hx
    rw [hmod, Nat.mod_eq_of_lt hx]
  · intro y hy
    rw [hp] at hy
    exact int_to_vector_loop_mod n x y V hy

/-- Witness of C39: the size 2 and the integers `0x21` and `0x121`, which agree on their low
eight bits. -/
theorem int_codec_round_trip_witness :
    (0x21 < 2 ^ (4 * 2) → vector_to_int 2 (int_to_vector 2 0x21 [0, 0]) = 0x21) ∧
    vector_to_int 2 (int_to_vector 2 0x21 [0, 0]) = 0x21 % 2 ^ (4 * 2) ∧
    (∀ i : Nat, i < 2 →
      1 ≤ (int_to_vector 2 0x21 [0, 0]).getD i 0 ∧ (int_to_vector 2 0x21 [0, 0]).getD i 0 ≤ 16) ∧
    (∀ y : Nat, 0x21 % 2 ^ (4 * 2) = y % 2 ^ (4 * 2) →
      int_to_vector 2 0x21 [0, 0] = int_to_vector 2 y [0, 0]) :=
  int_codec_round_trip 2 0x21 [0, 0] (by decide) rfl

end Database

end SWILS

namespace SWILS

open Database

/-- Entry `i` written by the loop of `int_to_vector` over `k` entries: the group of four bits
at the position `4 (k - 1 - i)`, plus one. -/
theorem Database.int_to_vector_loop_bits : ∀ (k x : Nat) (V : List Int) (i : Nat), i < k →
    k ≤ V.length →
    (int_to_vector_loop k x V).getD i 0
      = (((x >>> (4 * (k - 1 - i))) &&& 15 : Nat) : Int) + 1 := by
  intro k
  induction k with
  | zero => intro x V i hi; omega
  | succ k ih =>
    intro x V i hi hV
    simp only [int_to_vector_loop]
    by_cases h : i < k
    · rw [ih _ _ i h (by simpa using (by omega : k ≤ V.length))]
      rw [show 4 * (k + 1 - 1 - i) = N_BITS + 4 * (k - 1 - i) by unfold N_BITS; omega,
        Nat.shiftRight_add]
    · have hik : i = k := by omega
      subst hik
      rw [int_to_vector_loop_frame _ _ _ i (le_refl _)]
      simp only [List.getD_eq_getElem?_getD, List.getElem?_set,
        (by omega : i < V.length), if_true, Option.getD_some]
      rw [show 4 * (i + 1 - 1 - i) = 0 by omega]
      rfl

/-- The unsigned branch of the constructor `Permutation(intPi, N, S)` decodes as
`int_to_vector` does, whatever the integer. -/
theorem Permutation.decodedEntries_eq_int_to_vector (n : Nat) (x : Nat) (V : List Int)
    (hV : V.length = n) :
    Permutation.decodedEntries x (n : Int) false = int_to_vector n x V := by
  apply ext_getD
  · rw [Permutation.decodedEntries_length]
    unfold int_to_vector
    rw [int_to_vector_loop_length, hV]
    simp
  · intro k hk
    rw [Permutation.decodedEntries_length, Int.toNat_ofNat] at hk
    unfold Permutation.decodedEntries Permutation.decoded
    simp only [Bool.false_eq_true, if_false, Int.toNat_ofNat]
    rw [List.getD_eq_getElem?_getD, List.getElem?_map, List.getElem?_range hk]
    show (Permutation.decodeUnsigned_loop n x
        (Permutation.newVector (n : Int), Permutation.newVector (n : Int))).1.getD (k + 1) 0 = _
    rw [Permutation.decodeUnsigned_eq_generic]
    rw [decode_generic_getD _ _ (fun a => by
        show ((a &&& U_NUMBERS : Nat) : Int) + 1 ≠ 0
        have : (0 : Int) ≤ ((a &&& U_NUMBERS : Nat) : Int) := Int.natCast_nonneg _
        omega) n x _
      (by simp only [Permutation.newVector_length (n : Int) (by omega)]; omega)
      (k + 1) (by omega) (by omega)]
    unfold int_to_vector
    rw [int_to_vector_loop_bits n x V k hk (by omega)]
    rw [show n - (k + 1) = n - 1 - k by omega]
    rfl

/-- The constructor `Permutation(vector, S)` accepts a vector holding each of `1..n` once. -/
theorem Permutation.ofVector_of_perm (n : Nat) (P : List Int) (S : Bool)
    (hP : IsPermutationVector n P) :
    ∃ pi : Permutation, Permutation.ofVector P S = some pi ∧ pi.Valid ∧ pi.n = (n : Int) ∧
      pi.sign = S ∧ pi.entries = P := by
  obtain ⟨hl, hb⟩ := getD_bounds_of_perm n P hP
  have hmem : ∀ e ∈ P, 1 ≤ e ∧ e ≤ (n : Int) := by
    intro e he
    obtain ⟨m, hm, em⟩ := List.getElem_of_mem he
    have := hb m hm
    rw [List.getD_eq_getElem _ _ hm, em] at this
    exact this
  have hsome : ∃ pi : Permutation, Permutation.ofVector P S = some pi := by
    rw [Permutation.ofVector_eq]
    cases hloop : Permutation.ofVector_loop S (P.length : Int) P 1
        (Permutation.newVector (P.length : Int), Permutation.newVector (P.length : Int), []) with
    | none =>
      exfalso
      obtain ⟨e, he, h⟩ := (Permutation.ofVector_loop_none_iff S (P.length : Int) P 1 _).mp hloop
      have := hmem e he
      unfold iabs at h
      omega
    | some r =>
      have hnv := Permutation.newVector_length (P.length : Int) (by omega)
      simp only [Int.toNat_ofNat] at hnv
      obtain ⟨_, _, a3, _⟩ := Permutation.ofVector_loop_spec S _ P 1 _ r hloop
        (by simp only [hnv]; omega) (by simp only [hnv]; omega)
      simp only [List.append_nil] at a3
      have hv : Permutation.validate (P.length : Int) r.2.2 = true := by
        apply Permutation.validate_of_exact
        intro v
        rw [a3, List.mem_reverse, List.mem_map]
        constructor
        · rintro ⟨e, he, rfl⟩
          have := hmem e he
          unfold iabs
          omega
        · intro hv
          have hin : v ∈ P := by
            apply hP.symm.subset
            exact List.mem_map.mpr ⟨(v - 1).toNat, List.mem_range.mpr (by omega), by omega⟩
          exact ⟨v, hin, by unfold iabs; omega⟩
      simp only [hv, if_true]
      exact ⟨_, rfl⟩
  obtain ⟨pi, hpi⟩ := hsome
  obtain ⟨hv, hn, hs, hg⟩ := Permutation.ofVector_valid P S pi hpi
  refine ⟨pi, hpi, hv, by rw [hn, hl], hs, ?_⟩
  have hlen := Permutation.entries_length pi hv.2.1
  apply ext_getD
  · rw [hlen, hn]; simp
  · intro x hx
    rw [hlen] at hx
    rw [Permutation.entries_getD pi x hx]
    exact hg x (by rw [hn] at hx; simpa using hx)

namespace Database

/-- C37. The database encoding and the decoder of the strategies agree: for `n ≤ 16` and
a vector `P` holding each of `1..n` once, `Permutation(vector_to_int(n, P), n, false)` is
accepted and has `element_at(k) = P[k - 1]` for every `k` in `1..n`; and the unsigned branch
of the constructor decodes every integer exactly as `int_to_vector` does. -/
theorem encoding_decoder_agree (n : Nat) (P V : List Int) (x : Nat) (h16 : n ≤ 16)
    (hP : IsPermutationVector n P) (hV : V.length = n) :
    (∃ pi : Permutation, Permutation.ofInt (vector_to_int n P) (n : Int) false = some pi ∧
      pi.Valid ∧ pi.n = (n : Int) ∧ pi.sign = false ∧
      ∀ k : Int, 1 ≤ k → k ≤ (n : Int) → pi.element_at k = P.getD (k - 1).toNat 0) ∧
    Permutation.decodedEntries x (n : Int) false = int_to_vector n x V ∧
    Permutation.decodedEntries (vector_to_int n P) (n : Int) false = P := by
  obtain ⟨pi, hpi, he⟩ := ofInt_code n h16 P hP
  obtain ⟨hv, hn, hs⟩ := Permutation.ofInt_valid _ _ _ pi (by omega) hpi
  refine ⟨⟨pi, hpi, hv, hn, hs, ?_⟩, Permutation.decodedEntries_eq_int_to_vector n x V hV, ?_⟩
  · intro k h1 h2
    unfold Permutation.element_at
    rw [← he, Permutation.entries_getD pi (k - 1).toNat (by omega)]
    rw [show (k - 1).toNat + 1 = k.toNat by omega]
  · rw [Permutation.decodedEntries_eq_int_to_vector n _ V hV]
    exact code_decode n h16 P V hP hV

/-- Witness of C37: the vector `2, 1, 4, 3`, the integer `0x1032` and a buffer of size 4. -/
theorem encoding_decoder_agree_witness :
    (∃ pi : Permutation, Permutation.ofInt (vector_to_int 4 [2, 1, 4, 3]) ((4 : Nat) : Int) false
        = some pi ∧
      pi.Valid ∧ pi.n = ((4 : Nat) : Int) ∧ pi.sign = false ∧
      ∀ k : Int, 1 ≤ k → k ≤ ((4 : Nat) : Int) →
        pi.element_at k = [2, 1, 4, 3].getD (k - 1).toNat 0) ∧
    Permutation.decodedEntries 0x1032 ((4 : Nat) : Int) false = int_to_vector 4 0x1032 [0, 0, 0, 0] ∧
    Permutation.decodedEntries (vector_to_int 4 [2, 1, 4, 3]) ((4 : Nat) : Int) false
      = [2, 1, 4, 3] :=
  encoding_decoder_agree 4 [2, 1, 4, 3] [0, 0, 0, 0] 0x1032 (by decide) (by decide) rfl

/-- C36. The two reversal implementations agree on unsigned permutations: for a vector `P`
holding each of `1..n` once and `0 ≤ i ≤ j < n`, the constructor `Permutation(P, false)`
returns, and the vector `sigma` of the database `applyInversion(i, j, P, sigma)` is the
entries `1..n` of that permutation after `Permutation::applyInversion(i + 1, j + 1)`.  The
database function receives `P` by value, so `P` is not changed. -/
theorem reversal_implementations_agree (n : Nat) (P : List Int) (i j : Nat)
    (hP : IsPermutationVector n P) (hij : i ≤ j) (hj : j < n) :
    ∃ pi : Permutation, Permutation.ofVector P false = some pi ∧ pi.entries = P ∧
      (pi.applyInversion ((i : Int) + 1) ((j : Int) + 1)).entries
        = applyInversion (i : Int) (j : Int) P ∧
      ∀ k : Nat, k < n →
        (pi.applyInversion ((i : Int) + 1) ((j : Int) + 1)).element_at ((k : Int) + 1)
          = (applyInversion (i : Int) (j : Int) P).getD k 0 := by
  obtain ⟨pi, hpi, hv, hn, hs, he⟩ := Permutation.ofVector_of_perm n P false hP
  have hl := (getD_bounds_of_perm n P hP).1
  have hent : (pi.applyInversion ((i : Int) + 1) ((j : Int) + 1)).entries
      = applyInversion (i : Int) (j : Int) P := by
    rw [Permutation.applyInversion_entries pi _ _ hv.1 hv.2.1 (by omega) (by omega)
      (by rw [hn]; omega), he, hs]
    simp only [Bool.false_eq_true, if_false]
    rw [applyInversion_eq_reverseRange i j P hij (by omega)]
    rw [show ((i : Int) + 1 - 1).toNat = i by omega, show ((j : Int) + 1 - 1).toNat = j by omega]
  refine ⟨pi, hpi, he, hent, ?_⟩
  intro k hk
  rw [← hent]
  have hn2 : (pi.applyInversion ((i : Int) + 1) ((j : Int) + 1)).n = pi.n := rfl
  rw [Permutation.entries_getD _ k (by rw [hn2, hn]; simpa using hk)]
  unfold Permutation.element_at
  rw [show ((k : Int) + 1).toNat = k + 1 by omega]

/-- Witness of C36: the vector `2, 1, 4, 3` and the inversion of the positions `1..3`. -/
theorem reversal_implementations_agree_witness :
    ∃ pi : Permutation, Permutation.ofVector [2, 1, 4, 3] false = some pi ∧
      pi.entries = [2, 1, 4, 3] ∧
      (pi.applyInversion (((1 : Nat) : Int) + 1) (((3 : Nat) : Int) + 1)).entries
        = applyInversion ((1 : Nat) : Int) ((3 : Nat) : Int) [2, 1, 4, 3] ∧
      ∀ k : Nat, k < 4 →
        (pi.applyInversion (((1 : Nat) : Int) + 1) (((3 : Nat) : Int) + 1)).element_at
            ((k : Int) + 1)
          = (applyInversion ((1 : Nat) : Int) ((3 : Nat) : Int) [2, 1, 4, 3]).getD k 0 :=
  reversal_implementations_agree 4 [2, 1, 4, 3] 1 3 (by decide) (by decide) (by decide)

end Database

end SWILS

namespace SWILS
namespace Permutation

/-- The breakpoint counter started at `0` ends at `0` exactly when no test of the loop
succeeds. -/
theorem breakpoints_loop_zero_iff (read : Int → Int) (isBreak : Int → Int → Bool)
    (perm : List Int) (m : Nat) (last : Int) :
    breakpoints_loop read isBreak perm (m + 1) last 0 = 0 ↔
      isBreak last (read (perm.getD m 0)) = false ∧
      ∀ k : Nat, k < m → isBreak (read (perm.getD (k + 1) 0)) (read (perm.getD k 0)) = false := by
  rw [breakpoints_loop_eq]
  have hc : (List.range m).countP
      (fun k => isBreak (read (perm.getD (k + 1) 0)) (read (perm.getD k 0))) = 0 ↔
      ∀ k : Nat, k < m →
        isBreak (read (perm.getD (k + 1) 0)) (read (perm.getD k 0)) = false := by
    rw [List.countP_eq_zero]
    constructor
    · intro h k hk
      have := h k (List.mem_range.mpr hk)
      simpa using this
    · intro h k hk
      rw [h k (List.mem_range.mp hk)]
      simp
  rw [← hc]
  cases isBreak last (read (perm.getD m 0))
  · simp only [Bool.false_eq_true, if_false, true_and]
    omega
  · simp only [if_true, Bool.true_eq_false, false_and, iff_false]
    omega

/-- C32. Breakpoints vanish exactly at the identity: for every valid permutation, signed or
unsigned, `numberOfBreakpoints() = 0` if and only if `isIdentity()` is true; and for a valid
unsigned permutation `numberOfBreakpoints() = numberOfBreakpointsUnsignedPermutation()`. -/
theorem breakpoints_vanish_at_identity (p : Permutation) (hv : p.Valid) :
    (p.numberOfBreakpoints = 0 ↔ p.isIdentity = true) ∧
    (p.sign = false → p.numberOfBreakpoints = p.numberOfBreakpointsUnsignedPermutation) := by
  have hn := hv.1
  have h0 := hv.2.2.2.1
  have hm : (p.n + 1).toNat = p.n.toNat + 1 := by omega
  have hid : p.isIdentity = true ↔
      ∀ k : Nat, k ≤ p.n.toNat → p.permutation.getD k 0 = (k : Int) := by
    rw [isIdentity_iff]
    constructor
    · intro h k hk
      by_cases hk0 : k = 0
      · rw [hk0]; exact h0
      · have := h (k : Int) (by omega) (by omega)
        unfold element_at at this
        rw [Int.toNat_ofNat] at this
        exact this
    · intro h k h1 h2
      have := h k.toNat (by omega)
      unfold element_at
      rw [this]
      omega
  constructor
  · rw [hid]
    unfold numberOfBreakpoints
    rw [hm]
    cases hs : p.sign
    · simp only [Bool.false_eq_true, if_false]
      rw [breakpoints_loop_zero_iff]
      simp only [decide_eq_false_iff_not, not_not]
      have hpos : ∀ k : Nat, 1 ≤ k → k ≤ p.n.toNat →
          1 ≤ p.permutation.getD k 0 ∧ p.permutation.getD k 0 ≤ p.n := by
        intro k h1 h2
        have a := hv.fw k h1 h2
        have b := hv.pos hs k h1 h2
        omega
      constructor
      · rintro ⟨ha, hb⟩
        have hup : ∀ k : Nat, k ≤ p.n.toNat → p.permutation.getD k 0 ≤ (k : Int) := by
          intro k
          induction k with
          | zero => intro _; rw [h0]; rfl
          | succ k ih =>
            intro hk
            have := hb k (by omega)
            have := ih (by omega)
            unfold iabs at *
            omega
        have hlo : ∀ d : Nat, d ≤ p.n.toNat →
            ((p.n.toNat - d : Nat) : Int) ≤ p.permutation.getD (p.n.toNat - d) 0 := by
          intro d
          induction d with
          | zero =>
            intro _
            unfold iabs at ha
            simp only [Nat.sub_zero]
            omega
          | succ d ih =>
            intro hd
            have := hb (p.n.toNat - (d + 1)) (by omega)
            rw [show p.n.toNat - (d + 1) + 1 = p.n.toNat - d by omega] at this
            have := ih (by omega)
            unfold iabs at *
            omega
        intro k hk
        have a := hup k hk
        have b := hlo (p.n.toNat - k) (by omega)
        rw [show p.n.toNat - (p.n.toNat - k) = k by omega] at b
        omega
      · intro h
        refine ⟨?_, ?_⟩
        · rw [h p.n.toNat (le_refl _)]
          unfold iabs
          omega
        · intro k hk
          rw [h (k + 1) (by omega), h k (by omega)]
          unfold iabs
          omega
    · simp only [if_true]
      rw [breakpoints_loop_zero_iff]
      simp only [decide_eq_false_iff_not, not_not]
      constructor
      · rintro ⟨ha, hb⟩
        intro k
        induction k with
        | zero => intro _; rw [h0]; rfl
        | succ k ih =>
          intro hk
          have := hb k (by omega)
          have := ih (by omega)
          push_cast
          omega
      · intro h
        refine ⟨?_, ?_⟩
        · rw [h p.n.toNat (le_refl _)]
          omega
        · intro k hk
          rw [h (k + 1) (by omega), h k (by omega)]
          push_cast
          omega
  · intro hs
    unfold numberOfBreakpoints numberOfBreakpointsUnsignedPermutation
    rw [hm]
    simp only [hs, Bool.false_eq_true, if_false]
    rw [breakpoints_loop_eq, breakpoints_loop_eq]
    have hnn : ∀ k : Nat, k ≤ p.n.toNat → iabs (p.permutation.getD k 0) = p.permutation.getD k 0 := by
      intro k hk
      by_cases hk0 : k = 0
      · rw [hk0, h0]; rfl
      · have := hv.pos hs k (by omega) hk
        unfold iabs
        omega
    rw [hnn p.n.toNat (le_refl _)]
    congr 2
    apply List.countP_congr
    intro k hk
    rw [List.mem_range] at hk
    rw [hnn (k + 1) (by omega), hnn k (by omega)]

/-- Witness of C32: the unsigned permutation `2, 1`. -/
theorem breakpoints_vanish_at_identity_witness :
    ((Permutation.mk 2 [0, 2, 1, 3] [0, 2, 1, 3] false).numberOfBreakpoints = 0 ↔
      (Permutation.mk 2 [0, 2, 1, 3] [0, 2, 1, 3] false).isIdentity = true) ∧
    ((Permutation.mk 2 [0, 2, 1, 3] [0, 2, 1, 3] false).sign = false →
      (Permutation.mk 2 [0, 2, 1, 3] [0, 2, 1, 3] false).numberOfBreakpoints
        = (Permutation.mk 2 [0, 2, 1, 3] [0, 2, 1, 3] false).numberOfBreakpointsUnsignedPermutation) :=
  breakpoints_vanish_at_identity (Permutation.mk 2 [0, 2, 1, 3] [0, 2, 1, 3] false) (by decide)

end Permutation
end SWILS

namespace SWILS
namespace Database

/-- A unitary inversion leaves the vector as it is. -/
theorem applyInversion_unitary (i : Int) (P : List Int) : applyInversion i i P = P := by
  unfold applyInversion
  rw [show (i + 1 - i).toNat = 1 by omega]
  simp only [applyInversion_loop, le_refl, if_true]
  apply ext_getD
  · simp
  · intro x _
    simp only [List.getD_eq_getElem?_getD, List.getElem?_set, List.length_set]
    by_cases hx : i.toNat = x
    · subst hx
      by_cases hl : i.toNat < P.length
      · simp [hl]
      · simp [hl, List.getElem?_eq_none (by omega : P.length ≤ i.toNat)]
    · simp [hx]

/-- The map computed by one relaxation depends on the map alone, not on the vector `sigma`
left by the inversion before. -/
theorem relaxStep_fst (n : Nat) (vectorPi : List Int) (cd : Int) (visited : List Nat)
    (st st2 : List (Nat × Int) × List Int) (info : inversion_info) (h : st.1 = st2.1) :
    (relaxStep n vectorPi cd visited st info).1 = (relaxStep n vectorPi cd visited st2 info).1 := by
  unfold relaxStep
  simp only [h]

/-- The relaxation by a unitary inversion changes nothing in the map when the current
permutation is visited. -/
theorem relaxStep_unitary (n : Nat) (vectorPi : List Int) (cd : Int) (visited : List Nat)
    (st : List (Nat × Int) × List Int) (info : inversion_info) (h : info.i = info.j)
    (hvis : vector_to_int n vectorPi ∈ visited) :
    (relaxStep n vectorPi cd visited st info).1 = st.1 := by
  unfold relaxStep
  rw [← h, applyInversion_unitary]
  simp only [hvis, not_true_eq_false, if_false]

/-- The relaxation loop over a list of inversions and over the inversions `i < j` of it
compute the same map, when the other inversions are unitary and the current permutation is
visited. -/
theorem relax_filter (n : Nat) (vectorPi : List Int) (cd : Int) (visited : List Nat)
    (hvis : vector_to_int n vectorPi ∈ visited) :
    ∀ (L : List inversion_info) (init init2 : List (Nat × Int) × List Int),
      init.1 = init2.1 → (∀ info ∈ L, info.i < info.j ∨ info.i = info.j) →
      (relax n L vectorPi cd visited init).1
        = (relax n (L.filter (fun info => decide (info.i < info.j))) vectorPi cd visited
            init2).1 := by
  intro L
  induction L with
  | nil => intro init init2 h _; exact h
  | cons info rest ih =>
    intro init init2 h hL
    rw [relax_eq, relax_eq] at *
    rw [List.foldl_cons, List.filter_cons]
    have hrest : ∀ x ∈ rest, x.i < x.j ∨ x.i = x.j :=
      fun x hx => hL x (List.mem_cons_of_mem _ hx)
    by_cases hlt : info.i < info.j
    · simp only [hlt, decide_True, if_true, List.foldl_cons]
      have := ih (relaxStep n vectorPi cd visited init info)
        (relaxStep n vectorPi cd visited init2 info)
        (relaxStep_fst n vectorPi cd visited init init2 info h) hrest
      rw [relax_eq, relax_eq] at this
      exact this
    · simp only [hlt, decide_False, Bool.false_eq_true, if_false]
      have heq : info.i = info.j := by
        rcases hL info (List.mem_cons_self _ _) with h1 | h1
        · exact absurd h1 hlt
        · exact h1
      have := ih (relaxStep n vectorPi cd visited init info) init2
        ((relaxStep_unitary n vectorPi cd visited init info heq hvis).trans h) hrest
      rw [relax_eq, relax_eq] at this
      exact this

/-- The edge list requested with the signed flag, restricted to `i < j`, is the edge list
without the signed flag. -/
theorem swi_ls_filter (n : Int) :
    (swi_ls n true).filter (fun info => decide (info.i < info.j)) = swi_ls n false := by
  unfold swi_ls
  simp only [if_true, Bool.false_eq_true, if_false, Nat.add_zero]
  generalize n.toNat = N
  have hrow : ∀ i : Nat,
      (List.map
        (fun (j : Nat) => inversion_info.mk (i : Int) (j : Int)
          (iabs (min ((i : Int) + 1) (n - (i : Int)) - min ((j : Int) + 1) (n - (j : Int))) + 1))
        (List.range' i (N - i))).filter (fun info => decide (info.i < info.j))
      = List.map
        (fun (j : Nat) => inversion_info.mk (i : Int) (j : Int)
          (iabs (min ((i : Int) + 1) (n - (i : Int)) - min ((j : Int) + 1) (n - (j : Int))) + 1))
        (List.range' (i + 1) (N - (i + 1))) := by
    intro i
    by_cases hi : i < N
    · rw [show N - i = (N - (i + 1)) + 1 by omega, List.range'_succ, List.map_cons,
        List.filter_cons]
      simp only [lt_self_iff_false, decide_False, Bool.false_eq_true, if_false]
      rw [List.filter_eq_self]
      intro info hin
      rw [List.mem_map] at hin
      obtain ⟨j, hj, e⟩ := hin
      rw [List.mem_range'] at hj
      obtain ⟨t, _, rfl⟩ := hj
      subst e
      simp only [decide_eq_true_eq]
      omega
    · rw [show N - i = 0 by omega, show N - (i + 1) = 0 by omega]
      rfl
  have hgen : ∀ M : Nat,
      (List.flatMap (List.range M) (fun (i : Nat) =>
        List.map
          (fun (j : Nat) => inversion_info.mk (i : Int) (j : Int)
            (iabs (min ((i : Int) + 1) (n - (i : Int)) - min ((j : Int) + 1) (n - (j : Int))) + 1))
          (List.range' i (N - i)))).filter (fun info => decide (info.i < info.j))
      = List.flatMap (List.range M) (fun (i : Nat) =>
        List.map
          (fun (j : Nat) => inversion_info.mk (i : Int) (j : Int)
            (iabs (min ((i : Int) + 1) (n - (i : Int)) - min ((j : Int) + 1) (n - (j : Int))) + 1))
          (List.range' (i + 1) (N - (i + 1)))) := by
    intro M
    induction M with
    | zero => rfl
    | succ M ih =>
      rw [List.range_succ, List.flatMap_append, List.flatMap_append, List.filter_append, ih]
      simp only [List.flatMap_cons, List.flatMap_nil, List.append_nil]
      rw [hrow M]
  exact hgen N

/-- One iteration of the solver loop with the edge list restricted to `i < j` gives the state
of the iteration with the full edge list, up to the content of the vector `sigma`. -/
theorem process_step_filter (n : Nat) (L : List inversion_info) (u : Nat) (rest : List Nat)
    (st : SolverState) (s : List Int)
    (hL : ∀ info ∈ L, info.i < info.j ∨ info.i = info.j)
    (hu : vector_to_int n (int_to_vector n u st.vectorPi) = u) :
    ∃ s2 : List Int,
      process_step n (L.filter (fun info => decide (info.i < info.j))) u rest
          { st with vectorSigma := s }
        = { process_step n L u rest st with vectorSigma := s2 } := by
  have hr := relax_filter n (int_to_vector n u st.vectorPi)
    ((mapFind st.distances u).getD 0) (u :: st.visited)
    (by rw [hu]; exact List.mem_cons_self _ _) L
    (mapErase st.distances u, st.vectorSigma) (mapErase st.distances u, s) rfl hL
  refine ⟨(relax n (L.filter (fun info => decide (info.i < info.j)))
    (int_to_vector n u st.vectorPi) ((mapFind st.distances u).getD 0) (u :: st.visited)
    (mapErase st.distances u, s)).2, ?_⟩
  unfold process_step
  simp only [← hr]

/-- The solver loop with the edge list restricted to `i < j` goes through the states of the
loop with the full list, up to the content of the vector `sigma`. -/
theorem process_loop_filter (n : Nat) (hn : n ≤ 16) :
    ∀ (fuel : Nat) (st : SolverState) (D : Int) (s : List Int), SolverInv n st D →
      ∃ s2 : List Int,
        process_loop n (swi_ls (n : Int) false) fuel { st with vectorSigma := s }
          = { process_loop n (swi_ls (n : Int) true) fuel st with vectorSigma := s2 } := by
  have hL : ∀ info ∈ swi_ls (n : Int) true, info.i < info.j ∨ info.i = info.j := by
    intro info hin
    obtain ⟨i, j, hij, _, e⟩ := (db_mem_swi_ls n info).mp hin
    subst e
    simp only
    omega
  intro fuel
  induction fuel with
  | zero => intro st D s _; exact ⟨s, rfl⟩
  | succ fuel ih =>
    intro st D s inv
    cases hq : st.queue with
    | nil =>
      refine ⟨s, ?_⟩
      simp only [process_loop, hq]
    | cons u rest =>
      simp only [process_loop, hq]
      obtain ⟨D2, _, inv2, _, _⟩ := process_step_inv n hn st D u rest inv hq
      have hu : vector_to_int n (int_to_vector n u st.vectorPi) = u := by
        have hin : u ∈ st.queue := by rw [hq]; exact List.mem_cons_self _ _
        obtain ⟨_, _, _, P, hP, hc, _⟩ := inv.dist_ok u D (inv.queue_ok u hin)
        rw [← hc, code_decode n hn P st.vectorPi hP inv.buf]
      obtain ⟨s1, h1⟩ := process_step_filter n (swi_ls (n : Int) true) u rest st s hL hu
      rw [swi_ls_filter, hq] at h1
      rw [h1]
      exact ih _ D2 s1 inv2

/-- C38. Unitary inversions are harmless in the unsigned exact solver, for `n ≤ 16`: `process`
requests its edge list with the signed flag set, so every `(i, i)` is in the list; on any
vector `applyInversion(i, i, P, sigma)` gives `sigma = P`; the list restricted to `i < j` is
the list without the signed flag; and at every point of the solver loop the records written,
the queue, the map of tentative distances, the visited set and the decoded vector are those
of the loop run with the restricted edge list. -/
theorem unitary_inversions_harmless (n fuel : Nat) (hn : n ≤ 16) :
    ∃ st : SolverState, process n fuel = some st ∧
      (∀ i : Nat, i < n → inversion_info.mk (i : Int) (i : Int) 1 ∈ swi_ls (n : Int) true) ∧
      (∀ (i : Int) (P : List Int), applyInversion i i P = P) ∧
      (swi_ls (n : Int) true).filter (fun info => decide (info.i < info.j))
        = swi_ls (n : Int) false ∧
      (process_loop n ((swi_ls (n : Int) true).filter (fun info => decide (info.i < info.j)))
          fuel (process_init n)).output = st.output ∧
      (process_loop n (swi_ls (n : Int) false) fuel (process_init n)).output = st.output ∧
      (process_loop n (swi_ls (n : Int) false) fuel (process_init n)).queue = st.queue ∧
      (process_loop n (swi_ls (n : Int) false) fuel (process_init n)).distances
        = st.distances ∧
      (process_loop n (swi_ls (n : Int) false) fuel (process_init n)).visited = st.visited ∧
      (process_loop n (swi_ls (n : Int) false) fuel (process_init n)).vectorPi
        = st.vectorPi := by
  refine ⟨process_loop n (swi_ls (n : Int) true) fuel (process_init n), process_eq n fuel,
    ?_, applyInversion_unitary, swi_ls_filter _, ?_⟩
  · intro i hi
    rw [db_mem_swi_ls]
    refine ⟨i, i, le_refl _, hi, ?_⟩
    unfold moveWeight iabs
    simp
  · obtain ⟨s2, h⟩ := process_loop_filter n hn fuel (process_init n) 0
      (process_init n).vectorSigma (process_init_inv n)
    have h2 : process_loop n (swi_ls (n : Int) false) fuel (process_init n)
        = { process_loop n (swi_ls (n : Int) true) fuel (process_init n) with
            vectorSigma := s2 } := h
    rw [swi_ls_filter, h2]
    exact ⟨rfl, rfl, rfl, rfl, rfl, rfl⟩

/-- Witness of C38: the size 2 after three iterations of the solver loop. -/
theorem unitary_inversions_harmless_witness :
    ∃ st : SolverState, process 2 3 = some st ∧
      (∀ i : Nat, i < 2 →
        inversion_info.mk (i : Int) (i : Int) 1 ∈ swi_ls ((2 : Nat) : Int) true) ∧
      (∀ (i : Int) (P : List Int), applyInversion i i P = P) ∧
      (swi_ls ((2 : Nat) : Int) true).filter (fun info => decide (info.i < info.j))
        = swi_ls ((2 : Nat) : Int) false ∧
      (process_loop 2
          ((swi_ls ((2 : Nat) : Int) true).filter (fun info => decide (info.i < info.j)))
          3 (process_init 2)).output = st.output ∧
      (process_loop 2 (swi_ls ((2 : Nat) : Int) false) 3 (process_init 2)).output = st.output ∧
      (process_loop 2 (swi_ls ((2 : Nat) : Int) false) 3 (process_init 2)).queue = st.queue ∧
      (process_loop 2 (swi_ls ((2 : Nat) : Int) false) 3 (process_init 2)).distances
        = st.distances ∧
      (process_loop 2 (swi_ls ((2 : Nat) : Int) false) 3 (process_init 2)).visited
        = st.visited ∧
      (process_loop 2 (swi_ls ((2 : Nat) : Int) false) 3 (process_init 2)).vectorPi
        = st.vectorPi :=
  unitary_inversions_harmless 2 3 (by decide)

end Database
end SWILS

namespace SWILS

/-- Membership in the list of the pairs of indices. -/
theorem mem_stripPairs (size a b : Nat) : (a, b) ∈ stripPairs size ↔ a < b ∧ b < size := by
  unfold stripPairs
  simp only [List.mem_flatMap, List.mem_range, List.mem_map, List.mem_range', Prod.mk.injEq]
  constructor
  · rintro ⟨a2, h1, b2, ⟨t, h2, rfl⟩, rfl, rfl⟩
    omega
  · rintro ⟨h1, h2⟩
    exact ⟨a, by omega, b, ⟨b - (a + 1), by omega, by omega⟩, rfl, rfl⟩

/-- The list of the pairs of indices is in lexicographic order. -/
theorem stripPairs_pairwise (size : Nat) :
    List.Pairwise (fun (x y : Nat × Nat) => x.1 < y.1 ∨ (x.1 = y.1 ∧ x.2 < y.2))
      (stripPairs size) := by
  unfold stripPairs
  rw [List.pairwise_flatMap]
  constructor
  · intro i _
    rw [List.pairwise_map]
    apply List.Pairwise.imp _ (List.pairwise_lt_range' _ _)
    intro a b hab
    right
    exact ⟨rfl, hab⟩
  · apply List.Pairwise.imp _ (List.pairwise_lt_range (size - 1))
    intro a b hab x hx y hy
    obtain ⟨_, _, rfl⟩ := List.mem_map.mp hx
    obtain ⟨_, _, rfl⟩ := List.mem_map.mp hy
    left
    exact hab

/-- A loop that keeps the first candidate of strictly lower weight ends with the first
candidate of minimal weight, when some candidate is below the initial bound. -/
theorem foldl_first_min {α : Type} (w : α → Int) (mk : α → Inversion) (M : Int)
    (z : Inversion) : ∀ cands : List α,
    ((∀ c ∈ cands, M ≤ w c) ∧
      cands.foldl (fun (st : Int × Inversion) (c : α) =>
        if st.1 > w c then (w c, mk c) else st) (M, z) = (M, z)) ∨
    (∃ (l1 : List α) (c : α) (l2 : List α), cands = l1 ++ c :: l2 ∧
      cands.foldl (fun (st : Int × Inversion) (c : α) =>
        if st.1 > w c then (w c, mk c) else st) (M, z) = (w c, mk c) ∧
      w c < M ∧ (∀ x ∈ l1, w c < w x) ∧ (∀ x ∈ l2, w c ≤ w x)) := by
  intro cands
  induction cands using List.reverseRecOn with
  | nil =>
    left
    exact ⟨fun c hc => absurd hc (List.not_mem_nil c), rfl⟩
  | append_singleton l c ih =>
    rw [List.foldl_append]
    simp only [List.foldl_cons, List.foldl_nil]
    rcases ih with ⟨h1, h2⟩ | ⟨l1, c0, l2, e, h2, h3, h4, h5⟩
    · rw [h2]
      by_cases hc : M > w c
      · right
        simp only [hc, if_true]
        refine ⟨l, c, [], rfl, rfl, hc, ?_, fun x hx => absurd hx (List.not_mem_nil x)⟩
        intro x hx
        have := h1 x hx
        omega
      · left
        simp only [hc, if_false]
        refine ⟨?_, trivial⟩
        intro x hx
        rcases List.mem_append.mp hx with h | h
        · exact h1 x h
        · rw [List.mem_singleton.mp h]
          omega
    · rw [h2]
      right
      by_cases hc : w c0 > w c
      · simp only [hc, if_true]
        refine ⟨l, c, [], rfl, rfl, by omega, ?_, fun x hx => absurd hx (List.not_mem_nil x)⟩
        intro x hx
        rw [e] at hx
        rcases List.mem_append.mp hx with h | h
        · have := h4 x h
          omega
        · rcases List.mem_cons.mp h with h | h
          · rw [h]; omega
          · have := h5 x h
            omega
      · simp only [hc, if_false]
        refine ⟨l1, c0, l2 ++ [c], by rw [e]; simp, rfl, h3, h4, ?_⟩
        intro x hx
        rcases List.mem_append.mp hx with h | h
        · exact h5 x h
        · rw [List.mem_singleton.mp h]
          omega

/-- The two nested loops of `nb_plus_beststrip` as one loop over the pairs of indices. -/
theorem beststrip_loops_eq (problem : Problem) (strips : List Int) :
    beststrip_loops problem strips
      = (stripPairs strips.length).foldl
          (fun (st : Int × Inversion) (c : Nat × Nat) =>
            if st.1 > problem.getInversionWeight (strips.getD c.1 0) (strips.getD c.2 0 - 1) then
              (problem.getInversionWeight (strips.getD c.1 0) (strips.getD c.2 0 - 1),
                Inversion.mk (strips.getD c.1 0) (strips.getD c.2 0 - 1)
                  (problem.getInversionWeight (strips.getD c.1 0) (strips.getD c.2 0 - 1)))
            else st)
          (SHRT_MAX, Inversion.zero) := by
  unfold beststrip_loops stripPairs
  rw [List.flatMap, List.foldl_flatten, List.foldl_map]
  simp only [List.foldl_map]

/-- The loop of `defineStrips` appends to the list the positions `s` after `index`, up to
`left`, with `element_at(s) - element_at(s - 1) != 1`. -/
theorem defineStrips_loop_mem (pi : Permutation) (left : Int) :
    ∀ (fuel : Nat) (index : Int) (strips : List Int), (left - index).toNat ≤ fuel →
      (∃ t : List Int, defineStrips_loop pi left fuel index strips = strips ++ t) ∧
      ∀ s : Int, s ∈ defineStrips_loop pi left fuel index strips ↔
        s ∈ strips ∨
          (index < s ∧ s ≤ left ∧ pi.element_at s - pi.element_at (s - 1) ≠ 1) := by
  intro fuel
  induction fuel with
  | zero =>
    intro index strips hf
    simp only [defineStrips_loop]
    refine ⟨⟨[], by simp⟩, ?_⟩
    intro s
    constructor
    · intro h; exact Or.inl h
    · rintro (h | ⟨h1, h2, _⟩)
      · exact h
      · omega
  | succ fuel ih =>
    intro index strips hf
    simp only [defineStrips_loop]
    by_cases hlt : index < left
    · simp only [hlt, if_true]
      by_cases hb : pi.element_at (index + 1) - pi.element_at index ≠ 1
      · rw [if_pos hb]
        obtain ⟨⟨t, ht⟩, hm⟩ := ih (index + 1) (strips ++ [index + 1]) (by omega)
        refine ⟨⟨[index + 1] ++ t, by rw [ht]; simp⟩, ?_⟩
        intro s
        rw [hm s, List.mem_append, List.mem_singleton]
        constructor
        · rintro ((h | h) | ⟨h1, h2, h3⟩)
          · exact Or.inl h
          · right
            rw [h]
            refine ⟨by omega, by omega, ?_⟩
            rw [show index + 1 - 1 = index by omega]
            exact hb
          · exact Or.inr ⟨by omega, h2, h3⟩
        · rintro (h | ⟨h1, h2, h3⟩)
          · exact Or.inl (Or.inl h)
          · by_cases hs : s = index + 1
            · exact Or.inl (Or.inr hs)
            · exact Or.inr ⟨by omega, h2, h3⟩
      · rw [if_neg hb]
        obtain ⟨⟨t, ht⟩, hm⟩ := ih (index + 1) strips (by omega)
        refine ⟨⟨t, ht⟩, ?_⟩
        intro s
        rw [hm s]
        constructor
        · rintro (h | ⟨h1, h2, h3⟩)
          · exact Or.inl h
          · exact Or.inr ⟨by omega, h2, h3⟩
        · rintro (h | ⟨h1, h2, h3⟩)
          · exact Or.inl h
          · by_cases hs : s = index + 1
            · exfalso
              rw [hs, show index + 1 - 1 = index by omega] at h3
              exact hb h3
            · exact Or.inr ⟨by omega, h2, h3⟩
    · simp only [hlt, if_false]
      refine ⟨⟨[], by simp⟩, ?_⟩
      intro s
      constructor
      · intro h; exact Or.inl h
      · rintro (h | ⟨h1, h2, _⟩)
        · exact h
        · omega

/-- C31. Fallback of `NB+BESTSTRIP`: for every non-identity permutation of size below the
16-bit bound, with the problem `SWI_LS` of its size and sign, on which `nb` returns the
sentinel.  The strip boundaries `s_0 < s_1 < ... < s_m` of `defineStrips` are the first
mismatched position `r`, the positions `s` in `(r, l]` with
`element_at(s) - element_at(s - 1) != 1`, and `l + 1` for the last mismatched position `l`;
`nb_plus_beststrip` returns the inversion `(s_a, s_b - 1)` with `a < b` and the weight
`getInversionWeight(s_a, s_b - 1)`, which is at most the weight of every pair `a2 < b2` and
strictly below the weight of every pair that is before `(a, b)` in lexicographic order. -/
theorem nb_plus_beststrip_fallback (fm : FloatModel) (pi : Permutation) (problem : Problem)
    (hid : pi.isIdentity = false) (hsz : pi.n < 32767)
    (hp : Problem.create SWI_LS pi.n pi.sign = some problem)
    (hnb : (nb fm pi problem).i = 0) :
    ∃ (S : List Int) (r l : Int) (a b : Nat), S = (defineStrips pi).2.2 ∧
      1 ≤ r ∧ r ≤ l ∧ l ≤ pi.n ∧ pi.element_at r ≠ r ∧ pi.element_at l ≠ l ∧
      (∀ k : Int, 1 ≤ k → k < r → pi.element_at k = k) ∧
      (∀ k : Int, l < k → k ≤ pi.n → pi.element_at k = k) ∧
      List.Pairwise (fun x y => x < y) S ∧
      S.getD 0 0 = r ∧ S.getD (S.length - 1) 0 = l + 1 ∧
      (∀ s : Int, s ∈ S ↔
        s = r ∨ s = l + 1 ∨ (r < s ∧ s ≤ l ∧ pi.element_at s - pi.element_at (s - 1) ≠ 1)) ∧
      a < b ∧ b < S.length ∧
      nb_plus_beststrip fm pi problem
        = Inversion.mk (S.getD a 0) (S.getD b 0 - 1)
            (problem.getInversionWeight (S.getD a 0) (S.getD b 0 - 1)) ∧
      (∀ a2 b2 : Nat, a2 < b2 → b2 < S.length →
        problem.getInversionWeight (S.getD a 0) (S.getD b 0 - 1)
          ≤ problem.getInversionWeight (S.getD a2 0) (S.getD b2 0 - 1)) ∧
      (∀ a2 b2 : Nat, a2 < b2 → b2 < S.length → (a2 < a ∨ (a2 = a ∧ b2 < b)) →
        problem.getInversionWeight (S.getD a 0) (S.getD b 0 - 1)
          < problem.getInversionWeight (S.getD a2 0) (S.getD b2 0 - 1)) := by
  have hpn : problem.n = pi.n := (Problem.create_eq _ _ _ _ hp).1
  obtain ⟨b1, b2, b3⟩ := defineRightAndLeft_spec pi hid
  have hr := defineRight_loop_spec pi pi.n.toNat 1
  have hl := defineLeft_loop_spec pi pi.n.toNat pi.n
  have sr := defineRight_loop_stop pi pi.n.toNat 1 (by simp only [Permutation.size]; omega)
  have sl := defineLeft_loop_stop pi pi.n.toNat pi.n (by omega)
  obtain ⟨_, _, _, c4, c5, c6, c7⟩ := defineStrips_spec pi hid
  have hS : (defineStrips pi).2.2
      = defineStrips_loop pi (defineRightAndLeft pi).2
          ((defineRightAndLeft pi).2 - (defineRightAndLeft pi).1).toNat
          (defineRightAndLeft pi).1 [(defineRightAndLeft pi).1]
        ++ [(defineRightAndLeft pi).2 + 1] := rfl
  have h1 : (defineStrips pi).1 = (defineRightAndLeft pi).1 := rfl
  have h2 : (defineStrips pi).2.1 = (defineRightAndLeft pi).2 := rfl
  rw [h1, h2] at c5
  rw [h2] at c6
  obtain ⟨⟨t, ht⟩, hm⟩ := defineStrips_loop_mem pi (defineRightAndLeft pi).2
    ((defineRightAndLeft pi).2 - (defineRightAndLeft pi).1).toNat
    (defineRightAndLeft pi).1 [(defineRightAndLeft pi).1] (le_refl _)
  have hbest : nb_plus_beststrip fm pi problem
      = (beststrip_loops problem (defineStrips pi).2.2).2 := by
    unfold nb_plus_beststrip
    simp only [hnb, Problem.getId, and_self, if_true]
  unfold defineRightAndLeft at b1 b2 b3 hS c5 c6 ht hm
  simp only [Permutation.size] at b1 b2 b3 sr hS c5 c6 ht hm
  generalize defineRight_loop pi pi.n.toNat 1 = r at b1 b2 b3 hr sr hS c5 c6 ht hm
  generalize defineLeft_loop pi pi.n.toNat pi.n = l at b2 b3 hl sl hS c5 c6 ht hm
  generalize (defineStrips pi).2.2 = S at c4 c5 c6 c7 hS hbest
  have hrm : pi.element_at r ≠ r := sr (by omega)
  have hlm : pi.element_at l ≠ l := by
    by_cases h1 : 1 < l
    · exact sl h1
    · have : r = l := by omega
      rw [← this]
      exact hrm
  have hmem : ∀ s : Int, s ∈ S ↔
      s = r ∨ s = l + 1 ∨ (r < s ∧ s ≤ l ∧ pi.element_at s - pi.element_at (s - 1) ≠ 1) := by
    intro s
    rw [hS, List.mem_append, hm s, List.mem_singleton, List.mem_singleton]
    constructor
    · rintro ((h | h) | h)
      · exact Or.inl h
      · exact Or.inr (Or.inr h)
      · exact Or.inr (Or.inl h)
    · rintro (h | h | h)
      · exact Or.inl (Or.inl h)
      · exact Or.inr h
      · exact Or.inl (Or.inr h)
  have hhead : S.getD 0 0 = r := by
    rw [hS, ht]
    rfl
  have hbound : ∀ a2 b2 : Nat, a2 < b2 → b2 < S.length →
      problem.getInversionWeight (S.getD a2 0) (S.getD b2 0 - 1) < SHRT_MAX := by
    intro a2 b2 hab hb
    have m1 := c5 _ (getD_mem_of_lt S a2 (by omega))
    have m2 := c5 _ (getD_mem_of_lt S b2 hb)
    have m3 := pairwise_getD_lt S c4 a2 b2 hab hb
    unfold Problem.getInversionWeight Problem.weight slice iabs SHRT_MAX
    rw [hpn]
    omega
  rw [beststrip_loops_eq] at hbest
  rcases foldl_first_min
    (fun (c : Nat × Nat) => problem.getInversionWeight (S.getD c.1 0) (S.getD c.2 0 - 1))
    (fun (c : Nat × Nat) => Inversion.mk (S.getD c.1 0) (S.getD c.2 0 - 1)
      (problem.getInversionWeight (S.getD c.1 0) (S.getD c.2 0 - 1)))
    SHRT_MAX Inversion.zero (stripPairs S.length) with
    ⟨d1, _⟩ | ⟨l1, c, l2, e, d2, _, d4, d5⟩
  · exfalso
    have := d1 (0, 1) ((mem_stripPairs S.length 0 1).mpr ⟨by omega, by omega⟩)
    have := hbound 0 1 (by omega) (by omega)
    simp only at *
    omega
  · have hc : c ∈ stripPairs S.length := by
      rw [e]
      exact List.mem_append_right _ (List.mem_cons_self _ _)
    obtain ⟨ca, cb⟩ := c
    rw [mem_stripPairs] at hc
    rw [d2] at hbest
    have hpw := stripPairs_pairwise S.length
    rw [e, List.pairwise_append, List.pairwise_cons] at hpw
    refine ⟨S, r, l, ca, cb, rfl, b1, b2, b3, hrm, hlm, fun k h1 h2 => hr.2 k h1 h2,
      fun k h1 h2 => hl.2.2 k h1 h2, c4, hhead, c6, hmem, hc.1, hc.2, hbest, ?_, ?_⟩
    · intro a2 b2 hab hb
      have hin := (mem_stripPairs S.length a2 b2).mpr ⟨hab, hb⟩
      rw [e] at hin
      rcases List.mem_append.mp hin with h | h
      · have q := d4 (a2, b2) h
        simp only at q
        exact le_of_lt q
      · rcases List.mem_cons.mp h with h | h
        · simp only [Prod.mk.injEq] at h
          rw [h.1, h.2]
        · have q := d5 (a2, b2) h
          simp only at q
          exact q
    · intro a2 b2 hab hb hlex
      have hin := (mem_stripPairs S.length a2 b2).mpr ⟨hab, hb⟩
      rw [e] at hin
      rcases List.mem_append.mp hin with h | h
      · have q := d4 (a2, b2) h
        simp only at q
        exact q
      · exfalso
        rcases List.mem_cons.mp h with h | h
        · simp only [Prod.mk.injEq] at h
          omega
        · have q := hpw.2.1.1 (a2, b2) h
          simp only at q
          omega

/-- Witness of C31: the signed permutation `3, 4, 1, 2`, on which `nb` finds no move with
the exact fractions. -/
theorem nb_plus_beststrip_fallback_witness :
    ∃ (S : List Int) (r l : Int) (a b : Nat),
      S = (defineStrips (Permutation.mk 4 [0, 3, 4, 1, 2, 5] [0, 3, 4, 1, 2, 5] true)).2.2 ∧
      1 ≤ r ∧ r ≤ l ∧ l ≤ (Permutation.mk 4 [0, 3, 4, 1, 2, 5] [0, 3, 4, 1, 2, 5] true).n ∧
      (Permutation.mk 4 [0, 3, 4, 1, 2, 5] [0, 3, 4, 1, 2, 5] true).element_at r ≠ r ∧
      (Permutation.mk 4 [0, 3, 4, 1, 2, 5] [0, 3, 4, 1, 2, 5] true).element_at l ≠ l ∧
      (∀ k : Int, 1 ≤ k → k < r →
        (Permutation.mk 4 [0, 3, 4, 1, 2, 5] [0, 3, 4, 1, 2, 5] true).element_at k = k) ∧
      (∀ k : Int, l < k → k ≤ (Permutation.mk 4 [0, 3, 4, 1, 2, 5] [0, 3, 4, 1, 2, 5] true).n →
        (Permutation.mk 4 [0, 3, 4, 1, 2, 5] [0, 3, 4, 1, 2, 5] true).element_at k = k) ∧
      List.Pairwise (fun x y => x < y) S ∧
      S.getD 0 0 = r ∧ S.getD (S.length - 1) 0 = l + 1 ∧
      (∀ s : Int, s ∈ S ↔
        s = r ∨ s = l + 1 ∨ (r < s ∧ s ≤ l ∧
          (Permutation.mk 4 [0, 3, 4, 1, 2, 5] [0, 3, 4, 1, 2, 5] true).element_at s
            - (Permutation.mk 4 [0, 3, 4, 1, 2, 5] [0, 3, 4, 1, 2, 5] true).element_at (s - 1)
              ≠ 1)) ∧
      a < b ∧ b < S.length ∧
      nb_plus_beststrip exactFloat
          (Permutation.mk 4 [0, 3, 4, 1, 2, 5] [0, 3, 4, 1, 2, 5] true)
          (Problem.mk 4 true (Problem.swi_ls 4 true))
        = Inversion.mk (S.getD a 0) (S.getD b 0 - 1)
            ((Problem.mk 4 true (Problem.swi_ls 4 true)).getInversionWeight (S.getD a 0)
              (S.getD b 0 - 1)) ∧
      (∀ a2 b2 : Nat, a2 < b2 → b2 < S.length →
        (Problem.mk 4 true (Problem.swi_ls 4 true)).getInversionWeight (S.getD a 0)
            (S.getD b 0 - 1)
          ≤ (Problem.mk 4 true (Problem.swi_ls 4 true)).getInversionWeight (S.getD a2 0)
              (S.getD b2 0 - 1)) ∧
      (∀ a2 b2 : Nat, a2 < b2 → b2 < S.length → (a2 < a ∨ (a2 = a ∧ b2 < b)) →
        (Problem.mk 4 true (Problem.swi_ls 4 true)).getInversionWeight (S.getD a 0)
            (S.getD b 0 - 1)
          < (Problem.mk 4 true (Problem.swi_ls 4 true)).getInversionWeight (S.getD a2 0)
              (S.getD b2 0 - 1)) :=
  nb_plus_beststrip_fallback exactFloat
    (Permutation.mk 4 [0, 3, 4, 1, 2, 5] [0, 3, 4, 1, 2, 5] true)
    (Problem.mk 4 true (Problem.swi_ls 4 true)) (by decide) (by decide) (by rfl) (by decide)

end SWILS

namespace SWILS
namespace Permutation

/-- The inner loop of `sliceMisplacedCount` never decreases the counter, and leaves it as it
is exactly when no position met on the left or on the right holds an element whose final
slice is above `final_slice`. -/
theorem sliceMisplacedCount_inner_spec (p : Permutation) (fs ls : Int) :
    ∀ (fuel : Nat) (left right count : Int), (ls - left).toNat ≤ fuel →
      count ≤ sliceMisplacedCount_inner p fs ls fuel left right count ∧
      (sliceMisplacedCount_inner p fs ls fuel left right count = count ↔
        ∀ d : Nat, left + (d : Int) < ls →
          ¬ slice (iabs (p.permutation.getD (left + (d : Int)).toNat 0)) p.n > fs ∧
          ¬ slice (iabs (p.permutation.getD (right - (d : Int)).toNat 0)) p.n > fs) := by
  intro fuel
  induction fuel with
  | zero =>
    intro left right count hf
    simp only [sliceMisplacedCount_inner]
    refine ⟨le_refl _, ?_⟩
    simp only [true_iff]
    intro d hd
    omega
  | succ fuel ih =>
    intro left right count hf
    simp only [sliceMisplacedCount_inner]
    by_cases hlt : left < ls
    · simp only [hlt, if_true]
      generalize hc2 : (if slice (iabs (p.permutation.getD right.toNat 0)) p.n > fs then
          (if slice (iabs (p.permutation.getD left.toNat 0)) p.n > fs then count + 1 else count)
            + 1
        else (if slice (iabs (p.permutation.getD left.toNat 0)) p.n > fs then count + 1
          else count)) = count2
      obtain ⟨a1, a2⟩ := ih (left + 1) (right - 1) count2 (by omega)
      have hge : count ≤ count2 := by
        rw [← hc2]
        split <;> split <;> omega
      have heq : count2 = count ↔
          ¬ slice (iabs (p.permutation.getD left.toNat 0)) p.n > fs ∧
          ¬ slice (iabs (p.permutation.getD right.toNat 0)) p.n > fs := by
        rw [← hc2]
        split <;> split <;> constructor <;> intro h <;> first | omega | tauto
      refine ⟨by omega, ?_⟩
      constructor
      · intro h
        have h1 : count2 = count := by omega
        have h2 := a2.mp (by omega)
        have h3 := heq.mp h1
        intro d hd
        by_cases hd0 : d = 0
        · subst hd0
          simpa using h3
        · have := h2 (d - 1) (by omega)
          rw [show left + 1 + ((d - 1 : Nat) : Int) = left + (d : Int) by omega,
            show right - 1 - ((d - 1 : Nat) : Int) = right - (d : Int) by omega] at this
          exact this
      · intro h
        have h3 : count2 = count := heq.mpr (by simpa using h 0 (by simpa using hlt))
        have h2 := a2.mpr (by
          intro d hd
          have := h (d + 1) (by push_cast; omega)
          rw [show left + ((d + 1 : Nat) : Int) = left + 1 + (d : Int) by push_cast; omega,
            show right - ((d + 1 : Nat) : Int) = right - 1 - (d : Int) by push_cast; omega]
            at this
          exact this)
        omega
    · simp only [hlt, if_false]
      refine ⟨le_refl _, ?_⟩
      simp only [true_iff]
      intro d hd
      omega

/-- A loop whose body never decreases the counter ends at its initial value exactly when
every iteration leaves the counter as it is. -/
theorem foldl_counter_eq (g : Int → Nat → Int) (Q : Nat → Prop)
    (hg : ∀ (c : Int) (k : Nat), c ≤ g c k ∧ (g c k = c ↔ Q k)) :
    ∀ (l : List Nat) (c : Int), c ≤ l.foldl g c ∧ (l.foldl g c = c ↔ ∀ k ∈ l, Q k) := by
  intro l
  induction l with
  | nil => intro c; simp
  | cons k rest ih =>
    intro c
    rw [List.foldl_cons]
    obtain ⟨a1, a2⟩ := ih (g c k)
    obtain ⟨b1, b2⟩ := hg c k
    refine ⟨by omega, ?_⟩
    constructor
    · intro h
      have h1 : g c k = c := by omega
      intro x hx
      rcases List.mem_cons.mp hx with hx | hx
      · rw [hx]; exact b2.mp h1
      · exact a2.mp (by omega) x hx
    · intro h
      have h1 := b2.mpr (h k (List.mem_cons_self _ _))
      have h2 := a2.mpr (fun x hx => h x (List.mem_cons_of_mem _ hx))
      omega

/-- The number `sliceMisplacedCount` of slice-misplaced pairs is `0` exactly when no position
of a lower slice holds an element of a greater final slice. -/
theorem sliceMisplacedCount_eq_zero_iff (p : Permutation) (hn : 0 ≤ p.n) :
    p.sliceMisplacedCount = 0 ↔
      ∀ i z : Nat, 1 ≤ i → i ≤ p.n.toNat → 1 ≤ z → z ≤ p.n.toNat →
        slice (z : Int) p.n < slice (i : Int) p.n →
        slice (iabs (p.permutation.getD z 0)) p.n ≤ slice (iabs (p.permutation.getD i 0)) p.n := by
  unfold sliceMisplacedCount
  rw [(foldl_counter_eq _
    (fun k => ∀ d : Nat, 1 + (d : Int) < slice ((k : Int) + 1) p.n →
      ¬ slice (iabs (p.permutation.getD (1 + (d : Int)).toNat 0)) p.n
          > slice (iabs (p.permutation.getD ((k : Int) + 1).toNat 0)) p.n ∧
      ¬ slice (iabs (p.permutation.getD (p.n - (d : Int)).toNat 0)) p.n
          > slice (iabs (p.permutation.getD ((k : Int) + 1).toNat 0)) p.n)
    (fun c k => sliceMisplacedCount_inner_spec p _ _ _ 1 p.n c (by omega))
    (List.range p.n.toNat) 0).2]
  constructor
  · intro h i z i1 i2 z1 z2 hsl
    have hq := h (i - 1) (List.mem_range.mpr (by omega))
    rw [show (((i - 1 : Nat) : Int) + 1) = (i : Int) by omega, Int.toNat_ofNat] at hq
    by_cases hz : (z : Int) ≤ p.n + 1 - z
    · have := (hq (z - 1) (by unfold slice at hsl ⊢; omega)).1
      rw [show (1 + ((z - 1 : Nat) : Int)).toNat = z by omega] at this
      omega
    · have := (hq (p.n.toNat - z) (by unfold slice at hsl ⊢; omega)).2
      rw [show (p.n - ((p.n.toNat - z : Nat) : Int)).toNat = z by omega] at this
      omega
  · intro h k hk d hd
    rw [List.mem_range] at hk
    have hsl : slice ((k : Int) + 1) p.n ≤ p.n + 1 - slice ((k : Int) + 1) p.n := by
      unfold slice; omega
    constructor
    · have := h (k + 1) (1 + d) (by omega) (by omega) (by omega)
        (by unfold slice at hd; omega) (by
          push_cast
          have e : slice (1 + (d : Int)) p.n = 1 + (d : Int) := by
            unfold slice at hd ⊢; omega
          rw [e]; exact hd)
      rw [show (1 + (d : Int)).toNat = 1 + d by omega,
        show ((k : Int) + 1).toNat = k + 1 by omega]
      omega
    · have := h (k + 1) (p.n.toNat - d) (by omega) (by omega)
        (by unfold slice at hd; omega) (by omega) (by
          push_cast
          have e : slice ((p.n.toNat - d : Nat) : Int) p.n = 1 + (d : Int) := by
            unfold slice at hd ⊢; omega
          rw [e]; exact hd)
      rw [show (p.n - (d : Int)).toNat = p.n.toNat - d by omega,
        show ((k : Int) + 1).toNat = k + 1 by omega]
      omega

end Permutation
end SWILS

namespace SWILS
namespace Permutation

/-- Counting through the entries of a valid permutation: a set of positions is not larger
than a set that holds the absolute values of its entries. -/
theorem Valid.card_le {p : Permutation} (hv : p.Valid) (A B : Finset Nat)
    (hA : ∀ a ∈ A, 1 ≤ a ∧ a ≤ p.n.toNat)
    (hm : ∀ a ∈ A, (p.permutation.getD a 0).natAbs ∈ B) : A.card ≤ B.card := by
  apply Finset.card_le_card_of_injOn (fun a => (p.permutation.getD a 0).natAbs) hm
  intro a ha b hb hab
  have h1 := hA a (Finset.mem_coe.mp ha)
  have h2 := hA b (Finset.mem_coe.mp hb)
  exact hv.inj a b h1.1 h1.2 h2.1 h2.2 hab

/-- In a valid permutation where no position of a lower slice holds an element of a greater
final slice, every position holds an element of its own slice. -/
theorem slice_sorted_of_no_misplaced (p : Permutation) (hv : p.Valid)
    (H : ∀ i z : Nat, 1 ≤ i → i ≤ p.n.toNat → 1 ≤ z → z ≤ p.n.toNat →
      slice (z : Int) p.n < slice (i : Int) p.n →
      slice (iabs (p.permutation.getD z 0)) p.n ≤ slice (iabs (p.permutation.getD i 0)) p.n) :
    ∀ x : Nat, 1 ≤ x → x ≤ p.n.toNat →
      slice (iabs (p.permutation.getD x 0)) p.n = slice (x : Int) p.n := by
  have hn := hv.1
  intro x x1 x2
  have hqx := hv.fw x x1 x2
  -- the slice `s` of `x` and the final slice `t` of the element at `x`
  obtain ⟨s, hs⟩ : ∃ s : Nat, (s : Int) = slice (x : Int) p.n :=
    ⟨min x (p.n.toNat + 1 - x), by unfold slice; omega⟩
  obtain ⟨t, ht⟩ : ∃ t : Nat, (t : Int) = slice (iabs (p.permutation.getD x 0)) p.n :=
    ⟨min (p.permutation.getD x 0).natAbs (p.n.toNat + 1 - (p.permutation.getD x 0).natAbs),
      by unfold slice iabs; omega⟩
  have hs1 : 1 ≤ s ∧ s ≤ x ∧ s + x ≤ p.n.toNat + 1 ∧ (s = x ∨ s + x = p.n.toNat + 1) := by
    unfold slice at hs; omega
  have ht1 : 1 ≤ t ∧ t ≤ (p.permutation.getD x 0).natAbs ∧
      t + (p.permutation.getD x 0).natAbs ≤ p.n.toNat + 1 ∧
      (t = (p.permutation.getD x 0).natAbs ∨
        t + (p.permutation.getD x 0).natAbs = p.n.toNat + 1) := by
    unfold slice iabs at ht; omega
  -- what the hypothesis gives for a position `a` of a lower or of a greater slice
  have hlow : ∀ a : Nat, 1 ≤ a → a ≤ p.n.toNat → (a < s ∨ p.n.toNat + 1 < a + s) →
      (p.permutation.getD a 0).natAbs ≤ t ∨
        p.n.toNat + 1 ≤ (p.permutation.getD a 0).natAbs + t := by
    intro a a1 a2 ha
    have hqa := hv.fw a a1 a2
    have := H x a x1 x2 a1 a2 (by rw [← hs]; unfold slice; omega)
    rw [← ht] at this
    unfold slice iabs at this
    omega
  have hhigh : ∀ a : Nat, 1 ≤ a → a ≤ p.n.toNat → s < a → a + s < p.n.toNat + 1 →
      t ≤ (p.permutation.getD a 0).natAbs ∧
        (p.permutation.getD a 0).natAbs + t ≤ p.n.toNat + 1 := by
    intro a a1 a2 ha hb
    have hqa := hv.fw a a1 a2
    have := H a x a1 a2 x1 x2 (by rw [← hs]; unfold slice; omega)
    rw [← ht] at this
    unfold slice iabs at this
    omega
  rw [← hs, ← ht]
  apply le_antisymm
  · by_contra hc
    have hc2 : s < t := by omega
    have hcard := hv.card_le
      (Finset.Icc (s + 1) (p.n.toNat - s) ∪ {x})
      (Finset.Icc t (p.n.toNat + 1 - t))
      (by
        intro a ha
        simp only [Finset.mem_union, Finset.mem_Icc, Finset.mem_singleton] at ha
        omega)
      (by
        intro a ha
        simp only [Finset.mem_union, Finset.mem_Icc, Finset.mem_singleton] at ha
        simp only [Finset.mem_Icc]
        rcases ha with ha | ha
        · have := hhigh a (by omega) (by omega) (by omega) (by omega)
          omega
        · rw [ha]
          omega)
    rw [Finset.card_union_of_disjoint (by
        rw [Finset.disjoint_left]
        intro a ha hb
        simp only [Finset.mem_Icc, Finset.mem_singleton] at ha hb
        omega), Nat.card_Icc, Nat.card_Icc, Finset.card_singleton] at hcard
    omega
  · by_contra hc
    have hc2 : t < s := by omega
    have hcard := hv.card_le
      ((Finset.Icc 1 (s - 1) ∪ Finset.Icc (p.n.toNat + 2 - s) p.n.toNat) ∪ {x})
      (Finset.Icc 1 t ∪ Finset.Icc (p.n.toNat + 1 - t) p.n.toNat)
      (by
        intro a ha
        simp only [Finset.mem_union, Finset.mem_Icc, Finset.mem_singleton] at ha
        omega)
      (by
        intro a ha
        simp only [Finset.mem_union, Finset.mem_Icc, Finset.mem_singleton] at ha
        simp only [Finset.mem_union, Finset.mem_Icc]
        rcases ha with (ha | ha) | ha
        · have hqa := hv.fw a (by omega) (by omega)
          have := hlow a (by omega) (by omega) (by omega)
          omega
        · have hqa := hv.fw a (by omega) (by omega)
          have := hlow a (by omega) (by omega) (by omega)
          omega
        · rw [ha]
          omega)
    have hB := Finset.card_union_le (Finset.Icc 1 t) (Finset.Icc (p.n.toNat + 1 - t) p.n.toNat)
    rw [Finset.card_union_of_disjoint (by
        rw [Finset.disjoint_left]
        intro a ha hb
        simp only [Finset.mem_union, Finset.mem_Icc, Finset.mem_singleton] at ha hb
        omega),
      Finset.card_union_of_disjoint (by
        rw [Finset.disjoint_left]
        intro a ha hb
        simp only [Finset.mem_Icc] at ha hb
        omega),
      Nat.card_Icc, Nat.card_Icc, Finset.card_singleton] at hcard
    rw [Nat.card_Icc, Nat.card_Icc] at hB
    omega

/-- The inner loop of `sliceMisplacedCount` reads the absolute values of the entries only. -/
theorem sliceMisplacedCount_inner_congr (p p2 : Permutation) (hn : p2.n = p.n)
    (ha : ∀ k : Nat, iabs (p2.permutation.getD k 0) = iabs (p.permutation.getD k 0))
    (fs ls : Int) : ∀ (fuel : Nat) (left right count : Int),
      sliceMisplacedCount_inner p2 fs ls fuel left right count
        = sliceMisplacedCount_inner p fs ls fuel left right count := by
  intro fuel
  induction fuel with
  | zero => intro left right count; rfl
  | succ fuel ih =>
    intro left right count
    simp only [sliceMisplacedCount_inner, ha, hn, ih]

/-- The number of slice-misplaced pairs vanishes exactly when the permutation is
slice-sorted: for every valid permutation it is `0` if and only if every element `e` of
`1..n` satisfies `currentElementSlice(e) = finalElementSlice(e)`; it is never negative; and
its value depends only on the size and on the absolute values of the entries. -/
theorem sliceMisplacedCount_zero_iff_sorted (p : Permutation) (hv : p.Valid) :
    (p.sliceMisplacedCount = 0 ↔
      ∀ e : Int, 1 ≤ e → e ≤ p.n → p.currentElementSlice e = p.finalElementSlice e) ∧
    0 ≤ p.sliceMisplacedCount ∧
    (∀ p2 : Permutation, p2.n = p.n →
      (∀ k : Nat, iabs (p2.permutation.getD k 0) = iabs (p.permutation.getD k 0)) →
      p2.sliceMisplacedCount = p.sliceMisplacedCount) := by
  have hn := hv.1
  refine ⟨?_, ?_, ?_⟩
  · rw [sliceMisplacedCount_eq_zero_iff p hn]
    constructor
    · intro H e e1 e2
      have hb := hv.bw e.toNat (by omega) (by omega)
      have hs := slice_sorted_of_no_misplaced p hv H (p.inverse.getD e.toNat 0).toNat
        (by omega) (by omega)
      unfold currentElementSlice finalElementSlice position
      rw [show e.natAbs = e.toNat by omega]
      have h1 : iabs (p.permutation.getD (p.inverse.getD e.toNat 0).toNat 0) = iabs e := by
        unfold iabs
        omega
      rw [h1, show (((p.inverse.getD e.toNat 0).toNat : Nat) : Int) = p.inverse.getD e.toNat 0
        by omega] at hs
      exact hs.symm
    · intro hsorted
      have hs : ∀ x : Nat, 1 ≤ x → x ≤ p.n.toNat →
          slice (iabs (p.permutation.getD x 0)) p.n = slice (x : Int) p.n := by
        intro x x1 x2
        have hf := hv.fw x x1 x2
        have := hsorted ((p.permutation.getD x 0).natAbs : Int) (by omega) (by omega)
        unfold currentElementSlice finalElementSlice position at this
        rw [Int.natAbs_ofNat, hf.2.2] at this
        unfold iabs at this ⊢
        rw [Int.natAbs_ofNat] at this
        exact this.symm
      intro i z i1 i2 z1 z2 hlt
      rw [hs i i1 i2, hs z z1 z2]
      omega
  · unfold sliceMisplacedCount
    exact (foldl_counter_eq _
      (fun k => ∀ d : Nat, 1 + (d : Int) < slice ((k : Int) + 1) p.n →
        ¬ slice (iabs (p.permutation.getD (1 + (d : Int)).toNat 0)) p.n
            > slice (iabs (p.permutation.getD ((k : Int) + 1).toNat 0)) p.n ∧
        ¬ slice (iabs (p.permutation.getD (p.n - (d : Int)).toNat 0)) p.n
            > slice (iabs (p.permutation.getD ((k : Int) + 1).toNat 0)) p.n)
      (fun c k => sliceMisplacedCount_inner_spec p _ _ _ 1 p.n c (by omega))
      (List.range p.n.toNat) 0).1
  · intro p2 h2 ha
    unfold sliceMisplacedCount
    rw [h2]
    congr 1
    funext count k
    simp only [ha, h2]
    exact sliceMisplacedCount_inner_congr p p2 h2 ha _ _ _ _ _ _

end Permutation
end SWILS

namespace SWILS

theorem lrState_bounds (pi : Permutation) (k : Int) : 0 ≤ lrState pi k ∧ lrState pi k ≤ 2 := by
  unfold lrState
  split
  · omega
  · split <;> omega

theorem lrState_zero (pi : Permutation) (k : Int) (h : pi.element_at k = k) :
    lrState pi k = 0 := by
  unfold lrState
  rw [if_pos h]

theorem lrState_pos (pi : Permutation) (k : Int) (h : pi.element_at k ≠ k) :
    1 ≤ lrState pi k := by
  unfold lrState
  rw [if_neg h]
  split <;> omega

theorem lrState_le_one (pi : Permutation) (k : Int)
    (h : pi.element_at k = k ∨ pi.element_at k = -k) : lrState pi k ≤ 1 := by
  unfold lrState
  by_cases h1 : pi.element_at k = k
  · rw [if_pos h1]; omega
  · rw [if_neg h1]
    have h2 : pi.element_at k = -k := by
      rcases h with h | h
      · exact absurd h h1
      · exact h
    rw [if_pos h2]

theorem lrState_two (pi : Permutation) (k : Int) (h1 : pi.element_at k ≠ k)
    (h2 : pi.element_at k ≠ -k) : lrState pi k = 2 := by
  unfold lrState
  rw [if_neg h1, if_neg h2]

theorem lrState_congr (pi pi2 : Permutation) (k : Int)
    (h : pi2.element_at k = pi.element_at k) : lrState pi2 k = lrState pi k := by
  unfold lrState
  rw [h]

/-- The position of the element whose absolute value stands at the position `k`. -/
theorem position_of_natAbs (pi : Permutation) (hv : pi.Valid) (k e : Int) (h1 : 1 ≤ k)
    (h2 : k ≤ pi.n) (h : pi.element_at k = e ∨ pi.element_at k = -e) : pi.position e = k := by
  have hf := hv.fw k.toNat (by omega) (by omega)
  unfold Permutation.position
  unfold Permutation.element_at at h
  have e1 : e.natAbs = (pi.permutation.getD k.toNat 0).natAbs := by
    rcases h with h | h
    · rw [h]
    · rw [h, Int.natAbs_neg]
  rw [e1, hf.2.2]
  omega

/-- When the positions before `r` and after `n + 1 - r` hold their elements, the elements of
the window `[r, n + 1 - r]` stand in the window. -/
theorem position_in_window (pi : Permutation) (hv : pi.Valid) (r : Int) (h1 : 1 ≤ r)
    (hW : ∀ k : Int, 1 ≤ k → k < r →
      pi.element_at k = k ∧ pi.element_at (pi.n + 1 - k) = pi.n + 1 - k)
    (e : Int) (he1 : r ≤ e) (he2 : e ≤ pi.n + 1 - r) :
    r ≤ pi.position e ∧ pi.position e ≤ pi.n + 1 - r := by
  obtain ⟨p1, p2, p3, _⟩ := Problem.position_spec pi e hv (by omega) (by omega)
  constructor
  · by_contra hc
    have := (hW (pi.position e) p1 (by omega)).1
    omega
  · by_contra hc
    have := (hW (pi.n + 1 - pi.position e) (by omega) (by omega)).2
    rw [show pi.n + 1 - (pi.n + 1 - pi.position e) = pi.position e by omega] at this
    omega

/-- The potential of a valid permutation that is not the identity, from the window of `lr`. -/
theorem lrPotential_eq (pi : Permutation) (hv : pi.Valid) (hid : pi.isIdentity = false) :
    ∃ r : Int, r = (lr_loop pi pi.size.toNat 1 pi.size).1 ∧
      (lr_loop pi pi.size.toNat 1 pi.size).2 = pi.n + 1 - r ∧ 1 ≤ r ∧ r ≤ pi.n + 1 - r ∧
      (∀ k : Int, 1 ≤ k → k < r →
        pi.element_at k = k ∧ pi.element_at (pi.n + 1 - k) = pi.n + 1 - k) ∧
      (pi.element_at r ≠ r ∨ pi.element_at (pi.n + 1 - r) ≠ pi.n + 1 - r) ∧
      lrPotential pi = lrState pi r +
        (if r < pi.n + 1 - r then lrState pi (pi.n + 1 - r) + 2 * (pi.n + 1 - r - r - 1)
          else 0) := by
  obtain ⟨s1, s2, s3, s4, s5⟩ := lr_scan pi hv hid
  refine ⟨_, rfl, s1, s2, s3, s4, s5, ?_⟩
  unfold lrPotential
  rw [hid]
  simp only [Bool.false_eq_true, if_false]
  rw [s1]
  split <;> omega

/-- Upper bound of the potential when the positions before `k` and after `n + 1 - k` hold
their elements. -/
theorem lrPotential_le (pi : Permutation) (hv : pi.Valid) (k : Int)
    (h2 : k ≤ pi.n + 1 - k)
    (hW : ∀ k2 : Int, 1 ≤ k2 → k2 < k →
      pi.element_at k2 = k2 ∧ pi.element_at (pi.n + 1 - k2) = pi.n + 1 - k2) :
    lrPotential pi ≤ lrState pi k +
      (if k < pi.n + 1 - k then lrState pi (pi.n + 1 - k) + 2 * (pi.n + 1 - k - k - 1)
        else 0) := by
  have b1 := lrState_bounds pi k
  have b2 := lrState_bounds pi (pi.n + 1 - k)
  cases hid : pi.isIdentity
  · obtain ⟨r, _, _, r1, r2, rW, rm, re⟩ := lrPotential_eq pi hv hid
    have hge : k ≤ r := by
      by_contra hc
      have := hW r r1 (by omega)
      rcases rm with h | h
      · exact h this.1
      · exact h this.2
    rw [re]
    by_cases hk : r = k
    · rw [hk]
    · have b3 := lrState_bounds pi r
      have b4 := lrState_bounds pi (pi.n + 1 - r)
      rw [if_pos (by omega : k < pi.n + 1 - k)]
      split <;> omega
  · unfold lrPotential
    rw [hid, if_pos rfl]
    split <;> omega

/-- The potential of a valid permutation that is not the identity is positive, and at least
`2` without signs. -/
theorem lrPotential_pos (pi : Permutation) (hv : pi.Valid) (hid : pi.isIdentity = false) :
    (if pi.sign then (1 : Int) else 2) ≤ lrPotential pi := by
  obtain ⟨r, _, _, r1, r2, rW, rm, re⟩ := lrPotential_eq pi hv hid
  have b1 := lrState_bounds pi r
  have b2 := lrState_bounds pi (pi.n + 1 - r)
  have hst : ∀ k : Int, 1 ≤ k → k ≤ pi.n → pi.element_at k ≠ k →
      (if pi.sign then (1 : Int) else 2) ≤ lrState pi k := by
    intro k k1 k2 hk
    cases hs : pi.sign
    · simp only [Bool.false_eq_true, if_false]
      have := hv.pos hs k.toNat (by omega) (by omega)
      rw [lrState_two pi k hk (by unfold Permutation.element_at; omega)]
    · simp only [if_true]
      exact lrState_pos pi k hk
  rw [re]
  by_cases hrl : r < pi.n + 1 - r
  · rw [if_pos hrl]
    rcases rm with h | h
    · have := hst r r1 (by omega) h
      omega
    · have := hst (pi.n + 1 - r) (by omega) (by omega) h
      omega
  · rw [if_neg hrl]
    have hrr : pi.n + 1 - r = r := by omega
    rw [hrr] at rm
    have := hst r r1 (by omega) (by rcases rm with h | h <;> exact h)
    omega

/-- An inversion inside the window that lowers the states of the two positions of the window
by `d` lowers the potential by `d`. -/
theorem lrPotential_step (pi : Permutation) (hv : pi.Valid) (r i j w d : Int) (h1 : 1 ≤ r)
    (h2 : r ≤ pi.n + 1 - r)
    (hW : ∀ k : Int, 1 ≤ k → k < r →
      pi.element_at k = k ∧ pi.element_at (pi.n + 1 - k) = pi.n + 1 - k)
    (hm : pi.element_at r ≠ r ∨ pi.element_at (pi.n + 1 - r) ≠ pi.n + 1 - r)
    (he : lrPotential pi = lrState pi r +
      (if r < pi.n + 1 - r then lrState pi (pi.n + 1 - r) + 2 * (pi.n + 1 - r - r - 1)
        else 0))
    (hi : r ≤ i) (hij : i ≤ j) (hj : j ≤ pi.n + 1 - r)
    (hA : lrState (pi.applyInversion i j) r +
        (if r < pi.n + 1 - r then lrState (pi.applyInversion i j) (pi.n + 1 - r) else 0) + d
      ≤ lrState pi r + (if r < pi.n + 1 - r then lrState pi (pi.n + 1 - r) else 0)) :
    (pi.applyInversion i j).Valid ∧
    lrPotential (pi.applyInversion i j) + d ≤ lrPotential pi ∧
    LRWindowStep pi (Inversion.mk i j w) := by
  have hv2 := Permutation.applyInversion_valid pi i j hv (by omega) hij (by omega)
  have hout : ∀ k : Int, 0 ≤ k → (k < r ∨ pi.n + 1 - r < k) →
      (pi.applyInversion i j).element_at k = pi.element_at k := by
    intro k k0 hk
    rw [Problem.element_at_applyInversion pi i j hv.2.1 (by omega) (by omega) k k0]
    rw [if_neg (by omega)]
  have hW2 : ∀ k : Int, 1 ≤ k → k < r →
      (pi.applyInversion i j).element_at k = k ∧
      (pi.applyInversion i j).element_at ((pi.applyInversion i j).n + 1 - k)
        = (pi.applyInversion i j).n + 1 - k := by
    intro k k1 k2
    rw [Permutation.applyInversion_n, hout k (by omega) (Or.inl k2),
      hout (pi.n + 1 - k) (by omega) (Or.inr (by omega))]
    exact hW k k1 k2
  have hle := lrPotential_le (pi.applyInversion i j) hv2 r
    (by rw [Permutation.applyInversion_n]; exact h2) hW2
  rw [Permutation.applyInversion_n] at hle
  refine ⟨hv2, ?_, ⟨r, pi.n + 1 - r, h1, h2, by omega, rfl, hW, hm, hi, hij, hj, hout⟩⟩
  rw [he]
  by_cases hrl : r < pi.n + 1 - r
  · rw [if_pos hrl] at hle hA ⊢
    rw [if_pos hrl] at hA
    omega
  · rw [if_neg hrl] at hle hA ⊢
    rw [if_neg hrl] at hA
    omega

end SWILS

namespace SWILS

/-- One move of `LR` on a valid permutation that is not the identity: the inversion is not
the sentinel, it is applied inside the window, the permutation stays valid and the potential
decreases by `1` at least, by `2` at least without signs. -/
theorem lr_step (pi : Permutation) (problem : Problem) (hv : pi.Valid)
    (hid : pi.isIdentity = false) :
    (lr pi problem).i ≠ 0 ∧
    (pi.applyInversion (lr pi problem).i (lr pi problem).j).Valid ∧
    lrPotential (pi.applyInversion (lr pi problem).i (lr pi problem).j)
        + (if pi.sign then 1 else 2) ≤ lrPotential pi ∧
    LRWindowStep pi (lr pi problem) := by
  obtain ⟨r, hr, hl, r1, r2, rW, rm, re⟩ := lrPotential_eq pi hv hid
  have hlen := hv.2.1
  have cR := Problem.inversionsToCorrectPosition_cost problem pi r hv r1 (by omega)
  have cL := Problem.inversionsToCorrectPosition_cost problem pi (pi.n + 1 - r) hv (by omega)
    (by omega)
  have hne : ¬ ((problem.inversionsToCorrectPosition r pi).1 = [] ∧
      (problem.inversionsToCorrectPosition (pi.n + 1 - r) pi).1 = []) := by
    rintro ⟨a, b⟩
    rcases rm with h | h
    · exact h (cR.2.1.mp a)
    · exact h (cL.2.1.mp b)
  obtain ⟨x, rest, hx, hch⟩ := lr_choice_aux _ _ cR.1 cL.1 hne
  have hlr : lr pi problem = x := by
    rw [lr_unfold, hl, ← hr]
    exact hch
  rw [hlr]
  -- the positions of the elements `r` and `l`
  obtain ⟨pr1, pr2, pr3, pr4, _⟩ := Problem.position_spec pi r hv r1 (by omega)
  obtain ⟨pl1, pl2, pl3, pl4, _⟩ := Problem.position_spec pi (pi.n + 1 - r) hv (by omega)
    (by omega)
  have wr := position_in_window pi hv r r1 rW r (le_refl _) r2
  have wl := position_in_window pi hv r r1 rW (pi.n + 1 - r) r2 (le_refl _)
  have bR := lrState_bounds pi r
  have bL := lrState_bounds pi (pi.n + 1 - r)
  -- the conclusion for an inversion `(i, j)` of the window that lowers the states
  have key : ∀ i j w : Int, x = Inversion.mk i j w → r ≤ i → i ≤ j → j ≤ pi.n + 1 - r →
      lrState (pi.applyInversion i j) r +
          (if r < pi.n + 1 - r then lrState (pi.applyInversion i j) (pi.n + 1 - r) else 0)
          + (if pi.sign then 1 else 2)
        ≤ lrState pi r + (if r < pi.n + 1 - r then lrState pi (pi.n + 1 - r) else 0) →
      x.i ≠ 0 ∧ (pi.applyInversion x.i x.j).Valid ∧
      lrPotential (pi.applyInversion x.i x.j) + (if pi.sign then 1 else 2) ≤ lrPotential pi ∧
      LRWindowStep pi x := by
    intro i j w e hi hij hj hA
    obtain ⟨a, b, c⟩ := lrPotential_step pi hv r i j w _ r1 r2 rW rm re hi hij hj hA
    rw [e]
    exact ⟨by simp only; omega, a, b, c⟩
  have app : ∀ i j k : Int, 1 ≤ i → j ≤ pi.n → 0 ≤ k →
      (pi.applyInversion i j).element_at k
        = if i ≤ k ∧ k ≤ j then
            (if pi.sign then - pi.element_at (i + j - k) else pi.element_at (i + j - k))
          else pi.element_at k :=
    fun i j k hi hj hk => Problem.element_at_applyInversion pi i j hlen hi hj k hk
  rcases lrChoice_mem (problem.inversionsToCorrectPosition r pi)
    (problem.inversionsToCorrectPosition (pi.n + 1 - r) pi) with hc | hc
  · -- the move comes from the sequence for the position `r`
    rw [hx, Problem.inversionsToCorrectPosition_eq] at hc
    by_cases c1 : pi.position r = r
    · rw [if_pos c1] at hc
      by_cases c2 : pi.sign = true ∧ pi.element_at (pi.position r) < 0
      · rw [if_pos c2] at hc
        have ex := (List.cons.inj hc).1
        rw [c1] at c2 pr3
        have er : pi.element_at r = -r := by omega
        apply key r r _ ex (le_refl _) (le_refl _) r2
        have e1 : (pi.applyInversion r r).element_at r = r := by
          rw [app r r r r1 (by omega) (by omega), if_pos ⟨le_refl _, le_refl _⟩, c2.1]
          simp only [if_true]
          rw [show r + r - r = r by omega, er]
          omega
        rw [lrState_zero _ r e1, c2.1]
        have := lrState_pos pi r (by omega)
        by_cases hrl : r < pi.n + 1 - r
        · rw [if_pos hrl, if_pos hrl]
          have e2 : (pi.applyInversion r r).element_at (pi.n + 1 - r)
              = pi.element_at (pi.n + 1 - r) := by
            rw [app r r _ r1 (by omega) (by omega), if_neg (by omega)]
          rw [lrState_congr _ _ _ e2]
          simp only [if_true]
          omega
        · rw [if_neg hrl, if_neg hrl]
          simp only [if_true]
          omega
      · rw [if_neg c2] at hc
        exact absurd hc (List.cons_ne_nil _ _)
    · rw [if_neg c1] at hc
      have ex : x = Inversion.mk (min r (pi.position r)) (max r (pi.position r))
          (problem.getInversionWeight (min r (pi.position r)) (max r (pi.position r))) := by
        by_cases c3 : pi.sign = true ∧ 0 < pi.element_at (pi.position r)
        · rw [if_pos c3] at hc
          exact (List.cons.inj hc).1
        · rw [if_neg c3] at hc
          exact (List.cons.inj hc).1
      have hrl : r < pi.n + 1 - r := by omega
      rw [show min r (pi.position r) = r by omega,
        show max r (pi.position r) = pi.position r by omega] at ex
      apply key r (pi.position r) _ ex (le_refl _) (by omega) wr.2
      rw [if_pos hrl, if_pos hrl]
      have s2 : lrState pi r = 2 := by
        apply lrState_two
        · intro h
          exact c1 (position_of_natAbs pi hv r r r1 (by omega) (Or.inl h))
        · intro h
          exact c1 (position_of_natAbs pi hv r r r1 (by omega) (Or.inr h))
      have e1 : (pi.applyInversion r (pi.position r)).element_at r
          = if pi.sign then - pi.element_at (pi.position r) else pi.element_at (pi.position r) := by
        rw [app r _ r r1 pr2 (by omega), if_pos ⟨le_refl _, by omega⟩,
          show r + pi.position r - r = pi.position r by omega]
      have hs1 : lrState (pi.applyInversion r (pi.position r)) r
          + (if pi.sign then 1 else 2) ≤ 2 := by
        cases hs : pi.sign
        · rw [hs] at e1
          simp only [Bool.false_eq_true, if_false] at e1 ⊢
          rw [lrState_zero _ r (by rw [e1]; exact pr4 hs)]
          omega
        · rw [hs] at e1
          simp only [if_true] at e1 ⊢
          have := lrState_le_one (pi.applyInversion r (pi.position r)) r (by rw [e1]; omega)
          omega
      have hs2 : lrState (pi.applyInversion r (pi.position r)) (pi.n + 1 - r)
          ≤ lrState pi (pi.n + 1 - r) := by
        by_cases hcl : pi.position r = pi.n + 1 - r
        · have : lrState pi (pi.n + 1 - r) = 2 := by
            apply lrState_two
            · rw [← hcl]; omega
            · rw [← hcl]; omega
          have := lrState_bounds (pi.applyInversion r (pi.position r)) (pi.n + 1 - r)
          omega
        · have e2 : (pi.applyInversion r (pi.position r)).element_at (pi.n + 1 - r)
              = pi.element_at (pi.n + 1 - r) := by
            rw [app r _ _ r1 pr2 (by omega), if_neg (by omega)]
          rw [lrState_congr _ _ _ e2]
      omega
  · -- the move comes from the sequence for the position `l = n + 1 - r`
    rw [hx, Problem.inversionsToCorrectPosition_eq] at hc
    by_cases c1 : pi.position (pi.n + 1 - r) = pi.n + 1 - r
    · rw [if_pos c1] at hc
      by_cases c2 : pi.sign = true ∧ pi.element_at (pi.position (pi.n + 1 - r)) < 0
      · rw [if_pos c2] at hc
        have ex := (List.cons.inj hc).1
        rw [c1] at c2 pl3
        have el : pi.element_at (pi.n + 1 - r) = -(pi.n + 1 - r) := by omega
        apply key (pi.n + 1 - r) (pi.n + 1 - r) _ ex r2 (le_refl _) (le_refl _)
        have e1 : (pi.applyInversion (pi.n + 1 - r) (pi.n + 1 - r)).element_at (pi.n + 1 - r)
            = pi.n + 1 - r := by
          rw [app _ _ _ (by omega) (by omega) (by omega), if_pos ⟨le_refl _, le_refl _⟩, c2.1]
          simp only [if_true]
          rw [show pi.n + 1 - r + (pi.n + 1 - r) - (pi.n + 1 - r) = pi.n + 1 - r by omega, el]
          omega
        rw [c2.1]
        simp only [if_true]
        have hp := lrState_pos pi (pi.n + 1 - r) (by omega)
        by_cases hrl : r < pi.n + 1 - r
        · rw [if_pos hrl, if_pos hrl, lrState_zero _ _ e1]
          have e2 : (pi.applyInversion (pi.n + 1 - r) (pi.n + 1 - r)).element_at r
              = pi.element_at r := by
            rw [app _ _ _ (by omega) (by omega) (by omega), if_neg (by omega)]
          rw [lrState_congr _ _ _ e2]
          omega
        · rw [if_neg hrl, if_neg hrl]
          have hrr : pi.n + 1 - r = r := by omega
          rw [hrr] at e1 hp ⊢
          rw [lrState_zero _ _ e1]
          omega
      · rw [if_neg c2] at hc
        exact absurd hc (List.cons_ne_nil _ _)
    · rw [if_neg c1] at hc
      have ex : x = Inversion.mk (min (pi.n + 1 - r) (pi.position (pi.n + 1 - r)))
          (max (pi.n + 1 - r) (pi.position (pi.n + 1 - r)))
          (problem.getInversionWeight (min (pi.n + 1 - r) (pi.position (pi.n + 1 - r)))
            (max (pi.n + 1 - r) (pi.position (pi.n + 1 - r)))) := by
        by_cases c3 : pi.sign = true ∧ 0 < pi.element_at (pi.position (pi.n + 1 - r))
        · rw [if_pos c3] at hc
          exact (List.cons.inj hc).1
        · rw [if_neg c3] at hc
          exact (List.cons.inj hc).1
      have hrl : r < pi.n + 1 - r := by omega
      rw [show min (pi.n + 1 - r) (pi.position (pi.n + 1 - r)) = pi.position (pi.n + 1 - r)
          by omega,
        show max (pi.n + 1 - r) (pi.position (pi.n + 1 - r)) = pi.n + 1 - r by omega] at ex
      apply key (pi.position (pi.n + 1 - r)) (pi.n + 1 - r) _ ex wl.1 (by omega) (le_refl _)
      rw [if_pos hrl, if_pos hrl]
      have s2 : lrState pi (pi.n + 1 - r) = 2 := by
        apply lrState_two
        · intro h
          exact c1 (position_of_natAbs pi hv _ _ (by omega) (by omega) (Or.inl h))
        · intro h
          exact c1 (position_of_natAbs pi hv _ _ (by omega) (by omega) (Or.inr h))
      have e1 : (pi.applyInversion (pi.position (pi.n + 1 - r)) (pi.n + 1 - r)).element_at
            (pi.n + 1 - r)
          = if pi.sign then - pi.element_at (pi.position (pi.n + 1 - r))
            else pi.element_at (pi.position (pi.n + 1 - r)) := by
        rw [app _ _ _ pl1 (by omega) (by omega), if_pos ⟨by omega, le_refl _⟩,
          show pi.position (pi.n + 1 - r) + (pi.n + 1 - r) - (pi.n + 1 - r)
            = pi.position (pi.n + 1 - r) by omega]
      have hs1 : lrState (pi.applyInversion (pi.position (pi.n + 1 - r)) (pi.n + 1 - r))
            (pi.n + 1 - r)
          + (if pi.sign then 1 else 2) ≤ 2 := by
        cases hs : pi.sign
        · rw [hs] at e1
          simp only [Bool.false_eq_true, if_false] at e1 ⊢
          rw [lrState_zero _ _ (by rw [e1]; exact pl4 hs)]
          omega
        · rw [hs] at e1
          simp only [if_true] at e1 ⊢
          have := lrState_le_one (pi.applyInversion (pi.position (pi.n + 1 - r)) (pi.n + 1 - r))
            (pi.n + 1 - r) (by rw [e1]; omega)
          omega
      have hs2 : lrState (pi.applyInversion (pi.position (pi.n + 1 - r)) (pi.n + 1 - r)) r
          ≤ lrState pi r := by
        by_cases hcl : pi.position (pi.n + 1 - r) = r
        · have : lrState pi r = 2 := by
            apply lrState_two
            · rw [← hcl]; omega
            · rw [← hcl]; omega
          have := lrState_bounds (pi.applyInversion (pi.position (pi.n + 1 - r)) (pi.n + 1 - r)) r
          omega
        · have e2 : (pi.applyInversion (pi.position (pi.n + 1 - r)) (pi.n + 1 - r)).element_at r
              = pi.element_at r := by
            rw [app _ _ _ pl1 (by omega) (by omega), if_neg (by omega)]
          rw [lrState_congr _ _ _ e2]
      omega

end SWILS

namespace SWILS

/-- The constructor `Permutation(intPi, N, S)` accepts no size above `16`: the decoded values
are in `1..16` and every value of `1..N` has to be found. -/
theorem Permutation.ofInt_size_le (x : Nat) (N : Int) (S : Bool) (pi : Permutation)
    (hN : 1 ≤ N) (h : Permutation.ofInt x N S = some pi) : N ≤ 16 := by
  rw [Permutation.ofInt_eq_decoded] at h
  by_cases hv : Permutation.validate N ((Permutation.decodedEntries x N S).map iabs) = true
  · have hm := (Permutation.validate_iff N _).mp hv (N.toNat - 1) (by omega)
    rw [List.mem_map] at hm
    obtain ⟨e, he, e2⟩ := hm
    unfold Permutation.decodedEntries at he
    rw [List.mem_map] at he
    obtain ⟨k, hk, e3⟩ := he
    rw [List.mem_range] at hk
    have hlen : N.toNat + 1 < (Permutation.newVector N).length := by
      rw [Permutation.newVector_length N (by omega)]
      omega
    have hb : ∀ a : Nat, ((a &&& 15 : Nat) : Int) ≤ 15 := by
      intro a
      have : a &&& 15 ≤ 15 := Nat.and_le_right
      omega
    have he16 : iabs e ≤ 16 := by
      rw [← e3]
      unfold Permutation.decoded
      cases S
      · simp only [Bool.false_eq_true, if_false]
        rw [Permutation.decodeUnsigned_eq_generic,
          decode_generic_getD _ _ (fun a => by
            show ((a &&& U_NUMBERS : Nat) : Int) + 1 ≠ 0
            have := hb a
            have : (0 : Int) ≤ ((a &&& U_NUMBERS : Nat) : Int) := Int.natCast_nonneg _
            omega) N.toNat x _ hlen (k + 1) (by omega) (by omega)]
        show iabs (((((x >>> (U_N_BITS * (N.toNat - (k + 1)))) &&& 15 : Nat)) : Int) + 1) ≤ 16
        have := hb (x >>> (U_N_BITS * (N.toNat - (k + 1))))
        unfold iabs
        omega
      · simp only [if_true]
        rw [Permutation.decodeSigned_eq_generic,
          decode_generic_getD _ _ (fun a => by
            show (if a &&& S_SIGN ≠ 0 then -(((a &&& S_NUMBERS : Nat) : Int) + 1)
              else ((a &&& S_NUMBERS : Nat) : Int) + 1) ≠ 0
            have : (0 : Int) ≤ ((a &&& S_NUMBERS : Nat) : Int) := Int.natCast_nonneg _
            split <;> omega) N.toNat x _ hlen (k + 1) (by omega) (by omega)]
        show iabs (if (x >>> (S_N_BITS * (N.toNat - (k + 1)))) &&& S_SIGN ≠ 0 then
            -((((x >>> (S_N_BITS * (N.toNat - (k + 1)))) &&& 15 : Nat) : Int) + 1)
          else (((x >>> (S_N_BITS * (N.toNat - (k + 1)))) &&& 15 : Nat) : Int) + 1) ≤ 16
        have := hb (x >>> (S_N_BITS * (N.toNat - (k + 1))))
        unfold iabs
        split <;> omega
    omega
  · rw [if_neg hv] at h
    exact absurd h (by simp)

namespace Heuristics

/-- The loop of the drivers with `LR`, started on a valid permutation whose potential allows
`m` moves within the limit, ends at the identity after at most `m` moves, each selected by
`lr` on a valid permutation that is not the identity and applied inside its window. -/
theorem sort_loop_lr_sorts (fm : FloatModel) (problem : Problem) (limit d : Int)
    (hlim : limit + 1 ≤ 32767) :
    ∀ (m fuel : Nat) (pi : Permutation) (weight tries : Int) (invs : List Inversion),
      pi.Valid → (if pi.sign then 1 else 2) = d → lrPotential pi ≤ d * (m : Int) →
      0 ≤ tries → tries + (m : Int) ≤ limit → m ≤ fuel →
      ∃ added : List Inversion,
        (sort_loop fm problem LR limit fuel pi weight tries invs).2.2 = invs ++ added ∧
        (sort_loop fm problem LR limit fuel pi weight tries invs).1 = applyAll pi added ∧
        (sort_loop fm problem LR limit fuel pi weight tries invs).1.isIdentity = true ∧
        added.length ≤ m ∧
        ∀ (l1 : List Inversion) (x : Inversion) (l2 : List Inversion),
          added = l1 ++ x :: l2 →
          x.i ≠ 0 ∧ x = lr (applyAll pi l1) problem ∧ LRWindowStep (applyAll pi l1) x := by
  have hidn : ∀ (fuel : Nat) (pi : Permutation) (weight tries : Int) (invs : List Inversion),
      pi.isIdentity = true →
      sort_loop fm problem LR limit fuel pi weight tries invs = (pi, weight, invs) := by
    intro fuel pi weight tries invs hid
    cases fuel with
    | zero => rfl
    | succ f => simp only [sort_loop, hid, Bool.not_true, Bool.false_eq_true, if_false]
  have hdone : ∀ (m fuel : Nat) (pi : Permutation) (weight tries : Int)
      (invs : List Inversion), pi.isIdentity = true →
      ∃ added : List Inversion,
        (sort_loop fm problem LR limit fuel pi weight tries invs).2.2 = invs ++ added ∧
        (sort_loop fm problem LR limit fuel pi weight tries invs).1 = applyAll pi added ∧
        (sort_loop fm problem LR limit fuel pi weight tries invs).1.isIdentity = true ∧
        added.length ≤ m ∧
        ∀ (l1 : List Inversion) (x : Inversion) (l2 : List Inversion),
          added = l1 ++ x :: l2 →
          x.i ≠ 0 ∧ x = lr (applyAll pi l1) problem ∧ LRWindowStep (applyAll pi l1) x := by
    intro m fuel pi weight tries invs hid
    rw [hidn fuel pi weight tries invs hid]
    refine ⟨[], by simp, rfl, hid, Nat.zero_le _, ?_⟩
    intro l1 x l2 e
    exact absurd e (by simp)
  intro m
  induction m with
  | zero =>
    intro fuel pi weight tries invs hv hd hpot _ _ _
    cases hid : pi.isIdentity
    · exfalso
      have := lrPotential_pos pi hv hid
      rw [hd] at this
      have hd2 : d = 1 ∨ d = 2 := by
        rw [← hd]; split <;> simp
      simp only [Nat.cast_zero, mul_zero] at hpot
      omega
    · exact hdone 0 fuel pi weight tries invs hid
  | succ m ih =>
    intro fuel pi weight tries invs hv hd hpot ht0 ht hf
    cases hid : pi.isIdentity
    · obtain ⟨f, rfl⟩ : ∃ f, fuel = f + 1 := ⟨fuel - 1, by omega⟩
      obtain ⟨s1, s2, s3, s4⟩ := lr_step pi problem hv hid
      have hw : wrap16 (tries + 1) = tries + 1 := wrap16_eq _ (by omega) (by omega)
      have hpot2 : lrPotential (pi.applyInversion (lr pi problem).i (lr pi problem).j)
          ≤ d * (m : Int) := by
        rw [hd] at s3
        have e : d * ((m + 1 : Nat) : Int) = d * (m : Int) + d := by push_cast; ring
        rw [e] at hpot
        omega
      obtain ⟨added, a1, a2, a3, a4, a5⟩ := ih f
        (pi.applyInversion (lr pi problem).i (lr pi problem).j)
        (wrap16 (weight + (lr pi problem).w)) (tries + 1) (invs ++ [lr pi problem]) s2
        (by rw [Permutation.applyInversion_sign]; exact hd) hpot2 (by omega)
        (by push_cast at ht; omega) (by omega)
      have hloop : sort_loop fm problem LR limit (f + 1) pi weight tries invs
          = sort_loop fm problem LR limit f
              (pi.applyInversion (lr pi problem).i (lr pi problem).j)
              (wrap16 (weight + (lr pi problem).w)) (tries + 1) (invs ++ [lr pi problem]) := by
        simp only [sort_loop, hid, Bool.not_false, if_true, selectInversion_LR, hw]
        rw [if_pos s1, if_neg (by push_cast at ht; omega)]
      rw [hloop]
      refine ⟨lr pi problem :: added, by rw [a1]; simp, by rw [a2]; rfl, a3,
        by simp only [List.length_cons]; omega, ?_⟩
      intro l1 x l2 e
      cases l1 with
      | nil =>
        simp only [List.nil_append, List.cons.injEq] at e
        rw [← e.1]
        exact ⟨s1, rfl, s4⟩
      | cons y l1b =>
        simp only [List.cons_append, List.cons.injEq] at e
        have := a5 l1b x l2 e.2
        rw [← e.1]
        exact this
    · exact hdone (m + 1) fuel pi weight tries invs hid

/-- C34. `LR` always sorts: for every permutation that the constructor
`Permutation(intPi, n, sign)` accepts with `n ≥ 1`, signed or unsigned, and the problem
`SWI_LS` of its size and sign, the sort drivers with `LR` never return `-1`: the loop reaches
the identity after at most `2 n` applied inversions, at most `n` without signs; the returned
weight is the sum of the weights; and every inversion of the run is the move of `lr` on the
current permutation and is applied inside its window `[r, l]`, so that no position outside
of the window changes. -/
theorem lr_always_sorts (fm : FloatModel) (intPi : Nat) (n : Int) (sign : Bool)
    (problem : Problem) (pi : Permutation) (hn : 1 ≤ n)
    (hp : Problem.create SWI_LS n sign = some problem)
    (h : Permutation.ofInt intPi n sign = some pi) :
    (∃ w : Int, sort fm intPi n sign problem LR = some w ∧ w ≠ -1 ∧ 0 ≤ w ∧
      w = weightSum (sort_permutation fm pi problem LR).1) ∧
    (sort_permutation fm pi problem LR).2 ≠ -1 ∧
    (applyAll pi (sort_permutation fm pi problem LR).1).isIdentity = true ∧
    ((sort_permutation fm pi problem LR).1.length : Int) ≤ 2 * n ∧
    (sign = false → ((sort_permutation fm pi problem LR).1.length : Int) ≤ n) ∧
    (∀ (l1 : List Inversion) (x : Inversion) (l2 : List Inversion),
      (sort_permutation fm pi problem LR).1 = l1 ++ x :: l2 →
      x.i ≠ 0 ∧ x = lr (applyAll pi l1) problem ∧ LRWindowStep (applyAll pi l1) x) := by
  obtain ⟨hv, hpn, hps⟩ := Permutation.ofInt_valid intPi n sign pi (by omega) h
  have h16 := Permutation.ofInt_size_le intPi n sign pi hn h
  obtain ⟨pn, _, pinv⟩ := Problem.create_eq _ _ _ _ hp
  have hlist : ∀ r ∈ problem.inversions, r.InRange n := by
    intro r hr
    rw [pinv] at hr
    exact Problem.mem_swi_ls _ _ r hr
  obtain ⟨l1, l2, l3⟩ := limit_bounds n (by omega) h16
  -- the potential of the input is at most `2 n`
  have hpot : lrPotential pi ≤ 2 * n := by
    have := lrPotential_le pi hv 1 (by omega) (fun k2 a b => by omega)
    have b1 := lrState_bounds pi 1
    have b2 := lrState_bounds pi (pi.n + 1 - 1)
    rw [hpn] at this b2
    by_cases hc : (1 : Int) < n + 1 - 1
    · rw [if_pos hc] at this
      omega
    · rw [if_neg hc] at this
      omega
  have hrun : ∃ m : Nat, (m : Int) ≤ 2 * n ∧ (sign = false → (m : Int) ≤ n) ∧
      lrPotential pi ≤ (if pi.sign then 1 else 2) * (m : Int) := by
    rw [hps]
    cases sign
    · refine ⟨n.toNat, by omega, fun _ => by omega, ?_⟩
      simp only [Bool.false_eq_true, if_false]
      omega
    · refine ⟨(2 * n).toNat, by omega, fun hc => absurd hc (by simp), ?_⟩
      simp only [if_true]
      omega
  obtain ⟨m, m1, m2, m3⟩ := hrun
  obtain ⟨added, a1, a2, a3, a4, a5⟩ := sort_loop_lr_sorts fm problem (n * 15) _ l2 m
    (sort_fuel (n * 15)) pi 0 0 [] hv rfl m3 (le_refl _) (by omega)
    (by unfold sort_fuel; omega)
  have hspec := sort_loop_spec fm problem LR (n * 15) n pn hlist l2 l3
    (sort_fuel (n * 15)) pi 0 0 [] hv hpn (le_refl _) (by omega) (le_refl _) (by simp)
  have hsp : sort_permutation fm pi problem LR
      = ((sort_loop fm problem LR (n * 15) (sort_fuel (n * 15)) pi 0 0 []).2.2,
          (sort_loop fm problem LR (n * 15) (sort_fuel (n * 15)) pi 0 0 []).2.1) := by
    unfold sort_permutation
    simp only [Permutation.copy_eq pi hv, Permutation.size, hpn, l1, a3, Bool.not_true,
      Bool.false_eq_true, if_false]
  have hso : sort fm intPi n sign problem LR
      = some (sort_loop fm problem LR (n * 15) (sort_fuel (n * 15)) pi 0 0 []).2.1 := by
    rw [sort_eq_list]
    simp only [h, l1, a3, if_true]
  rw [hsp, hso]
  simp only [List.nil_append] at a1
  rcases hspec with hbad | ⟨added2, c1, c2, _, _, c5⟩
  · rw [a3] at hbad
    exact absurd hbad (by simp)
  · simp only [List.nil_append] at c1
    have hw : (sort_loop fm problem LR (n * 15) (sort_fuel (n * 15)) pi 0 0 []).2.1
        = weightSum (sort_loop fm problem LR (n * 15) (sort_fuel (n * 15)) pi 0 0 []).2.2 := by
      rw [c5, c1]; simp
    have hnn : 0 ≤ (sort_loop fm problem LR (n * 15) (sort_fuel (n * 15)) pi 0 0 []).2.1 := by
      rw [c5]
      have := weightSum_nonneg n added2 c2
      omega
    refine ⟨⟨_, rfl, by omega, hnn, hw⟩, by simp only; omega, ?_, ?_, ?_, ?_⟩
    · simp only
      rw [a1, ← a2]
      exact a3
    · simp only
      rw [a1]
      omega
    · intro hs
      simp only
      rw [a1]
      have := m2 hs
      omega
    · intro l1 x l2 e
      simp only at e
      rw [a1] at e
      exact a5 l1 x l2 e

/-- Witness of C34: the code `0x1032` of the unsigned permutation `2, 1, 4, 3`. -/
theorem lr_always_sorts_witness :
    (∃ w : Int, sort exactFloat 0x1032 4 false (Problem.mk 4 false (Problem.swi_ls 4 false)) LR
        = some w ∧ w ≠ -1 ∧ 0 ≤ w ∧
      w = weightSum (sort_permutation exactFloat
        (Permutation.mk 4 [0, 2, 1, 4, 3, 5] [0, 2, 1, 4, 3, 5] false)
        (Problem.mk 4 false (Problem.swi_ls 4 false)) LR).1) ∧
    (sort_permutation exactFloat (Permutation.mk 4 [0, 2, 1, 4, 3, 5] [0, 2, 1, 4, 3, 5] false)
      (Problem.mk 4 false (Problem.swi_ls 4 false)) LR).2 ≠ -1 ∧
    (applyAll (Permutation.mk 4 [0, 2, 1, 4, 3, 5] [0, 2, 1, 4, 3, 5] false)
      (sort_permutation exactFloat (Permutation.mk 4 [0, 2, 1, 4, 3, 5] [0, 2, 1, 4, 3, 5] false)
        (Problem.mk 4 false (Problem.swi_ls 4 false)) LR).1).isIdentity = true ∧
    ((sort_permutation exactFloat (Permutation.mk 4 [0, 2, 1, 4, 3, 5] [0, 2, 1, 4, 3, 5] false)
      (Problem.mk 4 false (Problem.swi_ls 4 false)) LR).1.length : Int) ≤ 2 * 4 ∧
    (false = false →
      ((sort_permutation exactFloat
        (Permutation.mk 4 [0, 2, 1, 4, 3, 5] [0, 2, 1, 4, 3, 5] false)
        (Problem.mk 4 false (Problem.swi_ls 4 false)) LR).1.length : Int) ≤ 4) ∧
    (∀ (l1 : List Inversion) (x : Inversion) (l2 : List Inversion),
      (sort_permutation exactFloat (Permutation.mk 4 [0, 2, 1, 4, 3, 5] [0, 2, 1, 4, 3, 5] false)
        (Problem.mk 4 false (Problem.swi_ls 4 false)) LR).1 = l1 ++ x :: l2 →
      x.i ≠ 0 ∧
      x = lr (applyAll (Permutation.mk 4 [0, 2, 1, 4, 3, 5] [0, 2, 1, 4, 3, 5] false) l1)
        (Problem.mk 4 false (Problem.swi_ls 4 false)) ∧
      LRWindowStep (applyAll (Permutation.mk 4 [0, 2, 1, 4, 3, 5] [0, 2, 1, 4, 3, 5] false) l1)
        x) :=
  lr_always_sorts exactFloat 0x1032 4 false (Problem.mk 4 false (Problem.swi_ls 4 false))
    (Permutation.mk 4 [0, 2, 1, 4, 3, 5] [0, 2, 1, 4, 3, 5] false) (by decide) (by rfl)
    (by decide)

end Heuristics
end SWILS

namespace SWILS
namespace Heuristics

/-- C5. Weight reported by the driver
`Heuristics::sort(permutation, problem, heuristic, weight)` on a valid permutation of any size
of the 16-bit range, with the problem `SWI_LS` of the same size and sign, any `float`
arithmetic and any heuristic identifier: if the final `weight` is not `-1` then every returned
inversion has `w = getInversionWeight(i, j)` and applying the returned inversions in order to
the permutation yields the identity, but `weight` is the sum of the `w` fields of the returned
inversions reduced to the 16-bit range.  It is the sum itself when the sum is at most `32767`,
in particular for every permutation of size at most 16; a greater sum is reported as a
different number. -/
theorem sort_permutation_weight_wraps (fm : FloatModel) (P : Permutation) (problem : Problem)
    (heuristic : Int) (hv : P.Valid) (hsz : P.n < 32767)
    (hp : Problem.create SWI_LS P.n P.sign = some problem)
    (hw : (sort_permutation fm P problem heuristic).2 ≠ -1) :
    (sort_permutation fm P problem heuristic).2
      = wrap16 (weightSum (sort_permutation fm P problem heuristic).1) ∧
    (weightSum (sort_permutation fm P problem heuristic).1 ≤ 32767 →
      (sort_permutation fm P problem heuristic).2
        = weightSum (sort_permutation fm P problem heuristic).1) ∧
    (32767 < weightSum (sort_permutation fm P problem heuristic).1 →
      (sort_permutation fm P problem heuristic).2
        ≠ weightSum (sort_permutation fm P problem heuristic).1) ∧
    (P.n ≤ 16 →
      (sort_permutation fm P problem heuristic).2
        = weightSum (sort_permutation fm P problem heuristic).1) ∧
    (∀ r ∈ (sort_permutation fm P problem heuristic).1,
      r.w = problem.getInversionWeight r.i r.j) ∧
    (applyAll P (sort_permutation fm P problem heuristic).1).isIdentity = true := by
  obtain ⟨pn, _, pinv⟩ := Problem.create_eq _ _ _ _ hp
  have hlist : ∀ r ∈ problem.inversions, r.InRange P.n := by
    intro r hr
    rw [pinv] at hr
    exact Problem.mem_swi_ls _ _ r hr
  obtain ⟨l1, _⟩ := limit_range P.n hv.1 (by omega)
  have hspec := sort_loop_spec_wrap fm problem heuristic (wrap16 (P.n * LIMIT_MULTIPLIER)) P.n
    pn hlist l1 (sort_fuel (wrap16 (P.n * LIMIT_MULTIPLIER))) P 0 0 [] hv rfl (le_refl _)
    (by omega) (by decide)
  have hsmall := fun h16 => sort_permutation_exact_small fm P problem heuristic hv h16 hp hw
  have key : (sort_permutation fm P problem heuristic).2
        = wrap16 (weightSum (sort_permutation fm P problem heuristic).1) ∧
      0 ≤ weightSum (sort_permutation fm P problem heuristic).1 ∧
      (∀ r ∈ (sort_permutation fm P problem heuristic).1,
        r.w = problem.getInversionWeight r.i r.j) ∧
      (applyAll P (sort_permutation fm P problem heuristic).1).isIdentity = true := by
    unfold sort_permutation at hw ⊢
    simp only [Permutation.copy_eq P hv, Permutation.size] at hw ⊢
    generalize sort_loop fm problem heuristic (wrap16 (P.n * LIMIT_MULTIPLIER))
      (sort_fuel (wrap16 (P.n * LIMIT_MULTIPLIER))) P 0 0 [] = r at hspec hw ⊢
    cases hid : r.1.isIdentity
    · simp [hid] at hw
    · rcases hspec with h | ⟨added, a1, a2, a3, _, a5⟩
      · rw [hid] at h; exact absurd h (by simp)
      · simp only [hid, Bool.not_true, Bool.false_eq_true, if_false]
        simp only [List.nil_append] at a1
        rw [a1]
        refine ⟨by rw [a5]; simp, weightSum_nonneg P.n added a2, ?_, ?_⟩
        · intro x hx
          rw [(a2 x hx).2.2.2]
          simp only [Problem.getInversionWeight, pn]
        · rw [← a3]; exact hid
  obtain ⟨k1, k2, k3, k4⟩ := key
  refine ⟨k1, ?_, ?_, fun h16 => (hsmall h16).1, k3, k4⟩
  · intro hle
    rw [k1]
    exact wrap16_eq _ (by omega) hle
  · intro hgt heq
    have hb : wrap16 (weightSum (sort_permutation fm P problem heuristic).1) ≤ 32767 := by
      unfold wrap16
      omega
    omega

/-- Witness of C5: the unsigned permutation `2, 1, 4, 3` sorted by `LR`. -/
theorem sort_permutation_weight_wraps_witness :
    (sort_permutation exactFloat (Permutation.mk 4 [0, 2, 1, 4, 3, 5] [0, 2, 1, 4, 3, 5] false) (Problem.mk 4 false (Problem.swi_ls 4 false)) LR).2
      = wrap16 (weightSum (sort_permutation exactFloat (Permutation.mk 4 [0, 2, 1, 4, 3, 5] [0, 2, 1, 4, 3, 5] false) (Problem.mk 4 false (Problem.swi_ls 4 false)) LR).1) ∧
    (weightSum (sort_permutation exactFloat (Permutation.mk 4 [0, 2, 1, 4, 3, 5] [0, 2, 1, 4, 3, 5] false) (Problem.mk 4 false (Problem.swi_ls 4 false)) LR).1 ≤ 32767 →
      (sort_permutation exactFloat (Permutation.mk 4 [0, 2, 1, 4, 3, 5] [0, 2, 1, 4, 3, 5] false) (Problem.mk 4 false (Problem.swi_ls 4 false)) LR).2
        = weightSum (sort_permutation exactFloat (Permutation.mk 4 [0, 2, 1, 4, 3, 5] [0, 2, 1, 4, 3, 5] false) (Problem.mk 4 false (Problem.swi_ls 4 false)) LR).1) ∧
    (32767 < weightSum (sort_permutation exactFloat (Permutation.mk 4 [0, 2, 1, 4, 3, 5] [0, 2, 1, 4, 3, 5] false) (Problem.mk 4 false (Problem.swi_ls 4 false)) LR).1 →
      (sort_permutation exactFloat (Permutation.mk 4 [0, 2, 1, 4, 3, 5] [0, 2, 1, 4, 3, 5] false) (Problem.mk 4 false (Problem.swi_ls 4 false)) LR).2
        ≠ weightSum (sort_permutation exactFloat (Permutation.mk 4 [0, 2, 1, 4, 3, 5] [0, 2, 1, 4, 3, 5] false) (Problem.mk 4 false (Problem.swi_ls 4 false)) LR).1) ∧
    ((4 : Int) ≤ 16 →
      (sort_permutation exactFloat (Permutation.mk 4 [0, 2, 1, 4, 3, 5] [0, 2, 1, 4, 3, 5] false) (Problem.mk 4 false (Problem.swi_ls 4 false)) LR).2
        = weightSum (sort_permutation exactFloat (Permutation.mk 4 [0, 2, 1, 4, 3, 5] [0, 2, 1, 4, 3, 5] false) (Problem.mk 4 false (Problem.swi_ls 4 false)) LR).1) ∧
    (∀ r ∈ (sort_permutation exactFloat (Permutation.mk 4 [0, 2, 1, 4, 3, 5] [0, 2, 1, 4, 3, 5] false) (Problem.mk 4 false (Problem.swi_ls 4 false)) LR).1,
      r.w = (Problem.mk 4 false (Problem.swi_ls 4 false)).getInversionWeight r.i r.j) ∧
    (applyAll (Permutation.mk 4 [0, 2, 1, 4, 3, 5] [0, 2, 1, 4, 3, 5] false) (sort_permutation exactFloat (Permutation.mk 4 [0, 2, 1, 4, 3, 5] [0, 2, 1, 4, 3, 5] false) (Problem.mk 4 false (Problem.swi_ls 4 false)) LR).1).isIdentity = true :=
  sort_permutation_weight_wraps exactFloat (Permutation.mk 4 [0, 2, 1, 4, 3, 5] [0, 2, 1, 4, 3, 5] false)
    (Problem.mk 4 false (Problem.swi_ls 4 false)) LR (by decide) (by decide) (by decide) (by decide)

end Heuristics
end SWILS

namespace SWILS
namespace Permutation

/-- The inner loop of `sliceMisplacedPairs()` holds the count of the loop with an unbounded
counter, reduced to the 16-bit range. -/
theorem sliceMisplacedPairs_inner_wrap (p : Permutation) (fs ls : Int) :
    ∀ (fuel : Nat) (left right count : Int),
      sliceMisplacedPairs_inner p fs ls fuel left right (wrap16 count)
        = wrap16 (sliceMisplacedCount_inner p fs ls fuel left right count) := by
  intro fuel
  induction fuel with
  | zero => intro left right count; rfl
  | succ fuel ih =>
    intro left right count
    simp only [sliceMisplacedPairs_inner, sliceMisplacedCount_inner]
    by_cases hlt : left < ls
    · simp only [hlt, if_true]
      rw [← ih]
      congr 1
      split <;> split <;> simp only [wrap16_add_left, wrap16_idem]
    · simp only [hlt, if_false]

/-- The method `sliceMisplacedPairs()` returns the number of slice-misplaced pairs reduced to
the 16-bit range. -/
theorem sliceMisplacedPairs_eq_wrap16 (p : Permutation) :
    p.sliceMisplacedPairs = wrap16 p.sliceMisplacedCount := by
  unfold sliceMisplacedPairs sliceMisplacedCount
  have h : ∀ (l : List Nat) (c : Int),
      l.foldl (fun (count : Int) (k : Nat) =>
          sliceMisplacedPairs_inner p (slice (iabs (p.permutation.getD ((k : Int) + 1).toNat 0)) p.n)
            (slice ((k : Int) + 1) p.n) (slice ((k : Int) + 1) p.n).toNat 1 p.n count) (wrap16 c)
        = wrap16 (l.foldl (fun (count : Int) (k : Nat) =>
          sliceMisplacedCount_inner p (slice (iabs (p.permutation.getD ((k : Int) + 1).toNat 0)) p.n)
            (slice ((k : Int) + 1) p.n) (slice ((k : Int) + 1) p.n).toNat 1 p.n count) c) := by
    intro l
    induction l with
    | nil => intro c; rfl
    | cons k rest ih =>
      intro c
      simp only [List.foldl_cons]
      rw [sliceMisplacedPairs_inner_wrap, ih]
  exact h (List.range p.n.toNat) 0

/-- The inner loop with an unbounded counter adds at most two per iteration. -/
theorem sliceMisplacedCount_inner_le (p : Permutation) (fs ls : Int) :
    ∀ (fuel : Nat) (left right count : Int),
      sliceMisplacedCount_inner p fs ls fuel left right count
        ≤ count + 2 * ((ls - left).toNat : Int) := by
  intro fuel
  induction fuel with
  | zero => intro left right count; simp only [sliceMisplacedCount_inner]; omega
  | succ fuel ih =>
    intro left right count
    simp only [sliceMisplacedCount_inner]
    by_cases hlt : left < ls
    · simp only [hlt, if_true]
      refine le_trans (ih _ _ _) ?_
      split <;> split <;> omega
    · simp only [hlt, if_false]
      omega

/-- Sum of `min(k, n - 1 - k)` over the positions: four times the sum is at most
`(n - 1)²`. -/
theorem sum_min_le : ∀ n : Nat,
    4 * (∑ k ∈ Finset.range n, min (k : Int) ((n : Int) - 1 - k)) ≤ ((n : Int) - 1) ^ 2 ∧
    4 * (∑ k ∈ Finset.range (n + 1), min (k : Int) (((n + 1 : Nat) : Int) - 1 - k))
      ≤ (((n + 1 : Nat) : Int) - 1) ^ 2 := by
  have step : ∀ n : Nat,
      (∑ k ∈ Finset.range (n + 2), min (k : Int) (((n + 2 : Nat) : Int) - 1 - k))
        = (∑ k ∈ Finset.range n, min (k : Int) ((n : Int) - 1 - k)) + n := by
    intro n
    rw [Finset.sum_range_succ, Finset.sum_range_succ']
    have e1 : ∀ k ∈ Finset.range n,
        min (((k + 1 : Nat) : Int)) (((n + 2 : Nat) : Int) - 1 - ((k + 1 : Nat) : Int))
          = min (k : Int) ((n : Int) - 1 - k) + 1 := by
      intro k hk
      rw [Finset.mem_range] at hk
      push_cast
      omega
    rw [Finset.sum_congr rfl e1, Finset.sum_add_distrib]
    simp only [Finset.sum_const, Finset.card_range, nsmul_eq_mul, mul_one]
    push_cast
    have e2 : min (0 : Int) ((n : Int) + 2 - 1 - 0) = 0 := by omega
    have e3 : min ((n : Int) + 1) ((n : Int) + 2 - 1 - ((n : Int) + 1)) = 0 := by omega
    rw [e2, e3]
    ring
  intro n
  induction n with
  | zero => simp
  | succ n ih =>
    refine ⟨ih.2, ?_⟩
    rw [step n]
    have := ih.1
    push_cast
    nlinarith

/-- The number of slice-misplaced pairs of a permutation of size `n` is at most
`(n - 1)² / 2`. -/
theorem sliceMisplacedCount_le (p : Permutation) (hn : 0 ≤ p.n) :
    2 * p.sliceMisplacedCount ≤ (p.n - 1) ^ 2 := by
  have h : ∀ t : Nat, t ≤ p.n.toNat →
      (List.range t).foldl (fun (count : Int) (k : Nat) =>
          sliceMisplacedCount_inner p (slice (iabs (p.permutation.getD ((k : Int) + 1).toNat 0)) p.n)
            (slice ((k : Int) + 1) p.n) (slice ((k : Int) + 1) p.n).toNat 1 p.n count) 0
        ≤ ∑ k ∈ Finset.range t, 2 * min (k : Int) (p.n - 1 - k) := by
    intro t
    induction t with
    | zero => intro _; simp
    | succ t ih =>
      intro ht
      rw [List.range_succ, List.foldl_append, Finset.sum_range_succ]
      simp only [List.foldl_cons, List.foldl_nil]
      refine le_trans (sliceMisplacedCount_inner_le p _ _ _ _ _ _) ?_
      have := ih (by omega)
      have e : ((slice ((t : Int) + 1) p.n - 1).toNat : Int) = min (t : Int) (p.n - 1 - t) := by
        unfold slice
        omega
      rw [e]
      omega
  have h1 := h p.n.toNat (le_refl _)
  have h2 := (sum_min_le p.n.toNat).1
  rw [← Finset.mul_sum] at h1
  rw [show ((p.n.toNat : Nat) : Int) = p.n by omega] at h2
  have heq : p.sliceMisplacedCount
      = (List.range p.n.toNat).foldl (fun (count : Int) (k : Nat) =>
          sliceMisplacedCount_inner p (slice (iabs (p.permutation.getD ((k : Int) + 1).toNat 0)) p.n)
            (slice ((k : Int) + 1) p.n) (slice ((k : Int) + 1) p.n).toNat 1 p.n count) 0 := rfl
  rw [heq]
  omega

/-- C33. What the method `sliceMisplacedPairs()` returns on a valid permutation: its 16-bit
counter holds the number of slice-misplaced pairs reduced to the 16-bit range.  That number
is never negative and vanishes exactly when the permutation is slice-sorted (every element
`e` of `1..n` has `currentElementSlice(e) = finalElementSlice(e)`).  Hence the method returns
`0` on every slice-sorted permutation, and its value depends only on the size and on the
absolute values of the entries; for a size of at most 363 the number of pairs is below `65536`
and the method returns `0` only on a slice-sorted permutation.  From the size 364 on, the
number of pairs can be `65536`, which the counter reads as `0`. -/
theorem sliceMisplacedPairs_wraps (p : Permutation) (hv : p.Valid) :
    p.sliceMisplacedPairs = wrap16 p.sliceMisplacedCount ∧
    0 ≤ p.sliceMisplacedCount ∧
    (p.sliceMisplacedCount = 0 ↔
      ∀ e : Int, 1 ≤ e → e ≤ p.n → p.currentElementSlice e = p.finalElementSlice e) ∧
    ((∀ e : Int, 1 ≤ e → e ≤ p.n → p.currentElementSlice e = p.finalElementSlice e) →
      p.sliceMisplacedPairs = 0) ∧
    (p.n ≤ 363 →
      (p.sliceMisplacedPairs = 0 ↔
        ∀ e : Int, 1 ≤ e → e ≤ p.n → p.currentElementSlice e = p.finalElementSlice e)) ∧
    (∀ p2 : Permutation, p2.n = p.n →
      (∀ k : Nat, iabs (p2.permutation.getD k 0) = iabs (p.permutation.getD k 0)) →
      p2.sliceMisplacedPairs = p.sliceMisplacedPairs) := by
  obtain ⟨c1, c2, c3⟩ := sliceMisplacedCount_zero_iff_sorted p hv
  have hw := sliceMisplacedPairs_eq_wrap16 p
  refine ⟨hw, c2, c1, ?_, ?_, ?_⟩
  · intro hs
    rw [hw, c1.mpr hs]
    rfl
  · intro h363
    rw [← c1, hw]
    have hb := sliceMisplacedCount_le p hv.1
    have hsq : (p.n - 1) ^ 2 ≤ 362 ^ 2 := by
      have := hv.1
      nlinarith
    unfold wrap16
    omega
  · intro p2 h2 ha
    rw [hw, sliceMisplacedPairs_eq_wrap16 p2, c3 p2 h2 ha]

/-- Witness of C33: the signed permutation `3, -2, 1`, which is slice-sorted. -/
theorem sliceMisplacedPairs_wraps_witness :
    (Permutation.mk 3 [0, 3, -2, 1, 4] [0, 3, 2, 1, 4] true).sliceMisplacedPairs = wrap16 (Permutation.mk 3 [0, 3, -2, 1, 4] [0, 3, 2, 1, 4] true).sliceMisplacedCount ∧
    0 ≤ (Permutation.mk 3 [0, 3, -2, 1, 4] [0, 3, 2, 1, 4] true).sliceMisplacedCount ∧
    ((Permutation.mk 3 [0, 3, -2, 1, 4] [0, 3, 2, 1, 4] true).sliceMisplacedCount = 0 ↔
      ∀ e : Int, 1 ≤ e → e ≤ (Permutation.mk 3 [0, 3, -2, 1, 4] [0, 3, 2, 1, 4] true).n → (Permutation.mk 3 [0, 3, -2, 1, 4] [0, 3, 2, 1, 4] true).currentElementSlice e = (Permutation.mk 3 [0, 3, -2, 1, 4] [0, 3, 2, 1, 4] true).finalElementSlice e) ∧
    ((∀ e : Int, 1 ≤ e → e ≤ (Permutation.mk 3 [0, 3, -2, 1, 4] [0, 3, 2, 1, 4] true).n →
        (Permutation.mk 3 [0, 3, -2, 1, 4] [0, 3, 2, 1, 4] true).currentElementSlice e = (Permutation.mk 3 [0, 3, -2, 1, 4] [0, 3, 2, 1, 4] true).finalElementSlice e) →
      (Permutation.mk 3 [0, 3, -2, 1, 4] [0, 3, 2, 1, 4] true).sliceMisplacedPairs = 0) ∧
    ((Permutation.mk 3 [0, 3, -2, 1, 4] [0, 3, 2, 1, 4] true).n ≤ 363 →
      ((Permutation.mk 3 [0, 3, -2, 1, 4] [0, 3, 2, 1, 4] true).sliceMisplacedPairs = 0 ↔
        ∀ e : Int, 1 ≤ e → e ≤ (Permutation.mk 3 [0, 3, -2, 1, 4] [0, 3, 2, 1, 4] true).n →
          (Permutation.mk 3 [0, 3, -2, 1, 4] [0, 3, 2, 1, 4] true).currentElementSlice e = (Permutation.mk 3 [0, 3, -2, 1, 4] [0, 3, 2, 1, 4] true).finalElementSlice e)) ∧
    (∀ p2 : Permutation, p2.n = (Permutation.mk 3 [0, 3, -2, 1, 4] [0, 3, 2, 1, 4] true).n →
      (∀ k : Nat, iabs (p2.permutation.getD k 0) = iabs ((Permutation.mk 3 [0, 3, -2, 1, 4] [0, 3, 2, 1, 4] true).permutation.getD k 0)) →
      p2.sliceMisplacedPairs = (Permutation.mk 3 [0, 3, -2, 1, 4] [0, 3, 2, 1, 4] true).sliceMisplacedPairs) :=
  sliceMisplacedPairs_wraps (Permutation.mk 3 [0, 3, -2, 1, 4] [0, 3, 2, 1, 4] true) (by decide)

end Permutation
end SWILS
